import Mathlib

namespace CMinus

/-!
Semantic analysis of the C-minus front end (`3_Semantic/symtab.c`, `3_Semantic/analyze.c`)

A shallow embedding of the scope directory, the symbol table, the tree walker,
the binder (pass 1, `buildSymtab`) and the type checker (pass 2, `typeCheck`).

Conventions of the embedding

* A C pointer `TreeNode *` is a value of the inductive type `TreeNode`; the
  constructor `TreeNode.null` is the `NULL` pointer.  A node has exactly
  `MAXCHILDREN = 3` child slots.
* A `ScopeRec *` is the position of the scope in the directory `scopeList`
  (scopes are only ever appended, so positions are stable); `NULL` is `none`.
* A `SymbolRec *` is a `SymPtr`: scope, bucket index and position in the
  bucket chain (entries are only ever appended to a chain).
* `char *` names are `Option String` (`none` is `NULL`); `strcmp(a, b) == 0`
  is equality.
* `fprintf(listing, ...)` appends one structured `Diag` to `listing`.
* A run that aborts returns `Except.error` with the reason (`Fault`).
* The two passes return the tree with the fields they wrote (`scope` in
  pass 1, `type` in pass 2).  `symbol->node` and `scope->func` hold the
  declaration node as it is when the pointer is stored; the one later write
  to such a node, `t->scope = insertScope(...)` of a function declaration, is
  written through to the symbol created from that node.
-/

/-- Node kinds (`NodeKind` of `globals.h`, as used by the parser and the analyzer). -/
inductive NodeKind
  | TypeSpecifier | VariableDecl | FunctionDecl | Params | CompoundStmt
  | IfStmt | WhileStmt | ReturnStmt | AssignExpr | BinOpExpr | CallExpr
  | VarAccessExpr | ConstExpr | Opcode | Indentifier
  deriving DecidableEq, Repr

/-- Node types (`NodeType` of `globals.h`). -/
inductive NodeType
  | Integer | Void | IntegerArray | VoidArray | Undetermined | None
  deriving DecidableEq, Repr

/-- Symbol kinds (`SymbolKind`). -/
inductive SymbolKind
  | VariableSym | FunctionSym
  deriving DecidableEq, Repr

/-- The `SemanticErrorState` enumeration of `symtab.h`. -/
inductive SemanticErrorState
  | STATE_NORMAL | STATE_REDEFINED | STATE_UNDECLARED
  deriving DecidableEq, Repr

/-- The scalar fields of a `TreeNode`. -/
structure NodeData where
  kind : NodeKind
  lineno : Int
  type : NodeType
  name : Option String
  scope : Option Nat
  flag : Bool
  opcode : Int
  val : Int
  deriving DecidableEq, Repr

/-- A `TreeNode *`: `null`, or a node with its three child slots and its sibling. -/
inductive TreeNode
  | null : TreeNode
  | node (d : NodeData) (child0 child1 child2 sibling : TreeNode) : TreeNode
  deriving DecidableEq, Repr

/-- One entry of a bucket chain (`SymbolRec`); `lineList` is the line list, head first. -/
structure SymbolRec where
  name : String
  state : SemanticErrorState
  type : NodeType
  kind : SymbolKind
  lineList : List Int
  memloc : Nat
  node : TreeNode
  deriving DecidableEq, Repr

/-- One scope (`ScopeRec`); `symbolList i` is the chain of bucket `i`. -/
structure ScopeRec where
  name : String
  state : SemanticErrorState
  func : TreeNode
  symbolList : Nat → List SymbolRec
  numSymbols : Nat
  numScopes : Nat
  parent : Option Nat

/-- A `SymbolRec *`. -/
structure SymPtr where
  scope : Nat
  bucket : Nat
  idx : Nat
  deriving DecidableEq, Repr

/-- One line written to `listing` by one of the error handlers of `analyze.c`. -/
inductive Diag
  | redefinition (name : String) (lineno : Int) (cited : List Int)
  | undeclaredFunction (name : Option String) (lineno : Int)
  | undeclaredVariable (name : Option String) (lineno : Int)
  | voidTypeVariable (name : Option String) (lineno : Int)
  | arrayIndexing (name : Option String) (lineno : Int)
  | arrayIndexing2 (name : Option String) (lineno : Int)
  | invalidFunctionCall (name : Option String) (lineno : Int)
  | invalidReturn (lineno : Int)
  | invalidAssignment (lineno : Int)
  | invalidOperation (lineno : Int)
  | invalidCondition (lineno : Int)
  deriving DecidableEq, Repr

/-- Why a run stops without a result. -/
inductive Fault
  | errorCheck
  | nullDeref
  | undefinedKind
  | diverge
  deriving DecidableEq, Repr

deriving instance DecidableEq for Except

/-- The process-wide variables: `scopeList` (symtab.c), `globalScope`, `currentScope`
(analyze.c), the `Error` flag and the `listing` stream. -/
structure State where
  scopeList : List ScopeRec
  globalScope : Option Nat
  currentScope : Option Nat
  Error : Bool
  listing : List Diag

/-- The state of a fresh process. -/
def State.initial : State :=
  { scopeList := [], globalScope := none, currentScope := none, Error := false, listing := [] }

/-- Size of the hash table (`SIZE` of symtab.h). -/
def SIZE : Nat := 211

/-- The shift of the hash function (`SHIFT` of symtab.c). -/
def SHIFT : Nat := 4

/-- The loop of `hash`, over the characters of the key. -/
def hashLoop : List Char → Nat → Nat
  | [], temp => temp
  | c :: rest, temp => hashLoop rest (((temp <<< SHIFT) + c.toNat) % SIZE)

/-- Function `hash` of symtab.c. -/
def hash (key : String) : Nat :=
  hashLoop key.data 0

/-- Modelled from the spec: the macro `ERROR_CHECK` of `globals.h`, which is not among
the sources; an internal-invariant violation aborts the process at once. -/
def ERROR_CHECK (cond : Bool) : Except Fault Unit :=
  if cond then .ok () else .error .errorCheck

/-- Replace the element at position `i` by its image under `f`. -/
def updateAt {α : Type} (f : α → α) : List α → Nat → List α
  | [], _ => []
  | a :: rest, 0 => f a :: rest
  | a :: rest, i + 1 => a :: updateAt f rest i

/-- Dereference of a scope pointer. -/
def derefScope (st : State) (p : Option Nat) : Except Fault ScopeRec :=
  match p with
  | none => .error .nullDeref
  | some k =>
    match st.scopeList[k]? with
    | none => .error .nullDeref
    | some s => .ok s

/-- Write to the scope at position `k`. -/
def modifyScope (st : State) (k : Nat) (f : ScopeRec → ScopeRec) : State :=
  { st with scopeList := updateAt f st.scopeList k }

/-- Write to the symbol at `p`. -/
def modifySymbol (st : State) (p : SymPtr) (f : SymbolRec → SymbolRec) : State :=
  modifyScope st p.scope fun s =>
    { s with symbolList := Function.update s.symbolList p.bucket (updateAt f (s.symbolList p.bucket) p.idx) }

/-- Dereference of a symbol pointer. -/
def derefSymbol (st : State) (p : SymPtr) : Option SymbolRec :=
  match st.scopeList[p.scope]? with
  | none => none
  | some s => (s.symbolList p.bucket)[p.idx]?

/-- The loop of `insertScope` over the directory: a scope of the same name must
already be flagged `STATE_REDEFINED`, and flags the new one. -/
def insertScope.scan (scopeName : String) : List ScopeRec → Bool → Except Fault Bool
  | [], redefined => .ok redefined
  | s :: rest, redefined =>
    if s.name = scopeName then
      if s.state = .STATE_REDEFINED then insertScope.scan scopeName rest true
      else .error .errorCheck
    else insertScope.scan scopeName rest redefined

/-- Function `insertScope` of symtab.c.  A derived name is `parent->name`, a dot and the decimal
digits of the counter, cut to the `length + 5` characters the buffer holds. -/
def insertScope (name : Option String) (parent : Option Nat) (func : TreeNode) (st : State) :
    Except Fault (Nat × State) := do
  ERROR_CHECK (name.isSome || parent.isSome)
  let (scopeName, st1) ← (match name with
    | none => do
      let p ← derefScope st parent
      let length := p.name.data.length
      let scopeName : String := ⟨(p.name.data ++ '.' :: Nat.toDigits 10 p.numScopes).take (length + 5)⟩
      pure (scopeName, modifyScope st (parent.getD 0) fun s => { s with numScopes := s.numScopes + 1 })
    | some n => pure (n, st) : Except Fault (String × State))
  let redefined0 ← (match parent with
    | none => pure false
    | some _ => do
      let p ← derefScope st1 parent
      pure (decide (p.state = .STATE_REDEFINED)) : Except Fault Bool)
  let redefined ← insertScope.scan scopeName st1.scopeList redefined0
  let scope : ScopeRec :=
    { name := scopeName
      state := if redefined then .STATE_REDEFINED else .STATE_NORMAL
      func := func
      symbolList := fun _ => []
      numSymbols := 0
      numScopes := 0
      parent := parent }
  pure (st1.scopeList.length, { st1 with scopeList := st1.scopeList ++ [scope] })

/-- Position of the first entry of a chain that satisfies `p`. -/
def chainFind (p : SymbolRec → Bool) : List SymbolRec → Option Nat
  | [] => none
  | e :: rest => if p e then some 0 else (chainFind p rest).map (· + 1)

/-- The walk `while (scope != NULL)` of the lookups: the first scope on the parent chain
whose bucket holds an entry satisfying `p`.  The fuel is the number of scopes. -/
def lookupWalk (st : State) (hashIdx : Nat) (p : SymbolRec → Bool) :
    Nat → Option Nat → Except Fault (Option SymPtr)
  | _, none => .ok none
  | 0, some _ => .error .diverge
  | fuel + 1, some k =>
    match st.scopeList[k]? with
    | none => .error .nullDeref
    | some s =>
      match chainFind p (s.symbolList hashIdx) with
      | some i => .ok (some ⟨k, hashIdx, i⟩)
      | none => lookupWalk st hashIdx p fuel s.parent

/-- Shift a position found in the tail of a chain. -/
def insertSymbol.bump : Sum Nat SemanticErrorState → Sum Nat SemanticErrorState
  | .inl i => .inl (i + 1)
  | .inr s => .inr s

/-- The loop of `insertSymbol` over the bucket chain: `inl i` when entry `i` is returned
(it had the name and was `STATE_UNDECLARED`), else `inr state` with the state of the
entry to allocate.  `ERROR_CHECK("Normal, Duplicated Symbol Exist")` tests a string
literal, which is never null, and so never fails. -/
def insertSymbol.scan (name : String) : List SymbolRec → SemanticErrorState → Sum Nat SemanticErrorState
  | [], state => .inr state
  | e :: rest, state =>
    if e.name = name then
      if e.state = .STATE_REDEFINED then insertSymbol.bump (insertSymbol.scan name rest .STATE_REDEFINED)
      else if e.state = .STATE_UNDECLARED then .inl 0
      else insertSymbol.bump (insertSymbol.scan name rest state)
    else insertSymbol.bump (insertSymbol.scan name rest state)

/-- Function `insertSymbol` of symtab.c. -/
def insertSymbol (currentScope : Option Nat) (name : Option String) (type : NodeType)
    (kind : SymbolKind) (lineno : Int) (node : TreeNode) (st : State) :
    Except Fault (SymPtr × State) := do
  ERROR_CHECK (currentScope.isSome && name.isSome)
  let s ← derefScope st currentScope
  let k := currentScope.getD 0
  let nm := name.getD ""
  let hashIdx := hash nm
  let chain := s.symbolList hashIdx
  match insertSymbol.scan nm chain .STATE_NORMAL with
  | .inl i =>
    pure (⟨k, hashIdx, i⟩, modifySymbol st ⟨k, hashIdx, i⟩ fun e =>
      { e with type := type
               state := if node = .null then .STATE_UNDECLARED else .STATE_NORMAL })
  | .inr state =>
    let symbol : SymbolRec :=
      { name := nm
        state := if node = .null then .STATE_UNDECLARED else state
        type := type
        kind := kind
        lineList := [lineno]
        memloc := s.numSymbols
        node := node }
    pure (⟨k, hashIdx, chain.length⟩, modifyScope st k fun s =>
      { s with numSymbols := s.numSymbols + 1
               symbolList := Function.update s.symbolList hashIdx (chain ++ [symbol]) })

/-- Function `appendSymbol` of symtab.c. -/
def appendSymbol (currentScope : Option Nat) (name : Option String) (lineno : Int) (st : State) :
    Except Fault (SymPtr × State) := do
  ERROR_CHECK (currentScope.isSome && name.isSome)
  let nm := name.getD ""
  let found ← lookupWalk st (hash nm) (fun e => decide (e.name = nm)) st.scopeList.length currentScope
  match found with
  | none => .error .errorCheck
  | some p => pure (p, modifySymbol st p fun e => { e with lineList := e.lineList ++ [lineno] })

/-- Function `lookupSymbol` of symtab.c. -/
def lookupSymbol (currentScope : Option Nat) (name : Option String) (st : State) :
    Except Fault (Option SymPtr) := do
  ERROR_CHECK (currentScope.isSome && name.isSome)
  let nm := name.getD ""
  lookupWalk st (hash nm) (fun e => decide (e.name = nm)) st.scopeList.length currentScope

/-- Function `lookupSymbolInCurrentScope` of symtab.c. -/
def lookupSymbolInCurrentScope (currentScope : Option Nat) (name : Option String) (st : State) :
    Except Fault (Option SymPtr) := do
  ERROR_CHECK (currentScope.isSome && name.isSome)
  let nm := name.getD ""
  let s ← derefScope st currentScope
  pure ((chainFind (fun e => decide (e.name = nm)) (s.symbolList (hash nm))).map
    fun i => ⟨currentScope.getD 0, hash nm, i⟩)

/-- Function `lookupSymbolWithKind` of symtab.c. -/
def lookupSymbolWithKind (currentScope : Option Nat) (name : Option String) (kind : SymbolKind)
    (st : State) : Except Fault (Option SymPtr) := do
  ERROR_CHECK (currentScope.isSome && name.isSome)
  let nm := name.getD ""
  lookupWalk st (hash nm) (fun e => decide (e.name = nm) && decide (e.kind = kind))
    st.scopeList.length currentScope

/-- Setting the error flag and writing one line to `listing`. -/
def report (d : Diag) (st : State) : State :=
  { st with Error := true, listing := st.listing ++ [d] }

/-- The loop of `RedefinitionError` from the found entry to the end of its chain: every
entry of that name is flagged `STATE_REDEFINED`, so is the scope attached to its
declaration node when there is one, and the first line of its line list is printed. -/
def RedefinitionError.loop (name : String) (k hashIdx : Nat) :
    List SymbolRec → Nat → State → List Int → Except Fault (State × List Int)
  | [], _, st, cited => .ok (st, cited)
  | e :: rest, i, st, cited =>
    if e.name = name then
      let st1 := modifySymbol st ⟨k, hashIdx, i⟩ fun s => { s with state := .STATE_REDEFINED }
      match e.node with
      | .null => .error .nullDeref
      | .node d _ _ _ _ =>
        match d.scope with
        | some sc =>
          if sc < st1.scopeList.length then
            match e.lineList with
            | [] => .error .nullDeref
            | l :: _ =>
              RedefinitionError.loop name k hashIdx rest (i + 1)
                (modifyScope st1 sc fun s => { s with state := .STATE_REDEFINED }) (cited ++ [l])
          else .error .nullDeref
        | none =>
          match e.lineList with
          | [] => .error .nullDeref
          | l :: _ => RedefinitionError.loop name k hashIdx rest (i + 1) st1 (cited ++ [l])
    else RedefinitionError.loop name k hashIdx rest (i + 1) st cited

/-- Function `RedefinitionError` of analyze.c; `symbol` is the entry the lookup returned. -/
def RedefinitionError (name : String) (lineno : Int) (symbol : SymPtr) (st : State) :
    Except Fault State := do
  let s ← derefScope st (some symbol.scope)
  let (st1, cited) ← RedefinitionError.loop name symbol.scope symbol.bucket
    ((s.symbolList symbol.bucket).drop symbol.idx) symbol.idx st []
  pure (report (.redefinition name lineno cited) st1)

/-- Function `UndeclaredFunctionError` of analyze.c. -/
def UndeclaredFunctionError (currentScope : Option Nat) (d : NodeData) (st : State) :
    Except Fault (SymPtr × State) :=
  insertSymbol currentScope d.name .Undetermined .FunctionSym d.lineno .null
    (report (.undeclaredFunction d.name d.lineno) st)

/-- Function `UndeclaredVariableError` of analyze.c. -/
def UndeclaredVariableError (currentScope : Option Nat) (d : NodeData) (st : State) :
    Except Fault (SymPtr × State) :=
  insertSymbol currentScope d.name .Undetermined .VariableSym d.lineno .null
    (report (.undeclaredVariable d.name d.lineno) st)

/-- Function `VoidTypeVariableError` of analyze.c. -/
def VoidTypeVariableError (name : Option String) (lineno : Int) (st : State) : State :=
  report (.voidTypeVariable name lineno) st

/-- Function `ArrayIndexingError` of analyze.c (the index is not an integer). -/
def ArrayIndexingError (name : Option String) (lineno : Int) (st : State) : State :=
  report (.arrayIndexing name lineno) st

/-- Function `ArrayIndexingError2` of analyze.c (the indexed variable is not an `int[]`). -/
def ArrayIndexingError2 (name : Option String) (lineno : Int) (st : State) : State :=
  report (.arrayIndexing2 name lineno) st

/-- Function `InvalidFunctionCallError` of analyze.c. -/
def InvalidFunctionCallError (name : Option String) (lineno : Int) (st : State) : State :=
  report (.invalidFunctionCall name lineno) st

/-- Function `InvalidReturnError` of analyze.c. -/
def InvalidReturnError (lineno : Int) (st : State) : State :=
  report (.invalidReturn lineno) st

/-- Function `InvalidAssignmentError` of analyze.c. -/
def InvalidAssignmentError (lineno : Int) (st : State) : State :=
  report (.invalidAssignment lineno) st

/-- Function `InvalidOperationError` of analyze.c. -/
def InvalidOperationError (lineno : Int) (st : State) : State :=
  report (.invalidOperation lineno) st

/-- Function `InvalidConditionError` of analyze.c. -/
def InvalidConditionError (lineno : Int) (st : State) : State :=
  report (.invalidCondition lineno) st

/-- The callbacks of `traverse` receive the node and return the scalar fields of the node
as they leave them, with the new state. -/
abbrev Proc := TreeNode → State → Except Fault (NodeData × State)

/-- Function `traverse` of analyze.c, the loop over the `MAXCHILDREN = 3` child slots unrolled. -/
def traverse (preProc postProc : Proc) : TreeNode → State → Except Fault (TreeNode × State)
  | .null, st => .ok (.null, st)
  | .node d c0 c1 c2 sib, st => do
    let (d1, st1) ← preProc (.node d c0 c1 c2 sib) st
    let (c0, st2) ← traverse preProc postProc c0 st1
    let (c1, st3) ← traverse preProc postProc c1 st2
    let (c2, st4) ← traverse preProc postProc c2 st3
    let (d2, st5) ← postProc (.node d1 c0 c1 c2 sib) st4
    let (sib, st6) ← traverse preProc postProc sib st5
    pure (.node d2 c0 c1 c2 sib, st6)

/-- Function `scopeIn` of analyze.c. -/
def scopeIn : Proc
  | .null, _ => .error .nullDeref
  | .node d _ _ _ _, st =>
    match d.scope with
    | some sc => .ok (d, { st with currentScope := some sc })
    | none => .ok (d, st)

/-- Function `scopeOut` of analyze.c. -/
def scopeOut : Proc
  | .null, _ => .error .nullDeref
  | .node d _ _ _ _, st =>
    match d.scope with
    | some sc => do
      let s ← derefScope st (some sc)
      pure (d, { st with currentScope := s.parent })
    | none => .ok (d, st)

/-- The write `t->scope = sc` seen through `symbol->node`. -/
def TreeNode.setScope (sc : Nat) : TreeNode → TreeNode
  | .null => .null
  | .node d c0 c1 c2 sib => .node { d with scope := some sc } c0 c1 c2 sib

/-- The redefinition check of the declaration cases of `insertNode`. -/
def insertNode.redefined (scope : Option Nat) (d : NodeData) (st : State) : Except Fault State := do
  let symbol ← lookupSymbolInCurrentScope scope d.name st
  match symbol with
  | some p => RedefinitionError (d.name.getD "") d.lineno p st
  | none => pure st

/-- Function `insertNode` of analyze.c, the pre-order action of pass 1. -/
def insertNode : Proc
  | .null, _ => .error .nullDeref
  | .node d c0 c1 c2 sib, st =>
    match d.kind with
    | .VariableDecl => do
      let st1 := if d.type = .Void ∨ d.type = .VoidArray then VoidTypeVariableError d.name d.lineno st else st
      let st2 ← insertNode.redefined st1.currentScope d st1
      let (_, st3) ← insertSymbol st2.currentScope d.name d.type .VariableSym d.lineno (.node d c0 c1 c2 sib) st2
      pure (d, st3)
    | .FunctionDecl => do
      ERROR_CHECK (decide (st.currentScope = st.globalScope))
      let st1 ← insertNode.redefined st.globalScope d st
      let (p, st2) ← insertSymbol st1.currentScope d.name d.type .FunctionSym d.lineno (.node d c0 c1 c2 sib) st1
      let (sc, st3) ← insertScope d.name st2.currentScope (.node d c0 c1 c2 sib) st2
      let st4 := modifySymbol st3 p fun e =>
        if e.node = .node d c0 c1 c2 sib then { e with node := e.node.setScope sc } else e
      pure ({ d with scope := some sc }, { st4 with currentScope := some sc })
    | .Params =>
      if d.flag then .ok (d, st)
      else do
        let st1 := if d.type = .Void ∨ d.type = .VoidArray then VoidTypeVariableError d.name d.lineno st else st
        let st2 ← insertNode.redefined st1.currentScope d st1
        let (_, st3) ← insertSymbol st2.currentScope d.name d.type .VariableSym d.lineno (.node d c0 c1 c2 sib) st2
        pure (d, st3)
    | .CompoundStmt =>
      if d.flag then .ok (d, st)
      else do
        let cur ← derefScope st st.currentScope
        let (sc, st1) ← insertScope none st.currentScope cur.func st
        pure ({ d with scope := some sc }, { st1 with currentScope := some sc })
    | .CallExpr => do
      let func ← lookupSymbolWithKind st.globalScope d.name .FunctionSym st
      match func with
      | none => do
        let (_, st1) ← UndeclaredFunctionError st.globalScope d st
        pure (d, st1)
      | some _ => do
        let (_, st1) ← appendSymbol st.globalScope d.name d.lineno st
        pure (d, st1)
    | .VarAccessExpr => do
      let var ← lookupSymbolWithKind st.currentScope d.name .VariableSym st
      match var with
      | none => do
        let (_, st1) ← UndeclaredVariableError st.currentScope d st
        pure (d, st1)
      | some _ => do
        let (_, st1) ← appendSymbol st.currentScope d.name d.lineno st
        pure (d, st1)
    | .IfStmt | .WhileStmt | .ReturnStmt | .AssignExpr | .BinOpExpr | .ConstExpr => .ok (d, st)
    | .TypeSpecifier | .Opcode | .Indentifier => .error .undefinedKind

/-- Modelled from the spec: `newTreeNode` of `util.c`, which is not among the sources; a
fresh node has no children, no sibling, no name, no scope back-reference (it is set only
on scope-opening nodes) and a clear flag. -/
def newTreeNode (kind : NodeKind) : NodeData :=
  { kind := kind, lineno := 0, type := .None, name := none, scope := none, flag := false,
    opcode := 0, val := 0 }

/-- The declaration node of the built-in `input`. -/
def inputFuncNode : TreeNode :=
  .node { newTreeNode .FunctionDecl with lineno := 0, type := .Integer, name := some "input" }
    (.node { newTreeNode .Params with lineno := 0, type := .Void, flag := true } .null .null .null .null)
    .null .null .null

/-- The parameter node of the built-in `output`. -/
def outputFuncParamNode : TreeNode :=
  .node { newTreeNode .Params with lineno := 0, type := .Integer, name := some "value" }
    .null .null .null .null

/-- The declaration node of the built-in `output`. -/
def outputFuncNode : TreeNode :=
  .node { newTreeNode .FunctionDecl with lineno := 0, type := .Void, name := some "output" }
    outputFuncParamNode .null .null .null

/-- Function `declareBuiltInFunction` of analyze.c. -/
def declareBuiltInFunction (st : State) : Except Fault State := do
  let (_, st1) ← insertSymbol st.globalScope (some "input") .Integer .FunctionSym 0 inputFuncNode st
  let (_, st2) ← insertSymbol st1.globalScope (some "output") .Void .FunctionSym 0 outputFuncNode st1
  let (outputFuncScope, st3) ← insertScope (some "output") st2.globalScope outputFuncNode st2
  let (_, st4) ← insertSymbol (some outputFuncScope) (some "value") .Integer .VariableSym 0
    outputFuncParamNode st3
  pure st4

/-- Function `buildSymtab` of analyze.c (without the trace output). -/
def buildSymtab (syntaxTree : TreeNode) (st : State) : Except Fault (TreeNode × State) := do
  let (g, st1) ← insertScope (some "global") none .null st
  let st2 := { st1 with globalScope := some g, currentScope := some g }
  let st3 ← declareBuiltInFunction st2
  traverse insertNode scopeOut syntaxTree st3

/-- The scalar fields behind a node pointer. -/
def derefNode : TreeNode → Except Fault NodeData
  | .null => .error .nullDeref
  | .node d _ _ _ _ => .ok d

/-- The sibling of a node. -/
def TreeNode.sibling : TreeNode → TreeNode
  | .null => .null
  | .node _ _ _ _ sib => sib

/-- The argument loop of the call case of `checkNode`: the argument and parameter nodes
at which the loop stops, and the state. -/
def checkNode.args (name : Option String) (lineno : Int) :
    TreeNode → TreeNode → State → TreeNode × TreeNode × State
  | .null, paramNode, st => (.null, paramNode, st)
  | .node ad a0 a1 a2 asib, .null, st =>
    (.node ad a0 a1 a2 asib, .null, InvalidFunctionCallError name lineno st)
  | .node ad a0 a1 a2 asib, .node pd p0 p1 p2 psib, st =>
    if ad.type ≠ pd.type then
      (.node ad a0 a1 a2 asib, .node pd p0 p1 p2 psib, InvalidFunctionCallError name lineno st)
    else if ad.type = .Void then
      (.node ad a0 a1 a2 asib, .node pd p0 p1 p2 psib, InvalidFunctionCallError name lineno st)
    else checkNode.args name lineno asib psib st

/-- Function `checkNode` of analyze.c, the post-order action of pass 2. -/
def checkNode : Proc
  | .null, _ => .error .nullDeref
  | .node d c0 c1 _ _, st =>
    match d.kind with
    | .IfStmt | .WhileStmt => do
      ERROR_CHECK (decide (c0 ≠ .null))
      let cd ← derefNode c0
      pure (d, if cd.type ≠ .Integer then InvalidConditionError d.lineno st else st)
    | .ReturnStmt => do
      let cur ← derefScope st st.currentScope
      ERROR_CHECK (decide (cur.func ≠ .null))
      let fd ← derefNode cur.func
      if d.flag then
        pure (d, if fd.type ≠ .Void then InvalidReturnError d.lineno st else st)
      else do
        let cd ← derefNode c0
        pure (d, if fd.type ≠ cd.type then InvalidReturnError d.lineno st else st)
    | .AssignExpr | .BinOpExpr => do
      ERROR_CHECK (decide (c0 ≠ .null) && decide (c1 ≠ .null))
      let ld ← derefNode c0
      let rd ← derefNode c1
      let st1 :=
        if ld.type ≠ rd.type then
          (if d.kind = .AssignExpr then InvalidAssignmentError d.lineno st
           else InvalidOperationError d.lineno st)
        else st
      pure ({ d with type := ld.type }, st1)
    | .CallExpr => do
      let callee ← lookupSymbolWithKind st.globalScope d.name .FunctionSym st
      ERROR_CHECK callee.isSome
      match callee.bind (derefSymbol st) with
      | none => .error .nullDeref
      | some calleeSymbol =>
        if calleeSymbol.state = .STATE_UNDECLARED then pure ({ d with type := calleeSymbol.type }, st)
        else
          match calleeSymbol.node with
          | .null => .error .nullDeref
          | .node _ paramNode _ _ _ =>
            let (argNode, paramNode, st1) := checkNode.args d.name d.lineno c0 paramNode st
            let st2 ← (match argNode, paramNode with
              | .null, .node pd _ _ _ _ =>
                pure (if pd.type ≠ .Void then InvalidFunctionCallError d.name d.lineno st1 else st1)
              | _, _ => pure st1 : Except Fault State)
            pure ({ d with type := calleeSymbol.type }, st2)
    | .VarAccessExpr => do
      let found ← lookupSymbolWithKind st.currentScope d.name .VariableSym st
      ERROR_CHECK found.isSome
      match found.bind (derefSymbol st) with
      | none => .error .nullDeref
      | some symbol =>
        if symbol.state = .STATE_UNDECLARED then pure ({ d with type := symbol.type }, st)
        else
          match c0 with
          | .node cd _ _ _ _ =>
            let st1 :=
              if symbol.type ≠ .IntegerArray then ArrayIndexingError2 d.name d.lineno st
              else if cd.type ≠ .Integer then ArrayIndexingError d.name d.lineno st
              else st
            pure ({ d with type := .Integer }, st1)
          | .null => pure ({ d with type := symbol.type }, st)
    | .ConstExpr => .ok ({ d with type := .Integer }, st)
    | .FunctionDecl | .VariableDecl | .Params | .CompoundStmt => .ok (d, st)
    | .TypeSpecifier | .Opcode | .Indentifier => .error .undefinedKind

/-- Function `typeCheck` of analyze.c. -/
def typeCheck (syntaxTree : TreeNode) (st : State) : Except Fault (TreeNode × State) :=
  traverse scopeIn checkNode syntaxTree st

/-- Both passes in the order the driver runs them, from the state of a fresh process. -/
def analyze (syntaxTree : TreeNode) : Except Fault (TreeNode × State) := do
  let (t1, st1) ← buildSymtab syntaxTree State.initial
  typeCheck t1 st1

/-! ## Concrete syntax trees -/

/-- A variable declaration `ty nm;` (for an array `ty nm[size]`, `size` is the constant node). -/
def varDecl (line : Int) (ty : NodeType) (nm : String) (size sib : TreeNode) : TreeNode :=
  .node { newTreeNode .VariableDecl with lineno := line, type := ty, name := some nm } size .null .null sib

/-- A function declaration with its parameter list and its body block. -/
def funDecl (line : Int) (ty : NodeType) (nm : String) (params body sib : TreeNode) : TreeNode :=
  .node { newTreeNode .FunctionDecl with lineno := line, type := ty, name := some nm } params body .null sib

/-- The parameter list `(void)`. -/
def voidParams (line : Int) : TreeNode :=
  .node { newTreeNode .Params with lineno := line, type := .Void, flag := true } .null .null .null .null

/-- A parameter `ty nm`. -/
def param (line : Int) (ty : NodeType) (nm : String) (sib : TreeNode) : TreeNode :=
  .node { newTreeNode .Params with lineno := line, type := ty, name := some nm } .null .null .null sib

/-- A compound statement; `isBody` marks the body block of a function. -/
def block (line : Int) (isBody : Bool) (decls stmts sib : TreeNode) : TreeNode :=
  .node { newTreeNode .CompoundStmt with lineno := line, flag := isBody } decls stmts .null sib

/-- A call `nm(args)`. -/
def call (line : Int) (nm : String) (args sib : TreeNode) : TreeNode :=
  .node { newTreeNode .CallExpr with lineno := line, name := some nm } args .null .null sib

/-- A variable reference `nm` or `nm[idx]`. -/
def varRef (line : Int) (nm : String) (idx sib : TreeNode) : TreeNode :=
  .node { newTreeNode .VarAccessExpr with lineno := line, name := some nm } idx .null .null sib

/-- A numeric constant. -/
def const (line : Int) (v : Int) (sib : TreeNode) : TreeNode :=
  .node { newTreeNode .ConstExpr with lineno := line, val := v } .null .null .null sib

/-- An assignment `l = r`. -/
def assign (line : Int) (l r sib : TreeNode) : TreeNode :=
  .node { newTreeNode .AssignExpr with lineno := line } l r .null sib

/-- A return statement; without a value the flag is set. -/
def ret (line : Int) (value sib : TreeNode) : TreeNode :=
  .node { newTreeNode .ReturnStmt with lineno := line, flag := decide (value = .null) } value .null .null sib

/-- The diagnostics of a run. -/
def listingOf (r : Except Fault (TreeNode × State)) : Except Fault (List Diag) :=
  r.map fun x => x.2.listing

/-- The program `1: int main(void) { g(); }  2: int g(void) { }`. -/
def progCallThenDecl : TreeNode :=
  funDecl 1 .Integer "main" (voidParams 1) (block 1 true .null (call 1 "g" .null .null) .null)
    (funDecl 2 .Integer "g" (voidParams 2) (block 2 true .null .null .null) .null)

/-- The program `1: int f(void) { { } }  2: int f(void) { { } }`. -/
def progTwiceNested : TreeNode :=
  funDecl 1 .Integer "f" (voidParams 1) (block 1 true .null (block 1 false .null .null .null) .null)
    (funDecl 2 .Integer "f" (voidParams 2) (block 2 true .null (block 2 false .null .null .null) .null) .null)

/-- The program `1: int output(void) { }`. -/
def progOutputDecl : TreeNode :=
  funDecl 1 .Integer "output" (voidParams 1) (block 1 true .null .null .null) .null

/-- The program `1: int global(void) { }`. -/
def progGlobalDecl : TreeNode :=
  funDecl 1 .Integer "global" (voidParams 1) (block 1 true .null .null .null) .null

/-- The program `1: int main(void) {  2: int a;  3: { int a[10]; }  4: a = 1; }`. -/
def progInnerBlock : TreeNode :=
  funDecl 1 .Integer "main" (voidParams 1)
    (block 1 true (varDecl 2 .Integer "a" .null .null)
      (block 3 false (varDecl 3 .IntegerArray "a" (const 3 10 .null) .null) .null
        (assign 4 (varRef 4 "a" .null .null) (const 4 1 .null) .null)) .null) .null

/-- The program `2: int x;  3: int x[10];`. -/
def progRedeclared : TreeNode :=
  varDecl 2 .Integer "x" .null (varDecl 3 .IntegerArray "x" (const 3 10 .null) .null)

/-- The program `2: int x;  3: int x;`. -/
def progTwice : TreeNode :=
  varDecl 2 .Integer "x" .null (varDecl 3 .Integer "x" .null .null)

/-- The program `1: int f(void) {  2: { int x; }  3: x = 1; }`. -/
def progLateRef : TreeNode :=
  funDecl 1 .Integer "f" (voidParams 1)
    (block 1 true .null
      (block 2 false (varDecl 2 .Integer "x" .null .null) .null
        (assign 3 (varRef 3 "x" .null .null) (const 3 1 .null) .null)) .null) .null

/-- The program `1: int main(void) { g(); }  2: void g;`. -/
def progVoidAfterCall : TreeNode :=
  funDecl 1 .Integer "main" (voidParams 1) (block 1 true .null (call 1 "g" .null .null) .null)
    (varDecl 2 .Void "g" .null .null)

/-- The program `1: int a[10];  2: int main(void) { a[1] = 2; }`. -/
def progIndexOk : TreeNode :=
  varDecl 1 .IntegerArray "a" (const 1 10 .null)
    (funDecl 2 .Integer "main" (voidParams 2)
      (block 2 true .null (assign 2 (varRef 2 "a" (const 2 1 .null) .null) (const 2 2 .null) .null) .null) .null)

/-- The program `1: int a[10];  2: int main(void) { a[a] = 2; }`. -/
def progIndexArray : TreeNode :=
  varDecl 1 .IntegerArray "a" (const 1 10 .null)
    (funDecl 2 .Integer "main" (voidParams 2)
      (block 2 true .null (assign 2 (varRef 2 "a" (varRef 2 "a" .null .null) .null) (const 2 2 .null) .null) .null) .null)

/-- The program `1: int b;  2: int main(void) { b[1] = 2; }`. -/
def progIndexScalar : TreeNode :=
  varDecl 1 .Integer "b" .null
    (funDecl 2 .Integer "main" (voidParams 2)
      (block 2 true .null (assign 2 (varRef 2 "b" (const 2 1 .null) .null) (const 2 2 .null) .null) .null) .null)

/-- The program `1: int a[10];  2: int b;  3: int main(void) { b[a] = 2; }`. -/
def progIndexBoth : TreeNode :=
  varDecl 1 .IntegerArray "a" (const 1 10 .null)
    (varDecl 2 .Integer "b" .null
      (funDecl 3 .Integer "main" (voidParams 3)
        (block 3 true .null (assign 3 (varRef 3 "b" (varRef 3 "a" .null .null) .null) (const 3 2 .null) .null) .null) .null))

/-- Every symbol of every scope satisfies `P`. -/
def AllSym (P : SymbolRec → Prop) (st : State) : Prop :=
  ∀ s ∈ st.scopeList, ∀ b, ∀ e ∈ s.symbolList b, P e

/-- The new diagnostics of a step, and the error flag that goes with them. -/
def Emits (st stn : State) (new : List Diag) : Prop :=
  stn.listing = st.listing ++ new ∧ stn.Error = (st.Error || !new.isEmpty)

/-- The entry `insertSymbol` allocates. -/
def freshSymbol (nm : String) (type : NodeType) (kind : SymbolKind) (lineno : Int) (node : TreeNode)
    (state : SemanticErrorState) (memloc : Nat) : SymbolRec :=
  { name := nm
    state := if node = .null then .STATE_UNDECLARED else state
    type := type
    kind := kind
    lineList := [lineno]
    memloc := memloc
    node := node }

/-- The four resolved types. -/
def NodeType.resolved : NodeType → Bool
  | .Integer | .Void | .IntegerArray | .VoidArray => true
  | .Undetermined | .None => false

/-- The expression kinds. -/
def NodeKind.isExpr : NodeKind → Bool
  | .AssignExpr | .BinOpExpr | .CallExpr | .VarAccessExpr | .ConstExpr => true
  | _ => false

/-- The declaration kinds. -/
def NodeKind.isDecl : NodeKind → Bool
  | .VariableDecl | .FunctionDecl | .Params => true
  | _ => false

/-- Every symbol of every scope has a resolved type. -/
def TypesResolved (st : State) : Prop :=
  AllSym (fun e => e.type.resolved = true) st

/-- The kind behind a node pointer. -/
def TreeNode.kind? : TreeNode → Option NodeKind
  | .null => none
  | .node d _ _ _ _ => some d.kind

/-- The type behind a node pointer. -/
def TreeNode.type? : TreeNode → Option NodeType
  | .null => none
  | .node d _ _ _ _ => some d.type

/-- Every node of the tree (through child slots and siblings) satisfies `P`. -/
def TreeNode.Forall (P : NodeData → Prop) : TreeNode → Prop
  | .null => True
  | .node d c0 c1 c2 sib =>
    P d ∧ TreeNode.Forall P c0 ∧ TreeNode.Forall P c1 ∧ TreeNode.Forall P c2 ∧ TreeNode.Forall P sib

/-- Two trees of the same structure whose nodes are related by `r`. -/
def TreeNode.Rel (r : NodeData → NodeData → Prop) : TreeNode → TreeNode → Prop
  | .null, .null => True
  | .node d c0 c1 c2 sib, .node e e0 e1 e2 esib =>
    r d e ∧ TreeNode.Rel r c0 e0 ∧ TreeNode.Rel r c1 e1 ∧ TreeNode.Rel r c2 e2 ∧ TreeNode.Rel r sib esib
  | _, _ => False

/-- The nodes differ at most in the `scope` field. -/
def onlyScope (d e : NodeData) : Prop :=
  e = { d with scope := e.scope }

/-- The nodes differ at most in the `type` field. -/
def onlyType (d e : NodeData) : Prop :=
  e = { d with type := e.type }

/-- Declaration and parameter nodes carry one of the four resolved types. -/
def DeclTypesResolved (t : TreeNode) : Prop :=
  t.Forall fun d => d.kind.isDecl = true → d.type.resolved = true

/-- Expression nodes carry one of the four resolved types. -/
def ExprTypesResolved (t : TreeNode) : Prop :=
  t.Forall fun d => d.kind.isExpr = true → d.type.resolved = true

/-- The left operand of every assignment and binary operator, the node whose type the
operator takes, is an expression node (rules 35, 39, 47 and 51 of the grammar). -/
def ExprOperands : TreeNode → Prop
  | .null => True
  | .node d c0 c1 c2 sib =>
    ((d.kind = .AssignExpr ∨ d.kind = .BinOpExpr) → ∀ k, c0.kind? = some k → k.isExpr = true) ∧
    ExprOperands c0 ∧ ExprOperands c1 ∧ ExprOperands c2 ∧ ExprOperands sib

/-- A step that leaves the scope directory and the scope pointers alone. -/
def Quiet (st stn : State) : Prop :=
  stn.scopeList = st.scopeList ∧ stn.globalScope = st.globalScope ∧
    stn.currentScope = st.currentScope ∧ ∃ new, Emits st stn new

/-- The tree of a completed run (`null` for a run that aborted). -/
def okTree (r : Except Fault (TreeNode × State)) : TreeNode :=
  match r with
  | .ok x => x.1
  | .error _ => .null

/-- The state of a completed run (the initial state for a run that aborted). -/
def okState (r : Except Fault (TreeNode × State)) : State :=
  match r with
  | .ok x => x.2
  | .error _ => State.initial

/-! ## Reading the tables -/

/-- The chain of bucket `b` of scope `k` (empty when there is no such scope). -/
def State.chain (st : State) (k b : Nat) : List SymbolRec :=
  match st.scopeList[k]? with
  | some s => s.symbolList b
  | none => []

/-- The fields of a scope other than its state and its table. -/
def ScopeRec.attrs (s : ScopeRec) : String × Option Nat × TreeNode × Nat × Nat :=
  (s.name, s.parent, s.func, s.numSymbols, s.numScopes)

/-- The fields of scope `j` other than its state and its table. -/
def State.scopeAttrs (st : State) (j : Nat) : Option (String × Option Nat × TreeNode × Nat × Nat) :=
  (st.scopeList[j]?).map ScopeRec.attrs

/-! ## The loop of `RedefinitionError` -/

/-- The mark the loop puts on an entry of the given name. -/
def markRedefined (name : String) (e : SymbolRec) : SymbolRec :=
  if e.name = name then { e with state := .STATE_REDEFINED } else e

/-- The first line of the line list of an entry. -/
def firstLine (e : SymbolRec) : Int :=
  e.lineList.headD 0

/-- The entry has a declaration node, the scope attached to that node (if any) is one
of the first `n` scopes, and its line list is not empty. -/
def hasDecl (n : Nat) (e : SymbolRec) : Bool :=
  match e.node with
  | .null => false
  | .node d _ _ _ _ =>
    (match d.scope with
      | some sc => decide (sc < n)
      | none => true) && !e.lineList.isEmpty

/-- The name `nm` has been declared in scope `k` at the lines `lines`, in this order, and
every entry of that name in the scope has its declaration node (none is a placeholder). -/
def DeclaredAt (st : State) (k : Nat) (nm : String) (lines : List Int) : Prop :=
  k < st.scopeList.length ∧
    (∀ e ∈ st.chain k (hash nm), e.name = nm → hasDecl st.scopeList.length e = true) ∧
    ((st.chain k (hash nm)).filter fun e => decide (e.name = nm)).map firstLine = lines

/-- The diagnostics of a declaration of `nm` at `lineno` with type `type`, the name having
been declared before at `lines`. -/
def declDiags (nm : String) (type : NodeType) (lineno : Int) (lines : List Int) : List Diag :=
  (if type = .Void ∨ type = .VoidArray then [.voidTypeVariable (some nm) lineno] else []) ++
    (if lines = [] then [] else [.redefinition nm lineno lines])

/-- The program `2: int x;`. -/
def progOnce : TreeNode :=
  varDecl 2 .Integer "x" .null .null

/-- The scalar fields of the second declaration of `progTwice`. -/
def secondDecl : NodeData :=
  { newTreeNode .VariableDecl with lineno := 3, type := .Integer, name := some "x" }

/-- What a lookup result points to: type, kind and line list of the entry. -/
def lookedUp (st : State) (r : Except Fault (Option SymPtr)) :
    Option (NodeType × SymbolKind × List Int) :=
  match r with
  | .ok (some p) => (derefSymbol st p).map fun e => (e.type, e.kind, e.lineList)
  | _ => none

/-- The types of the references to `nm` in a tree, in traversal order. -/
def refTypes (nm : String) : TreeNode → List NodeType
  | .null => []
  | .node d c0 c1 c2 sib =>
    (if d.kind = .VarAccessExpr ∧ d.name = some nm then [d.type] else []) ++
      refTypes nm c0 ++ refTypes nm c1 ++ refTypes nm c2 ++ refTypes nm sib

/-- The types of the index expressions of the indexed references of a tree. -/
def indexTypes : TreeNode → List NodeType
  | .null => []
  | .node d c0 c1 c2 sib =>
    (if d.kind = .VarAccessExpr then c0.type?.toList else []) ++
      indexTypes c0 ++ indexTypes c1 ++ indexTypes c2 ++ indexTypes sib

/-- The reference `a[1]` of `progIndexOk`. -/
def indexedRef : NodeData :=
  { newTreeNode .VarAccessExpr with lineno := 2, name := some "a" }

/-- The index `1` of that reference, as pass 2 has typed it. -/
def indexedRefIndex : NodeData :=
  { newTreeNode .ConstExpr with lineno := 2, type := .Integer, val := 1 }

/-- The state in which pass 2 checks that reference: the tables of pass 1, the scope of
`main` current. -/
def indexedRefState : State :=
  { okState (buildSymtab progIndexOk State.initial) with currentScope := some 2 }

/-! ## Parent links -/

/-- The parent link of scope `j`. -/
def State.parentOf (st : State) (j : Nat) : Option (Option Nat) :=
  (st.scopeList[j]?).map fun s => s.parent

/-! ## The function entries of one name in a chain -/

/-- In the chain, an entry named `nm` of kind Function is a placeholder (Undeclared, of
type Undetermined, without declaration node), and an Undeclared entry named `nm` is of
kind Function. -/
def PlaceholdersIn (nm : String) (l : List SymbolRec) : Prop :=
  ∀ e ∈ l, e.name = nm →
    (e.kind = .FunctionSym →
      e.state = .STATE_UNDECLARED ∧ e.type = .Undetermined ∧ e.node = .null) ∧
    (e.state = .STATE_UNDECLARED → e.kind = .FunctionSym)

/-- The chain holds a Function entry named `nm`. -/
def hasFunIn (nm : String) (l : List SymbolRec) : Bool :=
  l.any fun e => decide (e.name = nm) && decide (e.kind = .FunctionSym)

/-- A change of the chain that keeps the placeholder discipline and the presence of a
Function entry named `nm`. -/
def Neutral (nm : String) (l ln : List SymbolRec) : Prop :=
  PlaceholdersIn nm l → PlaceholdersIn nm ln ∧ hasFunIn nm ln = hasFunIn nm l

/-! ## Pass 1 and the calls of one function name -/

/-- The global scope is the first scope of the directory and has no parent. -/
def GlobalOk (st : State) : Prop :=
  st.globalScope = some 0 ∧ st.parentOf 0 = some none

/-- The placeholder discipline of `nm` in the table of the global scope. -/
def Placeholders (nm : String) (st : State) : Prop :=
  PlaceholdersIn nm (st.chain 0 (hash nm))

/-- The table of the global scope holds a Function entry named `nm`. -/
def hasFun (nm : String) (st : State) : Bool :=
  hasFunIn nm (st.chain 0 (hash nm))

/-- A step that is neutral for the entries of `nm` in the global table. -/
def NeutralStep (nm : String) (st stn : State) : Prop :=
  Neutral nm (st.chain 0 (hash nm)) (stn.chain 0 (hash nm))

/-- What every step of pass 1 keeps: scopes are only added, parent links and the global
scope pointer stay. -/
def Frame (st stn : State) : Prop :=
  st.scopeList.length ≤ stn.scopeList.length ∧
    (∀ j, j < st.scopeList.length → stn.parentOf j = st.parentOf j) ∧
    stn.globalScope = st.globalScope

/-- The node is a call of `nm`. -/
def isCall (nm : String) (d : NodeData) : Bool :=
  decide (d.kind = .CallExpr ∧ d.name = some nm)

/-- The diagnostic is an undeclared-function error for `nm`. -/
def isUndeclaredFunction (nm : String) : Diag → Bool
  | .undeclaredFunction n _ => decide (n = some nm)
  | _ => false

/-- The diagnostic is an invalid-call error for `nm`. -/
def isInvalidCall (nm : String) : Diag → Bool
  | .invalidFunctionCall n _ => decide (n = some nm)
  | _ => false

/-- The conclusion of the step lemma: what the pre-visit of one node does, as far as the
calls of `nm` are concerned. -/
def StepOk (nm : String) (d d1 : NodeData) (st st1 : State) : Prop :=
  Frame st st1 ∧
    (Placeholders nm st →
      Placeholders nm st1 ∧ hasFun nm st1 = (hasFun nm st || isCall nm d)) ∧
    (∃ new, st1.listing = st.listing ++ new ∧
      (Placeholders nm st → new.filter (isUndeclaredFunction nm) =
        if isCall nm d && !hasFun nm st then [.undeclaredFunction (some nm) d.lineno] else [])) ∧
    ((d1 = d ∧ st1.currentScope = st.currentScope ∧ d.kind ≠ .FunctionDecl ∧
        ¬(d.kind = .CompoundStmt ∧ d.flag = false)) ∨
      ∃ sc, d1.scope = some sc ∧ st1.currentScope = some sc ∧ sc ≠ 0 ∧
        sc < st1.scopeList.length ∧ st1.parentOf sc = some st.currentScope)

/-- The first of two optional lines. -/
def firstOf (a b : Option Int) : Option Int :=
  match a with
  | some x => some x
  | none => b

/-- The line of the first call of `nm` in traversal order. -/
def firstCall (nm : String) : TreeNode → Option Int
  | .null => none
  | .node d c0 c1 c2 sib =>
    firstOf (if isCall nm d then some d.lineno else none)
      (firstOf (firstCall nm c0) (firstOf (firstCall nm c1)
        (firstOf (firstCall nm c2) (firstCall nm sib))))

/-- No node carries a scope back-reference, as the parser hands the tree over. -/
def NoScopes (t : TreeNode) : Prop :=
  t.Forall fun d => d.scope = none

/-- The tree declares no function named `nm`. -/
def NotDeclaredFun (nm : String) (t : TreeNode) : Prop :=
  t.Forall fun d => d.kind = .FunctionDecl → d.name ≠ some nm

/-- Variable references occur only inside function declarations and blocks: none is
visited while the scope current at the root of the tree is current. -/
def RefsInside : TreeNode → Prop
  | .null => True
  | .node d c0 c1 c2 sib =>
    d.kind ≠ .VarAccessExpr ∧
      (d.kind = .FunctionDecl ∨ (d.kind = .CompoundStmt ∧ d.flag = false) ∨
        (RefsInside c0 ∧ RefsInside c1 ∧ RefsInside c2)) ∧
      RefsInside sib

/-- The undeclared-function errors for `nm` of a stretch of pass 1 that starts with or
without a Function entry for `nm` and whose first call of `nm`, if any, is at `o`. -/
def reported (nm : String) (has : Bool) (o : Option Int) : List Diag :=
  if has then [] else o.toList.map (Diag.undeclaredFunction (some nm))

/-- A stretch of pass 1, as far as the calls of `nm` are concerned. -/
def Seg (nm : String) (st stn : State) (o : Option Int) : Prop :=
  Frame st stn ∧
    (Placeholders nm st → Placeholders nm stn ∧ hasFun nm stn = (hasFun nm st || o.isSome)) ∧
    ∃ new, stn.listing = st.listing ++ new ∧
      (Placeholders nm st → new.filter (isUndeclaredFunction nm) = reported nm (hasFun nm st) o)

/-- The state in which pass 1 starts the traversal: the global scope and the built-ins. -/
def builtinState : Except Fault State := do
  let (g, st1) ← insertScope (some "global") none .null State.initial
  declareBuiltInFunction { st1 with globalScope := some g, currentScope := some g }

/-- A step of pass 2 that leaves the scope directory alone and reports no invalid call
of `nm`. -/
def NoCallError (nm : String) (st stn : State) : Prop :=
  stn.scopeList = st.scopeList ∧ stn.globalScope = st.globalScope ∧
    ∃ new, stn.listing = st.listing ++ new ∧ ∀ x ∈ new, isInvalidCall nm x = false

/-- The program `1: int main(void) {  2: foo(1);  3: foo(2); }`. -/
def progTwoCalls : TreeNode :=
  funDecl 1 .Integer "main" (voidParams 1)
    (block 1 true .null (call 2 "foo" (const 2 1 .null) (call 3 "foo" (const 3 2 .null) .null)) .null)
    .null

/-- The program `1: int f(void) { return; }`. -/
def progReturnNothing : TreeNode :=
  funDecl 1 .Integer "f" (voidParams 1) (block 1 true .null (ret 1 .null .null) .null) .null

/-- The program `1: void g(void) { return 1; }`. -/
def progReturnValue : TreeNode :=
  funDecl 1 .Void "g" (voidParams 1) (block 1 true .null (ret 1 (const 1 1 .null) .null) .null) .null

/-- The program `1: int f(void) { return 1; }`. -/
def progReturnOk : TreeNode :=
  funDecl 1 .Integer "f" (voidParams 1) (block 1 true .null (ret 1 (const 1 1 .null) .null) .null) .null

/-- The program `1: int main(void) { x = y; }`. -/
def progAssignUndeclared : TreeNode :=
  funDecl 1 .Integer "main" (voidParams 1)
    (block 1 true .null (assign 1 (varRef 1 "x" .null .null) (varRef 1 "y" .null .null) .null) .null)
    .null

/-- The program `1: int a[10];  2: int main(void) { a = 1; }`. -/
def progAssignArray : TreeNode :=
  varDecl 1 .IntegerArray "a" (const 1 10 .null)
    (funDecl 2 .Integer "main" (voidParams 2)
      (block 2 true .null (assign 2 (varRef 2 "a" .null .null) (const 2 1 .null) .null) .null) .null)

/-- The types of the two operands and of the node itself, for every assignment and
binary-operator node of a tree, in traversal order. -/
def operandTypes : TreeNode → List (Option NodeType × Option NodeType × NodeType)
  | .null => []
  | .node d c0 c1 c2 sib =>
    (if d.kind = .AssignExpr ∨ d.kind = .BinOpExpr then [(c0.type?, c1.type?, d.type)] else []) ++
      operandTypes c0 ++ operandTypes c1 ++ operandTypes c2 ++ operandTypes sib

/-- The return statement `return;` of line 1. -/
def returnNothing : NodeData :=
  { newTreeNode .ReturnStmt with lineno := 1, flag := true }

/-- The state in which pass 2 checks the return statement of `progReturnNothing`: the
tables of pass 1, the scope of `f` current. -/
def returnState : State :=
  { okState (buildSymtab progReturnNothing State.initial) with currentScope := some 2 }

/-- An assignment node of line 1. -/
def assignNode : NodeData :=
  { newTreeNode .AssignExpr with lineno := 1 }

/-- A binary-operator node of line 1. -/
def binOpNode : NodeData :=
  { newTreeNode .BinOpExpr with lineno := 1 }

/-- An operand of type Integer. -/
def intOperand : NodeData :=
  { newTreeNode .ConstExpr with lineno := 1, type := .Integer }

/-- An operand of type IntegerArray. -/
def arrayOperand : NodeData :=
  { newTreeNode .VarAccessExpr with lineno := 1, type := .IntegerArray, name := some "a" }

/-! ## How pass 1 changes the tables -/

/-- What one step may do to an entry: name, kind, declaration node and location stay, use
lines are only added, a declared entry stays declared and keeps its type, an Undeclared
entry stays of its type or becomes Undetermined, and one without declaration node stays
Undeclared. -/
def EntryStep (e e1 : SymbolRec) : Prop :=
  e1.name = e.name ∧ e1.kind = e.kind ∧ e1.node = e.node ∧ e1.memloc = e.memloc ∧
    e.lineList <+: e1.lineList ∧
    (e.state ≠ .STATE_UNDECLARED → e1.state ≠ .STATE_UNDECLARED ∧ e1.type = e.type) ∧
    (e1.state = .STATE_UNDECLARED → e1.type = e.type ∨ e1.type = .Undetermined) ∧
    (e.state = .STATE_UNDECLARED → e.node = .null → e1.state = .STATE_UNDECLARED)

/-- An entry is either a placeholder (Undeclared, of type Undetermined, without declaration
node) or a declaration (not Undeclared, with its declaration node, of the type of that
node). -/
def EntryOk (e : SymbolRec) : Prop :=
  (e.state = .STATE_UNDECLARED → e.type = .Undetermined ∧ e.node = .null) ∧
    (e.state ≠ .STATE_UNDECLARED →
      ∃ nd c0 c1 c2 sib, e.node = .node nd c0 c1 c2 sib ∧ e.type = nd.type)

/-- What one step may do to a chain: the entries it held stay in place and change by
`EntryStep`; the entries behind them are new. -/
def ChainStep (l l1 : List SymbolRec) : Prop :=
  (∀ (i : Nat) (e : SymbolRec), l[i]? = some e → ∃ e1, l1[i]? = some e1 ∧ EntryStep e e1) ∧
    ∀ (i : Nat) (e1 : SymbolRec), l1[i]? = some e1 → l.length ≤ i → EntryOk e1

/-- The name of scope `j`. -/
def State.nameOf (st : State) (j : Nat) : Option String :=
  (st.scopeList[j]?).map fun s => s.name

/-- The owner node of scope `j`. -/
def State.funcOf (st : State) (j : Nat) : Option TreeNode :=
  (st.scopeList[j]?).map fun s => s.func

/-- What pass 1 may do to the tables: scopes are only added, the scopes there keep name,
parent and owner, the global scope pointer stays, and every chain changes by `ChainStep`. -/
def Evolves (st stn : State) : Prop :=
  st.scopeList.length ≤ stn.scopeList.length ∧ stn.globalScope = st.globalScope ∧
    (∀ j, j < st.scopeList.length →
      stn.nameOf j = st.nameOf j ∧ stn.parentOf j = st.parentOf j ∧ stn.funcOf j = st.funcOf j) ∧
    ∀ k b, ChainStep (st.chain k b) (stn.chain k b)

/-- The diagnostics the pre-visit of pass 1 can write at a node with fields `d`, in
state `st`. -/
def DiagOf (d : NodeData) (st : State) (x : Diag) : Prop :=
  (∃ n cited, x = .redefinition n d.lineno cited) ∨ x = .voidTypeVariable d.name d.lineno ∨
    (x = .undeclaredFunction d.name d.lineno ∧ d.kind = .CallExpr ∧
      lookupSymbolWithKind st.globalScope d.name .FunctionSym st = .ok none) ∨
    (x = .undeclaredVariable d.name d.lineno ∧ d.kind = .VarAccessExpr ∧
      lookupSymbolWithKind st.currentScope d.name .VariableSym st = .ok none)

/-! ## The built-in functions through pass 1 -/

/-- The state of a completed run of `builtinState` (the initial state when it aborts). -/
def builtinState.get : State :=
  match builtinState with
  | .ok s => s
  | .error _ => State.initial

/-- The first entry of bucket `hash nm` of scope `k`: name, kind, type, declaration node,
and whether it is declared (not an Undeclared placeholder). -/
def headEntry (st : State) (k : Nat) (nm : String) :
    Option (String × SymbolKind × NodeType × TreeNode × Bool) :=
  ((st.chain k (hash nm))[0]?).map fun e =>
    (e.name, e.kind, e.type, e.node, decide (e.state ≠ .STATE_UNDECLARED))

/-- The tables hold the built-ins as `declareBuiltInFunction` left them: `input` and
`output` head their buckets of the global scope, scope 1 is `output`, child of the global
scope, and `value` heads its bucket there. -/
def Seeded (st : State) : Prop :=
  st.globalScope = some 0 ∧
    headEntry st 0 "input" = some ("input", .FunctionSym, .Integer, inputFuncNode, true) ∧
    headEntry st 0 "output" = some ("output", .FunctionSym, .Void, outputFuncNode, true) ∧
    headEntry st 1 "value" = some ("value", .VariableSym, .Integer, outputFuncParamNode, true) ∧
    st.nameOf 0 = some "global" ∧ st.parentOf 0 = some none ∧
    st.nameOf 1 = some "output" ∧ st.parentOf 1 = some (some 0)

/-- The diagnostic is not an undeclared-function error for a built-in. -/
def notBuiltinUndeclared (x : Diag) : Prop :=
  isUndeclaredFunction "input" x = false ∧ isUndeclaredFunction "output" x = false

/-- Every entry of every chain is a placeholder or a declaration. -/
def AllOk (st : State) : Prop :=
  ∀ k b, ∀ e ∈ st.chain k b, EntryOk e

/-- The program `1: int main(void) {  2: output(1);  3: input(); }`. -/
def progBuiltinCalls : TreeNode :=
  funDecl 1 .Integer "main" (voidParams 1)
    (block 1 true .null (call 2 "output" (const 2 1 .null) (call 3 "input" .null .null)) .null)
    .null

/-- The names and types of the call nodes of a tree, in traversal order. -/
def callTypes : TreeNode → List (Option String × NodeType)
  | .null => []
  | .node d c0 c1 c2 sib =>
    (if d.kind = .CallExpr then [(d.name, d.type)] else []) ++
      callTypes c0 ++ callTypes c1 ++ callTypes c2 ++ callTypes sib

/-- The program `1: int f(int a) { }  2: int main(void) {  3: f();  4: g(); }`. -/
def progCalls : TreeNode :=
  funDecl 1 .Integer "f" (param 1 .Integer "a" .null) (block 1 true .null .null .null)
    (funDecl 2 .Integer "main" (voidParams 2)
      (block 2 true .null (call 3 "f" .null (call 4 "g" .null .null)) .null) .null)

/-- The call `input()` of line 3. -/
def inputCall : NodeData :=
  { newTreeNode .CallExpr with lineno := 3, name := some "input" }

/-! ## The argument check of a call -/

/-- The types of a node and of its siblings, in order: of the arguments of a call, or of
the parameters of a declaration. -/
def sibTypes : TreeNode → List NodeType
  | .null => []
  | .node d _ _ _ sib => d.type :: sibTypes sib

/-- The loop of the argument check, on the lists of types: it stops with an error at the
first argument that has no parameter, differs in type from its parameter, or is Void. -/
def loopMismatch : List NodeType → List NodeType → Bool
  | [], _ => false
  | _ :: _, [] => true
  | a :: as, p :: ps => decide (a ≠ p) || decide (a = .Void) || loopMismatch as ps

/-- The test after the loop, on the lists of types: the first parameter beyond the
arguments is not Void. -/
def leftoverMismatch (args params : List NodeType) : Bool :=
  match params.drop args.length with
  | q :: _ => decide (q ≠ .Void)
  | [] => false

/-- The argument check of a call on the lists of types. -/
def callMismatch (args params : List NodeType) : Bool :=
  loopMismatch args params || leftoverMismatch args params

/-- The diagnostics of the argument check of a call. -/
def callDiags (name : Option String) (lineno : Int) (args params : List NodeType) : List Diag :=
  if callMismatch args params then [.invalidFunctionCall name lineno] else []

/-- The program `1: int f(int a) { }`. -/
def progOneParam : TreeNode :=
  funDecl 1 .Integer "f" (param 1 .Integer "a" .null) (block 1 true .null .null .null) .null

/-- The program `1: int f(int a, void b) { }  2: int main(void) {  3: f(1); }`. -/
def progVoidParam : TreeNode :=
  funDecl 1 .Integer "f" (param 1 .Integer "a" (param 1 .Void "b" .null))
    (block 1 true .null .null .null)
    (funDecl 2 .Integer "main" (voidParams 2)
      (block 2 true .null (call 3 "f" (const 3 1 .null) .null) .null) .null)

/-- The program `1: int f(int a) { }  2: int main(void) {  3: f(1);  4: f();  5: f(1, 2); }`. -/
def progArity : TreeNode :=
  funDecl 1 .Integer "f" (param 1 .Integer "a" .null) (block 1 true .null .null .null)
    (funDecl 2 .Integer "main" (voidParams 2)
      (block 2 true .null
        (call 3 "f" (const 3 1 .null)
          (call 4 "f" .null (call 5 "f" (const 5 1 (const 5 2 .null)) .null))) .null) .null)

/-- The name and the types of the arguments of every call node of a tree, in traversal
order. -/
def callArgTypes : TreeNode → List (Option String × List NodeType)
  | .null => []
  | .node d c0 c1 c2 sib =>
    (if d.kind = .CallExpr then [(d.name, sibTypes c0)] else []) ++
      callArgTypes c0 ++ callArgTypes c1 ++ callArgTypes c2 ++ callArgTypes sib

/-- A call `f(...)` of line 3. -/
def callOfF : NodeData :=
  { newTreeNode .CallExpr with lineno := 3, name := some "f" }

/-- The fields of the declaration node of `f` in `progOneParam`, after pass 1. -/
def declOfF : NodeData :=
  { newTreeNode .FunctionDecl with lineno := 1, type := .Integer, name := some "f", scope := some 2 }

/-- The tables of pass 1 for `progOneParam`. -/
def oneParamState : State :=
  okState (buildSymtab progOneParam State.initial)

/-! ## Decimal digits -/

/-- The number a string of decimal digits stands for, most significant digit first. -/
def digitsValue (l : List Char) : Nat :=
  l.foldl (fun acc c => acc * 10 + (c.toNat - 48)) 0

/-! ## `insertScope` -/

/-- The name `insertScope` derives for an anonymous scope under `p`: the name of `p`, a
dot and the decimal digits of its counter, cut to the `length + 5` characters of the
buffer. -/
def derivedName (p : ScopeRec) : String :=
  ⟨(p.name.data ++ '.' :: Nat.toDigits 10 p.numScopes).take (p.name.data.length + 5)⟩

/-- The parent scope is there and is flagged Redefined. -/
def parentRedefined (st : State) (parent : Option Nat) : Bool :=
  match parent with
  | none => false
  | some k =>
    match st.scopeList[k]? with
    | some p => decide (p.state = .STATE_REDEFINED)
    | none => false

/-- The directory holds a scope of that name. -/
def nameTaken (st : State) (nm : String) : Bool :=
  st.scopeList.any fun s => decide (s.name = nm)

/-- The scope `insertScope` allocates. -/
def newScope (nm : String) (parent : Option Nat) (func : TreeNode) (redefined : Bool) : ScopeRec :=
  { name := nm
    state := if redefined then .STATE_REDEFINED else .STATE_NORMAL
    func := func
    symbolList := fun _ => []
    numSymbols := 0
    numScopes := 0
    parent := parent }

/-- The name `insertScope` gives the new scope: the given one, or the one derived from
the parent. -/
def resultingName (st : State) (name : Option String) (parent : Option Nat) : Option String :=
  match name with
  | some n => some n
  | none =>
    match parent with
    | some k => (st.scopeList[k]?).map derivedName
    | none => none

/-- The program `1: int main(void) {  2: { }  3: { }  }`. -/
def progTwoBlocks : TreeNode :=
  funDecl 1 .Integer "main" (voidParams 1)
    (block 1 true .null (block 2 false .null .null (block 3 false .null .null .null)) .null) .null

/-- A scope `main` whose anonymous-scope counter is `n`. -/
def mainScope (n : Nat) : ScopeRec :=
  { name := "main", state := .STATE_NORMAL, func := .null, symbolList := fun _ => [],
    numSymbols := 0, numScopes := n, parent := none }

/-- A directory holding the one scope `mainScope n`. -/
def counterState (n : Nat) : State :=
  { State.initial with scopeList := [mainScope n] }

/-- Name and anonymous-scope counter of every scope of the directory. -/
def State.counters (st : State) : List (String × Nat) :=
  st.scopeList.map fun s => (s.name, s.numScopes)

/-- The directory `insertScope` leaves behind: the parent's counter is advanced when the
name is derived. -/
def advanced (st : State) (name : Option String) (parent : Option Nat) : List ScopeRec :=
  match name, parent with
  | none, some k => updateAt (fun s => { s with numScopes := s.numScopes + 1 }) st.scopeList k
  | _, _ => st.scopeList

/-! ## The walk through the parents -/

/-- Every scope was created after its parent: the parent link points to an earlier scope
of the directory. -/
def ParentsBelow (st : State) : Prop :=
  ∀ k p, st.parentOf k = some (some p) → p < k

/-- Every symbol lies in the bucket of its name. -/
def Bucketed (st : State) : Prop :=
  ∀ k b e, e ∈ st.chain k b → b = hash e.name

/-- The scopes from a scope up through the parents, nearest first (the fuel is the number
of scopes of the directory). -/
def ancestors (st : State) : Nat → Option Nat → List Nat
  | _, none => []
  | 0, some _ => []
  | fuel + 1, some k =>
    k :: (match st.scopeList[k]? with
      | some s => ancestors st fuel s.parent
      | none => [])

/-- The result of the walk: nothing when no scope of the walk has a match in the bucket,
else the first match of the nearest scope that has one. -/
def WalkResult (st : State) (b : Nat) (p : SymbolRec → Bool) (scopes : List Nat) :
    Option SymPtr → Prop
  | none => ∀ k ∈ scopes, chainFind p (st.chain k b) = none
  | some q => q.bucket = b ∧ ∃ nearer farther, scopes = nearer ++ q.scope :: farther ∧
      (∀ k ∈ nearer, chainFind p (st.chain k b) = none) ∧
      chainFind p (st.chain q.scope b) = some q.idx

/-! ## Well-formed tables -/

/-- The symbol count `numSymbols` of scope `k` (0 when there is no such scope). -/
def State.countOf (st : State) (k : Nat) : Nat :=
  match st.scopeList[k]? with
  | some s => s.numSymbols
  | none => 0

/-- Name and slot index of the entries of bucket `b` of scope `k`, in chain order. -/
def State.keys (st : State) (k b : Nat) : List (String × Nat) :=
  (st.chain k b).map fun e => (e.name, e.memloc)

/-- The slot indices of the symbols of every scope are pairwise distinct and are exactly
the numbers below the symbol count of the scope. -/
def SlotsOk (st : State) : Prop :=
  ∀ k : Nat, (∀ (b i : Nat) (x : String × Nat), (st.keys k b)[i]? = some x → x.2 < st.countOf k) ∧
    (∀ (b i : Nat) (x : String × Nat) (c j : Nat) (y : String × Nat),
      (st.keys k b)[i]? = some x → (st.keys k c)[j]? = some y → x.2 = y.2 → b = c ∧ i = j) ∧
    ∀ m : Nat, m < st.countOf k → ∃ (b i : Nat) (x : String × Nat),
      (st.keys k b)[i]? = some x ∧ x.2 = m

/-- The tables are well formed: parents precede their children, every symbol lies in the
bucket of its name, and the slot indices of a scope count its symbols. -/
def TablesOk (st : State) : Prop :=
  ParentsBelow st ∧ Bucketed st ∧ SlotsOk st

/-- Two states whose tables show the same parents, counts, names and slot indices. -/
def SameKeys (st stn : State) : Prop :=
  (∀ k, stn.parentOf k = st.parentOf k) ∧ (∀ k, stn.countOf k = st.countOf k) ∧
    ∀ k b, stn.keys k b = st.keys k b

/-- The program `1: int f(void) { }  2: int main(void) {  3: int f;  4: f(); }`. -/
def progLocalF : TreeNode :=
  funDecl 1 .Integer "f" (voidParams 1) (block 1 true .null .null .null)
    (funDecl 2 .Integer "main" (voidParams 2)
      (block 2 true (varDecl 3 .Integer "f" .null .null) (call 4 "f" .null .null) .null) .null)

/-- The program `1: int g;  2: int main(void) {  3: g(); }`. -/
def progVarThenCall : TreeNode :=
  varDecl 1 .Integer "g" .null
    (funDecl 2 .Integer "main" (voidParams 2)
      (block 2 true .null (call 3 "g" .null .null) .null) .null)

/-- The symbol has the given name and kind. -/
def SymbolRec.isOf (nm : String) (kind : SymbolKind) (e : SymbolRec) : Prop :=
  e.name = nm ∧ e.kind = kind

/-- The fields of a scope other than its table. -/
def ScopeRec.header (s : ScopeRec) :
    String × SemanticErrorState × TreeNode × Nat × Nat × Option Nat :=
  (s.name, s.state, s.func, s.numSymbols, s.numScopes, s.parent)

/-- The fields of scope `j` other than its table. -/
def State.headerOf (st : State) (j : Nat) :
    Option (String × SemanticErrorState × TreeNode × Nat × Nat × Option Nat) :=
  (st.scopeList[j]?).map ScopeRec.header

/-- The tables pass 1 leaves for `progLocalF`. -/
def localFState : State :=
  okState (buildSymtab progLocalF State.initial)

/-! ## The three cases of `insertSymbol` -/

/-- The entry is a placeholder of the given name. -/
def isPlaceholder (nm : String) (e : SymbolRec) : Bool :=
  decide (e.name = nm) && decide (e.state = .STATE_UNDECLARED)

/-- The entry has the given name and is flagged Redefined. -/
def isRedefined (nm : String) (e : SymbolRec) : Bool :=
  decide (e.name = nm) && decide (e.state = .STATE_REDEFINED)

/-- The program `1: int main(void) {  2: g(); }`. -/
def progCallOnly : TreeNode :=
  funDecl 1 .Integer "main" (voidParams 1) (block 1 true .null (call 2 "g" .null .null) .null) .null

/-- The tables pass 1 leaves for `progCallOnly`. -/
def callOnlyState : State :=
  okState (buildSymtab progCallOnly State.initial)

/-- The tables pass 1 leaves for `progTwice`. -/
def twiceState : State :=
  okState (buildSymtab progTwice State.initial)

/-- Name, state, line list and slot index of the entries of bucket `b` of scope `k`. -/
def State.entries (st : State) (k b : Nat) : List (String × SemanticErrorState × List Int × Nat) :=
  (st.chain k b).map fun e => (e.name, e.state, e.lineList, e.memloc)

/-- The state of a completed table operation (the initial state when it aborted). -/
def stateOf (r : Except Fault (SymPtr × State)) : State :=
  match r with
  | .ok x => x.2
  | .error _ => State.initial

/-! ## The order of the callbacks of `traverse` -/

/-- One callback invocation on a node. -/
inductive Visit
  | pre (n : TreeNode)
  | post (n : TreeNode)
  deriving DecidableEq

/-- The node of a pre-visit. -/
def Visit.pre? : Visit → Option TreeNode
  | .pre n => some n
  | .post _ => none

/-- The node of a post-visit. -/
def Visit.post? : Visit → Option TreeNode
  | .pre _ => none
  | .post n => some n

/-- What a callback pair that records its invocations writes for a visit. -/
def Visit.event {ε : Type} (evPre evPost : TreeNode → ε) : Visit → ε
  | .pre n => evPre n
  | .post n => evPost n

/-- The sequence of invocations the specification describes: the pre-visit of the node, the
complete traversal of child slots 0, 1 and 2 in that order, the post-visit of the node,
then the complete traversal of the sibling; nothing for an absent node. -/
def visits : TreeNode → List Visit
  | .null => []
  | .node d c0 c1 c2 sib =>
    .pre (.node d c0 c1 c2 sib) ::
      (visits c0 ++ (visits c1 ++ (visits c2 ++ .post (.node d c0 c1 c2 sib) :: visits sib)))

/-- The nodes reachable through child and sibling links, one entry for each. -/
def TreeNode.reachable : TreeNode → List TreeNode
  | .null => []
  | .node d c0 c1 c2 sib =>
    .node d c0 c1 c2 sib ::
      (reachable c0 ++ (reachable c1 ++ (reachable c2 ++ reachable sib)))

/-- A callback that records a line for the node and leaves its fields alone. -/
def recordProc (ev : TreeNode → Diag) : Proc
  | .null, _ => .error .nullDeref
  | .node d c0 c1 c2 sib, st =>
    .ok (d, { st with listing := st.listing ++ [ev (.node d c0 c1 c2 sib)] })

/-- The line number of a node (0 for an absent node). -/
def TreeNode.lineno : TreeNode → Int
  | .null => 0
  | .node d _ _ _ _ => d.lineno

/-- The line a recording pre-visit writes for a node. -/
def preLine (n : TreeNode) : Diag :=
  .invalidCondition n.lineno

/-- The line a recording post-visit writes for a node. -/
def postLine (n : TreeNode) : Diag :=
  .invalidReturn n.lineno

/-- A tree with nodes on lines 1 to 5: node 1 has node 2 (whose sibling is node 3) in
child slot 0, node 4 in child slot 1, and node 5 as sibling. -/
def fiveNodes : TreeNode :=
  assign 1 (const 2 0 (const 3 0 .null)) (const 4 0 .null) (const 5 0 .null)

/-! ## Which fields of which nodes the passes write -/

/-- Pass 1 leaves a node as it is, or writes its `scope` field, and that only on a
function declaration or on a compound statement that is not a function body. -/
def scopeWrite (d e : NodeData) : Prop :=
  e = d ∨ ((d.kind = .FunctionDecl ∨ (d.kind = .CompoundStmt ∧ d.flag = false)) ∧
    e = { d with scope := e.scope })

/-- Pass 2 leaves a node as it is, or writes its `type` field, and that only on an
assignment, binary-operator, call, variable-reference or constant node. -/
def typeWrite (d e : NodeData) : Prop :=
  e = d ∨ ((d.kind = .AssignExpr ∨ d.kind = .BinOpExpr ∨ d.kind = .CallExpr ∨
    d.kind = .VarAccessExpr ∨ d.kind = .ConstExpr) ∧ e = { d with type := e.type })

/-- Kind, line number, name, flag, operator and value of the two nodes agree. -/
def sameSyntax (d e : NodeData) : Prop :=
  e.kind = d.kind ∧ e.lineno = d.lineno ∧ e.name = d.name ∧ e.flag = d.flag ∧
    e.opcode = d.opcode ∧ e.val = d.val

/-- The nodes of a tree with their scope and type fields, in pre-order. -/
def TreeNode.annotations : TreeNode → List (NodeKind × Int × Option Nat × NodeType)
  | .null => []
  | .node d c0 c1 c2 sib =>
    (d.kind, d.lineno, d.scope, d.type) ::
      (annotations c0 ++ (annotations c1 ++ (annotations c2 ++ annotations sib)))

/-- The program `1: int f(int a) {  2: int a; }`. -/
def progParamLocal : TreeNode :=
  funDecl 1 .Integer "f" (param 1 .Integer "a" .null)
    (block 1 true (varDecl 2 .Integer "a" .null .null) .null .null) .null

/-- The program `1: int f(void) { { } }  2: int f(void) { }`. -/
def progTwiceEmpty : TreeNode :=
  funDecl 1 .Integer "f" (voidParams 1) (block 1 true .null (block 1 false .null .null .null) .null)
    (funDecl 2 .Integer "f" (voidParams 2) (block 2 true .null .null .null) .null)

/-- The tables pass 1 leaves for `progTwiceEmpty`, with the scope of the second `f`
current: the state in which pass 1 reaches a block nested in the body of the second `f`. -/
def secondBodyState : State :=
  { okState (buildSymtab progTwiceEmpty State.initial) with currentScope := some 4 }

/-- Name, parent and state of every scope of the directory. -/
def State.scopes (st : State) : List (String × Option Nat × SemanticErrorState) :=
  st.scopeList.map fun s => (s.name, s.parent, s.state)

/-- An if statement `if (cond) thenPart else elsePart`. -/
def ifStmt (line : Int) (cond thenPart elsePart sib : TreeNode) : TreeNode :=
  .node { newTreeNode .IfStmt with lineno := line } cond thenPart elsePart sib

/-- A while statement `while (cond) body`. -/
def whileStmt (line : Int) (cond body sib : TreeNode) : TreeNode :=
  .node { newTreeNode .WhileStmt with lineno := line } cond body .null sib

/-- The program `1: int a[10];  2: int main(void) {  3: if (a) { }  4: while (a[1]) { }
5: if (2) { }  6: while (b) { } }`. -/
def progConditions : TreeNode :=
  varDecl 1 .IntegerArray "a" (const 1 10 .null)
    (funDecl 2 .Integer "main" (voidParams 2)
      (block 2 true .null
        (ifStmt 3 (varRef 3 "a" .null .null) (block 3 false .null .null .null) .null
          (whileStmt 4 (varRef 4 "a" (const 4 1 .null) .null) (block 4 false .null .null .null)
            (ifStmt 5 (const 5 2 .null) (block 5 false .null .null .null) .null
              (whileStmt 6 (varRef 6 "b" .null .null) (block 6 false .null .null .null) .null))))
        .null) .null)

/-- Kind, line and type of the if and while nodes of a tree, in traversal order. -/
def statementTypes : TreeNode → List (NodeKind × Int × NodeType)
  | .null => []
  | .node d c0 c1 c2 sib =>
    (if d.kind = .IfStmt ∨ d.kind = .WhileStmt then [(d.kind, d.lineno, d.type)] else []) ++
      (statementTypes c0 ++ (statementTypes c1 ++ (statementTypes c2 ++ statementTypes sib)))

/-- The if node of line 3 of `progConditions`. -/
def ifNode : NodeData :=
  { newTreeNode .IfStmt with lineno := 3 }

/-- The program `1: int g;  2: int main(void) {  3: g();  4: g(); }`. -/
def progCallTwice : TreeNode :=
  varDecl 1 .Integer "g" .null
    (funDecl 2 .Integer "main" (voidParams 2)
      (block 2 true .null (call 3 "g" .null (call 4 "g" .null .null)) .null) .null)

/-- The program `1: int f(void) { }  2: int f;  3: int main(void) {  4: f = 1; }`. -/
def progFunVar : TreeNode :=
  funDecl 1 .Integer "f" (voidParams 1) (block 1 true .null .null .null)
    (varDecl 2 .Integer "f" .null
      (funDecl 3 .Integer "main" (voidParams 3)
        (block 3 true .null (assign 4 (varRef 4 "f" .null .null) (const 4 1 .null) .null) .null)
        .null))

/-- Kind and line list of the entries of bucket `b` of scope `k`. -/
def State.uses (st : State) (k b : Nat) : List (SymbolKind × List Int) :=
  (st.chain k b).map fun e => (e.kind, e.lineList)

/-- The declaration `5: int g(void) { }`. -/
def gDecl : TreeNode :=
  funDecl 5 .Integer "g" (voidParams 5) (block 5 true .null .null .null) .null

/-- The tables after the built-ins and `insertSymbol(global, "g", Undetermined, Function,
2, NULL)`, the placeholder of a call. -/
def placeholderState : State :=
  stateOf (insertSymbol (some 0) (some "g") .Undetermined .FunctionSym 2 .null builtinState.get)

/-- The tables after a further `insertSymbol(global, "g", Integer, Function, 5, gDecl)`. -/
def promotedState : State :=
  stateOf (insertSymbol (some 0) (some "g") .Integer .FunctionSym 5 gDecl placeholderState)

/-- State and presence of the declaration node of the entries of bucket `b` of scope `k`. -/
def State.declared (st : State) (k b : Nat) : List (String × SemanticErrorState × Bool) :=
  (st.chain k b).map fun e => (e.name, e.state, decide (e.node ≠ .null))

/-! ## The hash function -/

/-- The base-16 positional value of a byte sequence, first byte most significant. -/
def positional (cs : List Char) : Nat :=
  cs.foldl (fun acc c => 16 * acc + c.toNat) 0

/-! ## Redefined stays -/

/-- Every symbol and every scope that is flagged Redefined in `st` is found at the same
place in `stn`, flagged Redefined. -/
def Sticky (st stn : State) : Prop :=
  (∀ (k b i : Nat) (e : SymbolRec), (st.chain k b)[i]? = some e → e.state = .STATE_REDEFINED →
    ∃ e1, (stn.chain k b)[i]? = some e1 ∧ e1.state = .STATE_REDEFINED) ∧
  ∀ (j : Nat) (s : ScopeRec), st.scopeList[j]? = some s → s.state = .STATE_REDEFINED →
    ∃ s1, stn.scopeList[j]? = some s1 ∧ s1.state = .STATE_REDEFINED

/-- The declaration `4: int h(void) { x = 1; { } }`. -/
def hDecl : TreeNode :=
  funDecl 4 .Integer "h" (voidParams 4)
    (block 4 true .null
      (assign 4 (varRef 4 "x" .null .null) (const 4 1 .null) (block 4 false .null .null .null))
      .null) .null

/-- The state of a completed visit (the initial state when it aborted). -/
def visitState (r : Except Fault (NodeData × State)) : State :=
  match r with
  | .ok x => x.2
  | .error _ => State.initial

/-- The program `1: int a;  2: int main(void) { 3: int a;  4: { 5: int a;  6: a = 1; }  7: a = 2; }`. -/
def progShadow : TreeNode :=
  varDecl 1 .Integer "a" .null
    (funDecl 2 .Integer "main" (voidParams 2)
      (block 2 true (varDecl 3 .Integer "a" .null .null)
        (block 4 false (varDecl 5 .Integer "a" .null .null)
          (assign 6 (varRef 6 "a" .null .null) (const 6 1 .null) .null)
          (assign 7 (varRef 7 "a" .null .null) (const 7 2 .null) .null))
        .null)
      .null)

/-- The state of pass 1 on `progShadow` when the block of line 4 has been entered: after
the pre-visits of `int a` (line 1), `main`, `int a` (line 3) and the block. -/
def shadowStart : State :=
  visitState (insertNode (block 4 false .null .null .null)
    (visitState (insertNode (varDecl 3 .Integer "a" .null .null)
      (visitState (insertNode (funDecl 2 .Integer "main" (voidParams 2) .null .null)
        (visitState (insertNode (varDecl 1 .Integer "a" .null .null) builtinState.get)))))))

/-- Line lists of the entries of bucket `b` of scope `k`, with name and state. -/
def State.lines (st : State) (k b : Nat) : List (String × SemanticErrorState × List Int) :=
  (st.chain k b).map fun e => (e.name, e.state, e.lineList)

/-- The state after the pre-visit of `5: int a;` in `shadowStart`. -/
def shadowDeclared : State :=
  visitState (insertNode (varDecl 5 .Integer "a" .null .null) shadowStart)

/-- The state after a further block has been entered in `shadowDeclared`. -/
def shadowDeeper : State :=
  visitState (insertNode (block 5 false .null .null .null) shadowDeclared)

/-! ## The current scope during pass 1 -/

/-- The node opens a scope in pass 1: a function declaration, or a compound statement
that is not flagged as a function body. -/
def opensScope (d : NodeData) : Bool :=
  decide (d.kind = .FunctionDecl) || (decide (d.kind = .CompoundStmt) && !d.flag)

/-- The scope in which the children of a node are visited: the scope written to the node
by its pre-visit when there is one, else the scope `g` around the node. -/
def innerScope (d1 : NodeData) (g : Option Nat) : Option Nat :=
  match d1.scope with
  | some sc => some sc
  | none => g

/-- The current scope at every pre-visit of a traversal, as far as the traversal gets: for
each invocation of `preProc` the node it is invoked on, the scope that is current then, and
the scope of the innermost scope-opening node around that node (`g` for the nodes that have
none around them in the tree). -/
def scopeTrace (preProc postProc : Proc) :
    TreeNode → State → Option Nat → List (NodeData × Option Nat × Option Nat)
  | .null, _, _ => []
  | .node d c0 c1 c2 sib, st, g =>
    (d, st.currentScope, g) ::
      match preProc (.node d c0 c1 c2 sib) st with
      | .error _ => []
      | .ok (d1, st1) =>
        scopeTrace preProc postProc c0 st1 (innerScope d1 g) ++
          match traverse preProc postProc c0 st1 with
          | .error _ => []
          | .ok (c0n, st2) =>
            scopeTrace preProc postProc c1 st2 (innerScope d1 g) ++
              match traverse preProc postProc c1 st2 with
              | .error _ => []
              | .ok (c1n, st3) =>
                scopeTrace preProc postProc c2 st3 (innerScope d1 g) ++
                  match traverse preProc postProc c2 st3 with
                  | .error _ => []
                  | .ok (c2n, st4) =>
                    match postProc (.node d1 c0n c1n c2n sib) st4 with
                    | .error _ => []
                    | .ok (_, st5) => scopeTrace preProc postProc sib st5 g

/-- The node data of the nodes of a tree, in the order of `TreeNode.reachable`. -/
def TreeNode.nodes : TreeNode → List NodeData
  | .null => []
  | .node d c0 c1 c2 sib => d :: (nodes c0 ++ (nodes c1 ++ (nodes c2 ++ nodes sib)))

/-- The program `1: int a;  2: int main(void) { 3: { 4: a = 1; }  5: a = 2; }  6: int f(void) { }`. -/
def progScopes : TreeNode :=
  varDecl 1 .Integer "a" .null
    (funDecl 2 .Integer "main" (voidParams 2)
      (block 2 true .null
        (block 3 false .null
          (assign 4 (varRef 4 "a" .null .null) (const 4 1 .null) .null)
          (assign 5 (varRef 5 "a" .null .null) (const 5 2 .null) .null))
        .null)
      (funDecl 6 .Integer "f" (voidParams 6) (block 6 true .null .null .null) .null))

/-! ## The owner of the scopes of a function -/

/-- The scopes written to the nodes of a tree. -/
def TreeNode.scopes : TreeNode → List Nat
  | .null => []
  | .node d c0 c1 c2 sib =>
    d.scope.toList ++ (scopes c0 ++ (scopes c1 ++ (scopes c2 ++ scopes sib)))

/-- The scopes written to a node and to the nodes below it (its siblings apart). -/
def TreeNode.ownScopes : TreeNode → List Nat
  | .null => []
  | .node d c0 c1 c2 _ => d.scope.toList ++ (c0.scopes ++ (c1.scopes ++ c2.scopes))

/-- The node `o` is the declaration with node data `fd`, as it was before pass 1 wrote its
`scope` field: kind, line, type, name, flag, operator and value agree. -/
def IsOwner (fd : NodeData) : TreeNode → Prop
  | .null => False
  | .node od _ _ _ _ => od = { fd with scope := od.scope }

/-- Every function declaration of the tree carries a scope, and the owner recorded by `fo`
for that scope and for every scope written below the declaration is that declaration. -/
def FunctionsOwn (fo : Nat → Option TreeNode) : TreeNode → Prop
  | .null => True
  | .node d c0 c1 c2 sib =>
    (d.kind = .FunctionDecl → d.scope.isSome = true ∧
      ∀ sc ∈ (TreeNode.node d c0 c1 c2 sib).ownScopes, ∃ o, fo sc = some o ∧ IsOwner d o) ∧
    FunctionsOwn fo c0 ∧ FunctionsOwn fo c1 ∧ FunctionsOwn fo c2 ∧ FunctionsOwn fo sib

/-- The owner recorded in the current scope (`currentScope->func`). -/
def State.owner (st : State) : Option TreeNode :=
  st.currentScope.bind st.funcOf

/-- The global scope has no owner. -/
def GlobalNull (st : State) : Prop :=
  st.globalScope.bind st.funcOf = some .null

/-- The innermost function declaration around or at a node: the node itself when it is
a function declaration, else the one around it. -/
def enclosing (t : TreeNode) (F : Option TreeNode) : Option TreeNode :=
  match t with
  | .null => F
  | .node d _ _ _ _ => if d.kind = .FunctionDecl then some t else F

/-- The current scope at every post-visit of a traversal, as far as the traversal gets:
for each invocation of `postProc` the node it is invoked on, the scope that is current
then, the owner recorded in that scope, and the innermost function declaration around or
at the node (`F` for the nodes that have none in the tree). -/
def postTrace (preProc postProc : Proc) :
    TreeNode → State → Option TreeNode →
      List (NodeData × Option Nat × Option TreeNode × Option TreeNode)
  | .null, _, _ => []
  | .node d c0 c1 c2 sib, st, F =>
    match preProc (.node d c0 c1 c2 sib) st with
    | .error _ => []
    | .ok (d1, st1) =>
      postTrace preProc postProc c0 st1 (enclosing (.node d c0 c1 c2 sib) F) ++
        match traverse preProc postProc c0 st1 with
        | .error _ => []
        | .ok (c0n, st2) =>
          postTrace preProc postProc c1 st2 (enclosing (.node d c0 c1 c2 sib) F) ++
            match traverse preProc postProc c1 st2 with
            | .error _ => []
            | .ok (c1n, st3) =>
              postTrace preProc postProc c2 st3 (enclosing (.node d c0 c1 c2 sib) F) ++
                match traverse preProc postProc c2 st3 with
                | .error _ => []
                | .ok (c2n, st4) =>
                  (d1, st4.currentScope, st4.owner, enclosing (.node d c0 c1 c2 sib) F) ::
                    match postProc (.node d1 c0n c1n c2n sib) st4 with
                    | .error _ => []
                    | .ok (_, st5) => postTrace preProc postProc sib st5 F

/-- The declaration `f` owns, by `fo`, every scope written to it and below it. -/
def Owns (fo : Nat → Option TreeNode) : TreeNode → Prop
  | .null => False
  | .node fd a b c s =>
    ∀ sc ∈ (TreeNode.node fd a b c s).ownScopes, ∃ o, fo sc = some o ∧ IsOwner fd o

/-- The scope `cur` is one of the scopes written to the declaration `f` and below it. -/
def InsideOf (f : TreeNode) (cur : Option Nat) : Prop :=
  ∃ c, cur = some c ∧ c ∈ f.ownScopes

/-- The name behind a node pointer. -/
def TreeNode.name? : TreeNode → Option String
  | .null => none
  | .node d _ _ _ _ => d.name

/-- The program `1: int f(void) { 2: { 3: { return 1; } }  4: return 2; }
5: void g(void) { 6: { }  7: return; }`. -/
def progReturns : TreeNode :=
  funDecl 1 .Integer "f" (voidParams 1)
    (block 1 true .null
      (block 2 false .null
        (block 3 false .null (ret 3 (const 3 1 .null) .null) .null)
        (ret 4 (const 4 2 .null) .null))
      .null)
    (funDecl 5 .Void "g" (voidParams 5)
      (block 5 true .null (block 6 false .null .null (ret 7 .null .null)) .null)
      .null)

/-- Line, current scope, name and type of the owner of the current scope, and name of the
function declaration around the node, for the post-visits of return statements. -/
def returnChecks (l : List (NodeData × Option Nat × Option TreeNode × Option TreeNode)) :
    List (Int × Option Nat × Option String × Option NodeType × Option String) :=
  (l.filter fun r => decide (r.1.kind = .ReturnStmt)).map fun r =>
    (r.1.lineno, r.2.1, r.2.2.1.bind TreeNode.name?, r.2.2.1.bind TreeNode.type?,
      r.2.2.2.bind TreeNode.name?)

/-! ## Declared symbols and their declaration nodes -/

theorem bind_ok_iff {α β : Type} (x : Except Fault α) (f : α → Except Fault β) (b : β) :
    (x >>= f) = .ok b ↔ ∃ a, x = .ok a ∧ f a = .ok b := by
  cases x with
  | error e => simp [bind, Except.bind]
  | ok a => simp [bind, Except.bind]

theorem pure_ok_iff {α : Type} (a b : α) : (pure a : Except Fault α) = .ok b ↔ a = b := by
  simp [pure, Except.pure]

theorem ERROR_CHECK_ok_iff (c : Bool) (u : Unit) : ERROR_CHECK c = .ok u ↔ c = true := by
  cases c <;> simp [ERROR_CHECK]

theorem derefScope_ok_iff (st : State) (p : Option Nat) (s : ScopeRec) :
    derefScope st p = .ok s ↔ ∃ k, p = some k ∧ st.scopeList[k]? = some s := by
  cases p with
  | none => simp [derefScope]
  | some k =>
    cases h : st.scopeList[k]? <;> simp [derefScope, h]

/-! ## The tree walker -/

theorem traverse_node_ok (preProc postProc : Proc) (d : NodeData) (c0 c1 c2 sib : TreeNode)
    (st : State) (r : TreeNode × State) :
    traverse preProc postProc (.node d c0 c1 c2 sib) st = .ok r ↔
      ∃ d1 st1 c0n st2 c1n st3 c2n st4 d2 st5 sibn st6,
        preProc (.node d c0 c1 c2 sib) st = .ok (d1, st1) ∧
        traverse preProc postProc c0 st1 = .ok (c0n, st2) ∧
        traverse preProc postProc c1 st2 = .ok (c1n, st3) ∧
        traverse preProc postProc c2 st3 = .ok (c2n, st4) ∧
        postProc (.node d1 c0n c1n c2n sib) st4 = .ok (d2, st5) ∧
        traverse preProc postProc sib st5 = .ok (sibn, st6) ∧
        r = (.node d2 c0n c1n c2n sibn, st6) := by
  simp only [traverse, bind_ok_iff, pure_ok_iff, Prod.exists]
  constructor
  · rintro ⟨d1, st1, h1, c0n, st2, h2, c1n, st3, h3, c2n, st4, h4, d2, st5, h5, sibn, st6, h6, h7⟩
    exact ⟨d1, st1, c0n, st2, c1n, st3, c2n, st4, d2, st5, sibn, st6, h1, h2, h3, h4, h5, h6, h7.symm⟩
  · rintro ⟨d1, st1, c0n, st2, c1n, st3, c2n, st4, d2, st5, sibn, st6, h1, h2, h3, h4, h5, h6, h7⟩
    exact ⟨d1, st1, h1, c0n, st2, h2, c1n, st3, h3, c2n, st4, h4, d2, st5, h5, sibn, st6, h6, h7.symm⟩

/-- Induction over a completed traversal. -/
theorem traverse_induct (preProc postProc : Proc)
    (R : TreeNode → State → TreeNode → State → Prop)
    (hnull : ∀ st, R .null st .null st)
    (hnode : ∀ d c0 c1 c2 sib st d1 st1 c0n st2 c1n st3 c2n st4 d2 st5 sibn st6,
      preProc (.node d c0 c1 c2 sib) st = .ok (d1, st1) →
      R c0 st1 c0n st2 → R c1 st2 c1n st3 → R c2 st3 c2n st4 →
      postProc (.node d1 c0n c1n c2n sib) st4 = .ok (d2, st5) →
      R sib st5 sibn st6 →
      R (.node d c0 c1 c2 sib) st (.node d2 c0n c1n c2n sibn) st6) :
    ∀ t st tn stn, traverse preProc postProc t st = .ok (tn, stn) → R t st tn stn := by
  intro t
  induction t with
  | null =>
    intro st tn stn h
    simp only [traverse, Except.ok.injEq, Prod.mk.injEq] at h
    obtain ⟨rfl, rfl⟩ := h
    exact hnull st
  | node d c0 c1 c2 sib ih0 ih1 ih2 ihs =>
    intro st tn stn h
    rw [traverse_node_ok] at h
    obtain ⟨d1, st1, c0n, st2, c1n, st3, c2n, st4, d2, st5, sibn, st6, h1, h2, h3, h4, h5, h6, h7⟩ := h
    simp only [Prod.mk.injEq] at h7
    obtain ⟨rfl, rfl⟩ := h7
    exact hnode _ _ _ _ _ _ _ _ _ _ _ _ _ _ _ _ _ _ h1
      (ih0 _ _ _ h2) (ih1 _ _ _ h3) (ih2 _ _ _ h4) h5 (ihs _ _ _ h6)

/-! ## Lists and the scope directory -/

theorem mem_updateAt {α : Type} (f : α → α) (l : List α) (k : Nat) (x : α)
    (h : x ∈ updateAt f l k) : x ∈ l ∨ ∃ y ∈ l, x = f y := by
  induction l generalizing k with
  | nil => simp [updateAt] at h
  | cons a rest ih =>
    cases k with
    | zero =>
      simp only [updateAt, List.mem_cons] at h
      rcases h with h | h
      · exact Or.inr ⟨a, by simp, h⟩
      · exact Or.inl (by simp [h])
    | succ k =>
      simp only [updateAt, List.mem_cons] at h
      rcases h with h | h
      · exact Or.inl (by simp [h])
      · rcases ih k h with h | ⟨y, hy, hxy⟩
        · exact Or.inl (by simp [h])
        · exact Or.inr ⟨y, by simp [hy], hxy⟩

theorem length_updateAt {α : Type} (f : α → α) (l : List α) (k : Nat) :
    (updateAt f l k).length = l.length := by
  induction l generalizing k with
  | nil => simp [updateAt]
  | cons a rest ih => cases k <;> simp [updateAt, ih]

theorem getElem?_updateAt {α : Type} (f : α → α) (l : List α) (k j : Nat) :
    (updateAt f l k)[j]? = if j = k then (l[j]?).map f else l[j]? := by
  induction l generalizing k j with
  | nil => simp [updateAt]
  | cons a rest ih =>
    cases k with
    | zero => cases j <;> simp [updateAt]
    | succ k => cases j <;> simp [updateAt, ih]

theorem Emits_refl (st : State) : Emits st st [] := by
  simp [Emits]

theorem Emits_trans {a b c : State} {n1 n2 : List Diag} (h1 : Emits a b n1) (h2 : Emits b c n2) :
    Emits a c (n1 ++ n2) := by
  obtain ⟨h1l, h1e⟩ := h1
  obtain ⟨h2l, h2e⟩ := h2
  refine ⟨by rw [h2l, h1l, List.append_assoc], ?_⟩
  rw [h2e, h1e]
  cases n1 <;> cases n2 <;> simp

theorem Emits_report (d : Diag) (st : State) : Emits st (report d st) [d] := by
  simp [Emits, CMinus.report]

theorem Emits_of_eq {st stn : State} (hl : stn.listing = st.listing) (he : stn.Error = st.Error) :
    Emits st stn [] := by
  simp [Emits, hl, he]

theorem AllSym_modifyScope {P : SymbolRec → Prop} {st : State} (k : Nat) (f : ScopeRec → ScopeRec)
    (h : AllSym P st)
    (hf : ∀ s, (∀ b, ∀ e ∈ s.symbolList b, P e) → ∀ b, ∀ e ∈ (f s).symbolList b, P e) :
    AllSym P (modifyScope st k f) := by
  intro s hs b e he
  simp only [CMinus.modifyScope] at hs
  rcases mem_updateAt f _ k s hs with hs | ⟨y, hy, rfl⟩
  · exact h s hs b e he
  · exact hf y (h y hy) b e he

theorem AllSym_modifySymbol {P : SymbolRec → Prop} {st : State} (p : SymPtr) (f : SymbolRec → SymbolRec)
    (h : AllSym P st) (hf : ∀ e, P e → P (f e)) :
    AllSym P (modifySymbol st p f) := by
  apply AllSym_modifyScope _ _ h
  intro s hs b e he
  simp only [Function.update_apply] at he
  split at he
  · rcases mem_updateAt f _ _ e he with he | ⟨y, hy, rfl⟩
    · exact hs _ e he
    · exact hf y (hs _ y hy)
  · exact hs b e he

/-! ## What the operations of symtab.c do to the diagnostics and to the symbols -/

theorem insertScope_ok {name : Option String} {parent : Option Nat} {func : TreeNode} {st stn : State}
    {k : Nat} (h : insertScope name parent func st = .ok (k, stn)) :
    ∃ st1 scope, stn = { st1 with scopeList := st1.scopeList ++ [scope] } ∧ k = st1.scopeList.length ∧
      (st1 = st ∨ ∃ j, st1 = modifyScope st j fun s => { s with numScopes := s.numScopes + 1 }) ∧
      scope.symbolList = (fun _ => []) ∧ scope.parent = parent ∧ scope.func = func ∧
      scope.numSymbols = 0 ∧ scope.numScopes = 0 := by
  simp only [insertScope, bind_ok_iff, pure_ok_iff, Prod.exists] at h
  obtain ⟨_, _, scopeName, st1, h1, red0, _, red, _, h2⟩ := h
  simp only [Prod.mk.injEq] at h2
  obtain ⟨rfl, rfl⟩ := h2
  refine ⟨st1, _, rfl, rfl, ?_, rfl, rfl, rfl, rfl, rfl⟩
  cases name with
  | none =>
    simp only [bind_ok_iff, pure_ok_iff, Prod.mk.injEq] at h1
    obtain ⟨p, _, _, rfl⟩ := h1
    exact Or.inr ⟨_, rfl⟩
  | some n =>
    simp only [pure_ok_iff, Prod.mk.injEq] at h1
    exact Or.inl h1.2.symm

theorem insertScope_emits {name : Option String} {parent : Option Nat} {func : TreeNode} {st stn : State}
    {k : Nat} (h : insertScope name parent func st = .ok (k, stn)) : Emits st stn [] := by
  obtain ⟨st1, scope, rfl, _, h1, _⟩ := insertScope_ok h
  rcases h1 with rfl | ⟨j, rfl⟩ <;> exact Emits_of_eq rfl rfl

theorem insertScope_allSym {P : SymbolRec → Prop} {name : Option String} {parent : Option Nat}
    {func : TreeNode} {st stn : State} {k : Nat}
    (h : insertScope name parent func st = .ok (k, stn)) (hP : AllSym P st) : AllSym P stn := by
  obtain ⟨st1, scope, rfl, _, h1, hsym, _⟩ := insertScope_ok h
  have h1P : AllSym P st1 := by
    rcases h1 with rfl | ⟨j, rfl⟩
    · exact hP
    · exact AllSym_modifyScope _ _ hP (fun s hs => hs)
  intro s hs b e he
  simp only [List.mem_append, List.mem_singleton] at hs
  rcases hs with hs | rfl
  · exact h1P s hs b e he
  · simp [hsym] at he

theorem insertSymbol_ok {cs : Option Nat} {name : Option String} {type : NodeType} {kind : SymbolKind}
    {lineno : Int} {node : TreeNode} {st stn : State} {p : SymPtr}
    (h : insertSymbol cs name type kind lineno node st = .ok (p, stn)) :
    ∃ k nm s, cs = some k ∧ name = some nm ∧ st.scopeList[k]? = some s ∧
      ((∃ i, insertSymbol.scan nm (s.symbolList (hash nm)) .STATE_NORMAL = .inl i ∧
          p = ⟨k, hash nm, i⟩ ∧
          stn = modifySymbol st ⟨k, hash nm, i⟩ fun e =>
            { e with type := type
                     state := if node = .null then .STATE_UNDECLARED else .STATE_NORMAL }) ∨
       (∃ state, insertSymbol.scan nm (s.symbolList (hash nm)) .STATE_NORMAL = .inr state ∧
          p = ⟨k, hash nm, (s.symbolList (hash nm)).length⟩ ∧
          stn = modifyScope st k fun s1 =>
            { s1 with numSymbols := s1.numSymbols + 1
                      symbolList := Function.update s1.symbolList (hash nm)
                        (s.symbolList (hash nm) ++
                          [freshSymbol nm type kind lineno node state s.numSymbols]) })) := by
  simp only [insertSymbol, bind_ok_iff, ERROR_CHECK_ok_iff, derefScope_ok_iff, Bool.and_eq_true,
    Option.isSome_iff_exists] at h
  obtain ⟨_, ⟨⟨k, rfl⟩, ⟨nm, rfl⟩⟩, s, ⟨k2, hk, hs⟩, h⟩ := h
  simp only [Option.some.injEq] at hk
  subst hk
  refine ⟨k, nm, s, rfl, rfl, hs, ?_⟩
  simp only [Option.getD_some] at h
  split at h
  · next i hi =>
    simp only [pure_ok_iff, Prod.mk.injEq] at h
    exact Or.inl ⟨i, hi, h.1.symm, h.2.symm⟩
  · next state hstate =>
    simp only [pure_ok_iff, Prod.mk.injEq] at h
    exact Or.inr ⟨state, hstate, h.1.symm, h.2.symm⟩

theorem insertSymbol_emits {cs : Option Nat} {name : Option String} {type : NodeType} {kind : SymbolKind}
    {lineno : Int} {node : TreeNode} {st stn : State} {p : SymPtr}
    (h : insertSymbol cs name type kind lineno node st = .ok (p, stn)) : Emits st stn [] := by
  obtain ⟨k, nm, s, _, _, _, h⟩ := insertSymbol_ok h
  rcases h with ⟨i, _, _, rfl⟩ | ⟨state, _, _, rfl⟩ <;> exact Emits_of_eq rfl rfl

theorem insertSymbol_allSym {P : SymbolRec → Prop} {cs : Option Nat} {name : Option String}
    {type : NodeType} {kind : SymbolKind} {lineno : Int} {node : TreeNode} {st stn : State} {p : SymPtr}
    (h : insertSymbol cs name type kind lineno node st = .ok (p, stn)) (hP : AllSym P st)
    (hpromote : ∀ e, P e → P { e with type := type
                                      state := if node = .null then .STATE_UNDECLARED else .STATE_NORMAL })
    (hfresh : ∀ nm state memloc, P (freshSymbol nm type kind lineno node state memloc)) :
    AllSym P stn := by
  obtain ⟨k, nm, s, _, _, hs, h⟩ := insertSymbol_ok h
  rcases h with ⟨i, _, _, rfl⟩ | ⟨state, _, _, rfl⟩
  · exact AllSym_modifySymbol _ _ hP hpromote
  · have hsP : ∀ b, ∀ e ∈ s.symbolList b, P e := fun b e he => hP s (List.getElem?_mem hs) b e he
    apply AllSym_modifyScope _ _ hP
    intro s1 hs1 b e he
    simp only [Function.update_apply] at he
    split at he
    · simp only [List.mem_append, List.mem_singleton] at he
      rcases he with he | rfl
      · exact hsP _ e he
      · exact hfresh _ _ _
    · exact hs1 b e he

theorem appendSymbol_ok {cs : Option Nat} {name : Option String} {lineno : Int} {st stn : State}
    {p : SymPtr} (h : appendSymbol cs name lineno st = .ok (p, stn)) :
    ∃ nm, name = some nm ∧ cs.isSome = true ∧
      lookupWalk st (hash nm) (fun e => decide (e.name = nm)) st.scopeList.length cs = .ok (some p) ∧
      stn = modifySymbol st p fun e => { e with lineList := e.lineList ++ [lineno] } := by
  simp only [appendSymbol, bind_ok_iff, ERROR_CHECK_ok_iff, Bool.and_eq_true,
    Option.isSome_iff_exists] at h
  obtain ⟨_, ⟨⟨k, rfl⟩, ⟨nm, rfl⟩⟩, found, hfound, h⟩ := h
  cases found with
  | none => simp at h
  | some q =>
    simp only [pure_ok_iff, Prod.mk.injEq] at h
    obtain ⟨rfl, rfl⟩ := h
    exact ⟨nm, rfl, rfl, hfound, rfl⟩

theorem appendSymbol_emits {cs : Option Nat} {name : Option String} {lineno : Int} {st stn : State}
    {p : SymPtr} (h : appendSymbol cs name lineno st = .ok (p, stn)) : Emits st stn [] := by
  obtain ⟨nm, _, _, _, rfl⟩ := appendSymbol_ok h
  exact Emits_of_eq rfl rfl

theorem appendSymbol_allSym {P : SymbolRec → Prop} {cs : Option Nat} {name : Option String}
    {lineno : Int} {st stn : State} {p : SymPtr}
    (h : appendSymbol cs name lineno st = .ok (p, stn)) (hP : AllSym P st)
    (hline : ∀ e, P e → P { e with lineList := e.lineList ++ [lineno] }) : AllSym P stn := by
  obtain ⟨nm, _, _, _, rfl⟩ := appendSymbol_ok h
  exact AllSym_modifySymbol _ _ hP hline

theorem RedefinitionError_loop_frame (name : String) (k hashIdx : Nat) (rest : List SymbolRec) :
    ∀ (i : Nat) (st : State) (cited : List Int) (stn : State) (citedn : List Int),
      RedefinitionError.loop name k hashIdx rest i st cited = .ok (stn, citedn) →
      stn.listing = st.listing ∧ stn.Error = st.Error ∧ stn.globalScope = st.globalScope ∧
        stn.currentScope = st.currentScope := by
  induction rest with
  | nil =>
    intro i st cited stn citedn h
    simp only [RedefinitionError.loop, Except.ok.injEq, Prod.mk.injEq] at h
    obtain ⟨rfl, _⟩ := h
    exact ⟨rfl, rfl, rfl, rfl⟩
  | cons e rest ih =>
    intro i st cited stn citedn h
    simp only [RedefinitionError.loop] at h
    split at h
    · split at h
      · simp at h
      · split at h
        · split at h
          · split at h
            · simp at h
            · exact (ih _ _ _ _ _ h :)
          · simp at h
        · split at h
          · simp at h
          · exact (ih _ _ _ _ _ h :)
    · exact (ih _ _ _ _ _ h :)

theorem RedefinitionError_emits {name : String} {lineno : Int} {symbol : SymPtr} {st stn : State}
    (h : RedefinitionError name lineno symbol st = .ok stn) :
    ∃ cited, Emits st stn [.redefinition name lineno cited] := by
  simp only [RedefinitionError, bind_ok_iff, pure_ok_iff, Prod.exists] at h
  obtain ⟨s, _, st1, cited, hloop, rfl⟩ := h
  obtain ⟨hl, he, _, _⟩ := RedefinitionError_loop_frame _ _ _ _ _ _ _ _ _ hloop
  refine ⟨cited, ?_⟩
  simp [Emits, report, hl]

theorem insertNode_redefined_ok {scope : Option Nat} {d : NodeData} {st stn : State}
    (h : insertNode.redefined scope d st = .ok stn) :
    stn = st ∨ ∃ nm cited, Emits st stn [.redefinition nm d.lineno cited] := by
  simp only [insertNode.redefined, bind_ok_iff] at h
  obtain ⟨symbol, _, h⟩ := h
  cases symbol with
  | none =>
    simp only [pure_ok_iff] at h
    exact Or.inl h.symm
  | some p =>
    obtain ⟨cited, hc⟩ := RedefinitionError_emits h
    exact Or.inr ⟨_, cited, hc⟩

theorem Emits_nil_of_append {a b : State} {n1 n2 : List Diag} (_h : Emits a b (n1 ++ n2))
    (hnil : n1 ++ n2 = []) : n1 = [] ∧ n2 = [] := by
  simpa using hnil

theorem voidCheck_emits (d : NodeData) (st : State) :
    ∃ new, Emits st (if d.type = .Void ∨ d.type = .VoidArray then VoidTypeVariableError d.name d.lineno st
      else st) new ∧ (new = [] → (if d.type = .Void ∨ d.type = .VoidArray
        then VoidTypeVariableError d.name d.lineno st else st) = st) := by
  by_cases hv : d.type = .Void ∨ d.type = .VoidArray
  · rw [if_pos hv]
    exact ⟨_, Emits_report _ _, by simp⟩
  · rw [if_neg hv]
    exact ⟨[], Emits_refl _, fun _ => rfl⟩

/-- The declaration cases of `insertNode` (variable and parameter). -/
theorem declareVariable_types {d : NodeData} {t : TreeNode} {st stn : State} {p : SymPtr}
    (st2 : State)
    (h2 : insertNode.redefined
      (if d.type = .Void ∨ d.type = .VoidArray then VoidTypeVariableError d.name d.lineno st else st).currentScope d
      (if d.type = .Void ∨ d.type = .VoidArray then VoidTypeVariableError d.name d.lineno st else st) = .ok st2)
    (h3 : insertSymbol st2.currentScope d.name d.type .VariableSym d.lineno t st2 = .ok (p, stn)) :
    ∃ new, Emits st stn new ∧
      (d.type.resolved = true → new = [] → TypesResolved st → TypesResolved stn) := by
  obtain ⟨n1, e1, hn1⟩ := voidCheck_emits d st
  have e3 := insertSymbol_emits h3
  rcases insertNode_redefined_ok h2 with h | ⟨nm, cited, e2⟩
  · subst h
    refine ⟨n1 ++ [], Emits_trans e1 e3, ?_⟩
    intro hres hnil hP
    simp only [List.append_nil] at hnil
    rw [hn1 hnil] at h3
    exact insertSymbol_allSym h3 hP (fun e _ => hres) (fun _ _ _ => hres)
  · refine ⟨n1 ++ ([_] ++ []), Emits_trans e1 (Emits_trans e2 e3), ?_⟩
    intro _ hnil
    simp at hnil

theorem insertNode_types {d d1 : NodeData} {c0 c1 c2 sib : TreeNode} {st stn : State}
    (h : insertNode (.node d c0 c1 c2 sib) st = .ok (d1, stn)) :
    ∃ new, Emits st stn new ∧
      ((d.kind.isDecl = true → d.type.resolved = true) → new = [] →
        TypesResolved st → TypesResolved stn) := by
  simp only [insertNode] at h
  split at h
  · -- VariableDecl
    next hk =>
    simp only [bind_ok_iff, pure_ok_iff, Prod.exists, Prod.mk.injEq] at h
    obtain ⟨st2, h2, p, st3, h3, _, rfl⟩ := h
    obtain ⟨new, e, hp⟩ := declareVariable_types st2 h2 h3
    exact ⟨new, e, fun hdecl => hp (hdecl (by simp [hk, NodeKind.isDecl]))⟩
  · -- FunctionDecl
    next hk =>
    simp only [bind_ok_iff, pure_ok_iff, Prod.exists, Prod.mk.injEq] at h
    obtain ⟨_, _, st1, h1, p, st2, h2, sc, st3, h3, _, rfl⟩ := h
    have e2 := insertSymbol_emits h2
    have e3 := insertScope_emits h3
    have e4 : Emits st3 ({ (modifySymbol st3 p fun e =>
        if e.node = .node d c0 c1 c2 sib then { e with node := e.node.setScope sc } else e) with
        currentScope := some sc }) [] := Emits_of_eq rfl rfl
    rcases insertNode_redefined_ok h1 with h | ⟨nm, cited, e1⟩
    · subst h
      refine ⟨[] ++ ([] ++ []), Emits_trans e2 (Emits_trans e3 e4), ?_⟩
      intro hdecl _ hP
      have hres := hdecl (by simp [hk, NodeKind.isDecl])
      have hP2 := insertSymbol_allSym h2 hP (fun e _ => hres) (fun _ _ _ => hres)
      have hP3 := insertScope_allSym h3 hP2
      have hP4 : AllSym (fun e => e.type.resolved = true) (modifySymbol st3 p fun e =>
          if e.node = .node d c0 c1 c2 sib then { e with node := e.node.setScope sc } else e) := by
        apply AllSym_modifySymbol _ _ hP3
        intro e he
        split <;> exact he
      exact hP4
    · refine ⟨[_] ++ ([] ++ ([] ++ [])), Emits_trans e1 (Emits_trans e2 (Emits_trans e3 e4)), ?_⟩
      intro _ hnil
      simp at hnil
  · -- Params
    next hk =>
    split at h
    · simp only [Except.ok.injEq, Prod.mk.injEq] at h
      obtain ⟨_, rfl⟩ := h
      exact ⟨[], Emits_refl _, fun _ _ hP => hP⟩
    · simp only [bind_ok_iff, pure_ok_iff, Prod.exists, Prod.mk.injEq] at h
      obtain ⟨st2, h2, p, st3, h3, _, rfl⟩ := h
      obtain ⟨new, e, hp⟩ := declareVariable_types st2 h2 h3
      exact ⟨new, e, fun hdecl => hp (hdecl (by simp [hk, NodeKind.isDecl]))⟩
  · -- CompoundStmt
    split at h
    · simp only [Except.ok.injEq, Prod.mk.injEq] at h
      obtain ⟨_, rfl⟩ := h
      exact ⟨[], Emits_refl _, fun _ _ hP => hP⟩
    · simp only [bind_ok_iff, pure_ok_iff, Prod.exists, Prod.mk.injEq] at h
      obtain ⟨cur, _, sc, st1, h1, _, rfl⟩ := h
      have e1 := insertScope_emits h1
      have e2 : Emits st1 { st1 with currentScope := some sc } [] := Emits_of_eq rfl rfl
      refine ⟨[] ++ [], Emits_trans e1 e2, ?_⟩
      intro _ _ hP
      exact fun s hs => insertScope_allSym h1 hP s hs
  · -- CallExpr
    simp only [bind_ok_iff, Prod.exists] at h
    obtain ⟨func, _, h⟩ := h
    cases func with
    | none =>
      simp only [bind_ok_iff, pure_ok_iff, Prod.exists, Prod.mk.injEq, UndeclaredFunctionError] at h
      obtain ⟨p, st1, h1, _, rfl⟩ := h
      have e1 := insertSymbol_emits h1
      refine ⟨[_] ++ [], Emits_trans (Emits_report _ st) e1, ?_⟩
      intro _ hnil
      simp at hnil
    | some q =>
      simp only [bind_ok_iff, pure_ok_iff, Prod.exists, Prod.mk.injEq] at h
      obtain ⟨p, st1, h1, _, rfl⟩ := h
      exact ⟨[], appendSymbol_emits h1, fun _ _ hP => appendSymbol_allSym h1 hP (fun e he => he)⟩
  · -- VarAccessExpr
    simp only [bind_ok_iff, Prod.exists] at h
    obtain ⟨var, _, h⟩ := h
    cases var with
    | none =>
      simp only [bind_ok_iff, pure_ok_iff, Prod.exists, Prod.mk.injEq, UndeclaredVariableError] at h
      obtain ⟨p, st1, h1, _, rfl⟩ := h
      have e1 := insertSymbol_emits h1
      refine ⟨[_] ++ [], Emits_trans (Emits_report _ st) e1, ?_⟩
      intro _ hnil
      simp at hnil
    | some q =>
      simp only [bind_ok_iff, pure_ok_iff, Prod.exists, Prod.mk.injEq] at h
      obtain ⟨p, st1, h1, _, rfl⟩ := h
      exact ⟨[], appendSymbol_emits h1, fun _ _ hP => appendSymbol_allSym h1 hP (fun e he => he)⟩
  all_goals first
    | (simp only [Except.ok.injEq, Prod.mk.injEq] at h
       obtain ⟨_, rfl⟩ := h
       exact ⟨[], Emits_refl _, fun _ _ hP => hP⟩)
    | simp at h

theorem TreeNode_Rel_kind_eq {r : NodeData → NodeData → Prop} (hr : ∀ d e, r d e → e.kind = d.kind) :
    ∀ {t tn : TreeNode}, TreeNode.Rel r t tn → tn.kind? = t.kind? := by
  intro t tn h
  cases t <;> cases tn <;> simp only [TreeNode.Rel] at h
  · rfl
  · simp [TreeNode.kind?, hr _ _ h.1]

theorem ExprOperands_of_rel {r : NodeData → NodeData → Prop} (hr : ∀ d e, r d e → e.kind = d.kind) :
    ∀ {t tn : TreeNode}, TreeNode.Rel r t tn → ExprOperands t → ExprOperands tn := by
  intro t
  induction t with
  | null =>
    intro tn h _
    cases tn
    · trivial
    · simp [TreeNode.Rel] at h
  | node d c0 c1 c2 sib ih0 ih1 ih2 ihs =>
    intro tn h ht
    cases tn with
    | null => simp [TreeNode.Rel] at h
    | node e e0 e1 e2 esib =>
      simp only [TreeNode.Rel] at h
      obtain ⟨hd, h0, h1, h2, h3⟩ := h
      obtain ⟨hk, t0, t1, t2, t3⟩ := ht
      refine ⟨?_, ih0 h0 t0, ih1 h1 t1, ih2 h2 t2, ihs h3 t3⟩
      rw [hr _ _ hd, TreeNode_Rel_kind_eq hr h0]
      exact hk

theorem onlyScope_kind (d e : NodeData) (h : onlyScope d e) : e.kind = d.kind := by
  rw [h]

theorem onlyType_kind (d e : NodeData) (h : onlyType d e) : e.kind = d.kind := by
  rw [h]

theorem scopeOut_ok {d d1 : NodeData} {c0 c1 c2 sib : TreeNode} {st stn : State}
    (h : scopeOut (.node d c0 c1 c2 sib) st = .ok (d1, stn)) :
    d1 = d ∧ stn.scopeList = st.scopeList ∧ stn.globalScope = st.globalScope ∧ stn.Error = st.Error ∧
      stn.listing = st.listing ∧
      ((d.scope = none ∧ stn = st) ∨
        ∃ sc s, d.scope = some sc ∧ st.scopeList[sc]? = some s ∧
          stn = { st with currentScope := s.parent }) := by
  simp only [scopeOut] at h
  split at h
  · next sc hsc =>
    simp only [bind_ok_iff, pure_ok_iff, derefScope_ok_iff, Prod.mk.injEq, Option.some.injEq] at h
    obtain ⟨s, ⟨k, rfl, hs⟩, rfl, rfl⟩ := h
    exact ⟨rfl, rfl, rfl, rfl, rfl, Or.inr ⟨_, s, hsc, hs, rfl⟩⟩
  · next hsc =>
    simp only [Except.ok.injEq, Prod.mk.injEq] at h
    obtain ⟨rfl, rfl⟩ := h
    exact ⟨rfl, rfl, rfl, rfl, rfl, Or.inl ⟨hsc, rfl⟩⟩

theorem scopeIn_ok {d d1 : NodeData} {c0 c1 c2 sib : TreeNode} {st stn : State}
    (h : scopeIn (.node d c0 c1 c2 sib) st = .ok (d1, stn)) :
    d1 = d ∧ stn.scopeList = st.scopeList ∧ stn.globalScope = st.globalScope ∧ stn.Error = st.Error ∧
      stn.listing = st.listing ∧
      stn.currentScope = (match d.scope with | some sc => some sc | none => st.currentScope) := by
  cases hsc : d.scope with
  | some sc =>
    simp only [scopeIn, hsc, Except.ok.injEq, Prod.mk.injEq] at h
    obtain ⟨rfl, rfl⟩ := h
    exact ⟨rfl, rfl, rfl, rfl, rfl, rfl⟩
  | none =>
    simp only [scopeIn, hsc, Except.ok.injEq, Prod.mk.injEq] at h
    obtain ⟨rfl, rfl⟩ := h
    exact ⟨rfl, rfl, rfl, rfl, rfl, rfl⟩

theorem insertNode_onlyScope {d d1 : NodeData} {c0 c1 c2 sib : TreeNode} {st stn : State}
    (h : insertNode (.node d c0 c1 c2 sib) st = .ok (d1, stn)) : onlyScope d d1 := by
  simp only [insertNode] at h
  split at h
  · simp only [bind_ok_iff, pure_ok_iff, Prod.exists, Prod.mk.injEq] at h
    obtain ⟨_, _, _, _, _, rfl, _⟩ := h
    rfl
  · simp only [bind_ok_iff, pure_ok_iff, Prod.exists, Prod.mk.injEq] at h
    obtain ⟨_, _, _, _, _, _, _, _, _, _, rfl, _⟩ := h
    rfl
  · split at h
    · simp only [Except.ok.injEq, Prod.mk.injEq] at h
      rw [← h.1]; rfl
    · simp only [bind_ok_iff, pure_ok_iff, Prod.exists, Prod.mk.injEq] at h
      obtain ⟨_, _, _, _, _, rfl, _⟩ := h
      rfl
  · split at h
    · simp only [Except.ok.injEq, Prod.mk.injEq] at h
      rw [← h.1]; rfl
    · simp only [bind_ok_iff, pure_ok_iff, Prod.exists, Prod.mk.injEq] at h
      obtain ⟨_, _, _, _, _, rfl, _⟩ := h
      rfl
  · simp only [bind_ok_iff, Prod.exists] at h
    obtain ⟨func, _, h⟩ := h
    cases func <;>
    · simp only [bind_ok_iff, pure_ok_iff, Prod.exists, Prod.mk.injEq] at h
      obtain ⟨_, _, _, rfl, _⟩ := h
      rfl
  · simp only [bind_ok_iff, Prod.exists] at h
    obtain ⟨func, _, h⟩ := h
    cases func <;>
    · simp only [bind_ok_iff, pure_ok_iff, Prod.exists, Prod.mk.injEq] at h
      obtain ⟨_, _, _, rfl, _⟩ := h
      rfl
  all_goals first
    | (simp only [Except.ok.injEq, Prod.mk.injEq] at h
       rw [← h.1]; rfl)
    | simp at h

/-- Pass 1 over a subtree: only `scope` fields change, and while no diagnostic is
written every symbol keeps a resolved type. -/
theorem pass1_types (t : TreeNode) (st : State) (tn : TreeNode) (stn : State)
    (h : traverse insertNode scopeOut t st = .ok (tn, stn)) :
    TreeNode.Rel onlyScope t tn ∧
      ∃ new, Emits st stn new ∧
        (DeclTypesResolved t → new = [] → TypesResolved st → TypesResolved stn) := by
  revert t st tn stn
  apply traverse_induct
  · intro st
    exact ⟨trivial, [], Emits_refl _, fun _ _ h => h⟩
  · intro d c0 c1 c2 sib st d1 st1 c0n st2 c1n st3 c2n st4 d2 st5 sibn st6 hpre r0 r1 r2 hpost rs
    obtain ⟨rel0, n0, e0, p0⟩ := r0
    obtain ⟨rel1, n1, e1, p1⟩ := r1
    obtain ⟨rel2, n2, e2, p2⟩ := r2
    obtain ⟨rels, ns, es, ps⟩ := rs
    obtain ⟨rfl, hsl, _, herr, hlist, _⟩ := scopeOut_ok hpost
    have hd := insertNode_onlyScope hpre
    refine ⟨⟨hd, rel0, rel1, rel2, rels⟩, ?_⟩
    have epost : Emits st4 st5 [] := Emits_of_eq hlist herr
    obtain ⟨npre, epre, ppre⟩ := insertNode_types hpre
    refine ⟨npre ++ (n0 ++ (n1 ++ (n2 ++ ([] ++ ns)))),
      Emits_trans epre (Emits_trans e0 (Emits_trans e1 (Emits_trans e2 (Emits_trans epost es)))), ?_⟩
    intro hdecl hnil hP
    obtain ⟨hd0, t0, t1, t2, ts⟩ := hdecl
    simp only [List.append_eq_nil, List.nil_append] at hnil
    obtain ⟨hnpre, hn0, hn1, hn2, hns⟩ := hnil
    have q1 := ppre hd0 hnpre hP
    have q2 := p0 t0 hn0 q1
    have q3 := p1 t1 hn1 q2
    have q4 := p2 t2 hn2 q3
    have q5 : TypesResolved st5 := by
      intro s hs
      rw [hsl] at hs
      exact q4 s hs
    exact ps ts hns q5

theorem derefSymbol_mem {st : State} {p : SymPtr} {e : SymbolRec} (h : derefSymbol st p = some e) :
    ∃ s ∈ st.scopeList, e ∈ s.symbolList p.bucket := by
  simp only [derefSymbol] at h
  split at h
  · simp at h
  · next s hs => exact ⟨s, List.getElem?_mem hs, List.getElem?_mem h⟩

theorem TypesResolved_of_scopeList_eq {st stn : State} (h : stn.scopeList = st.scopeList)
    (hP : TypesResolved st) : TypesResolved stn := by
  intro s hs
  rw [h] at hs
  exact hP s hs

theorem declareBuiltInFunction_types {st stn : State} (h : declareBuiltInFunction st = .ok stn) :
    Emits st stn [] ∧ (TypesResolved st → TypesResolved stn) := by
  simp only [declareBuiltInFunction, bind_ok_iff, pure_ok_iff, Prod.exists] at h
  obtain ⟨p1, st1, h1, p2, st2, h2, sc, st3, h3, p4, st4, h4, rfl⟩ := h
  refine ⟨Emits_trans (insertSymbol_emits h1) (Emits_trans (insertSymbol_emits h2)
    (Emits_trans (insertScope_emits h3) (insertSymbol_emits h4))), ?_⟩
  intro hP
  have q1 := insertSymbol_allSym h1 hP (fun e _ => rfl) (fun _ _ _ => rfl)
  have q2 := insertSymbol_allSym h2 q1 (fun e _ => rfl) (fun _ _ _ => rfl)
  have q3 := insertScope_allSym h3 q2
  exact insertSymbol_allSym h4 q3 (fun e _ => rfl) (fun _ _ _ => rfl)

/-- Pass 1 from any state. -/
theorem buildSymtab_types {t tn : TreeNode} {st stn : State}
    (h : buildSymtab t st = .ok (tn, stn)) :
    TreeNode.Rel onlyScope t tn ∧
      ∃ new, Emits st stn new ∧
        (DeclTypesResolved t → new = [] → TypesResolved st → TypesResolved stn) := by
  simp only [buildSymtab, bind_ok_iff, Prod.exists] at h
  obtain ⟨g, st1, h1, st3, h3, h4⟩ := h
  obtain ⟨hrel, new, e, hp⟩ := pass1_types _ _ _ _ h4
  obtain ⟨e3, hp3⟩ := declareBuiltInFunction_types h3
  have e1 := insertScope_emits h1
  have e2 : Emits st1 { st1 with globalScope := some g, currentScope := some g } [] :=
    Emits_of_eq rfl rfl
  refine ⟨hrel, [] ++ ([] ++ ([] ++ new)), Emits_trans e1 (Emits_trans e2 (Emits_trans e3 e)), ?_⟩
  intro hdecl hnil hP
  simp only [List.nil_append] at hnil
  apply hp hdecl hnil
  apply hp3
  exact fun s hs => insertScope_allSym h1 hP s hs

theorem checkNode_args_frame (name : Option String) (lineno : Int) (a : TreeNode) :
    ∀ (p : TreeNode) (st : State),
      (checkNode.args name lineno a p st).2.2.scopeList = st.scopeList ∧
      (checkNode.args name lineno a p st).2.2.globalScope = st.globalScope ∧
      (checkNode.args name lineno a p st).2.2.currentScope = st.currentScope ∧
      ∃ new, Emits st (checkNode.args name lineno a p st).2.2 new := by
  induction a with
  | null =>
    intro p st
    exact ⟨rfl, rfl, rfl, [], Emits_refl _⟩
  | node ad a0 a1 a2 asib _ _ _ ih =>
    intro p st
    cases p with
    | null => exact ⟨rfl, rfl, rfl, _, Emits_report _ _⟩
    | node pd p0 p1 p2 psib =>
      simp only [checkNode.args]
      split
      · exact ⟨rfl, rfl, rfl, _, Emits_report _ _⟩
      · split
        · exact ⟨rfl, rfl, rfl, _, Emits_report _ _⟩
        · exact ih psib st

theorem Quiet_refl (st : State) : Quiet st st :=
  ⟨rfl, rfl, rfl, [], Emits_refl _⟩

theorem Quiet_report (d : Diag) (st : State) : Quiet st (report d st) :=
  ⟨rfl, rfl, rfl, [d], Emits_report _ _⟩

theorem Quiet_ite {st a b : State} {c : Prop} [Decidable c] (ha : Quiet st a) (hb : Quiet st b) :
    Quiet st (if c then a else b) := by
  split
  · exact ha
  · exact hb

theorem Quiet_trans {a b c : State} (h1 : Quiet a b) (h2 : Quiet b c) : Quiet a c := by
  obtain ⟨a1, a2, a3, n1, e1⟩ := h1
  obtain ⟨b1, b2, b3, n2, e2⟩ := h2
  exact ⟨b1.trans a1, b2.trans a2, b3.trans a3, _, Emits_trans e1 e2⟩

theorem checkNode_args_quiet (name : Option String) (lineno : Int) (a p : TreeNode) (st : State) :
    Quiet st (checkNode.args name lineno a p st).2.2 :=
  checkNode_args_frame name lineno a p st

/-- What `checkNode` changes: the `type` field of the node, the error flag and the listing. -/
theorem checkNode_ok {d d2 : NodeData} {c0 c1 c2 sib : TreeNode} {st stn : State}
    (h : checkNode (.node d c0 c1 c2 sib) st = .ok (d2, stn)) :
    onlyType d d2 ∧ Quiet st stn ∧
      (d.kind.isExpr = true →
        d2.type = .Integer ∨ (∃ p e, derefSymbol st p = some e ∧ d2.type = e.type) ∨
        ((d.kind = .AssignExpr ∨ d.kind = .BinOpExpr) ∧ c0.type? = some d2.type)) := by
  simp only [checkNode] at h
  split at h
  · -- IfStmt
    next hk =>
    simp only [bind_ok_iff, pure_ok_iff, Prod.mk.injEq] at h
    obtain ⟨_, _, cd, _, rfl, rfl⟩ := h
    exact ⟨rfl, Quiet_ite (Quiet_report _ _) (Quiet_refl _), by simp [hk, NodeKind.isExpr]⟩
  · -- WhileStmt
    next hk =>
    simp only [bind_ok_iff, pure_ok_iff, Prod.mk.injEq] at h
    obtain ⟨_, _, cd, _, rfl, rfl⟩ := h
    exact ⟨rfl, Quiet_ite (Quiet_report _ _) (Quiet_refl _), by simp [hk, NodeKind.isExpr]⟩
  · -- ReturnStmt
    next hk =>
    simp only [bind_ok_iff] at h
    obtain ⟨cur, _, _, _, fd, _, h⟩ := h
    split at h
    · simp only [pure_ok_iff, Prod.mk.injEq] at h
      obtain ⟨rfl, rfl⟩ := h
      exact ⟨rfl, Quiet_ite (Quiet_report _ _) (Quiet_refl _), by simp [hk, NodeKind.isExpr]⟩
    · simp only [bind_ok_iff, pure_ok_iff, Prod.mk.injEq] at h
      obtain ⟨cd, _, rfl, rfl⟩ := h
      exact ⟨rfl, Quiet_ite (Quiet_report _ _) (Quiet_refl _), by simp [hk, NodeKind.isExpr]⟩
  · -- AssignExpr
    next hk =>
    simp only [bind_ok_iff, pure_ok_iff, Prod.mk.injEq] at h
    obtain ⟨_, _, ld, hld, rd, _, rfl, rfl⟩ := h
    have hc0 : c0.type? = some ld.type := by
      cases c0 with
      | null => simp [derefNode] at hld
      | node cd _ _ _ _ =>
        simp only [derefNode, Except.ok.injEq] at hld
        simp [TreeNode.type?, hld]
    exact ⟨rfl, Quiet_ite (Quiet_ite (Quiet_report _ _) (Quiet_report _ _)) (Quiet_refl _),
      fun _ => Or.inr (Or.inr ⟨Or.inl hk, hc0⟩)⟩
  · -- BinOpExpr
    next hk =>
    simp only [bind_ok_iff, pure_ok_iff, Prod.mk.injEq] at h
    obtain ⟨_, _, ld, hld, rd, _, rfl, rfl⟩ := h
    have hc0 : c0.type? = some ld.type := by
      cases c0 with
      | null => simp [derefNode] at hld
      | node cd _ _ _ _ =>
        simp only [derefNode, Except.ok.injEq] at hld
        simp [TreeNode.type?, hld]
    exact ⟨rfl, Quiet_ite (Quiet_ite (Quiet_report _ _) (Quiet_report _ _)) (Quiet_refl _),
      fun _ => Or.inr (Or.inr ⟨Or.inr hk, hc0⟩)⟩
  · -- CallExpr
    next hk =>
    simp only [bind_ok_iff] at h
    obtain ⟨callee, _, _, _, h⟩ := h
    split at h
    · simp at h
    · next calleeSymbol hsym =>
      have hderef : ∃ p e, derefSymbol st p = some e ∧ calleeSymbol.type = e.type := by
        cases callee with
        | none => simp at hsym
        | some p => exact ⟨p, calleeSymbol, by simpa using hsym, rfl⟩
      split at h
      · simp only [pure_ok_iff, Prod.mk.injEq] at h
        obtain ⟨rfl, rfl⟩ := h
        exact ⟨rfl, Quiet_refl _, fun _ => Or.inr (Or.inl hderef)⟩
      · split at h
        · simp at h
        · next pd paramNode p1 p2 psib hnode =>
          simp only [bind_ok_iff, pure_ok_iff, Prod.mk.injEq] at h
          obtain ⟨st2, h2, rfl, rfl⟩ := h
          have q1 := checkNode_args_quiet d.name d.lineno c0 paramNode st
          refine ⟨rfl, ?_, fun _ => Or.inr (Or.inl hderef)⟩
          split at h2
          · simp only [pure_ok_iff] at h2
            subst h2
            exact Quiet_trans q1 (Quiet_ite (Quiet_report _ _) (Quiet_refl _))
          · simp only [pure_ok_iff] at h2
            subst h2
            exact q1
  · -- VarAccessExpr
    next hk =>
    simp only [bind_ok_iff] at h
    obtain ⟨found, _, _, _, h⟩ := h
    split at h
    · simp at h
    · next symbol hsym =>
      have hderef : ∃ p e, derefSymbol st p = some e ∧ symbol.type = e.type := by
        cases found with
        | none => simp at hsym
        | some p => exact ⟨p, symbol, by simpa using hsym, rfl⟩
      split at h
      · simp only [pure_ok_iff, Prod.mk.injEq] at h
        obtain ⟨rfl, rfl⟩ := h
        exact ⟨rfl, Quiet_refl _, fun _ => Or.inr (Or.inl hderef)⟩
      · split at h
        · simp only [pure_ok_iff, Prod.mk.injEq] at h
          obtain ⟨rfl, rfl⟩ := h
          exact ⟨rfl, Quiet_ite (Quiet_report _ _) (Quiet_ite (Quiet_report _ _) (Quiet_refl _)),
            fun _ => Or.inl rfl⟩
        · simp only [pure_ok_iff, Prod.mk.injEq] at h
          obtain ⟨rfl, rfl⟩ := h
          exact ⟨rfl, Quiet_refl _, fun _ => Or.inr (Or.inl hderef)⟩
  · -- ConstExpr
    simp only [Except.ok.injEq, Prod.mk.injEq] at h
    obtain ⟨rfl, rfl⟩ := h
    exact ⟨rfl, Quiet_refl _, fun _ => Or.inl rfl⟩
  all_goals first
    | (next hk =>
       simp only [Except.ok.injEq, Prod.mk.injEq] at h
       obtain ⟨rfl, rfl⟩ := h
       exact ⟨rfl, Quiet_refl _, by simp [hk, NodeKind.isExpr]⟩)
    | simp at h

theorem Quiet_of_scopeIn {d d1 : NodeData} {c0 c1 c2 sib : TreeNode} {st stn : State}
    (h : scopeIn (.node d c0 c1 c2 sib) st = .ok (d1, stn)) :
    d1 = d ∧ stn.scopeList = st.scopeList ∧ stn.globalScope = st.globalScope ∧ Emits st stn [] := by
  obtain ⟨h1, h2, h3, h4, h5, _⟩ := scopeIn_ok h
  exact ⟨h1, h2, h3, Emits_of_eq h5 h4⟩

theorem TreeNode_Forall_root {P : NodeData → Prop} {t : TreeNode} (h : t.Forall P) :
    ∀ d c0 c1 c2 sib, t = .node d c0 c1 c2 sib → P d := by
  intro d c0 c1 c2 sib ht
  subst ht
  exact h.1

/-- Pass 2 over a subtree: only `type` fields change, the scope directory is untouched,
and with resolved symbol types every expression node ends with a resolved type. -/
theorem pass2_types (t : TreeNode) (st : State) (tn : TreeNode) (stn : State)
    (h : traverse scopeIn checkNode t st = .ok (tn, stn)) :
    TreeNode.Rel onlyType t tn ∧ stn.scopeList = st.scopeList ∧
      stn.globalScope = st.globalScope ∧ (∃ new, Emits st stn new) ∧
      (ExprOperands t → TypesResolved st → ExprTypesResolved tn) := by
  revert t st tn stn
  apply traverse_induct
  · intro st
    exact ⟨trivial, rfl, rfl, ⟨[], Emits_refl _⟩, fun _ _ => trivial⟩
  · intro d c0 c1 c2 sib st d1 st1 c0n st2 c1n st3 c2n st4 d2 st5 sibn st6 hpre r0 r1 r2 hpost rs
    obtain ⟨rel0, s0, g0, ⟨n0, e0⟩, p0⟩ := r0
    obtain ⟨rel1, s1, g1, ⟨n1, e1⟩, p1⟩ := r1
    obtain ⟨rel2, s2, g2, ⟨n2, e2⟩, p2⟩ := r2
    obtain ⟨rels, ss, gs, ⟨ns, es⟩, ps⟩ := rs
    obtain ⟨rfl, spre, gpre, epre⟩ := Quiet_of_scopeIn hpre
    obtain ⟨hty, ⟨spost, gpost, _, npost, epost⟩, hexpr⟩ := checkNode_ok hpost
    have s4 : st4.scopeList = st.scopeList := by rw [s2, s1, s0, spre]
    refine ⟨⟨hty, rel0, rel1, rel2, rels⟩, by rw [ss, spost, s4], by rw [gs, gpost, g2, g1, g0, gpre],
      ⟨_, Emits_trans epre (Emits_trans e0 (Emits_trans e1 (Emits_trans e2 (Emits_trans epost es))))⟩, ?_⟩
    intro hops hP
    obtain ⟨hop, o0, o1, o2, os⟩ := hops
    have hP1 : TypesResolved st1 := TypesResolved_of_scopeList_eq spre hP
    have hP2 : TypesResolved st2 := TypesResolved_of_scopeList_eq s0 hP1
    have hP3 : TypesResolved st3 := TypesResolved_of_scopeList_eq s1 hP2
    have hP4 : TypesResolved st4 := TypesResolved_of_scopeList_eq s2 hP3
    have hP5 : TypesResolved st5 := TypesResolved_of_scopeList_eq spost hP4
    have q0 := p0 o0 hP1
    refine ⟨?_, q0, p1 o1 hP2, p2 o2 hP3, ps os hP5⟩
    intro hk
    have hk1 : d1.kind.isExpr = true := by
      rw [← onlyType_kind _ _ hty]
      exact hk
    rcases hexpr hk1 with h | ⟨p, e, hpe, h⟩ | ⟨hkind, h⟩
    · rw [h]; rfl
    · rw [h]
      obtain ⟨s, hs, he⟩ := derefSymbol_mem hpe
      exact hP4 s hs _ e he
    · cases c0n with
      | null => simp [TreeNode.type?] at h
      | node cd a b c s =>
        simp only [TreeNode.type?, Option.some.injEq] at h
        rw [← h]
        apply q0.1
        have hkc : (TreeNode.node cd a b c s).kind? = c0.kind? :=
          TreeNode_Rel_kind_eq onlyType_kind rel0
        exact hop hkind cd.kind (by rw [← hkc]; rfl)

/-- C1. For every syntax tree whose declaration and parameter nodes carry one of the four
resolved types (the operand whose type an assignment or binary operator takes being an
expression node, as the grammar guarantees): when `buildSymtab` followed by `typeCheck`
completes without having written a diagnostic, the error flag is false and every
expression node of the annotated tree has a type among Integer, IntegerArray, Void and
VoidArray. -/
theorem analyze_quiet_types_resolved (t : TreeNode) (hdecl : DeclTypesResolved t)
    (hops : ExprOperands t) (tn : TreeNode) (stn : State)
    (hrun : analyze t = .ok (tn, stn)) (hquiet : stn.listing = []) :
    stn.Error = false ∧ ExprTypesResolved tn := by
  simp only [analyze, bind_ok_iff, Prod.exists] at hrun
  obtain ⟨t1, st1, h1, h2⟩ := hrun
  obtain ⟨rel1, n1, e1, hp1⟩ := buildSymtab_types h1
  obtain ⟨rel2, _, _, ⟨n2, e2⟩, hp2⟩ := pass2_types _ _ _ _ h2
  have e := Emits_trans e1 e2
  obtain ⟨el, ee⟩ := e
  have hnil : n1 ++ n2 = [] := by
    rw [hquiet] at el
    simpa [State.initial] using el.symm
  have hn : n1 = [] ∧ n2 = [] := by simpa using hnil
  constructor
  · rw [ee, hnil]; rfl
  · apply hp2 (ExprOperands_of_rel onlyScope_kind rel1 hops)
    apply hp1 hdecl hn.1
    intro s hs
    simp [State.initial] at hs

theorem analyze_quiet_types_resolved_witness :
    DeclTypesResolved progIndexOk ∧ ExprOperands progIndexOk ∧
      (okState (analyze progIndexOk)).listing = [] ∧
      (okState (analyze progIndexOk)).Error = false ∧
      ExprTypesResolved (okTree (analyze progIndexOk)) :=
  have hdecl : DeclTypesResolved progIndexOk := by
    simp [DeclTypesResolved, TreeNode.Forall, progIndexOk, varDecl, funDecl, voidParams, block,
      assign, varRef, const, newTreeNode, NodeKind.isDecl, NodeType.resolved]
  have hops : ExprOperands progIndexOk := by
    simp [ExprOperands, progIndexOk, varDecl, funDecl, voidParams, block,
      assign, varRef, const, newTreeNode, NodeKind.isExpr, TreeNode.kind?]
  have hq : (okState (analyze progIndexOk)).listing = [] := by decide
  ⟨hdecl, hops, hq,
    analyze_quiet_types_resolved progIndexOk hdecl hops (okTree (analyze progIndexOk))
      (okState (analyze progIndexOk)) (by rfl) hq⟩

theorem chain_of_getElem? {st : State} {k : Nat} {s : ScopeRec} (h : st.scopeList[k]? = some s)
    (b : Nat) : st.chain k b = s.symbolList b := by
  simp [State.chain, h]

theorem chain_modifyScope (st : State) (j : Nat) (f : ScopeRec → ScopeRec) (k b : Nat) :
    (modifyScope st j f).chain k b =
      if k = j then (match st.scopeList[k]? with
        | some s => (f s).symbolList b
        | none => []) else st.chain k b := by
  simp only [State.chain, modifyScope, getElem?_updateAt]
  by_cases hk : k = j
  · simp only [hk, if_true]
    cases st.scopeList[j]? <;> simp
  · simp only [hk, if_false]

theorem chain_modifyScope_keep (st : State) (j : Nat) (f : ScopeRec → ScopeRec)
    (hf : ∀ s, (f s).symbolList = s.symbolList) (k b : Nat) :
    (modifyScope st j f).chain k b = st.chain k b := by
  rw [chain_modifyScope]
  split
  · simp only [State.chain]
    cases st.scopeList[k]? <;> simp [hf]
  · rfl

theorem chain_modifySymbol (st : State) (p : SymPtr) (f : SymbolRec → SymbolRec) (k b : Nat) :
    (modifySymbol st p f).chain k b =
      if k = p.scope ∧ b = p.bucket then updateAt f (st.chain k b) p.idx else st.chain k b := by
  simp only [modifySymbol]
  rw [chain_modifyScope]
  by_cases hk : k = p.scope
  · subst hk
    simp only [true_and, if_true, State.chain]
    cases h : st.scopeList[p.scope]? with
    | none => simp [updateAt]
    | some s =>
      simp only [Function.update_apply]
      split
      · next hb => subst hb; rfl
      · rfl
  · simp [hk]

theorem length_modifyScope (st : State) (j : Nat) (f : ScopeRec → ScopeRec) :
    (modifyScope st j f).scopeList.length = st.scopeList.length := by
  simp [modifyScope, length_updateAt]

theorem length_modifySymbol (st : State) (p : SymPtr) (f : SymbolRec → SymbolRec) :
    (modifySymbol st p f).scopeList.length = st.scopeList.length := by
  simp [modifySymbol, length_modifyScope]

theorem scopeAttrs_modifyScope (st : State) (j : Nat) (f : ScopeRec → ScopeRec)
    (hf : ∀ s, (f s).attrs = s.attrs) (k : Nat) :
    (modifyScope st j f).scopeAttrs k = st.scopeAttrs k := by
  simp only [State.scopeAttrs, modifyScope, getElem?_updateAt]
  split
  · cases st.scopeList[k]? <;> simp [hf]
  · rfl

theorem scopeAttrs_modifySymbol (st : State) (p : SymPtr) (f : SymbolRec → SymbolRec) (k : Nat) :
    (modifySymbol st p f).scopeAttrs k = st.scopeAttrs k := by
  simp only [modifySymbol]
  apply scopeAttrs_modifyScope
  intro s
  rfl

theorem chain_setState (st : State) (j : Nat) (x : SemanticErrorState) (k b : Nat) :
    (modifyScope st j fun s => { s with state := x }).chain k b = st.chain k b := by
  apply chain_modifyScope_keep
  intro s
  rfl

theorem scopeAttrs_setState (st : State) (j : Nat) (x : SemanticErrorState) (k : Nat) :
    (modifyScope st j fun s => { s with state := x }).scopeAttrs k = st.scopeAttrs k := by
  apply scopeAttrs_modifyScope
  intro s
  rfl

theorem updateAt_append_length {α : Type} (f : α → α) (l1 : List α) (a : α) (l2 : List α) :
    updateAt f (l1 ++ a :: l2) l1.length = l1 ++ f a :: l2 := by
  induction l1 with
  | nil => rfl
  | cons x l1 ih => simp [updateAt, ih]

/-- The result of a completed loop of `RedefinitionError`. -/
theorem RedefinitionError_loop_ok (name : String) (k b : Nat) :
    ∀ (rest pre : List SymbolRec) (st : State) (cited : List Int) (stn : State) (citedn : List Int),
      RedefinitionError.loop name k b rest pre.length st cited = .ok (stn, citedn) →
      st.chain k b = pre ++ rest →
      citedn = cited ++ (rest.filter fun e => decide (e.name = name)).map firstLine ∧
        (∀ e ∈ rest, e.name = name → hasDecl st.scopeList.length e = true) ∧
        stn.chain k b = pre ++ rest.map (markRedefined name) ∧
        (∀ k1 b1, ¬(k1 = k ∧ b1 = b) → stn.chain k1 b1 = st.chain k1 b1) ∧
        stn.scopeList.length = st.scopeList.length ∧
        (∀ j, stn.scopeAttrs j = st.scopeAttrs j) := by
  intro rest
  induction rest with
  | nil =>
    intro pre st cited stn citedn h hc
    simp only [RedefinitionError.loop, Except.ok.injEq, Prod.mk.injEq] at h
    obtain ⟨rfl, rfl⟩ := h
    simp [hc]
  | cons e rest ih =>
    intro pre st cited stn citedn h hc
    have hlen : (pre ++ [e]).length = pre.length + 1 := by simp
    have hlenm : (pre ++ [markRedefined name e]).length = pre.length + 1 := by simp
    simp only [RedefinitionError.loop] at h
    by_cases hname : e.name = name
    · rw [if_pos hname] at h
      have hc1 : (modifySymbol st ⟨k, b, pre.length⟩ fun s =>
          { s with state := .STATE_REDEFINED }).chain k b = (pre ++ [markRedefined name e]) ++ rest := by
        rw [chain_modifySymbol]
        simp only [and_self, if_true, hc, updateAt_append_length, markRedefined, hname]
        simp
      have hother1 : ∀ k1 b1, ¬(k1 = k ∧ b1 = b) → (modifySymbol st ⟨k, b, pre.length⟩ fun s =>
          { s with state := .STATE_REDEFINED }).chain k1 b1 = st.chain k1 b1 := by
        intro k1 b1 hne
        rw [chain_modifySymbol, if_neg hne]
      cases hnode : e.node with
      | null => simp [hnode] at h
      | node d a0 a1 a2 as =>
        simp only [hnode] at h
        cases hsc : d.scope with
        | none =>
          simp only [hsc] at h
          cases hl : e.lineList with
          | nil => simp [hl] at h
          | cons l ls =>
            simp only [hl] at h
            rw [← hlenm] at h
            obtain ⟨r1, r2, r3, r4, r5, r6⟩ := ih _ _ _ _ _ h hc1
            rw [length_modifySymbol] at r2 r5
            refine ⟨?_, ?_, ?_, ?_, r5, ?_⟩
            · rw [r1]
              simp [hname, firstLine, hl]
            · intro x hx hxn
              simp only [List.mem_cons] at hx
              rcases hx with rfl | hx
              · simp [hasDecl, hnode, hsc, hl]
              · exact r2 x hx hxn
            · rw [r3]; simp
            · intro k1 b1 hne
              rw [r4 k1 b1 hne, hother1 k1 b1 hne]
            · intro j
              rw [r6 j, scopeAttrs_modifySymbol]
        | some sc =>
          simp only [hsc] at h
          split at h
          · next hlt =>
            cases hl : e.lineList with
            | nil => simp [hl] at h
            | cons l ls =>
              simp only [hl] at h
              rw [← hlenm] at h
              have hc2 : (modifyScope (modifySymbol st ⟨k, b, pre.length⟩ fun s =>
                  { s with state := .STATE_REDEFINED }) sc fun s =>
                  { s with state := .STATE_REDEFINED }).chain k b =
                  (pre ++ [markRedefined name e]) ++ rest := by
                rw [chain_setState]
                exact hc1
              obtain ⟨r1, r2, r3, r4, r5, r6⟩ := ih _ _ _ _ _ h hc2
              rw [length_modifyScope, length_modifySymbol] at r2 r5
              rw [length_modifySymbol] at hlt
              refine ⟨?_, ?_, ?_, ?_, r5, ?_⟩
              · rw [r1]
                simp [hname, firstLine, hl]
              · intro x hx hxn
                simp only [List.mem_cons] at hx
                rcases hx with rfl | hx
                · simp [hasDecl, hnode, hsc, hl, hlt]
                · exact r2 x hx hxn
              · rw [r3]; simp
              · intro k1 b1 hne
                rw [r4 k1 b1 hne, chain_setState, hother1 k1 b1 hne]
              · intro j
                rw [r6 j, scopeAttrs_setState, scopeAttrs_modifySymbol]
          · simp at h
    · rw [if_neg hname] at h
      rw [← hlen] at h
      have hc1 : st.chain k b = (pre ++ [e]) ++ rest := by simp [hc]
      obtain ⟨r1, r2, r3, r4, r5, r6⟩ := ih _ _ _ _ _ h hc1
      refine ⟨?_, ?_, ?_, r4, r5, r6⟩
      · rw [r1]
        simp [hname]
      · intro x hx hxn
        simp only [List.mem_cons] at hx
        rcases hx with rfl | hx
        · exact absurd hxn hname
        · exact r2 x hx hxn
      · rw [r3]
        simp [markRedefined, hname]

/-- The loop of `RedefinitionError` completes when every entry of the name has a
declaration node. -/
theorem RedefinitionError_loop_total (name : String) (k b : Nat) :
    ∀ (rest : List SymbolRec) (i : Nat) (st : State) (cited : List Int),
      (∀ e ∈ rest, e.name = name → hasDecl st.scopeList.length e = true) →
      ∃ r, RedefinitionError.loop name k b rest i st cited = .ok r := by
  intro rest
  induction rest with
  | nil =>
    intro i st cited _
    exact ⟨_, rfl⟩
  | cons e rest ih =>
    intro i st cited hall
    have hrest : ∀ st1 : State, st1.scopeList.length = st.scopeList.length →
        ∀ x ∈ rest, x.name = name → hasDecl st1.scopeList.length x = true := by
      intro st1 hlen x hx hxn
      rw [hlen]
      exact hall x (by simp [hx]) hxn
    simp only [RedefinitionError.loop]
    by_cases hname : e.name = name
    · rw [if_pos hname]
      have he := hall e (by simp) hname
      simp only [hasDecl] at he
      cases hnode : e.node with
      | null => simp [hnode] at he
      | node d a0 a1 a2 as =>
        simp only [hnode, Bool.and_eq_true, Bool.not_eq_true', List.isEmpty_eq_false] at he
        cases hl : e.lineList with
        | nil => simp [hl] at he
        | cons l ls =>
          cases hsc : d.scope with
          | none =>
            simp only [hsc]
            exact ih _ _ _ (hrest _ (length_modifySymbol _ _ _))
          | some sc =>
            simp only [hsc, decide_eq_true_eq] at he
            simp only [hsc, length_modifySymbol, he.1, if_true]
            exact ih _ _ _ (hrest _ (by rw [length_modifyScope, length_modifySymbol]))
    · rw [if_neg hname]
      exact ih _ _ _ (hrest _ rfl)

theorem succ_of_lt {k n : Nat} (h : k < n) : ∃ f, n = f + 1 :=
  ⟨n - 1, by omega⟩

/-! ## Searching a chain -/

theorem chainFind_eq_none {p : SymbolRec → Bool} {l : List SymbolRec} :
    chainFind p l = none ↔ ∀ e ∈ l, p e = false := by
  induction l with
  | nil => simp [chainFind]
  | cons a rest ih =>
    simp only [chainFind, List.mem_cons, forall_eq_or_imp]
    by_cases ha : p a = true
    · simp [ha]
    · simp only [ha, Bool.false_eq_true, if_false, Option.map_eq_none', ih]
      simp [Bool.eq_false_iff.mpr ha]

theorem chainFind_eq_some {p : SymbolRec → Bool} {l : List SymbolRec} {i : Nat}
    (h : chainFind p l = some i) :
    ∃ e, l[i]? = some e ∧ p e = true ∧ ∀ x ∈ l.take i, p x = false := by
  induction l generalizing i with
  | nil => simp [chainFind] at h
  | cons a rest ih =>
    simp only [chainFind] at h
    by_cases ha : p a = true
    · simp only [ha, if_true, Option.some.injEq] at h
      subst h
      exact ⟨a, by simp, ha, by simp⟩
    · simp only [ha, Bool.false_eq_true, if_false, Option.map_eq_some'] at h
      obtain ⟨j, hj, rfl⟩ := h
      obtain ⟨e, he, hpe, hbefore⟩ := ih hj
      refine ⟨e, by simpa using he, hpe, ?_⟩
      intro x hx
      simp only [List.take_succ_cons, List.mem_cons] at hx
      rcases hx with rfl | hx
      · exact Bool.eq_false_iff.mpr ha
      · exact hbefore x hx

theorem chainFind_append {p : SymbolRec → Bool} (l1 l2 : List SymbolRec) :
    chainFind p (l1 ++ l2) =
      match chainFind p l1 with
      | some i => some i
      | none => (chainFind p l2).map (· + l1.length) := by
  induction l1 with
  | nil => simp [chainFind]
  | cons a rest ih =>
    simp only [List.cons_append, chainFind]
    by_cases ha : p a = true
    · simp [ha]
    · simp only [ha, Bool.false_eq_true, if_false]
      have ih2 : chainFind p (rest.append l2) = _ := ih
      rw [ih2]
      cases chainFind p rest with
      | some i => simp
      | none =>
        cases chainFind p l2 with
        | none => simp
        | some j => simp [Nat.add_assoc]

theorem chainFind_map {p : SymbolRec → Bool} (f : SymbolRec → SymbolRec) (l : List SymbolRec)
    (hf : ∀ e, p (f e) = p e) : chainFind p (l.map f) = chainFind p l := by
  induction l with
  | nil => rfl
  | cons a rest ih => simp [chainFind, hf, ih]

theorem take_append_drop_marked (name : String) (l : List SymbolRec) (i : Nat)
    (h : ∀ x ∈ l.take i, decide (x.name = name) = false) :
    l.take i ++ (l.drop i).map (markRedefined name) = l.map (markRedefined name) := by
  conv_rhs => rw [← List.take_append_drop i l, List.map_append]
  congr 1
  symm
  have hid : (l.take i).map (markRedefined name) = (l.take i).map id := by
    apply List.map_congr_left
    intro x hx
    have := h x hx
    simp only [decide_eq_false_iff_not] at this
    simp [markRedefined, this]
  rw [hid, List.map_id]

theorem filter_drop_of_take (name : String) (l : List SymbolRec) (i : Nat)
    (h : ∀ x ∈ l.take i, decide (x.name = name) = false) :
    (l.drop i).filter (fun e => decide (e.name = name)) = l.filter fun e => decide (e.name = name) := by
  conv_rhs => rw [← List.take_append_drop i l, List.filter_append]
  have : (l.take i).filter (fun e => decide (e.name = name)) = [] := by
    rw [List.filter_eq_nil_iff]
    intro x hx
    simp [h x hx]
  rw [this, List.nil_append]

/-! ## The scan of `insertSymbol` -/

theorem insertSymbol_scan_none (name : String) (l : List SymbolRec) (state : SemanticErrorState)
    (h : ∀ e ∈ l, e.name ≠ name) : insertSymbol.scan name l state = .inr state := by
  induction l with
  | nil => rfl
  | cons a rest ih =>
    have ha : a.name ≠ name := h a (by simp)
    simp only [insertSymbol.scan, ha, if_false]
    rw [ih (fun e he => h e (by simp [he]))]
    rfl

theorem insertSymbol_scan_marked (name : String) (l : List SymbolRec) (state : SemanticErrorState) :
    insertSymbol.scan name (l.map (markRedefined name)) state =
      .inr (if l.any (fun e => decide (e.name = name)) then .STATE_REDEFINED else state) := by
  induction l generalizing state with
  | nil => rfl
  | cons a rest ih =>
    simp only [List.map_cons, insertSymbol.scan, List.any_cons]
    by_cases ha : a.name = name
    · have hm : (markRedefined name a).name = name := by simp [markRedefined, ha]
      have hs : (markRedefined name a).state = .STATE_REDEFINED := by simp [markRedefined, ha]
      simp only [hm, hs, if_true, ih, ha, decide_True, Bool.true_or]
      split <;> rfl
    · have hm : (markRedefined name a).name ≠ name := by simp [markRedefined, ha]
      simp only [hm, if_false, ih, ha, decide_False, Bool.false_or]
      rfl

/-! ## Lookups in terms of chains -/

theorem getElem?_of_lt_scopes {st : State} {k : Nat} (h : k < st.scopeList.length) :
    ∃ s, st.scopeList[k]? = some s := by
  exact ⟨st.scopeList[k], by simp [h]⟩

theorem lookupSymbolInCurrentScope_eq {st : State} {k : Nat} (nm : String)
    (h : k < st.scopeList.length) :
    lookupSymbolInCurrentScope (some k) (some nm) st =
      .ok ((chainFind (fun e => decide (e.name = nm)) (st.chain k (hash nm))).map
        fun i => ⟨k, hash nm, i⟩) := by
  obtain ⟨s, hs⟩ := getElem?_of_lt_scopes h
  simp [lookupSymbolInCurrentScope, ERROR_CHECK, derefScope, hs, bind, Except.bind, pure, Except.pure,
    chain_of_getElem? hs]

theorem lookupWalk_here {st : State} {k b i fuel : Nat} (p : SymbolRec → Bool)
    (h : k < st.scopeList.length) (hfind : chainFind p (st.chain k b) = some i) :
    lookupWalk st b p (fuel + 1) (some k) = .ok (some ⟨k, b, i⟩) := by
  obtain ⟨s, hs⟩ := getElem?_of_lt_scopes h
  rw [chain_of_getElem? hs] at hfind
  simp [lookupWalk, hs, hfind]

theorem derefSymbol_eq (st : State) (k b i : Nat) :
    derefSymbol st ⟨k, b, i⟩ = (st.chain k b)[i]? := by
  simp only [derefSymbol, State.chain]
  cases st.scopeList[k]? <;> simp

theorem RedefinitionError_spec {st : State} {k : Nat} {nm : String} {lines : List Int} {i : Nat}
    (lineno : Int) (hd : DeclaredAt st k nm lines)
    (hfind : chainFind (fun e => decide (e.name = nm)) (st.chain k (hash nm)) = some i) :
    ∃ stn, RedefinitionError nm lineno ⟨k, hash nm, i⟩ st = .ok stn ∧
      stn.listing = st.listing ++ [.redefinition nm lineno lines] ∧ stn.Error = true ∧
      stn.chain k (hash nm) = (st.chain k (hash nm)).map (markRedefined nm) ∧
      (∀ k1 b1, ¬(k1 = k ∧ b1 = hash nm) → stn.chain k1 b1 = st.chain k1 b1) ∧
      stn.scopeList.length = st.scopeList.length ∧
      (∀ j, stn.scopeAttrs j = st.scopeAttrs j) ∧
      stn.currentScope = st.currentScope ∧ stn.globalScope = st.globalScope := by
  obtain ⟨hk, hall, hlines⟩ := hd
  obtain ⟨s, hs⟩ := getElem?_of_lt_scopes hk
  obtain ⟨e, hei, _, hbefore⟩ := chainFind_eq_some hfind
  have hi : i < (st.chain k (hash nm)).length := by
    rcases List.getElem?_eq_some.mp hei with ⟨h, _⟩
    exact h
  have hchain := chain_of_getElem? hs (hash nm)
  have hpre : ((st.chain k (hash nm)).take i).length = i := by
    rw [List.length_take]
    omega
  have hsplit : st.chain k (hash nm) =
      (st.chain k (hash nm)).take i ++ (st.chain k (hash nm)).drop i :=
    (List.take_append_drop i _).symm
  obtain ⟨⟨stL, cited⟩, hloop⟩ := RedefinitionError_loop_total nm k (hash nm)
    ((st.chain k (hash nm)).drop i) i st []
    (fun x hx hxn => hall x (List.mem_of_mem_drop hx) hxn)
  obtain ⟨r1, _, r3, r4, r5, r6⟩ := RedefinitionError_loop_ok nm k (hash nm)
    ((st.chain k (hash nm)).drop i) ((st.chain k (hash nm)).take i) st [] stL cited
    (by rw [hpre]; exact hloop) hsplit
  obtain ⟨f1, f2, f3, f4⟩ := RedefinitionError_loop_frame _ _ _ _ _ _ _ _ _ hloop
  refine ⟨report (.redefinition nm lineno cited) stL, ?_, ?_, rfl, ?_, r4, r5, r6, f4, f3⟩
  · simp only [RedefinitionError, derefScope, hs, bind, Except.bind, pure, Except.pure]
    rw [← hchain, hloop]
  · simp only [report, f1]
    rw [r1, filter_drop_of_take nm _ i hbefore, hlines]
    rfl
  · show stL.chain k (hash nm) = _
    rw [r3, take_append_drop_marked nm _ i hbefore]

theorem insertSymbol_fresh {st : State} {k : Nat} (nm : String) (type : NodeType) (kind : SymbolKind)
    (lineno : Int) (node : TreeNode) {state : SemanticErrorState} (hk : k < st.scopeList.length)
    (hscan : insertSymbol.scan nm (st.chain k (hash nm)) .STATE_NORMAL = .inr state) :
    ∃ stn memloc, insertSymbol (some k) (some nm) type kind lineno node st =
        .ok (⟨k, hash nm, (st.chain k (hash nm)).length⟩, stn) ∧
      stn.chain k (hash nm) =
        st.chain k (hash nm) ++ [freshSymbol nm type kind lineno node state memloc] ∧
      (∀ k1 b1, ¬(k1 = k ∧ b1 = hash nm) → stn.chain k1 b1 = st.chain k1 b1) ∧
      stn.scopeList.length = st.scopeList.length ∧
      stn.listing = st.listing ∧ stn.Error = st.Error ∧
      stn.currentScope = st.currentScope ∧ stn.globalScope = st.globalScope := by
  obtain ⟨s, hs⟩ := getElem?_of_lt_scopes hk
  have hchain := chain_of_getElem? hs (hash nm)
  rw [hchain] at hscan
  refine ⟨modifyScope st k fun s1 =>
      { s1 with numSymbols := s1.numSymbols + 1
                symbolList := Function.update s1.symbolList (hash nm)
                  (s.symbolList (hash nm) ++
                    [freshSymbol nm type kind lineno node state s.numSymbols]) },
    s.numSymbols, ?_, ?_, ?_, ?_, rfl, rfl, rfl, rfl⟩
  · simp only [insertSymbol, ERROR_CHECK, derefScope, hs, bind, Except.bind, pure, Except.pure,
      Option.isSome_some, Bool.and_self, if_true, Option.getD_some, hscan, hchain]
    rfl
  · rw [chain_modifyScope]
    simp [hs, hchain]
  · intro k1 b1 hne
    rw [chain_modifyScope]
    by_cases hk1 : k1 = k
    · subst hk1
      have hb : b1 ≠ hash nm := fun h => hne ⟨rfl, h⟩
      simp [hs, Function.update_noteq hb, State.chain]
    · simp [hk1]
  · exact length_modifyScope _ _ _

theorem lines_eq_nil_iff {st : State} {k : Nat} {nm : String} {lines : List Int}
    (hd : DeclaredAt st k nm lines) :
    lines = [] ↔ chainFind (fun e => decide (e.name = nm)) (st.chain k (hash nm)) = none := by
  obtain ⟨_, _, hl⟩ := hd
  rw [← hl, chainFind_eq_none]
  simp [List.filter_eq_nil_iff]

theorem map_markRedefined_of_none (nm : String) (l : List SymbolRec)
    (h : ∀ e ∈ l, decide (e.name = nm) = false) : l.map (markRedefined nm) = l := by
  have hid : l.map (markRedefined nm) = l.map id := by
    apply List.map_congr_left
    intro x hx
    have := h x hx
    simp only [decide_eq_false_iff_not] at this
    simp [markRedefined, this]
  rw [hid, List.map_id]

theorem filter_map_markRedefined (nm : String) (l : List SymbolRec) :
    ((l.map (markRedefined nm)).filter fun e => decide (e.name = nm)).map firstLine =
      (l.filter fun e => decide (e.name = nm)).map firstLine := by
  induction l with
  | nil => rfl
  | cons a rest ih =>
    by_cases ha : a.name = nm
    · have hm : (markRedefined nm a).name = nm := by simp [markRedefined, ha]
      simp only [List.map_cons, List.filter_cons, hm, ha, decide_True, if_true, ih]
      simp [markRedefined, ha, firstLine]
    · have hm : (markRedefined nm a).name ≠ nm := by simp [markRedefined, ha]
      simp only [List.map_cons, List.filter_cons, hm, ha, decide_False]
      simpa using ih

/-- The declaration cases of `insertNode`: the void check, the redefinition check and
the insertion. -/
theorem declare_spec {st : State} {k : Nat} {nm : String} {lines : List Int} (d : NodeData)
    (t : TreeNode) (hname : d.name = some nm) (hcur : st.currentScope = some k)
    (hd : DeclaredAt st k nm lines) :
    ∃ p stn memloc,
      (insertNode.redefined
          (if d.type = .Void ∨ d.type = .VoidArray then VoidTypeVariableError d.name d.lineno st
            else st).currentScope d
          (if d.type = .Void ∨ d.type = .VoidArray then VoidTypeVariableError d.name d.lineno st
            else st) >>= fun st2 =>
        insertSymbol st2.currentScope d.name d.type .VariableSym d.lineno t st2) = .ok (p, stn) ∧
      stn.listing = st.listing ++ declDiags nm d.type d.lineno lines ∧
      stn.chain k (hash nm) = (st.chain k (hash nm)).map (markRedefined nm) ++
        [freshSymbol nm d.type .VariableSym d.lineno t
          (if lines = [] then .STATE_NORMAL else .STATE_REDEFINED) memloc] ∧
      (∀ k1 b1, ¬(k1 = k ∧ b1 = hash nm) → stn.chain k1 b1 = st.chain k1 b1) ∧
      stn.scopeList.length = st.scopeList.length ∧
      stn.currentScope = st.currentScope ∧ stn.globalScope = st.globalScope := by
  -- the void check
  obtain ⟨st1, hst1, l1, c1, g1, len1, ch1⟩ : ∃ st1 : State,
      st1 = (if d.type = .Void ∨ d.type = .VoidArray then VoidTypeVariableError d.name d.lineno st
        else st) ∧
      st1.listing = st.listing ++
        (if d.type = .Void ∨ d.type = .VoidArray then [.voidTypeVariable (some nm) d.lineno] else []) ∧
      st1.currentScope = st.currentScope ∧ st1.globalScope = st.globalScope ∧
      st1.scopeList = st.scopeList ∧ (∀ k1 b1, st1.chain k1 b1 = st.chain k1 b1) := by
    refine ⟨_, rfl, ?_⟩
    split
    · simp [VoidTypeVariableError, report, hname, State.chain]
    · simp
  rw [← hst1]
  have hd1 : DeclaredAt st1 k nm lines := by
    obtain ⟨a, b, c⟩ := hd
    refine ⟨by rw [len1]; exact a, ?_, by rw [ch1]; exact c⟩
    rw [ch1, len1]
    exact b
  have hk1 : k < st1.scopeList.length := hd1.1
  have hlook := lookupSymbolInCurrentScope_eq nm hk1
  cases hfind : chainFind (fun e => decide (e.name = nm)) (st1.chain k (hash nm)) with
  | none =>
    have hlines : lines = [] := (lines_eq_nil_iff hd1).mpr hfind
    have hnone := chainFind_eq_none.mp hfind
    have hscan : insertSymbol.scan nm (st1.chain k (hash nm)) .STATE_NORMAL = .inr .STATE_NORMAL :=
      insertSymbol_scan_none nm _ _ (fun e he => by simpa using hnone e he)
    obtain ⟨stn, memloc, hins, hch, hoth, hlen, hl, _, hc, hg⟩ :=
      insertSymbol_fresh nm d.type .VariableSym d.lineno t hk1 hscan
    refine ⟨⟨k, hash nm, (st1.chain k (hash nm)).length⟩, stn, memloc, ?_, ?_, ?_, ?_,
      by rw [hlen, len1], by rw [hc, c1], by rw [hg, g1]⟩
    · simp only [insertNode.redefined, c1, hcur, hname, hlook, hfind, bind, Except.bind, pure,
        Except.pure, Option.map_none']
      exact hins
    · rw [hl, l1, declDiags, hlines]
      simp
    · rw [hch, ch1, map_markRedefined_of_none nm _ (by rw [← ch1]; exact hnone), hlines]
      simp
    · intro k1 b1 hne
      rw [hoth k1 b1 hne, ch1]
  | some i =>
    have hlines : lines ≠ [] := fun h => by
      rw [(lines_eq_nil_iff hd1).mp h] at hfind
      simp at hfind
    obtain ⟨st2, hred, rl, _, rch, roth, rlen, _, rc, rg⟩ := RedefinitionError_spec d.lineno hd1 hfind
    have hk2 : k < st2.scopeList.length := by rw [rlen]; exact hk1
    have hany : (st1.chain k (hash nm)).any (fun e => decide (e.name = nm)) = true := by
      obtain ⟨e, hei, hpe, _⟩ := chainFind_eq_some hfind
      rw [List.any_eq_true]
      exact ⟨e, List.getElem?_mem hei, hpe⟩
    have hscan : insertSymbol.scan nm (st2.chain k (hash nm)) .STATE_NORMAL = .inr .STATE_REDEFINED := by
      rw [rch, insertSymbol_scan_marked, hany]
      rfl
    obtain ⟨stn, memloc, hins, hch, hoth, hlen, hl, _, hc, hg⟩ :=
      insertSymbol_fresh nm d.type .VariableSym d.lineno t hk2 hscan
    refine ⟨⟨k, hash nm, (st2.chain k (hash nm)).length⟩, stn, memloc, ?_, ?_, ?_, ?_,
      by rw [hlen, rlen, len1], by rw [hc, rc, c1], by rw [hg, rg, g1]⟩
    · simp only [insertNode.redefined, c1, hcur, hname, hlook, hfind, bind, Except.bind, pure,
        Except.pure, Option.map_some', Option.getD_some, hred, rc]
      exact hins
    · rw [hl, rl, l1, declDiags]
      simp [hlines]
    · rw [hch, rch, ch1]
      simp [hlines]
    · intro k1 b1 hne
      rw [hoth k1 b1 hne, roth k1 b1 hne, ch1]

theorem insertNode_decl_eq (d : NodeData) (c0 c1 c2 sib : TreeNode) (st : State)
    (hkind : d.kind = .VariableDecl ∨ (d.kind = .Params ∧ d.flag = false)) :
    insertNode (.node d c0 c1 c2 sib) st =
      ((insertNode.redefined
          (if d.type = .Void ∨ d.type = .VoidArray then VoidTypeVariableError d.name d.lineno st
            else st).currentScope d
          (if d.type = .Void ∨ d.type = .VoidArray then VoidTypeVariableError d.name d.lineno st
            else st) >>= fun st2 =>
        insertSymbol st2.currentScope d.name d.type .VariableSym d.lineno (.node d c0 c1 c2 sib) st2)
        >>= fun r => pure (d, r.2)) := by
  rcases hkind with hk | ⟨hk, hf⟩
  · simp only [insertNode, hk]
    cases insertNode.redefined _ d _ <;> simp only [bind, Except.bind]
  · simp only [insertNode, hk, hf, Bool.false_eq_true, if_false]
    cases insertNode.redefined _ d _ <;> simp only [bind, Except.bind]

theorem hasDecl_markRedefined (n : Nat) (nm : String) (e : SymbolRec) :
    hasDecl n (markRedefined nm e) = hasDecl n e := by
  simp only [markRedefined]
  split <;> rfl

/-- The state a declaration leaves behind. -/
theorem insertNode_decl_spec {st : State} {k : Nat} {nm : String} {lines : List Int}
    (d : NodeData) (c0 c1 c2 sib : TreeNode)
    (hkind : d.kind = .VariableDecl ∨ (d.kind = .Params ∧ d.flag = false))
    (hname : d.name = some nm) (hcur : st.currentScope = some k)
    (hd : DeclaredAt st k nm lines) :
    ∃ stn memloc, insertNode (.node d c0 c1 c2 sib) st = .ok (d, stn) ∧
      stn.listing = st.listing ++ declDiags nm d.type d.lineno lines ∧
      stn.chain k (hash nm) = (st.chain k (hash nm)).map (markRedefined nm) ++
        [freshSymbol nm d.type .VariableSym d.lineno (.node d c0 c1 c2 sib)
          (if lines = [] then .STATE_NORMAL else .STATE_REDEFINED) memloc] ∧
      (∀ k1 b1, ¬(k1 = k ∧ b1 = hash nm) → stn.chain k1 b1 = st.chain k1 b1) ∧
      stn.scopeList.length = st.scopeList.length ∧
      stn.currentScope = st.currentScope ∧ stn.globalScope = st.globalScope := by
  obtain ⟨p, stn, memloc, hrun, h⟩ := declare_spec d (.node d c0 c1 c2 sib) hname hcur hd
  refine ⟨stn, memloc, ?_, h⟩
  rw [insertNode_decl_eq d c0 c1 c2 sib st hkind, hrun]
  rfl

/-- C4. In a scope that holds no placeholder for the name (every entry of the name has
its declaration node), where the name has been declared at the lines `lines` in this
order: a further variable or parameter declaration of the name at line `d.lineno`
completes, writes the void-type error if its type is void and then exactly one
redefinition error, at `d.lineno`, citing exactly `lines` in declaration order, when
`lines` is not empty (and no redefinition error when it is empty); afterwards the name is
declared at `lines ++ [d.lineno]`, so the k-th declaration cites the k-1 earlier ones. -/
theorem redeclaration_cites_earlier_lines (st : State) (k : Nat) (nm : String) (lines : List Int)
    (d : NodeData) (c0 c1 c2 sib : TreeNode)
    (hkind : d.kind = .VariableDecl ∨ (d.kind = .Params ∧ d.flag = false))
    (hname : d.name = some nm) (hscope : d.scope = none) (hcur : st.currentScope = some k)
    (hd : DeclaredAt st k nm lines) :
    ∃ stn, insertNode (.node d c0 c1 c2 sib) st = .ok (d, stn) ∧
      stn.listing = st.listing ++
        (if d.type = .Void ∨ d.type = .VoidArray then [.voidTypeVariable (some nm) d.lineno] else []) ++
        (if lines = [] then [] else [.redefinition nm d.lineno lines]) ∧
      DeclaredAt stn k nm (lines ++ [d.lineno]) := by
  obtain ⟨stn, memloc, hrun, hl, hch, _, hlen, _, _⟩ :=
    insertNode_decl_spec d c0 c1 c2 sib hkind hname hcur hd
  obtain ⟨hk, hall, hlines⟩ := hd
  refine ⟨stn, hrun, ?_, ?_, ?_, ?_⟩
  · rw [hl, declDiags, List.append_assoc]
  · rw [hlen]; exact hk
  · intro e he hen
    rw [hch] at he
    rw [hlen]
    simp only [List.mem_append, List.mem_map, List.mem_singleton] at he
    rcases he with ⟨x, hx, rfl⟩ | rfl
    · rw [hasDecl_markRedefined]
      apply hall x hx
      have hmn : (markRedefined nm x).name = x.name := by
        simp only [markRedefined]
        split <;> rfl
      rw [← hmn]
      exact hen
    · simp [hasDecl, freshSymbol, hscope]
  · rw [hch, List.filter_append, List.map_append, filter_map_markRedefined, hlines]
    simp [freshSymbol, firstLine]

theorem redeclaration_cites_earlier_lines_witness :
    DeclaredAt (okState (buildSymtab progOnce State.initial)) 0 "x" [2] ∧
      ∃ stn, insertNode (.node secondDecl .null .null .null .null)
          (okState (buildSymtab progOnce State.initial)) = .ok (secondDecl, stn) ∧
        stn.listing = [] ++ [] ++ [.redefinition "x" 3 [2]] ∧
        DeclaredAt stn 0 "x" [2, 3] :=
  have hd : DeclaredAt (okState (buildSymtab progOnce State.initial)) 0 "x" [2] :=
    ⟨by decide, by decide, by decide⟩
  ⟨hd, redeclaration_cites_earlier_lines (okState (buildSymtab progOnce State.initial)) 0 "x" [2]
    secondDecl .null .null .null .null (Or.inl rfl) rfl rfl rfl hd⟩

/-- C5, counterexample. After `2: int x; 3: int x[10];` the three lookups started at the
global scope return the entry of the first declaration (type Integer, line 2), not the
entry of the most recent one (type IntegerArray, line 3), which sits behind it in the
chain. -/
theorem lookups_return_first_declaration :
    lookedUp (okState (buildSymtab progRedeclared State.initial))
        (lookupSymbolInCurrentScope (some 0) (some "x") (okState (buildSymtab progRedeclared State.initial)))
      = some (.Integer, .VariableSym, [2]) ∧
    lookedUp (okState (buildSymtab progRedeclared State.initial))
        (lookupSymbol (some 0) (some "x") (okState (buildSymtab progRedeclared State.initial)))
      = some (.Integer, .VariableSym, [2]) ∧
    lookedUp (okState (buildSymtab progRedeclared State.initial))
        (lookupSymbolWithKind (some 0) (some "x") .VariableSym
          (okState (buildSymtab progRedeclared State.initial)))
      = some (.Integer, .VariableSym, [2]) ∧
    ((okState (buildSymtab progRedeclared State.initial)).chain 0 (hash "x")).map
        (fun e => (e.type, e.kind, e.lineList))
      = [(.Integer, .VariableSym, [2]), (.IntegerArray, .VariableSym, [3])] := by
  decide

theorem chainFind_decl_chain (p : SymbolRec → Bool) (nm : String) (l : List SymbolRec)
    (x : SymbolRec) {j : Nat} (hp : ∀ e, p (markRedefined nm e) = p e)
    (h : chainFind p l = some j) :
    chainFind p (l.map (markRedefined nm) ++ [x]) = some j := by
  rw [chainFind_append, chainFind_map _ _ hp, h]

/-- C5, amended. In a scope that holds no placeholder for the name, where the name has
been declared before (at `lines`, not empty): a redeclaration completes, the new entry is
put at the end of the chain, and the lookups keep returning the earliest binding:
`lookupSymbolInCurrentScope` and `lookupSymbol` started at that scope return the entry of
the first declaration of the name, as before the redeclaration, unchanged but for its
state, and `lookupSymbolWithKind` returns the first entry of the name and kind that the
scope already held. -/
theorem redeclaration_keeps_first_binding (st : State) (k : Nat) (nm : String) (lines : List Int)
    (d : NodeData) (c0 c1 c2 sib : TreeNode)
    (hkind : d.kind = .VariableDecl ∨ (d.kind = .Params ∧ d.flag = false))
    (hname : d.name = some nm) (hcur : st.currentScope = some k)
    (hd : DeclaredAt st k nm lines) (hlines : lines ≠ []) :
    ∃ stn i e new,
      insertNode (.node d c0 c1 c2 sib) st = .ok (d, stn) ∧
      lookupSymbolInCurrentScope (some k) (some nm) st = .ok (some ⟨k, hash nm, i⟩) ∧
      derefSymbol st ⟨k, hash nm, i⟩ = some e ∧ lines.head? = some (firstLine e) ∧
      lookupSymbolInCurrentScope (some k) (some nm) stn = .ok (some ⟨k, hash nm, i⟩) ∧
      lookupSymbol (some k) (some nm) stn = .ok (some ⟨k, hash nm, i⟩) ∧
      derefSymbol stn ⟨k, hash nm, i⟩ = some { e with state := .STATE_REDEFINED } ∧
      (∀ kind j, chainFind (fun x => decide (x.name = nm) && decide (x.kind = kind))
          (st.chain k (hash nm)) = some j →
        lookupSymbolWithKind (some k) (some nm) kind stn = .ok (some ⟨k, hash nm, j⟩)) ∧
      i < (st.chain k (hash nm)).length ∧
      derefSymbol stn ⟨k, hash nm, (st.chain k (hash nm)).length⟩ = some new ∧
      new.type = d.type ∧ new.lineList = [d.lineno] ∧ new.node = .node d c0 c1 c2 sib := by
  obtain ⟨stn, memloc, hrun, _, hch, _, hlen, _, _⟩ :=
    insertNode_decl_spec d c0 c1 c2 sib hkind hname hcur hd
  have hk : k < st.scopeList.length := hd.1
  have hkn : k < stn.scopeList.length := by rw [hlen]; exact hk
  cases hfind : chainFind (fun e => decide (e.name = nm)) (st.chain k (hash nm)) with
  | none => exact absurd ((lines_eq_nil_iff hd).mpr hfind) hlines
  | some i =>
    obtain ⟨e, hei, hpe, hbefore⟩ := chainFind_eq_some hfind
    have hen : e.name = nm := by simpa using hpe
    have hi : i < (st.chain k (hash nm)).length := (List.getElem?_eq_some.mp hei).1
    have hfindn : chainFind (fun e => decide (e.name = nm)) (stn.chain k (hash nm)) = some i := by
      rw [hch]
      apply chainFind_decl_chain _ _ _ _ _ hfind
      intro x
      simp only [markRedefined]
      split <;> rfl
    obtain ⟨f, hf⟩ := succ_of_lt hkn
    refine ⟨stn, i, e, freshSymbol nm d.type .VariableSym d.lineno (.node d c0 c1 c2 sib)
      (if lines = [] then .STATE_NORMAL else .STATE_REDEFINED) memloc,
      hrun, ?_, ?_, ?_, ?_, ?_, ?_, ?_, hi, ?_, rfl, rfl, rfl⟩
    · rw [lookupSymbolInCurrentScope_eq nm hk, hfind]; rfl
    · rw [derefSymbol_eq]; exact hei
    · rw [← hd.2.2]
      have hsplit := filter_drop_of_take nm (st.chain k (hash nm)) i hbefore
      rw [← hsplit, List.drop_eq_getElem_cons hi]
      have hget : (st.chain k (hash nm))[i] = e := by
        have := List.getElem?_eq_getElem hi
        rw [this] at hei
        exact Option.some.inj hei
      simp [hget, hen]
    · rw [lookupSymbolInCurrentScope_eq nm hkn, hfindn]; rfl
    · simp only [lookupSymbol, ERROR_CHECK, bind, Except.bind, Option.isSome_some, Bool.and_self,
        if_true, Option.getD_some]
      rw [hf]
      exact lookupWalk_here _ hkn hfindn
    · rw [derefSymbol_eq, hch, List.getElem?_append_left (by simpa using hi), List.getElem?_map, hei]
      simp [markRedefined, hen]
    · intro kind j hj
      simp only [lookupSymbolWithKind, ERROR_CHECK, bind, Except.bind, Option.isSome_some,
        Bool.and_self, if_true, Option.getD_some]
      rw [hf]
      apply lookupWalk_here _ hkn
      rw [hch]
      apply chainFind_decl_chain _ _ _ _ _ hj
      intro x
      simp only [markRedefined]
      split <;> rfl
    · rw [derefSymbol_eq, hch, List.getElem?_append_right (by simp)]
      simp

theorem redeclaration_keeps_first_binding_witness :
    DeclaredAt (okState (buildSymtab progOnce State.initial)) 0 "x" [2] ∧
      ∃ stn i e new,
        insertNode (.node secondDecl .null .null .null .null)
          (okState (buildSymtab progOnce State.initial)) = .ok (secondDecl, stn) ∧
        lookupSymbolInCurrentScope (some 0) (some "x")
          (okState (buildSymtab progOnce State.initial)) = .ok (some ⟨0, hash "x", i⟩) ∧
        derefSymbol (okState (buildSymtab progOnce State.initial)) ⟨0, hash "x", i⟩ = some e ∧
        [(2 : Int)].head? = some (firstLine e) ∧
        lookupSymbolInCurrentScope (some 0) (some "x") stn = .ok (some ⟨0, hash "x", i⟩) ∧
        lookupSymbol (some 0) (some "x") stn = .ok (some ⟨0, hash "x", i⟩) ∧
        derefSymbol stn ⟨0, hash "x", i⟩ = some { e with state := .STATE_REDEFINED } ∧
        (∀ kind j, chainFind (fun x => decide (x.name = "x") && decide (x.kind = kind))
            ((okState (buildSymtab progOnce State.initial)).chain 0 (hash "x")) = some j →
          lookupSymbolWithKind (some 0) (some "x") kind stn = .ok (some ⟨0, hash "x", j⟩)) ∧
        i < ((okState (buildSymtab progOnce State.initial)).chain 0 (hash "x")).length ∧
        derefSymbol stn ⟨0, hash "x",
          ((okState (buildSymtab progOnce State.initial)).chain 0 (hash "x")).length⟩ = some new ∧
        new.type = secondDecl.type ∧ new.lineList = [secondDecl.lineno] ∧
        new.node = .node secondDecl .null .null .null .null :=
  have hd : DeclaredAt (okState (buildSymtab progOnce State.initial)) 0 "x" [2] :=
    ⟨by decide, by decide, by decide⟩
  ⟨hd, redeclaration_keeps_first_binding (okState (buildSymtab progOnce State.initial)) 0 "x" [2]
    secondDecl .null .null .null .null (Or.inl rfl) rfl rfl hd (by decide)⟩

/-- C2, the failing inputs. Pass 1 aborts on a function declared after a call to it (the
redefinition report dereferences the absent declaration node of the placeholder), on a
function declared twice with a nested block in each body, and on a function named like the
built-in `output` or like the global scope (the duplicate-name check of `insertScope`). -/
theorem buildSymtab_aborts_on_user_mistakes :
    buildSymtab progCallThenDecl State.initial = .error .nullDeref ∧
      buildSymtab progTwiceNested State.initial = .error .errorCheck ∧
      buildSymtab progOutputDecl State.initial = .error .errorCheck ∧
      buildSymtab progGlobalDecl State.initial = .error .errorCheck :=
  ⟨rfl, rfl, rfl, rfl⟩

/-- C3, the failing input. On `int main(void) { int a; { int a[10]; } a = 1; }` pass 2
completes with the scope of the inner block `main.0` still current: the reference `a` of
line 4, outside that block, is resolved in it, typed IntegerArray, and the assignment is
reported. -/
theorem typeCheck_does_not_leave_scopes :
    (okState (analyze progInnerBlock)).currentScope = some 3 ∧
      (okState (analyze progInnerBlock)).scopeList.map (fun s => (s.name, s.parent)) =
        [("global", none), ("output", some 0), ("main", some 0), ("main.0", some 2)] ∧
      refTypes "a" (okTree (analyze progInnerBlock)) = [.IntegerArray] ∧
      (okState (analyze progInnerBlock)).listing = [.invalidAssignment 4] := by
  decide

/-- C7, the failing input. On `int f(void) { { int x; } x = 1; }` pass 1 reports the
reference `x` of line 3 as undeclared, and pass 2, still in the scope of the closed block,
resolves it to the `int x` of that block: the reference gets type Integer, not
Undetermined. -/
theorem undeclared_reference_typed_from_closed_block :
    (okState (buildSymtab progLateRef State.initial)).listing = [.undeclaredVariable (some "x") 3] ∧
      refTypes "x" (okTree (analyze progLateRef)) = [.Integer] ∧
      (okState (analyze progLateRef)).listing = [.undeclaredVariable (some "x") 3] := by
  decide

/-- C8, the failing input. On `int main(void) { g(); }  void g;` pass 1 aborts at the
void-typed declaration: its redefinition check dereferences the absent declaration node
of the placeholder left by the call. -/
theorem void_declaration_after_call_aborts :
    buildSymtab progVoidAfterCall State.initial = .error .nullDeref :=
  rfl

/-- C9. The pre-visit of a parameter node flagged as the empty parameter list returns the
node and the whole state (tables, current scope, error flag, listing) unchanged, and so
does the post-visit when the node carries no scope back-reference. -/
theorem empty_parameter_list_is_skipped (d : NodeData) (c0 c1 c2 sib : TreeNode) (st : State)
    (hkind : d.kind = .Params) (hflag : d.flag = true) :
    insertNode (.node d c0 c1 c2 sib) st = .ok (d, st) ∧
      (d.scope = none → scopeOut (.node d c0 c1 c2 sib) st = .ok (d, st)) := by
  constructor
  · simp [insertNode, hkind, hflag]
  · intro hs
    simp [scopeOut, hs]

theorem empty_parameter_list_is_skipped_witness :
    insertNode (voidParams 1) (okState (buildSymtab progOnce State.initial)) =
        .ok ({ newTreeNode .Params with lineno := 1, type := .Void, flag := true },
          okState (buildSymtab progOnce State.initial)) ∧
      (({ newTreeNode .Params with lineno := 1, type := .Void, flag := true } : NodeData).scope = none →
        scopeOut (voidParams 1) (okState (buildSymtab progOnce State.initial)) =
          .ok ({ newTreeNode .Params with lineno := 1, type := .Void, flag := true },
            okState (buildSymtab progOnce State.initial))) :=
  empty_parameter_list_is_skipped _ .null .null .null .null _ rfl rfl

/-- C10, counterexample. In `int a[10]; int b; int main(void) { b[a] = 2; }` the index
expression `a` has type IntegerArray, not Integer, and the only diagnostic is the
not-indexable error: no bad-index-type error is written. -/
theorem bad_index_not_reported_for_scalar :
    indexTypes (okTree (analyze progIndexBoth)) = [.IntegerArray] ∧
      (okState (analyze progIndexBoth)).listing = [.arrayIndexing2 (some "b") 3] := by
  decide

/-- C10, amended. For an indexed variable reference whose symbol is not an Undeclared
placeholder, pass 2 writes the not-indexable error exactly when the type of the symbol is
not IntegerArray, and the bad-index-type error exactly when the type of the symbol is
IntegerArray and the type of the index expression is not Integer; the three programs of
the claim give no error, a bad-index-type error and a not-indexable error. -/
theorem indexed_reference_errors (st : State) (d cd : NodeData) (a0 a1 a2 as c1 c2 sib : TreeNode)
    (p : SymPtr) (symbol : SymbolRec) (hkind : d.kind = .VarAccessExpr)
    (hlook : lookupSymbolWithKind st.currentScope d.name .VariableSym st = .ok (some p))
    (hsym : derefSymbol st p = some symbol) (hstate : symbol.state ≠ .STATE_UNDECLARED) :
    (∃ stn, checkNode (.node d (.node cd a0 a1 a2 as) c1 c2 sib) st =
        .ok ({ d with type := .Integer }, stn) ∧
      stn.listing = st.listing ++
        (if symbol.type ≠ .IntegerArray then [.arrayIndexing2 d.name d.lineno]
         else if cd.type ≠ .Integer then [.arrayIndexing d.name d.lineno] else [])) ∧
    (okState (analyze progIndexOk)).listing = [] ∧
    (okState (analyze progIndexArray)).listing = [.arrayIndexing (some "a") 2] ∧
    (okState (analyze progIndexScalar)).listing = [.arrayIndexing2 (some "b") 2] := by
  refine ⟨?_, by decide, by decide, by decide⟩
  have hb : (some p).bind (derefSymbol st) = some symbol := hsym
  simp only [checkNode, hkind, hlook, bind, Except.bind, ERROR_CHECK, Option.isSome_some, if_true,
    pure, Except.pure]
  rw [hb]
  simp only [hstate, if_false]
  refine ⟨_, rfl, ?_⟩
  by_cases h1 : symbol.type = .IntegerArray
  · by_cases h2 : cd.type = .Integer
    · simp [h1, h2]
    · simp [h1, h2, ArrayIndexingError, report]
  · simp [h1, ArrayIndexingError2, report]

theorem indexed_reference_errors_witness :
    lookupSymbolWithKind indexedRefState.currentScope indexedRef.name .VariableSym indexedRefState =
        .ok (some ⟨0, hash "a", 0⟩) ∧
      ((derefSymbol indexedRefState ⟨0, hash "a", 0⟩).map fun e => (e.type, e.state)) =
        some (.IntegerArray, .STATE_NORMAL) ∧
      ((∃ stn, checkNode (.node indexedRef (.node indexedRefIndex .null .null .null .null)
            .null .null .null) indexedRefState = .ok ({ indexedRef with type := .Integer }, stn) ∧
          stn.listing = indexedRefState.listing ++ []) ∧
        (okState (analyze progIndexOk)).listing = [] ∧
        (okState (analyze progIndexArray)).listing = [.arrayIndexing (some "a") 2] ∧
        (okState (analyze progIndexScalar)).listing = [.arrayIndexing2 (some "b") 2]) :=
  ⟨by decide, by decide,
    indexed_reference_errors indexedRefState indexedRef indexedRefIndex .null .null .null .null
      .null .null .null ⟨0, hash "a", 0⟩
      ((indexedRefState.chain 0 (hash "a")).headD
        (freshSymbol "" .None .VariableSym 0 .null .STATE_NORMAL 0))
      rfl (by decide) (by decide) (by decide)⟩

theorem parentOf_of_scopeAttrs {st stn : State} {j : Nat} (h : stn.scopeAttrs j = st.scopeAttrs j) :
    stn.parentOf j = st.parentOf j := by
  simp only [State.scopeAttrs, State.parentOf] at *
  cases h1 : stn.scopeList[j]? <;> cases h2 : st.scopeList[j]? <;> simp [h1, h2] at h ⊢
  simp only [ScopeRec.attrs, Prod.mk.injEq] at h
  exact h.2.1

theorem parentOf_modifyScope (st : State) (j : Nat) (f : ScopeRec → ScopeRec)
    (hf : ∀ s, (f s).parent = s.parent) (k : Nat) :
    (modifyScope st j f).parentOf k = st.parentOf k := by
  simp only [State.parentOf, modifyScope, getElem?_updateAt]
  split
  · cases st.scopeList[k]? <;> simp [hf]
  · rfl

theorem parentOf_modifySymbol (st : State) (p : SymPtr) (f : SymbolRec → SymbolRec) (k : Nat) :
    (modifySymbol st p f).parentOf k = st.parentOf k := by
  simp only [modifySymbol]
  apply parentOf_modifyScope
  intro s
  rfl

theorem parentOf_of_scopeList_eq {st stn : State} (h : stn.scopeList = st.scopeList) (j : Nat) :
    stn.parentOf j = st.parentOf j := by
  simp [State.parentOf, h]

theorem chain_of_scopeList_eq {st stn : State} (h : stn.scopeList = st.scopeList) (k b : Nat) :
    stn.chain k b = st.chain k b := by
  simp [State.chain, h]

/-! ## `insertScope`, read through chains and parent links -/

theorem insertScope_inv {name : Option String} {parent : Option Nat} {func : TreeNode} {st stn : State}
    {k : Nat} (h : insertScope name parent func st = .ok (k, stn)) :
    k = st.scopeList.length ∧ stn.scopeList.length = st.scopeList.length + 1 ∧
      stn.parentOf k = some parent ∧ (∀ b, stn.chain k b = []) ∧
      (∀ j, j < st.scopeList.length → stn.parentOf j = st.parentOf j) ∧
      (∀ j b, j < st.scopeList.length → stn.chain j b = st.chain j b) ∧
      stn.currentScope = st.currentScope ∧ stn.globalScope = st.globalScope ∧
      stn.listing = st.listing ∧ stn.Error = st.Error := by
  obtain ⟨st1, scope, rfl, rfl, h1, hsym, hpar, _⟩ := insertScope_ok h
  have hlen : st1.scopeList.length = st.scopeList.length := by
    rcases h1 with rfl | ⟨j, rfl⟩
    · rfl
    · exact length_modifyScope _ _ _
  have hpo : ∀ j, st1.parentOf j = st.parentOf j := by
    rcases h1 with rfl | ⟨j, rfl⟩
    · intro; rfl
    · intro i
      apply parentOf_modifyScope
      intro s
      rfl
  have hch : ∀ j b, st1.chain j b = st.chain j b := by
    rcases h1 with rfl | ⟨j, rfl⟩
    · intro _ _; rfl
    · intro i b
      apply chain_modifyScope_keep
      intro s
      rfl
  have hrest : st1.currentScope = st.currentScope ∧ st1.globalScope = st.globalScope ∧
      st1.listing = st.listing ∧ st1.Error = st.Error := by
    rcases h1 with rfl | ⟨j, rfl⟩ <;> exact ⟨rfl, rfl, rfl, rfl⟩
  refine ⟨hlen, by simp [hlen], ?_, ?_, ?_, ?_, hrest.1, hrest.2.1, hrest.2.2.1, hrest.2.2.2⟩
  · simp [State.parentOf, hpar]
  · intro b
    simp [State.chain, hsym]
  · intro j hj
    rw [← hpo j]
    simp only [State.parentOf]
    rw [List.getElem?_append_left (by rw [hlen]; exact hj)]
  · intro j b hj
    rw [← hch j b]
    simp only [State.chain]
    rw [List.getElem?_append_left (by rw [hlen]; exact hj)]

/-! ## `insertSymbol`, read through chains -/

theorem insertSymbol_inv {cs : Option Nat} {name : Option String} {type : NodeType} {kind : SymbolKind}
    {lineno : Int} {node : TreeNode} {st stn : State} {p : SymPtr}
    (h : insertSymbol cs name type kind lineno node st = .ok (p, stn)) :
    ∃ k nm, cs = some k ∧ name = some nm ∧ k < st.scopeList.length ∧ p.scope = k ∧
      p.bucket = hash nm ∧
      stn.scopeList.length = st.scopeList.length ∧ (∀ j, stn.parentOf j = st.parentOf j) ∧
      stn.currentScope = st.currentScope ∧ stn.globalScope = st.globalScope ∧
      stn.listing = st.listing ∧ stn.Error = st.Error ∧
      (∀ k1 b1, ¬(k1 = k ∧ b1 = hash nm) → stn.chain k1 b1 = st.chain k1 b1) ∧
      ((∃ i, insertSymbol.scan nm (st.chain k (hash nm)) .STATE_NORMAL = .inl i ∧ p.idx = i ∧
          stn.chain k (hash nm) = updateAt (fun e =>
            { e with type := type
                     state := if node = .null then .STATE_UNDECLARED else .STATE_NORMAL })
            (st.chain k (hash nm)) i) ∨
       (∃ state memloc, insertSymbol.scan nm (st.chain k (hash nm)) .STATE_NORMAL = .inr state ∧
          p.idx = (st.chain k (hash nm)).length ∧
          stn.chain k (hash nm) = st.chain k (hash nm) ++
            [freshSymbol nm type kind lineno node state memloc])) := by
  obtain ⟨k, nm, s, rfl, rfl, hs, h⟩ := insertSymbol_ok h
  have hk : k < st.scopeList.length := (List.getElem?_eq_some.mp hs).1
  have hchain := chain_of_getElem? hs (hash nm)
  refine ⟨k, nm, rfl, rfl, hk, ?_⟩
  rcases h with ⟨i, hscan, rfl, rfl⟩ | ⟨state, hscan, rfl, rfl⟩
  · refine ⟨rfl, rfl, length_modifySymbol _ _ _, parentOf_modifySymbol _ _ _, rfl, rfl, rfl, rfl,
      ?_, Or.inl ⟨i, by rw [hchain]; exact hscan, rfl, ?_⟩⟩
    · intro k1 b1 hne
      rw [chain_modifySymbol, if_neg hne]
    · rw [chain_modifySymbol]
      simp
  · refine ⟨rfl, rfl, length_modifyScope _ _ _, ?_, rfl, rfl, rfl, rfl, ?_,
      Or.inr ⟨state, s.numSymbols, by rw [hchain]; exact hscan, by rw [hchain], ?_⟩⟩
    · intro j
      apply parentOf_modifyScope
      intro s1
      rfl
    · intro k1 b1 hne
      rw [chain_modifyScope]
      by_cases hk1 : k1 = k
      · subst hk1
        have hb : b1 ≠ hash nm := fun h => hne ⟨rfl, h⟩
        simp [hs, Function.update_noteq hb, State.chain]
      · simp [hk1]
    · rw [chain_modifyScope]
      simp [hs, hchain]

/-! ## The redefinition check, read through chains -/

theorem redefined_inv {scope : Option Nat} {d : NodeData} {st st2 : State}
    (h : insertNode.redefined scope d st = .ok st2) :
    ∃ k n, scope = some k ∧ d.name = some n ∧ k < st.scopeList.length ∧
      st2.scopeList.length = st.scopeList.length ∧ (∀ j, st2.parentOf j = st.parentOf j) ∧
      st2.currentScope = st.currentScope ∧ st2.globalScope = st.globalScope ∧
      (∀ k1 b1, ¬(k1 = k ∧ b1 = hash n) → st2.chain k1 b1 = st.chain k1 b1) ∧
      st2.chain k (hash n) = (st.chain k (hash n)).map (markRedefined n) ∧
      (∀ e ∈ st.chain k (hash n), e.name = n → hasDecl st.scopeList.length e = true) ∧
      ∃ new, Emits st st2 new ∧ ∀ x ∈ new, ∃ cited, x = .redefinition n d.lineno cited := by
  simp only [insertNode.redefined, bind_ok_iff] at h
  obtain ⟨symbol, hlook, h⟩ := h
  simp only [lookupSymbolInCurrentScope, bind_ok_iff, ERROR_CHECK_ok_iff, derefScope_ok_iff,
    Bool.and_eq_true, Option.isSome_iff_exists, pure_ok_iff] at hlook
  obtain ⟨_, ⟨⟨k, rfl⟩, ⟨n, hn⟩⟩, s, ⟨k2, hk2, hs⟩, hsym⟩ := hlook
  simp only [Option.some.injEq] at hk2
  subst hk2
  have hk : k < st.scopeList.length := (List.getElem?_eq_some.mp hs).1
  have hchain := chain_of_getElem? hs (hash n)
  refine ⟨k, n, rfl, hn, hk, ?_⟩
  rw [hn] at hsym
  simp only [Option.getD_some] at hsym
  rw [← hchain] at hsym
  cases hfind : chainFind (fun e => decide (e.name = n)) (st.chain k (hash n)) with
  | none =>
    rw [hfind] at hsym
    simp only [Option.map_none'] at hsym
    subst hsym
    simp only [pure_ok_iff] at h
    subst h
    have hnone := chainFind_eq_none.mp hfind
    refine ⟨rfl, fun _ => rfl, rfl, rfl, fun _ _ _ => rfl, ?_, ?_, [], Emits_refl _, by simp⟩
    · rw [map_markRedefined_of_none n _ hnone]
    · intro e he hen
      have := hnone e he
      simp [hen] at this
  | some i =>
    rw [hfind] at hsym
    simp only [Option.map_some'] at hsym
    subst hsym
    rw [hn] at h
    simp only [Option.getD_some, RedefinitionError, bind_ok_iff, pure_ok_iff, derefScope_ok_iff,
      Prod.exists] at h
    obtain ⟨s2, ⟨_, hk3, hs2⟩, stL, cited, hloop, rfl⟩ := h
    simp only [Option.some.injEq] at hk3
    subst hk3
    rw [hs] at hs2
    simp only [Option.some.injEq] at hs2
    subst hs2
    rw [← hchain] at hloop
    obtain ⟨e, hei, _, hbefore⟩ := chainFind_eq_some hfind
    have hi : i < (st.chain k (hash n)).length := (List.getElem?_eq_some.mp hei).1
    have hpre : ((st.chain k (hash n)).take i).length = i := by
      rw [List.length_take]
      omega
    obtain ⟨r1, r2, r3, r4, r5, r6⟩ := RedefinitionError_loop_ok n k (hash n)
      ((st.chain k (hash n)).drop i) ((st.chain k (hash n)).take i) st [] stL cited
      (by rw [hpre]; exact hloop) (List.take_append_drop i _).symm
    obtain ⟨f1, f2, f3, f4⟩ := RedefinitionError_loop_frame _ _ _ _ _ _ _ _ _ hloop
    refine ⟨r5, fun j => parentOf_of_scopeAttrs (r6 j), f4, f3, r4, ?_, ?_,
      [.redefinition n d.lineno cited], ?_, ?_⟩
    · show stL.chain k (hash n) = _
      rw [r3, take_append_drop_marked n _ i hbefore]
    · intro x hx hxn
      have hxd : x ∈ (st.chain k (hash n)).drop i := by
        rw [← List.take_append_drop i (st.chain k (hash n))] at hx
        rcases List.mem_append.mp hx with hx | hx
        · have := hbefore x hx
          simp [hxn] at this
        · exact hx
      exact r2 x hxd hxn
    · simp [Emits, report, f1, f2]
    · intro x hx
      simp only [List.mem_singleton] at hx
      exact ⟨cited, hx⟩

theorem hasFunIn_iff {nm : String} {l : List SymbolRec} :
    hasFunIn nm l = true ↔ ∃ e ∈ l, e.name = nm ∧ e.kind = .FunctionSym := by
  simp [hasFunIn, List.any_eq_true]

theorem Neutral_refl (nm : String) (l : List SymbolRec) : Neutral nm l l :=
  fun h => ⟨h, rfl⟩

theorem Neutral_of_eq {nm : String} {l ln : List SymbolRec} (h : ln = l) : Neutral nm l ln := by
  subst h
  exact Neutral_refl nm _

theorem Neutral_trans {nm : String} {a b c : List SymbolRec} (h1 : Neutral nm a b)
    (h2 : Neutral nm b c) : Neutral nm a c := by
  intro ha
  obtain ⟨hb, e1⟩ := h1 ha
  obtain ⟨hc, e2⟩ := h2 hb
  exact ⟨hc, e2.trans e1⟩

theorem forall_mem_updateAt {P : SymbolRec → Prop} (f : SymbolRec → SymbolRec) (l : List SymbolRec)
    (i : Nat) (hf : ∀ y, l[i]? = some y → (P (f y) ↔ P y)) :
    (∀ x ∈ updateAt f l i, P x) ↔ ∀ x ∈ l, P x := by
  induction l generalizing i with
  | nil => simp [updateAt]
  | cons a rest ih =>
    cases i with
    | zero =>
      simp only [updateAt, List.mem_cons, forall_eq_or_imp]
      rw [hf a (by simp)]
    | succ i =>
      simp only [updateAt, List.mem_cons, forall_eq_or_imp]
      rw [ih i (fun y hy => hf y (by simpa using hy))]

theorem any_updateAt (p : SymbolRec → Bool) (f : SymbolRec → SymbolRec) (l : List SymbolRec)
    (i : Nat) (hf : ∀ y, l[i]? = some y → p (f y) = p y) :
    (updateAt f l i).any p = l.any p := by
  induction l generalizing i with
  | nil => simp [updateAt]
  | cons a rest ih =>
    cases i with
    | zero => simp [updateAt, hf a (by simp)]
    | succ i =>
      simp only [updateAt, List.any_cons]
      rw [ih i (fun y hy => hf y (by simpa using hy))]

/-- Rewriting one entry without touching name, kind, state, type and the presence of a
declaration node is neutral. -/
theorem Neutral_updateAt_quiet (nm : String) (f : SymbolRec → SymbolRec) (l : List SymbolRec) (i : Nat)
    (hf : ∀ y, l[i]? = some y → (f y).name = y.name ∧ (f y).kind = y.kind ∧ (f y).state = y.state ∧
      (f y).type = y.type ∧ ((f y).node = .null ↔ y.node = .null)) :
    Neutral nm l (updateAt f l i) := by
  intro h
  constructor
  · unfold PlaceholdersIn
    rw [forall_mem_updateAt]
    · exact h
    · intro y hy
      obtain ⟨h1, h2, h3, h4, h5⟩ := hf y hy
      rw [h1, h2, h3, h4, h5]
  · unfold hasFunIn
    apply any_updateAt
    intro y hy
    obtain ⟨h1, h2, _⟩ := hf y hy
    rw [h1, h2]

/-- Rewriting an entry of another name (keeping its name) is neutral. -/
theorem Neutral_updateAt_other (nm : String) (f : SymbolRec → SymbolRec) (l : List SymbolRec) (i : Nat)
    (hf : ∀ y, l[i]? = some y → y.name ≠ nm ∧ (f y).name = y.name) :
    Neutral nm l (updateAt f l i) := by
  intro h
  constructor
  · unfold PlaceholdersIn
    rw [forall_mem_updateAt]
    · exact h
    · intro y hy
      obtain ⟨h1, h2⟩ := hf y hy
      simp [h2, h1]
  · unfold hasFunIn
    apply any_updateAt
    intro y hy
    obtain ⟨h1, h2⟩ := hf y hy
    simp [h2, h1]

/-- Appending an entry of another name is neutral. -/
theorem Neutral_append_other (nm : String) (l : List SymbolRec) (x : SymbolRec) (hx : x.name ≠ nm) :
    Neutral nm l (l ++ [x]) := by
  intro h
  constructor
  · intro e he
    simp only [List.mem_append, List.mem_singleton] at he
    rcases he with he | rfl
    · exact h e he
    · intro hen
      exact absurd hen hx
  · simp [hasFunIn, hx]

/-- Marking the entries of another name is neutral. -/
theorem Neutral_mark_other (nm n : String) (l : List SymbolRec) (hn : n ≠ nm) :
    Neutral nm l (l.map (markRedefined n)) := by
  have hmark : ∀ e : SymbolRec, e.name = nm → markRedefined n e = e := by
    intro e he
    simp [markRedefined, he, Ne.symm hn]
  have hname : ∀ e : SymbolRec, (markRedefined n e).name = e.name := by
    intro e
    simp only [markRedefined]
    split <;> rfl
  intro h
  constructor
  · intro e he hen
    simp only [List.mem_map] at he
    obtain ⟨y, hy, rfl⟩ := he
    rw [hname] at hen
    rw [hmark y hen]
    exact h y hy hen
  · simp only [hasFunIn, List.any_map]
    congr 1
    funext e
    simp only [Function.comp]
    by_cases he : e.name = nm
    · rw [hmark e he]
    · simp [hname, he]

/-- A declaration of `nm` itself, as a variable: the earlier entries all have their
declaration node, so none is a Function entry; they are marked and a Variable entry with a
declaration node is appended. -/
theorem Neutral_declare_same (nm : String) (l : List SymbolRec) (x : SymbolRec) (n : Nat)
    (hall : ∀ e ∈ l, e.name = nm → hasDecl n e = true)
    (hx : x.kind = .VariableSym ∧ x.state ≠ .STATE_UNDECLARED) :
    Neutral nm l (l.map (markRedefined nm) ++ [x]) := by
  intro h
  have hnofun : ∀ e ∈ l, e.name = nm → e.kind ≠ .FunctionSym := by
    intro e he hen hk
    have h1 := ((h e he hen).1 hk).2.2
    have h2 := hall e he hen
    simp [hasDecl, h1] at h2
  constructor
  · intro e he hen
    simp only [List.mem_append, List.mem_map, List.mem_singleton] at he
    rcases he with ⟨y, hy, rfl⟩ | rfl
    · have hyn : y.name = nm := by
        simp only [markRedefined] at hen
        split at hen
        · assumption
        · exact hen
      have hk := hnofun y hy hyn
      simp only [markRedefined, hyn, if_true]
      constructor
      · intro hk2; exact absurd hk2 hk
      · intro hs; simp at hs
    · constructor
      · intro hk; rw [hx.1] at hk; simp at hk
      · intro hs; exact absurd hs hx.2
  · have h1 : hasFunIn nm l = false := by
      rw [Bool.eq_false_iff]
      intro hf
      obtain ⟨e, he, hen, hk⟩ := hasFunIn_iff.mp hf
      exact hnofun e he hen hk
    rw [h1, Bool.eq_false_iff]
    intro hf
    obtain ⟨e, he, hen, hk⟩ := hasFunIn_iff.mp hf
    simp only [List.mem_append, List.mem_map, List.mem_singleton] at he
    rcases he with ⟨y, hy, rfl⟩ | rfl
    · have hyn : y.name = nm := by
        simp only [markRedefined] at hen
        split at hen
        · assumption
        · exact hen
      apply hnofun y hy hyn
      simpa [markRedefined, hyn] using hk
    · rw [hx.1] at hk
      simp at hk

theorem insertSymbol_scan_inl {name : String} {l : List SymbolRec} {state : SemanticErrorState}
    {i : Nat} (h : insertSymbol.scan name l state = .inl i) :
    ∃ e, l[i]? = some e ∧ e.name = name ∧ e.state = .STATE_UNDECLARED := by
  induction l generalizing state i with
  | nil => simp [insertSymbol.scan] at h
  | cons a rest ih =>
    simp only [insertSymbol.scan] at h
    have hbump : ∀ s, insertSymbol.bump (insertSymbol.scan name rest s) = .inl i →
        ∃ e, (a :: rest)[i]? = some e ∧ e.name = name ∧ e.state = .STATE_UNDECLARED := by
      intro s hs
      cases hr : insertSymbol.scan name rest s with
      | inl j =>
        rw [hr] at hs
        simp only [insertSymbol.bump, Sum.inl.injEq] at hs
        subst hs
        obtain ⟨e, he, h1, h2⟩ := ih hr
        exact ⟨e, by simpa using he, h1, h2⟩
      | inr s2 =>
        rw [hr] at hs
        simp [insertSymbol.bump] at hs
    split at h
    · next hname =>
      split at h
      · exact hbump _ h
      · split at h
        · next hst =>
          simp only [Sum.inl.injEq] at h
          subst h
          exact ⟨a, by simp, hname, hst⟩
        · exact hbump _ h
    · exact hbump _ h

theorem insertSymbol_scan_inr_state {name : String} {l : List SymbolRec} {state s : SemanticErrorState}
    (h : insertSymbol.scan name l state = .inr s) : s = state ∨ s = .STATE_REDEFINED := by
  induction l generalizing state with
  | nil =>
    simp only [insertSymbol.scan, Sum.inr.injEq] at h
    exact Or.inl h.symm
  | cons a rest ih =>
    simp only [insertSymbol.scan] at h
    have hbump : ∀ s0, insertSymbol.bump (insertSymbol.scan name rest s0) = .inr s →
        s = s0 ∨ s = .STATE_REDEFINED := by
      intro s0 hs
      cases hr : insertSymbol.scan name rest s0 with
      | inl j =>
        rw [hr] at hs
        simp [insertSymbol.bump] at hs
      | inr s2 =>
        rw [hr] at hs
        simp only [insertSymbol.bump, Sum.inr.injEq] at hs
        subst hs
        exact ih hr
    split at h
    · split at h
      · rcases hbump _ h with h | h <;> exact Or.inr h
      · split at h
        · simp at h
        · exact hbump _ h
    · exact hbump _ h

theorem Frame_refl (st : State) : Frame st st :=
  ⟨Nat.le_refl _, fun _ _ => rfl, rfl⟩

theorem Frame_trans {a b c : State} (h1 : Frame a b) (h2 : Frame b c) : Frame a c := by
  obtain ⟨l1, p1, g1⟩ := h1
  obtain ⟨l2, p2, g2⟩ := h2
  exact ⟨Nat.le_trans l1 l2, fun j hj => (p2 j (Nat.lt_of_lt_of_le hj l1)).trans (p1 j hj),
    g2.trans g1⟩

theorem Frame_of_eq {st stn : State} (hlen : stn.scopeList.length = st.scopeList.length)
    (hp : ∀ j, stn.parentOf j = st.parentOf j) (hg : stn.globalScope = st.globalScope) :
    Frame st stn :=
  ⟨by rw [hlen], fun j _ => hp j, hg⟩

theorem GlobalOk_of_frame {st stn : State} (h : GlobalOk st) (hf : Frame st stn) : GlobalOk stn := by
  obtain ⟨hg, hp⟩ := h
  obtain ⟨_, fp, fg⟩ := hf
  have h0 : 0 < st.scopeList.length := by
    simp only [State.parentOf] at hp
    cases hs : st.scopeList[0]? with
    | none => simp [hs] at hp
    | some s => exact (List.getElem?_eq_some.mp hs).1
  exact ⟨fg.trans hg, (fp 0 h0).trans hp⟩

theorem GlobalOk_pos {st : State} (h : GlobalOk st) : 0 < st.scopeList.length := by
  obtain ⟨_, hp⟩ := h
  simp only [State.parentOf] at hp
  cases hs : st.scopeList[0]? with
  | none => simp [hs] at hp
  | some s => exact (List.getElem?_eq_some.mp hs).1

theorem NeutralStep_refl (nm : String) (st : State) : NeutralStep nm st st :=
  Neutral_refl _ _

theorem NeutralStep_trans {nm : String} {a b c : State} (h1 : NeutralStep nm a b)
    (h2 : NeutralStep nm b c) : NeutralStep nm a c :=
  Neutral_trans h1 h2

theorem NeutralStep_of_chain_eq {nm : String} {st stn : State}
    (h : stn.chain 0 (hash nm) = st.chain 0 (hash nm)) : NeutralStep nm st stn :=
  Neutral_of_eq h

theorem NeutralStep_modifySymbol_quiet (nm : String) (st : State) (p : SymPtr)
    (f : SymbolRec → SymbolRec)
    (hf : ∀ y, (f y).name = y.name ∧ (f y).kind = y.kind ∧ (f y).state = y.state ∧
      (f y).type = y.type ∧ ((f y).node = .null ↔ y.node = .null)) :
    NeutralStep nm st (modifySymbol st p f) := by
  unfold NeutralStep
  rw [chain_modifySymbol]
  split
  · exact Neutral_updateAt_quiet nm f _ _ (fun y _ => hf y)
  · exact Neutral_refl _ _

/-- The redefinition check followed by the insertion, as the declaration cases of
`insertNode` run them. -/
theorem decl_inv {cs : Option Nat} {d : NodeData} {kind : SymbolKind} {t : TreeNode}
    {stA stn : State} {p : SymPtr} (hcs : cs = stA.currentScope) (ht : t ≠ .null)
    (h : (insertNode.redefined cs d stA >>= fun st2 =>
      insertSymbol st2.currentScope d.name d.type kind d.lineno t st2) = .ok (p, stn)) :
    ∃ k n x, stA.currentScope = some k ∧ d.name = some n ∧ k < stA.scopeList.length ∧
      p = ⟨k, hash n, (stA.chain k (hash n)).length⟩ ∧
      stn.chain k (hash n) = (stA.chain k (hash n)).map (markRedefined n) ++ [x] ∧
      x.name = n ∧ x.kind = kind ∧ x.state ≠ .STATE_UNDECLARED ∧ x.node = t ∧
      x.type = d.type ∧ x.lineList = [d.lineno] ∧
      (∀ e ∈ stA.chain k (hash n), e.name = n → hasDecl stA.scopeList.length e = true) ∧
      (∀ k1 b1, ¬(k1 = k ∧ b1 = hash n) → stn.chain k1 b1 = stA.chain k1 b1) ∧
      stn.scopeList.length = stA.scopeList.length ∧ (∀ j, stn.parentOf j = stA.parentOf j) ∧
      stn.currentScope = stA.currentScope ∧ stn.globalScope = stA.globalScope ∧
      ∃ new, Emits stA stn new ∧ ∀ y ∈ new, ∃ cited, y = .redefinition n d.lineno cited := by
  rw [bind_ok_iff] at h
  obtain ⟨st2, h1, h2⟩ := h
  obtain ⟨k, n, hk, hn, hklt, rlen, rpar, rcur, rglob, roth, rch, rall, new, remit, rnew⟩ :=
    redefined_inv h1
  obtain ⟨k2, n2, hk2, hn2, _, hps, hpb, ilen, ipar, icur, iglob, ilist, ierr, ioth, icase⟩ :=
    insertSymbol_inv h2
  rw [hn] at hn2
  simp only [Option.some.injEq] at hn2
  subst hn2
  rw [rcur, ← hcs, hk] at hk2
  simp only [Option.some.injEq] at hk2
  subst hk2
  have hscan := insertSymbol_scan_marked n (stA.chain k (hash n)) .STATE_NORMAL
  rw [← rch] at hscan
  rcases icase with ⟨i, hi, _, _⟩ | ⟨state, memloc, hstate, hidx, hch⟩
  · rw [hscan] at hi
    simp at hi
  · rw [hscan] at hstate
    simp only [Sum.inr.injEq] at hstate
    have hst : state ≠ .STATE_UNDECLARED := by
      rw [← hstate]
      split <;> simp
    refine ⟨k, n, freshSymbol n d.type kind d.lineno t state memloc, by rw [← hcs, hk], hn, hklt,
      ?_, ?_, rfl, rfl, ?_, rfl, rfl, rfl, rall, ?_, by rw [ilen, rlen],
      fun j => (ipar j).trans (rpar j), by rw [icur, rcur], by rw [iglob, rglob], new, ?_, rnew⟩
    · cases p
      simp only [SymPtr.mk.injEq]
      simp only at hps hpb hidx
      refine ⟨hps, hpb, ?_⟩
      rw [hidx, rch, List.length_map]
    · rw [hch, rch]
    · simp [freshSymbol, ht, hst]
    · intro k1 b1 hne
      rw [ioth k1 b1 hne, roth k1 b1 hne]
    · have e2 : Emits st2 stn [] := Emits_of_eq ilist ierr
      simpa using Emits_trans remit e2

theorem decl_neutral (nm : String) {stA stn : State} {k : Nat} {n : String} {x : SymbolRec}
    (hch : stn.chain k (hash n) = (stA.chain k (hash n)).map (markRedefined n) ++ [x])
    (hxn : x.name = n) (hxs : x.state ≠ .STATE_UNDECLARED)
    (hall : ∀ e ∈ stA.chain k (hash n), e.name = n → hasDecl stA.scopeList.length e = true)
    (hoth : ∀ k1 b1, ¬(k1 = k ∧ b1 = hash n) → stn.chain k1 b1 = stA.chain k1 b1)
    (hkind : x.kind = .VariableSym ∨ n ≠ nm) : NeutralStep nm stA stn := by
  unfold NeutralStep
  by_cases hkb : 0 = k ∧ hash nm = hash n
  · obtain ⟨rfl, hb⟩ := hkb
    rw [hb, hch]
    by_cases hn : n = nm
    · subst hn
      rcases hkind with hv | hne
      · exact Neutral_declare_same _ _ _ _ hall ⟨hv, hxs⟩
      · exact absurd rfl hne
    · exact Neutral_trans (Neutral_mark_other nm n _ hn) (Neutral_append_other nm _ x (by rw [hxn]; exact hn))
  · exact Neutral_of_eq (hoth 0 (hash nm) hkb)

theorem insertSymbol_neutral (nm : String) {st stn : State} {k : Nat} {n : String} {type : NodeType}
    {kind : SymbolKind} {lineno : Int} {node : TreeNode} {p : SymPtr}
    (h : insertSymbol (some k) (some n) type kind lineno node st = .ok (p, stn))
    (hne : k ≠ 0 ∨ n ≠ nm) : NeutralStep nm st stn := by
  obtain ⟨k2, n2, hk2, hn2, _, _, _, _, _, _, _, _, _, ioth, icase⟩ := insertSymbol_inv h
  simp only [Option.some.injEq] at hk2 hn2
  subst hk2 hn2
  unfold NeutralStep
  by_cases hkb : 0 = k ∧ hash nm = hash n
  · obtain ⟨rfl, hb⟩ := hkb
    have hn : n ≠ nm := by
      rcases hne with h | h
      · exact absurd rfl h
      · exact h
    rw [hb]
    rcases icase with ⟨i, hi, _, hch⟩ | ⟨state, memloc, _, _, hch⟩
    · rw [hch]
      obtain ⟨e, hei, hen, _⟩ := insertSymbol_scan_inl hi
      apply Neutral_updateAt_other
      intro y hy
      rw [hei] at hy
      simp only [Option.some.injEq] at hy
      subst hy
      exact ⟨by rw [hen]; exact hn, rfl⟩
    · rw [hch]
      exact Neutral_append_other nm _ _ (by simpa [freshSymbol] using hn)
  · exact Neutral_of_eq (ioth 0 (hash nm) hkb)

theorem appendSymbol_inv {cs : Option Nat} {name : Option String} {lineno : Int} {st stn : State}
    {p : SymPtr} (nm : String) (h : appendSymbol cs name lineno st = .ok (p, stn)) :
    NeutralStep nm st stn ∧ stn.scopeList.length = st.scopeList.length ∧
      (∀ j, stn.parentOf j = st.parentOf j) ∧ stn.currentScope = st.currentScope ∧
      stn.globalScope = st.globalScope ∧ stn.listing = st.listing ∧ stn.Error = st.Error := by
  obtain ⟨n, _, _, _, rfl⟩ := appendSymbol_ok h
  exact ⟨NeutralStep_modifySymbol_quiet nm st p _ (fun y => ⟨rfl, rfl, rfl, rfl, Iff.rfl⟩),
    length_modifySymbol _ _ _, parentOf_modifySymbol _ _ _, rfl, rfl, rfl, rfl⟩

/-- The lookup of a function name from the global scope, in terms of the global table. -/
theorem lookup_global {st : State} {nm : String} {found : Option SymPtr} (hg : GlobalOk st)
    (h : lookupSymbolWithKind st.globalScope (some nm) .FunctionSym st = .ok found) :
    (found.isSome = hasFun nm st) ∧
      ∀ p, found = some p → p.scope = 0 ∧ ∃ e, derefSymbol st p = some e ∧
        e ∈ st.chain 0 (hash nm) ∧ e.name = nm ∧ e.kind = .FunctionSym := by
  obtain ⟨hglob, hpar⟩ := hg
  have hpos := GlobalOk_pos ⟨hglob, hpar⟩
  obtain ⟨f, hf⟩ := succ_of_lt hpos
  simp only [State.parentOf] at hpar
  cases hs : st.scopeList[0]? with
  | none => simp [hs] at hpar
  | some s =>
    simp only [hs, Option.map_some', Option.some.injEq] at hpar
    have hchain := chain_of_getElem? hs (hash nm)
    simp only [lookupSymbolWithKind, hglob, ERROR_CHECK, bind, Except.bind, Option.isSome_some,
      Bool.and_self, if_true, Option.getD_some, hf, lookupWalk, hs] at h
    cases hfind : chainFind (fun e => decide (e.name = nm) && decide (e.kind = .FunctionSym))
        (s.symbolList (hash nm)) with
    | none =>
      rw [hfind] at h
      simp only [hpar] at h
      have hnone : found = none := by
        cases f <;> simp [lookupWalk] at h <;> exact h.symm
      subst hnone
      refine ⟨?_, by simp⟩
      have := chainFind_eq_none.mp hfind
      simp only [hasFun, hchain, hasFunIn, Option.isSome_none]
      symm
      rw [List.any_eq_false]
      intro x hx
      simpa using this x hx
    | some i =>
      rw [hfind] at h
      simp only [Except.ok.injEq] at h
      subst h
      obtain ⟨e, hei, hpe, _⟩ := chainFind_eq_some hfind
      simp only [Bool.and_eq_true, decide_eq_true_eq] at hpe
      have hmem : e ∈ s.symbolList (hash nm) := List.getElem?_mem hei
      refine ⟨?_, ?_⟩
      · simp only [Option.isSome_some, hasFun, hchain]
        symm
        exact hasFunIn_iff.mpr ⟨e, hmem, hpe.1, hpe.2⟩
      · intro p hp
        simp only [Option.some.injEq] at hp
        subst hp
        refine ⟨rfl, e, ?_, by rw [hchain]; exact hmem, hpe.1, hpe.2⟩
        simp [derefSymbol, hs, hei]

/-- A step that is neutral, writes no undeclared-function error for `nm` and is not a
call of `nm`. -/
theorem StepOk_of_neutral {nm : String} {d d1 : NodeData} {st st1 : State} (new : List Diag)
    (hframe : Frame st st1) (hneutral : NeutralStep nm st st1)
    (hlist : st1.listing = st.listing ++ new)
    (hnew : ∀ x ∈ new, isUndeclaredFunction nm x = false) (hcall : isCall nm d = false)
    (hscope : (d1 = d ∧ st1.currentScope = st.currentScope ∧ d.kind ≠ .FunctionDecl ∧
        ¬(d.kind = .CompoundStmt ∧ d.flag = false)) ∨
      ∃ sc, d1.scope = some sc ∧ st1.currentScope = some sc ∧ sc ≠ 0 ∧
        sc < st1.scopeList.length ∧ st1.parentOf sc = some st.currentScope) :
    StepOk nm d d1 st st1 := by
  refine ⟨hframe, ?_, ⟨new, hlist, ?_⟩, hscope⟩
  · intro hp
    obtain ⟨h1, h2⟩ := hneutral hp
    exact ⟨h1, by simp [hasFun, h2, hcall]⟩
  · intro _
    rw [hcall]
    simp only [Bool.false_and, Bool.false_eq_true, if_false, List.filter_eq_nil_iff]
    intro x hx
    simp [hnew x hx]

theorem voidCheck_inv (d : NodeData) (st : State) :
    (if d.type = .Void ∨ d.type = .VoidArray then VoidTypeVariableError d.name d.lineno st
      else st).scopeList = st.scopeList ∧
    (if d.type = .Void ∨ d.type = .VoidArray then VoidTypeVariableError d.name d.lineno st
      else st).currentScope = st.currentScope ∧
    (if d.type = .Void ∨ d.type = .VoidArray then VoidTypeVariableError d.name d.lineno st
      else st).globalScope = st.globalScope ∧
    ∃ new, (if d.type = .Void ∨ d.type = .VoidArray then VoidTypeVariableError d.name d.lineno st
      else st).listing = st.listing ++ new ∧ ∀ x ∈ new, x = .voidTypeVariable d.name d.lineno := by
  split
  · exact ⟨rfl, rfl, rfl, [_], rfl, by simp⟩
  · exact ⟨rfl, rfl, rfl, [], by simp, by simp⟩

theorem insertNode_step_decl (nm : String) {d d1 : NodeData} {c0 c1 c2 sib : TreeNode}
    {st st1 : State} (hkind : d.kind = .VariableDecl ∨ (d.kind = .Params ∧ d.flag = false))
    (h : insertNode (.node d c0 c1 c2 sib) st = .ok (d1, st1)) : StepOk nm d d1 st st1 := by
  rw [insertNode_decl_eq d c0 c1 c2 sib st hkind, bind_ok_iff] at h
  obtain ⟨⟨p, stn⟩, hbody, hres⟩ := h
  simp only [pure_ok_iff, Prod.mk.injEq] at hres
  obtain ⟨rfl, rfl⟩ := hres
  obtain ⟨vs, vc, vg, vnew, vlist, vall⟩ := voidCheck_inv d st
  obtain ⟨k, n, x, _, _, _, _, hch, hxn, hxk, hxs, _, _, _, hall, hoth, hlen, hpar, hcur, hglob,
    new, ⟨hemit, _⟩, hnew⟩ := decl_inv rfl (by simp) hbody
  have hneutral : NeutralStep nm st stn := by
    have h1 := decl_neutral nm hch hxn hxs hall hoth (Or.inl hxk)
    unfold NeutralStep at h1 ⊢
    rw [chain_of_scopeList_eq vs] at h1
    exact h1
  have hcall : isCall nm d = false := by
    rcases hkind with hk | ⟨hk, _⟩ <;> simp [isCall, hk]
  have hkinds : d.kind ≠ .FunctionDecl ∧ ¬(d.kind = .CompoundStmt ∧ d.flag = false) := by
    rcases hkind with hk | ⟨hk, _⟩ <;> simp [hk]
  apply StepOk_of_neutral (vnew ++ new) ?_ hneutral ?_ ?_ hcall
    (Or.inl ⟨rfl, by rw [hcur, vc], hkinds⟩)
  · refine ⟨by rw [hlen, vs], fun j _ => ?_, by rw [hglob, vg]⟩
    rw [hpar j, parentOf_of_scopeList_eq vs]
  · rw [hemit, vlist, List.append_assoc]
  · intro y hy
    rcases List.mem_append.mp hy with hy | hy
    · rw [vall y hy]; rfl
    · obtain ⟨cited, rfl⟩ := hnew y hy
      rfl

theorem setScope_null_iff (sc : Nat) (t : TreeNode) : t.setScope sc = .null ↔ t = .null := by
  cases t <;> simp [TreeNode.setScope]

theorem insertNode_step_fun (nm : String) {d d1 : NodeData} {c0 c1 c2 sib : TreeNode}
    {st st1 : State} (hkind : d.kind = .FunctionDecl) (hg : GlobalOk st)
    (hfun : d.name ≠ some nm)
    (h : insertNode (.node d c0 c1 c2 sib) st = .ok (d1, st1)) : StepOk nm d d1 st st1 := by
  simp only [insertNode, hkind, bind_ok_iff, ERROR_CHECK_ok_iff, pure_ok_iff, Prod.exists,
    Prod.mk.injEq, decide_eq_true_eq] at h
  obtain ⟨_, hcg, stA, h1, p, st2, h2, sc, st3, h3, rfl, rfl⟩ := h
  have hbody : (insertNode.redefined st.globalScope d st >>= fun s2 =>
      insertSymbol s2.currentScope d.name d.type .FunctionSym d.lineno (.node d c0 c1 c2 sib) s2)
      = .ok (p, st2) := by
    rw [bind_ok_iff]
    exact ⟨stA, h1, h2⟩
  obtain ⟨k, n, x, _, hn, _, _, hch, hxn, hxk, hxs, _, _, _, hall, hoth, hlen, hpar, hcur, hglob,
    new, ⟨hemit, _⟩, hnew⟩ := decl_inv hcg.symm (by simp) hbody
  have hne : n ≠ nm := by
    intro hnn
    apply hfun
    rw [hn, hnn]
  obtain ⟨hsc, slen, spar, _, sparo, sch, scur, sglob, slist, _⟩ := insertScope_inv h3
  have hpos : 0 < st2.scopeList.length := by
    rw [hlen]
    exact GlobalOk_pos hg
  have n1 := decl_neutral nm hch hxn hxs hall hoth (Or.inr hne)
  have n2 : NeutralStep nm st2 st3 := NeutralStep_of_chain_eq (sch 0 (hash nm) hpos)
  have n3 : NeutralStep nm st3 { (modifySymbol st3 p fun e =>
      if e.node = .node d c0 c1 c2 sib then { e with node := e.node.setScope sc } else e) with
      currentScope := some sc } := by
    have n30 : NeutralStep nm st3 (modifySymbol st3 p fun e =>
        if e.node = .node d c0 c1 c2 sib then { e with node := e.node.setScope sc } else e) := by
      apply NeutralStep_modifySymbol_quiet
      intro y
      split
      · next heq => exact ⟨rfl, rfl, rfl, rfl, by simp [setScope_null_iff]⟩
      · exact ⟨rfl, rfl, rfl, rfl, Iff.rfl⟩
    exact n30
  have hcall : isCall nm d = false := by simp [isCall, hkind]
  apply StepOk_of_neutral new ?_ (NeutralStep_trans (NeutralStep_trans n1 n2) n3) ?_ ?_ hcall ?_
  · refine ⟨?_, ?_, ?_⟩
    · show st.scopeList.length ≤ (modifySymbol st3 p _).scopeList.length
      rw [length_modifySymbol, slen, hlen]
      exact Nat.le_succ _
    · intro j hj
      show (modifySymbol st3 p _).parentOf j = _
      rw [parentOf_modifySymbol, sparo j (by rw [hlen]; exact hj), hpar j]
    · show st3.globalScope = _
      rw [sglob, hglob]
  · show st3.listing = _
    rw [slist, hemit]
  · intro y hy
    obtain ⟨cited, rfl⟩ := hnew y hy
    rfl
  · refine Or.inr ⟨sc, rfl, rfl, ?_, ?_, ?_⟩
    · rw [hsc]
      exact Nat.pos_iff_ne_zero.mp hpos
    · show sc < (modifySymbol st3 p _).scopeList.length
      rw [length_modifySymbol, slen, hsc]
      exact Nat.lt_succ_self _
    · show (modifySymbol st3 p _).parentOf sc = _
      rw [parentOf_modifySymbol, spar, hcur]

theorem insertNode_step_compound (nm : String) {d d1 : NodeData} {c0 c1 c2 sib : TreeNode}
    {st st1 : State} (hkind : d.kind = .CompoundStmt) (hg : GlobalOk st)
    (h : insertNode (.node d c0 c1 c2 sib) st = .ok (d1, st1)) : StepOk nm d d1 st st1 := by
  have hcall : isCall nm d = false := by simp [isCall, hkind]
  simp only [insertNode, hkind] at h
  split at h
  · next hflag =>
    simp only [Except.ok.injEq, Prod.mk.injEq] at h
    obtain ⟨rfl, rfl⟩ := h
    exact StepOk_of_neutral [] (Frame_refl _) (NeutralStep_refl _ _) (by simp) (by simp)
      hcall (Or.inl ⟨rfl, rfl, by simp [hkind], by simp [hflag]⟩)
  · simp only [bind_ok_iff, pure_ok_iff, Prod.exists, Prod.mk.injEq] at h
    obtain ⟨cur, _, sc, st2, h3, rfl, rfl⟩ := h
    obtain ⟨hsc, slen, spar, _, sparo, sch, scur, sglob, slist, _⟩ := insertScope_inv h3
    have hpos := GlobalOk_pos hg
    apply StepOk_of_neutral [] ?_ ?_ ?_ (by simp) hcall ?_
    · exact ⟨by show _ ≤ st2.scopeList.length; rw [slen]; exact Nat.le_succ _, sparo, sglob⟩
    · exact (NeutralStep_of_chain_eq (sch 0 (hash nm) hpos) : NeutralStep nm st st2)
    · show st2.listing = _
      rw [slist]; simp
    · refine Or.inr ⟨sc, rfl, rfl, ?_, ?_, spar⟩
      · rw [hsc]
        exact Nat.pos_iff_ne_zero.mp hpos
      · show sc < st2.scopeList.length
        rw [slen, hsc]
        exact Nat.lt_succ_self _

theorem lookupSymbolWithKind_args {cs : Option Nat} {name : Option String} {kind : SymbolKind}
    {st : State} {r : Option SymPtr} (h : lookupSymbolWithKind cs name kind st = .ok r) :
    ∃ k n, cs = some k ∧ name = some n := by
  simp only [lookupSymbolWithKind, bind_ok_iff, ERROR_CHECK_ok_iff, Bool.and_eq_true,
    Option.isSome_iff_exists] at h
  obtain ⟨_, ⟨⟨k, hk⟩, ⟨n, hn⟩⟩, _⟩ := h
  exact ⟨k, n, hk, hn⟩

theorem insertNode_step_call (nm : String) {d d1 : NodeData} {c0 c1 c2 sib : TreeNode}
    {st st1 : State} (hkind : d.kind = .CallExpr) (hg : GlobalOk st)
    (h : insertNode (.node d c0 c1 c2 sib) st = .ok (d1, st1)) : StepOk nm d d1 st st1 := by
  have hkinds : d.kind ≠ .FunctionDecl ∧ ¬(d.kind = .CompoundStmt ∧ d.flag = false) := by
    simp [hkind]
  simp only [insertNode, hkind, bind_ok_iff] at h
  obtain ⟨func, hlook, h⟩ := h
  obtain ⟨k, n, hk, hn⟩ := lookupSymbolWithKind_args hlook
  have hk0 : k = 0 := by
    rw [hg.1] at hk
    exact (Option.some.inj hk).symm
  subst hk0
  rw [hn] at hlook
  obtain ⟨hfound, _⟩ := lookup_global hg hlook
  by_cases hnn : n = nm
  · subst hnn
    have hcall : isCall n d = true := by simp [isCall, hkind, hn]
    cases func with
    | none =>
      simp only [Option.isSome_none] at hfound
      simp only [UndeclaredFunctionError, bind_ok_iff, pure_ok_iff, Prod.exists, Prod.mk.injEq] at h
      obtain ⟨q, stn, hins, rfl, rfl⟩ := h
      rw [hk, hn] at hins
      obtain ⟨k2, n2, hk2, hn2, _, _, _, ilen, ipar, icur, iglob, ilist, _, ioth, icase⟩ :=
        insertSymbol_inv hins
      simp only [Option.some.injEq] at hk2 hn2
      subst hk2 hn2
      refine ⟨Frame_of_eq ilen ipar iglob, ?_, ⟨[.undeclaredFunction (some n) d.lineno], ?_, ?_⟩,
        Or.inl ⟨rfl, icur, hkinds⟩⟩
      · intro hp
        have hp0 : PlaceholdersIn n (st.chain 0 (hash n)) := hp
        rcases icase with ⟨i, hi, _, _⟩ | ⟨state, memloc, _, _, hch⟩
        · exfalso
          obtain ⟨e, hei, hen, hes⟩ := insertSymbol_scan_inl hi
          have hmem : e ∈ st.chain 0 (hash n) := List.getElem?_mem hei
          have hkf := (hp0 e hmem hen).2 hes
          have : hasFun n st = true := hasFunIn_iff.mpr ⟨e, hmem, hen, hkf⟩
          rw [← hfound] at this
          simp at this
        · have hch2 : stn.chain 0 (hash n) = st.chain 0 (hash n) ++
              [freshSymbol n .Undetermined .FunctionSym d.lineno .null state memloc] := hch
          constructor
          · unfold Placeholders
            rw [hch2]
            intro e he hen
            simp only [List.mem_append, List.mem_singleton] at he
            rcases he with he | rfl
            · exact hp0 e he hen
            · simp [freshSymbol]
          · rw [hcall]
            simp only [Bool.or_true]
            unfold hasFun
            rw [hch2]
            simp [hasFunIn, freshSymbol]
      · rw [ilist]
        rfl
      · intro _
        rw [hcall, ← hfound]
        simp [isUndeclaredFunction, hn]
    | some q =>
      simp only [Option.isSome_some] at hfound
      simp only [bind_ok_iff, pure_ok_iff, Prod.exists, Prod.mk.injEq] at h
      obtain ⟨q2, stn, happ, rfl, rfl⟩ := h
      obtain ⟨hneutral, alen, apar, acur, aglob, alist, _⟩ := appendSymbol_inv n happ
      refine ⟨Frame_of_eq alen apar aglob, ?_, ⟨[], by rw [alist]; simp, ?_⟩,
        Or.inl ⟨rfl, acur, hkinds⟩⟩
      · intro hp
        obtain ⟨h1, h2⟩ := hneutral hp
        refine ⟨h1, ?_⟩
        unfold hasFun
        rw [h2]
        have : hasFunIn n (st.chain 0 (hash n)) = true := hfound.symm
        simp [this]
      · intro _
        rw [← hfound]
        simp
  · have hcall : isCall nm d = false := by
      simp only [isCall, hkind, hn, true_and, decide_eq_false_iff_not, Option.some.injEq]
      exact hnn
    cases func with
    | none =>
      simp only [UndeclaredFunctionError, bind_ok_iff, pure_ok_iff, Prod.exists, Prod.mk.injEq] at h
      obtain ⟨q, stn, hins, rfl, rfl⟩ := h
      rw [hk, hn] at hins
      have hneutral : NeutralStep nm st stn :=
        (insertSymbol_neutral nm hins (Or.inr hnn) : NeutralStep nm (report _ st) stn)
      obtain ⟨_, _, _, _, _, _, _, ilen, ipar, icur, iglob, ilist, _, _, _⟩ := insertSymbol_inv hins
      apply StepOk_of_neutral [.undeclaredFunction (some n) d.lineno]
        (Frame_of_eq ilen ipar iglob : Frame st stn) hneutral ?_ ?_ hcall
        (Or.inl ⟨rfl, icur, hkinds⟩)
      · rw [ilist]
        rfl
      · intro x hx
        simp only [List.mem_singleton] at hx
        subst hx
        simp only [isUndeclaredFunction, decide_eq_false_iff_not, Option.some.injEq]
        exact hnn
    | some q =>
      simp only [bind_ok_iff, pure_ok_iff, Prod.exists, Prod.mk.injEq] at h
      obtain ⟨q2, stn, happ, rfl, rfl⟩ := h
      obtain ⟨hneutral, alen, apar, acur, aglob, alist, _⟩ := appendSymbol_inv nm happ
      exact StepOk_of_neutral [] (Frame_of_eq alen apar aglob) hneutral
        (by rw [alist]; simp) (by simp) hcall (Or.inl ⟨rfl, acur, hkinds⟩)

theorem insertNode_step_var (nm : String) {d d1 : NodeData} {c0 c1 c2 sib : TreeNode}
    {st st1 : State} (hkind : d.kind = .VarAccessExpr) (hpos : st.currentScope ≠ some 0)
    (h : insertNode (.node d c0 c1 c2 sib) st = .ok (d1, st1)) : StepOk nm d d1 st st1 := by
  have hkinds : d.kind ≠ .FunctionDecl ∧ ¬(d.kind = .CompoundStmt ∧ d.flag = false) := by
    simp [hkind]
  have hcall : isCall nm d = false := by simp [isCall, hkind]
  simp only [insertNode, hkind, bind_ok_iff] at h
  obtain ⟨var, hlook, h⟩ := h
  obtain ⟨k, n, hk, hn⟩ := lookupSymbolWithKind_args hlook
  have hk0 : k ≠ 0 := by
    intro h0
    apply hpos
    rw [hk, h0]
  cases var with
  | none =>
    simp only [UndeclaredVariableError, bind_ok_iff, pure_ok_iff, Prod.exists, Prod.mk.injEq] at h
    obtain ⟨q, stn, hins, rfl, rfl⟩ := h
    rw [hk, hn] at hins
    have hneutral : NeutralStep nm st stn :=
      (insertSymbol_neutral nm hins (Or.inl hk0) : NeutralStep nm (report _ st) stn)
    obtain ⟨_, _, _, _, _, _, _, ilen, ipar, icur, iglob, ilist, _, _, _⟩ := insertSymbol_inv hins
    apply StepOk_of_neutral [.undeclaredVariable (some n) d.lineno]
      (Frame_of_eq ilen ipar iglob : Frame st stn) hneutral ?_ ?_ hcall
      (Or.inl ⟨rfl, icur, hkinds⟩)
    · rw [ilist]
      rfl
    · intro x hx
      simp only [List.mem_singleton] at hx
      subst hx
      rfl
  | some q =>
    simp only [bind_ok_iff, pure_ok_iff, Prod.exists, Prod.mk.injEq] at h
    obtain ⟨q2, stn, happ, rfl, rfl⟩ := h
    obtain ⟨hneutral, alen, apar, acur, aglob, alist, _⟩ := appendSymbol_inv nm happ
    exact StepOk_of_neutral [] (Frame_of_eq alen apar aglob) hneutral
      (by rw [alist]; simp) (by simp) hcall (Or.inl ⟨rfl, acur, hkinds⟩)

/-- The pre-visit of pass 1 on one node, as far as the calls of `nm` are concerned. -/
theorem insertNode_step (nm : String) {d d1 : NodeData} {c0 c1 c2 sib : TreeNode}
    {st st1 : State} (h : insertNode (.node d c0 c1 c2 sib) st = .ok (d1, st1))
    (hg : GlobalOk st) (hfun : d.kind = .FunctionDecl → d.name ≠ some nm)
    (hpos : st.currentScope ≠ some 0 ∨ d.kind ≠ .VarAccessExpr) : StepOk nm d d1 st st1 := by
  cases hkind : d.kind with
  | VariableDecl => exact insertNode_step_decl nm (Or.inl hkind) h
  | FunctionDecl => exact insertNode_step_fun nm hkind hg (hfun hkind) h
  | Params =>
    cases hflag : d.flag with
    | false => exact insertNode_step_decl nm (Or.inr ⟨hkind, hflag⟩) h
    | true =>
      simp only [insertNode, hkind, hflag, if_true, Except.ok.injEq, Prod.mk.injEq] at h
      obtain ⟨rfl, rfl⟩ := h
      exact StepOk_of_neutral [] (Frame_refl _) (NeutralStep_refl _ _) (by simp) (by simp)
        (by simp [isCall, hkind]) (Or.inl ⟨rfl, rfl, by simp [hkind], by simp [hkind]⟩)
  | CompoundStmt => exact insertNode_step_compound nm hkind hg h
  | CallExpr => exact insertNode_step_call nm hkind hg h
  | VarAccessExpr =>
    rcases hpos with hpos | hpos
    · exact insertNode_step_var nm hkind hpos h
    · exact absurd hkind hpos
  | IfStmt | WhileStmt | ReturnStmt | AssignExpr | BinOpExpr | ConstExpr =>
    simp only [insertNode, hkind, Except.ok.injEq, Prod.mk.injEq] at h
    obtain ⟨rfl, rfl⟩ := h
    exact StepOk_of_neutral [] (Frame_refl _) (NeutralStep_refl _ _) (by simp) (by simp)
      (by simp [isCall, hkind]) (Or.inl ⟨rfl, rfl, by simp [hkind], by simp [hkind]⟩)
  | TypeSpecifier | Opcode | Indentifier =>
    simp [insertNode, hkind] at h

theorem reported_append (nm : String) (has : Bool) (o o2 : Option Int) :
    reported nm has o ++ reported nm (has || o.isSome) o2 = reported nm has (firstOf o o2) := by
  cases has <;> cases o <;> simp [reported, firstOf]

theorem isSome_firstOf (o o2 : Option Int) : (firstOf o o2).isSome = (o.isSome || o2.isSome) := by
  cases o <;> simp [firstOf]

theorem Seg_trans {nm : String} {a b c : State} {o1 o2 : Option Int} (h1 : Seg nm a b o1)
    (h2 : Seg nm b c o2) : Seg nm a c (firstOf o1 o2) := by
  obtain ⟨f1, p1, n1, l1, r1⟩ := h1
  obtain ⟨f2, p2, n2, l2, r2⟩ := h2
  refine ⟨Frame_trans f1 f2, ?_, n1 ++ n2, by rw [l2, l1, List.append_assoc], ?_⟩
  · intro hp
    obtain ⟨hb, e1⟩ := p1 hp
    obtain ⟨hc, e2⟩ := p2 hb
    exact ⟨hc, by rw [e2, e1, isSome_firstOf, Bool.or_assoc]⟩
  · intro hp
    obtain ⟨hb, e1⟩ := p1 hp
    rw [List.filter_append, r1 hp, r2 hb, e1, reported_append]

theorem Seg_of_step {nm : String} {d d1 : NodeData} {st st1 : State} (h : StepOk nm d d1 st st1) :
    Seg nm st st1 (if isCall nm d then some d.lineno else none) := by
  obtain ⟨f, p, ⟨new, l, r⟩, _⟩ := h
  refine ⟨f, ?_, new, l, ?_⟩
  · intro hp
    obtain ⟨h1, h2⟩ := p hp
    refine ⟨h1, ?_⟩
    rw [h2]
    cases isCall nm d <;> simp
  · intro hp
    rw [r hp]
    cases isCall nm d <;> cases hasFun nm st <;> simp [reported]

theorem Seg_of_quiet {nm : String} {st stn : State} (hs : stn.scopeList = st.scopeList)
    (hg : stn.globalScope = st.globalScope) (hl : stn.listing = st.listing) : Seg nm st stn none := by
  refine ⟨⟨by rw [hs], fun j _ => parentOf_of_scopeList_eq hs j, hg⟩, ?_, [], by rw [hl]; simp, ?_⟩
  · intro hp
    have hc := chain_of_scopeList_eq hs 0 (hash nm)
    refine ⟨?_, ?_⟩
    · unfold Placeholders
      rw [hc]
      exact hp
    · unfold hasFun
      rw [hc]
      simp
  · intro _
    cases hasFun nm st <;> simp [reported]

/-- Pass 1 over a subtree, as far as the calls of `nm` are concerned: the current scope
is restored, and the undeclared-function errors for `nm` are the one of the first call
when the global table holds no Function entry for `nm` yet, and none otherwise. -/
theorem pass1_calls (nm : String) (t : TreeNode) (st : State) (tn : TreeNode) (stn : State)
    (h : traverse insertNode scopeOut t st = .ok (tn, stn)) :
    NoScopes t → NotDeclaredFun nm t → GlobalOk st → (st.currentScope ≠ some 0 ∨ RefsInside t) →
      stn.currentScope = st.currentScope ∧ Seg nm st stn (firstCall nm t) := by
  revert t st tn stn
  apply traverse_induct
  · intro st _ _ _ _
    exact ⟨rfl, Seg_of_quiet rfl rfl rfl⟩
  · intro d c0 c1 c2 sib st d1 st1 c0n st2 c1n st3 c2n st4 d2 st5 sibn st6 hpre r0 r1 r2 hpost rs
      hscopes hfun hg hpos
    obtain ⟨hs, s0, s1, s2, ss⟩ := hscopes
    obtain ⟨hf, f0, f1, f2, fs⟩ := hfun
    have hposd : st.currentScope ≠ some 0 ∨ d.kind ≠ .VarAccessExpr := by
      rcases hpos with h | h
      · exact Or.inl h
      · exact Or.inr h.1
    have hstep := insertNode_step nm hpre hg hf hposd
    have seg0 := Seg_of_step hstep
    obtain ⟨fr1, _, _, hopen⟩ := hstep
    have hg1 := GlobalOk_of_frame hg fr1
    -- the position of the children
    have hposc : st1.currentScope ≠ some 0 ∨ (RefsInside c0 ∧ RefsInside c1 ∧ RefsInside c2) := by
      rcases hopen with ⟨_, hcur, hk1, hk2⟩ | ⟨sc, _, hcur, hsc0, _, _⟩
      · rcases hpos with h | h
        · exact Or.inl (by rw [hcur]; exact h)
        · rcases h.2.1 with hk | hk | hk
          · exact absurd hk hk1
          · exact absurd hk hk2
          · exact Or.inr hk
      · left
        rw [hcur]
        intro h
        exact hsc0 (Option.some.inj h)
    obtain ⟨c0cur, seg1⟩ := r0 s0 f0 hg1 (hposc.imp id fun h => h.1)
    have hg2 := GlobalOk_of_frame hg1 seg1.1
    obtain ⟨c1cur, seg2⟩ := r1 s1 f1 hg2 (by
      rw [c0cur]
      exact hposc.imp id fun h => h.2.1)
    have hg3 := GlobalOk_of_frame hg2 seg2.1
    obtain ⟨c2cur, seg3⟩ := r2 s2 f2 hg3 (by
      rw [c1cur, c0cur]
      exact hposc.imp id fun h => h.2.2)
    have hg4 := GlobalOk_of_frame hg3 seg3.1
    have hcur4 : st4.currentScope = st1.currentScope := by rw [c2cur, c1cur, c0cur]
    -- the post-visit
    obtain ⟨_, psl, pgl, _, pli, pcase⟩ := scopeOut_ok hpost
    have seg4 : Seg nm st4 st5 none := Seg_of_quiet psl pgl pli
    have hg5 := GlobalOk_of_frame hg4 seg4.1
    have hcur5 : st5.currentScope = st.currentScope := by
      rcases hopen with ⟨hd1, hcur, _, _⟩ | ⟨sc, hd1sc, _, _, hsclt, hpar⟩
      · rcases pcase with ⟨_, h5⟩ | ⟨sc, s, hsc, _, _⟩
        · rw [h5, hcur4, hcur]
        · rw [hd1, hs] at hsc
          simp at hsc
      · rcases pcase with ⟨hnone, _⟩ | ⟨sc2, s, hsc2, hs2, h5⟩
        · rw [hd1sc] at hnone
          simp at hnone
        · rw [hd1sc] at hsc2
          simp only [Option.some.injEq] at hsc2
          subst hsc2
          have hfr : Frame st1 st4 := Frame_trans (Frame_trans seg1.1 seg2.1) seg3.1
          have hp4 : st4.parentOf sc = some st.currentScope := by
            rw [hfr.2.1 sc hsclt, hpar]
          simp only [State.parentOf, hs2, Option.map_some', Option.some.injEq] at hp4
          rw [h5]
          exact hp4
    obtain ⟨scur, seg5⟩ := rs ss fs hg5 (by
      rw [hcur5]
      exact hpos.imp id fun h => h.2.2)
    refine ⟨by rw [scur, hcur5], ?_⟩
    exact Seg_trans seg0 (Seg_trans seg1 (Seg_trans seg2 (Seg_trans seg3 (Seg_trans seg4 seg5))))

theorem buildSymtab_eq (t : TreeNode) :
    buildSymtab t State.initial = builtinState >>= traverse insertNode scopeOut t := by
  simp only [buildSymtab, builtinState, bind_assoc]

theorem builtinState_total : ∃ st3, builtinState = .ok st3 := ⟨_, rfl⟩

/-- The state after the built-ins are declared: the global scope is current, nothing is
reported, and the global table holds no entry of a name other than `input` and `output`
that is of kind Function. -/
theorem builtinState_spec (nm : String) (hi : nm ≠ "input") (ho : nm ≠ "output") {st3 : State}
    (h : builtinState = .ok st3) :
    GlobalOk st3 ∧ st3.currentScope = some 0 ∧ st3.listing = [] ∧ Placeholders nm st3 ∧
      hasFun nm st3 = false := by
  simp only [builtinState, declareBuiltInFunction, bind_ok_iff, pure_ok_iff, Prod.exists] at h
  obtain ⟨g, sa, h1, p1, sb, h2, p2, sc, h3, k, sd, h4, p3, se, h5, rfl⟩ := h
  obtain ⟨hg, _, apar, achain, _, _, _, _, alist, _⟩ := insertScope_inv h1
  have hg0 : g = 0 := hg
  subst hg0
  have n2 := insertSymbol_neutral nm h2 (Or.inr (Ne.symm hi))
  obtain ⟨_, _, _, _, _, _, _, blen, bpar, bcur, bglob, blist, _, _, _⟩ := insertSymbol_inv h2
  have hbg : sb.globalScope = some 0 := bglob
  rw [hbg] at h3
  have n3 := insertSymbol_neutral nm h3 (Or.inr (Ne.symm ho))
  obtain ⟨_, _, _, _, _, _, _, clen, cpar, ccur, cglob, clist, _, _, _⟩ := insertSymbol_inv h3
  obtain ⟨hk, dlen, _, _, dpar, dchain, dcur, dglob, dlist, _⟩ := insertScope_inv h4
  have hpos : 0 < sc.scopeList.length := by
    rw [clen, blen]
    show 0 < sa.scopeList.length
    have := (insertScope_inv h1).2.1
    omega
  have n4 : NeutralStep nm sc sd := NeutralStep_of_chain_eq (dchain 0 (hash nm) hpos)
  have hk0 : k ≠ 0 := by omega
  have n5 := insertSymbol_neutral nm h5 (Or.inl hk0)
  obtain ⟨_, _, _, _, _, _, _, elen, epar, ecur, eglob, elist, _, _, _⟩ := insertSymbol_inv h5
  have hstart : PlaceholdersIn nm (sa.chain 0 (hash nm)) := by
    rw [achain]
    intro e he
    simp at he
  have hall := NeutralStep_trans (NeutralStep_trans (NeutralStep_trans n2 n3) n4) n5
  have hres := hall hstart
  refine ⟨⟨?_, ?_⟩, ?_, ?_, hres.1, ?_⟩
  · rw [eglob, dglob, cglob, hbg]
  · rw [epar, dpar 0 hpos, cpar, bpar]
    exact apar
  · rw [ecur, dcur, ccur, bcur]
  · rw [elist, dlist, clist, blist]
    exact alist
  · unfold hasFun
    rw [hres.2]
    show hasFunIn nm (sa.chain 0 (hash nm)) = false
    rw [achain]
    rfl

theorem NoCallError_refl (nm : String) (st : State) : NoCallError nm st st :=
  ⟨rfl, rfl, [], by simp, by simp⟩

theorem NoCallError_report (nm : String) (x : Diag) (st : State) (hx : isInvalidCall nm x = false) :
    NoCallError nm st (report x st) :=
  ⟨rfl, rfl, [x], rfl, by simpa using hx⟩

theorem NoCallError_ite {nm : String} {st a b : State} {c : Prop} [Decidable c]
    (ha : NoCallError nm st a) (hb : NoCallError nm st b) : NoCallError nm st (if c then a else b) := by
  split
  · exact ha
  · exact hb

theorem NoCallError_trans {nm : String} {a b c : State} (h1 : NoCallError nm a b)
    (h2 : NoCallError nm b c) : NoCallError nm a c := by
  obtain ⟨a1, a2, n1, l1, e1⟩ := h1
  obtain ⟨b1, b2, n2, l2, e2⟩ := h2
  refine ⟨b1.trans a1, b2.trans a2, n1 ++ n2, by rw [l2, l1, List.append_assoc], ?_⟩
  intro x hx
  rcases List.mem_append.mp hx with h | h
  · exact e1 x h
  · exact e2 x h

theorem NoCallError_of_quiet {nm : String} {st stn : State} (hs : stn.scopeList = st.scopeList)
    (hg : stn.globalScope = st.globalScope) (hl : stn.listing = st.listing) : NoCallError nm st stn :=
  ⟨hs, hg, [], by simp [hl], by simp⟩

theorem isInvalidCall_other {nm : String} {name : Option String} (hne : name ≠ some nm) (lineno : Int) :
    isInvalidCall nm (.invalidFunctionCall name lineno) = false := by
  simp [isInvalidCall, hne]

theorem checkNode_args_nocall (nm : String) (name : Option String) (hne : name ≠ some nm)
    (lineno : Int) (a : TreeNode) :
    ∀ (p : TreeNode) (st : State), NoCallError nm st (checkNode.args name lineno a p st).2.2 := by
  induction a with
  | null =>
    intro p st
    exact NoCallError_refl nm st
  | node ad a0 a1 a2 asib _ _ _ ih =>
    intro p st
    cases p with
    | null => exact NoCallError_report nm _ _ (isInvalidCall_other hne lineno)
    | node pd p0 p1 p2 psib =>
      simp only [checkNode.args]
      split
      · exact NoCallError_report nm _ _ (isInvalidCall_other hne lineno)
      · split
        · exact NoCallError_report nm _ _ (isInvalidCall_other hne lineno)
        · exact ih psib st

/-- The post-visit of pass 2 reports no invalid call of a name whose Function entries in
the global table are placeholders. -/
theorem checkNode_calls (nm : String) {d d2 : NodeData} {c0 c1 c2 sib : TreeNode} {st stn : State}
    (h : checkNode (.node d c0 c1 c2 sib) st = .ok (d2, stn)) (hg : GlobalOk st)
    (hp : Placeholders nm st) : NoCallError nm st stn := by
  simp only [checkNode] at h
  split at h
  · simp only [bind_ok_iff, pure_ok_iff, Prod.mk.injEq] at h
    obtain ⟨_, _, cd, _, rfl, rfl⟩ := h
    exact NoCallError_ite (NoCallError_report nm _ _ rfl) (NoCallError_refl nm _)
  · simp only [bind_ok_iff, pure_ok_iff, Prod.mk.injEq] at h
    obtain ⟨_, _, cd, _, rfl, rfl⟩ := h
    exact NoCallError_ite (NoCallError_report nm _ _ rfl) (NoCallError_refl nm _)
  · simp only [bind_ok_iff] at h
    obtain ⟨cur, _, _, _, fd, _, h⟩ := h
    split at h
    · simp only [pure_ok_iff, Prod.mk.injEq] at h
      obtain ⟨rfl, rfl⟩ := h
      exact NoCallError_ite (NoCallError_report nm _ _ rfl) (NoCallError_refl nm _)
    · simp only [bind_ok_iff, pure_ok_iff, Prod.mk.injEq] at h
      obtain ⟨cd, _, rfl, rfl⟩ := h
      exact NoCallError_ite (NoCallError_report nm _ _ rfl) (NoCallError_refl nm _)
  · simp only [bind_ok_iff, pure_ok_iff, Prod.mk.injEq] at h
    obtain ⟨_, _, ld, hld, rd, _, rfl, rfl⟩ := h
    exact NoCallError_ite (NoCallError_ite (NoCallError_report nm _ _ rfl)
      (NoCallError_report nm _ _ rfl)) (NoCallError_refl nm _)
  · simp only [bind_ok_iff, pure_ok_iff, Prod.mk.injEq] at h
    obtain ⟨_, _, ld, hld, rd, _, rfl, rfl⟩ := h
    exact NoCallError_ite (NoCallError_ite (NoCallError_report nm _ _ rfl)
      (NoCallError_report nm _ _ rfl)) (NoCallError_refl nm _)
  · -- CallExpr
    simp only [bind_ok_iff] at h
    obtain ⟨callee, hlook, _, _, h⟩ := h
    split at h
    · simp at h
    · next calleeSymbol hsym =>
      split at h
      · simp only [pure_ok_iff, Prod.mk.injEq] at h
        obtain ⟨rfl, rfl⟩ := h
        exact NoCallError_refl nm _
      · next hstate =>
        have hne : d.name ≠ some nm := by
          intro hname
          rw [hname] at hlook
          obtain ⟨_, hfound⟩ := lookup_global hg hlook
          cases callee with
          | none => simp at hsym
          | some p =>
            obtain ⟨_, e, he, hmem, hen, hek⟩ := hfound p rfl
            have hce : calleeSymbol = e := by
              have hb : derefSymbol st p = some calleeSymbol := by simpa using hsym
              rw [he] at hb
              exact (Option.some.inj hb).symm
            subst hce
            exact hstate ((hp calleeSymbol hmem hen).1 hek).1
        split at h
        · simp at h
        · next pd paramNode p1 p2 psib hnode =>
          simp only [bind_ok_iff, pure_ok_iff, Prod.mk.injEq] at h
          obtain ⟨st2, h2, rfl, rfl⟩ := h
          have q1 := checkNode_args_nocall nm d.name hne d.lineno c0 paramNode st
          split at h2
          · simp only [pure_ok_iff] at h2
            subst h2
            exact NoCallError_trans q1 (NoCallError_ite
              (NoCallError_report nm _ _ (isInvalidCall_other hne d.lineno)) (NoCallError_refl nm _))
          · simp only [pure_ok_iff] at h2
            subst h2
            exact q1
  · -- VarAccessExpr
    simp only [bind_ok_iff] at h
    obtain ⟨found, _, _, _, h⟩ := h
    split at h
    · simp at h
    · next symbol hsym =>
      split at h
      · simp only [pure_ok_iff, Prod.mk.injEq] at h
        obtain ⟨rfl, rfl⟩ := h
        exact NoCallError_refl nm _
      · split at h
        · simp only [pure_ok_iff, Prod.mk.injEq] at h
          obtain ⟨rfl, rfl⟩ := h
          exact NoCallError_ite (NoCallError_report nm _ _ rfl)
            (NoCallError_ite (NoCallError_report nm _ _ rfl) (NoCallError_refl nm _))
        · simp only [pure_ok_iff, Prod.mk.injEq] at h
          obtain ⟨rfl, rfl⟩ := h
          exact NoCallError_refl nm _
  · simp only [Except.ok.injEq, Prod.mk.injEq] at h
    obtain ⟨rfl, rfl⟩ := h
    exact NoCallError_refl nm _
  · simp only [Except.ok.injEq, Prod.mk.injEq] at h
    obtain ⟨rfl, rfl⟩ := h
    exact NoCallError_refl nm _
  · simp only [Except.ok.injEq, Prod.mk.injEq] at h
    obtain ⟨rfl, rfl⟩ := h
    exact NoCallError_refl nm _
  · simp only [Except.ok.injEq, Prod.mk.injEq] at h
    obtain ⟨rfl, rfl⟩ := h
    exact NoCallError_refl nm _
  · simp only [Except.ok.injEq, Prod.mk.injEq] at h
    obtain ⟨rfl, rfl⟩ := h
    exact NoCallError_refl nm _
  · simp at h
  · simp at h
  · simp at h

theorem GlobalOk_of_eq {st stn : State} (hs : stn.scopeList = st.scopeList)
    (hg : stn.globalScope = st.globalScope) (h : GlobalOk st) : GlobalOk stn := by
  obtain ⟨h1, h2⟩ := h
  exact ⟨by rw [hg, h1], by rw [parentOf_of_scopeList_eq hs, h2]⟩

theorem Placeholders_of_eq {nm : String} {st stn : State} (hs : stn.scopeList = st.scopeList)
    (h : Placeholders nm st) : Placeholders nm stn := by
  unfold Placeholders at *
  rw [chain_of_scopeList_eq hs]
  exact h

/-- Pass 2 over a subtree reports no invalid call of a name whose Function entries in
the global table are placeholders. -/
theorem pass2_calls (nm : String) (t : TreeNode) (st : State) (tn : TreeNode) (stn : State)
    (h : traverse scopeIn checkNode t st = .ok (tn, stn)) :
    GlobalOk st → Placeholders nm st → NoCallError nm st stn := by
  revert t st tn stn
  apply traverse_induct
  · intro st _ _
    exact NoCallError_refl nm st
  · intro d c0 c1 c2 sib st d1 st1 c0n st2 c1n st3 c2n st4 d2 st5 sibn st6 hpre r0 r1 r2 hpost rs
      hg hp
    obtain ⟨_, psl, pgl, _, pli, _⟩ := scopeIn_ok hpre
    have q1 : NoCallError nm st st1 := NoCallError_of_quiet psl pgl pli
    have q2 := r0 (GlobalOk_of_eq q1.1 q1.2.1 hg) (Placeholders_of_eq q1.1 hp)
    have q12 := NoCallError_trans q1 q2
    have q3 := r1 (GlobalOk_of_eq q12.1 q12.2.1 hg) (Placeholders_of_eq q12.1 hp)
    have q13 := NoCallError_trans q12 q3
    have q4 := r2 (GlobalOk_of_eq q13.1 q13.2.1 hg) (Placeholders_of_eq q13.1 hp)
    have q14 := NoCallError_trans q13 q4
    have q5 := checkNode_calls nm hpost (GlobalOk_of_eq q14.1 q14.2.1 hg) (Placeholders_of_eq q14.1 hp)
    have q15 := NoCallError_trans q14 q5
    have q6 := rs (GlobalOk_of_eq q15.1 q15.2.1 hg) (Placeholders_of_eq q15.1 hp)
    exact NoCallError_trans q15 q6

theorem lookup_global_total {st : State} (nm : String) (hg : GlobalOk st) :
    ∃ found, lookupSymbolWithKind st.globalScope (some nm) .FunctionSym st = .ok found := by
  obtain ⟨hglob, hpar⟩ := hg
  have hpos := GlobalOk_pos ⟨hglob, hpar⟩
  obtain ⟨f, hf⟩ := succ_of_lt hpos
  simp only [State.parentOf] at hpar
  cases hs : st.scopeList[0]? with
  | none => simp [hs] at hpar
  | some s =>
    simp only [hs, Option.map_some', Option.some.injEq] at hpar
    simp only [lookupSymbolWithKind, hglob, ERROR_CHECK, bind, Except.bind, Option.isSome_some,
      Bool.and_self, if_true, Option.getD_some, hf, lookupWalk, hs]
    cases hfind : chainFind (fun e => decide (e.name = nm) && decide (e.kind = .FunctionSym))
        (s.symbolList (hash nm)) with
    | none =>
      simp only [hpar]
      cases f <;> exact ⟨none, rfl⟩
    | some i => exact ⟨_, rfl⟩

/-- C6. For every program as the parser hands it over (no node has a scope attached, and
no variable is referenced outside a function or block) and every name other than the
built-ins that the program calls, first at `line` in traversal order, and of which it
declares no function: when pass 1 completes, its listing holds exactly one
undeclared-function error for the name, the one of the first call (so no later call of
the name is reported in pass 1); the lookup of the name as a Function from the global
scope finds an entry of the global table that is an Undeclared placeholder of type
Undetermined without declaration node; and every completed pass 2 adds no invalid-call
error for the name to the listing. -/
theorem undeclared_function_reported_once (nm : String) (t : TreeNode) (line : Int)
    (hin : nm ≠ "input") (hout : nm ≠ "output") (hscopes : NoScopes t)
    (hrefs : RefsInside t) (hdecl : NotDeclaredFun nm t) (hcall : firstCall nm t = some line)
    (t1 : TreeNode) (st1 : State) (hrun : buildSymtab t State.initial = .ok (t1, st1)) :
    st1.listing.filter (isUndeclaredFunction nm) = [.undeclaredFunction (some nm) line] ∧
      (∃ p e, lookupSymbolWithKind st1.globalScope (some nm) .FunctionSym st1 = .ok (some p) ∧
        p.scope = 0 ∧ derefSymbol st1 p = some e ∧ e.name = nm ∧ e.kind = .FunctionSym ∧
        e.state = .STATE_UNDECLARED ∧ e.type = .Undetermined ∧ e.node = .null) ∧
      ∀ t2 st2, typeCheck t1 st1 = .ok (t2, st2) →
        ∃ new, st2.listing = st1.listing ++ new ∧ ∀ x ∈ new, isInvalidCall nm x = false := by
  rw [buildSymtab_eq, bind_ok_iff] at hrun
  obtain ⟨st0, h0, hrun⟩ := hrun
  obtain ⟨hg0, hcur0, hlist0, hp0, hfun0⟩ := builtinState_spec nm hin hout h0
  obtain ⟨_, hframe, hph, new, hnew, hfilter⟩ :=
    pass1_calls nm t st0 t1 st1 hrun hscopes hdecl hg0 (Or.inr hrefs)
  obtain ⟨hp1, hfun1⟩ := hph hp0
  have hg1 := GlobalOk_of_frame hg0 hframe
  rw [hcall] at hfun1
  simp only [Option.isSome_some, Bool.or_true] at hfun1
  refine ⟨?_, ?_, ?_⟩
  · rw [hnew, hlist0, List.nil_append, hfilter hp0, hfun0, hcall]
    rfl
  · obtain ⟨found, hfound⟩ := lookup_global_total nm hg1
    obtain ⟨hsome, hentry⟩ := lookup_global hg1 hfound
    rw [hfun1] at hsome
    cases found with
    | none => simp at hsome
    | some p =>
      obtain ⟨hsc, e, he, hmem, hen, hek⟩ := hentry p rfl
      obtain ⟨hst, hty, hnode⟩ := (hp1 e hmem hen).1 hek
      exact ⟨p, e, hfound, hsc, he, hen, hek, hst, hty, hnode⟩
  · intro t2 st2 h2
    exact (pass2_calls nm t1 st1 t2 st2 h2 hg1 hp1).2.2

theorem undeclared_function_reported_once_witness :
    NoScopes progTwoCalls ∧ RefsInside progTwoCalls ∧ NotDeclaredFun "foo" progTwoCalls ∧
      firstCall "foo" progTwoCalls = some 2 ∧
      listingOf (buildSymtab progTwoCalls State.initial) = .ok [.undeclaredFunction (some "foo") 2] ∧
      listingOf (analyze progTwoCalls) = .ok [.undeclaredFunction (some "foo") 2] ∧
      ((okState (buildSymtab progTwoCalls State.initial)).listing.filter
          (isUndeclaredFunction "foo") = [.undeclaredFunction (some "foo") 2] ∧
        (∃ p e, lookupSymbolWithKind (okState (buildSymtab progTwoCalls State.initial)).globalScope
            (some "foo") .FunctionSym (okState (buildSymtab progTwoCalls State.initial)) = .ok (some p) ∧
          p.scope = 0 ∧ derefSymbol (okState (buildSymtab progTwoCalls State.initial)) p = some e ∧
          e.name = "foo" ∧ e.kind = .FunctionSym ∧ e.state = .STATE_UNDECLARED ∧
          e.type = .Undetermined ∧ e.node = .null) ∧
        ∀ t2 st2, typeCheck (okTree (buildSymtab progTwoCalls State.initial))
            (okState (buildSymtab progTwoCalls State.initial)) = .ok (t2, st2) →
          ∃ new, st2.listing = (okState (buildSymtab progTwoCalls State.initial)).listing ++ new ∧
            ∀ x ∈ new, isInvalidCall "foo" x = false) :=
  have hscopes : NoScopes progTwoCalls := by
    simp [NoScopes, TreeNode.Forall, progTwoCalls, funDecl, voidParams, block, call, const,
      newTreeNode]
  have hrefs : RefsInside progTwoCalls := by
    simp [RefsInside, progTwoCalls, funDecl, voidParams, block, call, const, newTreeNode]
  have hdecl : NotDeclaredFun "foo" progTwoCalls := by
    simp [NotDeclaredFun, TreeNode.Forall, progTwoCalls, funDecl, voidParams, block, call, const,
      newTreeNode]
  have hcall : firstCall "foo" progTwoCalls = some 2 := by decide
  ⟨hscopes, hrefs, hdecl, hcall, by decide, by decide,
    undeclared_function_reported_once "foo" progTwoCalls 2 (by decide) (by decide) hscopes hrefs
      hdecl hcall (okTree (buildSymtab progTwoCalls State.initial))
      (okState (buildSymtab progTwoCalls State.initial)) (by rfl)⟩

/-- C11. For a variable reference whose symbol (the one the lookup of pass 2 returns) is
not an Undeclared placeholder, the post-visit of pass 2 completes and leaves the node with
type Integer when an index expression is present, whatever the types of the symbol and of
the index are, and with the type of the symbol when there is none; the indexed references
of `a[1]`, `a[a]` and `b[1]` (the last two reported) and the plain reference of
`int a[10]; a = 1;` get Integer, Integer, Integer and IntegerArray. -/
theorem variable_reference_type (st : State) (d : NodeData) (c0 c1 c2 sib : TreeNode)
    (p : SymPtr) (symbol : SymbolRec) (hkind : d.kind = .VarAccessExpr)
    (hlook : lookupSymbolWithKind st.currentScope d.name .VariableSym st = .ok (some p))
    (hsym : derefSymbol st p = some symbol) (hstate : symbol.state ≠ .STATE_UNDECLARED) :
    (∃ stn, checkNode (.node d c0 c1 c2 sib) st =
        .ok ({ d with type := if c0 = .null then symbol.type else .Integer }, stn)) ∧
      refTypes "a" (okTree (analyze progIndexOk)) = [.Integer] ∧
      refTypes "a" (okTree (analyze progIndexArray)) = [.Integer, .IntegerArray] ∧
      refTypes "b" (okTree (analyze progIndexScalar)) = [.Integer] ∧
      refTypes "a" (okTree (analyze progAssignArray)) = [.IntegerArray] := by
  refine ⟨?_, by decide, by decide, by decide, by decide⟩
  have hb : (some p).bind (derefSymbol st) = some symbol := hsym
  simp only [checkNode, hkind, hlook, bind, Except.bind, ERROR_CHECK, Option.isSome_some, if_true,
    pure, Except.pure]
  rw [hb]
  simp only [hstate, if_false]
  cases c0 with
  | null => exact ⟨_, rfl⟩
  | node cd a0 a1 a2 as => exact ⟨_, rfl⟩

theorem variable_reference_type_witness :
    lookupSymbolWithKind indexedRefState.currentScope indexedRef.name .VariableSym indexedRefState =
        .ok (some ⟨0, hash "a", 0⟩) ∧
      ((derefSymbol indexedRefState ⟨0, hash "a", 0⟩).map fun e => (e.type, e.state)) =
        some (.IntegerArray, .STATE_NORMAL) ∧
      ((∃ stn, checkNode (.node indexedRef .null .null .null .null) indexedRefState =
          .ok ({ indexedRef with type := if TreeNode.null = .null then .IntegerArray else .Integer },
            stn)) ∧
        refTypes "a" (okTree (analyze progIndexOk)) = [.Integer] ∧
        refTypes "a" (okTree (analyze progIndexArray)) = [.Integer, .IntegerArray] ∧
        refTypes "b" (okTree (analyze progIndexScalar)) = [.Integer] ∧
        refTypes "a" (okTree (analyze progAssignArray)) = [.IntegerArray]) :=
  ⟨by decide, by decide,
    variable_reference_type indexedRefState indexedRef .null .null .null .null ⟨0, hash "a", 0⟩
      ((indexedRefState.chain 0 (hash "a")).headD
        (freshSymbol "" .None .VariableSym 0 .null .STATE_NORMAL 0))
      rfl (by decide) (by decide) (by decide)⟩

/-- C13. For a return statement checked while the current scope is owned by a function
node of type `fd.type` (a statement not flagged valueless carrying a value): the
post-visit of pass 2 completes, leaves the node as it is, and writes exactly one
invalid-return error when the statement is flagged valueless and the type of the function
is not Void, or when it carries a value whose type differs from the type of the function,
and nothing otherwise; `int f(void) { return; }` and `void g(void) { return 1; }` each
give exactly one invalid-return error, `int f(void) { return 1; }` gives none. -/
theorem return_statement_errors (st : State) (d : NodeData) (c0 c1 c2 sib : TreeNode) (k : Nat)
    (cur : ScopeRec) (fd : NodeData) (f0 f1 f2 fsib : TreeNode)
    (hkind : d.kind = .ReturnStmt) (hcur : st.currentScope = some k)
    (hscope : st.scopeList[k]? = some cur) (hfunc : cur.func = .node fd f0 f1 f2 fsib)
    (hvalue : d.flag = false → c0 ≠ .null) :
    (∃ stn, checkNode (.node d c0 c1 c2 sib) st = .ok (d, stn) ∧
      stn.listing = st.listing ++
        (if (d.flag = true ∧ fd.type ≠ .Void) ∨ (d.flag = false ∧ c0.type? ≠ some fd.type)
         then [.invalidReturn d.lineno] else [])) ∧
    listingOf (analyze progReturnNothing) = .ok [.invalidReturn 1] ∧
    listingOf (analyze progReturnValue) = .ok [.invalidReturn 1] ∧
    listingOf (analyze progReturnOk) = .ok [] := by
  refine ⟨?_, by decide, by decide, by decide⟩
  have hd : derefScope st (some k) = .ok cur := by simp [derefScope, hscope]
  simp only [checkNode, hkind, hcur, hd, hfunc, bind, Except.bind, ERROR_CHECK, derefNode, pure,
    Except.pure]
  simp only [ne_eq, not_false_eq_true, decide_True, if_true, reduceCtorEq]
  cases hflag : d.flag with
  | true =>
    simp only [if_true]
    refine ⟨_, rfl, ?_⟩
    by_cases h : fd.type = .Void <;> simp [h, InvalidReturnError, report]
  | false =>
    cases c0 with
    | null => exact absurd rfl (hvalue hflag)
    | node cd a0 a1 a2 as =>
      simp only [derefNode, TreeNode.type?]
      refine ⟨_, rfl, ?_⟩
      by_cases h : fd.type = cd.type
      · simp [h, InvalidReturnError, report]
      · have h2 : ¬ cd.type = fd.type := fun e => h e.symm
        simp [h, h2, InvalidReturnError, report]

theorem return_statement_errors_witness :
    returnState.currentScope = some 2 ∧
      (returnState.scopeList[2]?.map fun s => (s.name, s.func.type?)) = some ("f", some .Integer) ∧
      ((∃ stn, checkNode (.node returnNothing .null .null .null .null) returnState =
            .ok (returnNothing, stn) ∧
          stn.listing = returnState.listing ++
            (if (returnNothing.flag = true ∧ NodeType.Integer ≠ .Void) ∨
                (returnNothing.flag = false ∧ TreeNode.null.type? ≠ some .Integer)
             then [.invalidReturn returnNothing.lineno] else [])) ∧
        listingOf (analyze progReturnNothing) = .ok [.invalidReturn 1] ∧
        listingOf (analyze progReturnValue) = .ok [.invalidReturn 1] ∧
        listingOf (analyze progReturnOk) = .ok []) :=
  ⟨rfl, by decide,
    return_statement_errors returnState returnNothing .null .null .null .null 2
      { name := "f", state := .STATE_NORMAL, func := progReturnNothing,
        symbolList := fun _ => [], numSymbols := 0, numScopes := 0, parent := some 0 }
      { newTreeNode .FunctionDecl with lineno := 1, type := .Integer, name := some "f" }
      (voidParams 1) (block 1 true .null (ret 1 .null .null) .null) .null .null
      rfl rfl rfl rfl (by decide)⟩

/-- C14, counterexample. In `int main(void) { x = y; }` neither `x` nor `y` is declared:
pass 1 reports both, pass 2 gives both operands type Undetermined, and the assignment,
whose operand types are equal but not resolved, is not reported. -/
theorem unresolved_equal_operands_not_reported :
    operandTypes (okTree (analyze progAssignUndeclared)) =
        [(some .Undetermined, some .Undetermined, .Undetermined)] ∧
      listingOf (analyze progAssignUndeclared) =
        .ok [.undeclaredVariable (some "x") 1, .undeclaredVariable (some "y") 1] := by
  decide

/-- C14, amended. For an assignment or binary-operator node with both operands present,
the post-visit of pass 2 completes and writes no diagnostic exactly when the types of the
two operands are equal, resolved or not; otherwise it writes exactly one error,
invalid-assignment for an assignment and invalid-operation for a binary operator. -/
theorem operand_type_errors (st : State) (d ld rd : NodeData)
    (l0 l1 l2 ls r0 r1 r2 rs c2 sib : TreeNode)
    (hkind : d.kind = .AssignExpr ∨ d.kind = .BinOpExpr) :
    ∃ d2 stn, checkNode (.node d (.node ld l0 l1 l2 ls) (.node rd r0 r1 r2 rs) c2 sib) st =
        .ok (d2, stn) ∧
      stn.listing = st.listing ++
        (if ld.type = rd.type then []
         else if d.kind = .AssignExpr then [.invalidAssignment d.lineno]
         else [.invalidOperation d.lineno]) := by
  rcases hkind with hk | hk
  · simp only [checkNode, hk, bind, Except.bind, ERROR_CHECK, derefNode, pure, Except.pure]
    refine ⟨_, _, by simp; exact ⟨rfl, rfl⟩, ?_⟩
    by_cases h : ld.type = rd.type <;> simp [h, InvalidAssignmentError, report]
  · simp only [checkNode, hk, bind, Except.bind, ERROR_CHECK, derefNode, pure, Except.pure]
    refine ⟨_, _, by simp; exact ⟨rfl, rfl⟩, ?_⟩
    by_cases h : ld.type = rd.type <;> simp [h, InvalidOperationError, report]

theorem operand_type_errors_witness :
    (assignNode.kind = .AssignExpr ∨ assignNode.kind = .BinOpExpr) ∧
      ∃ d2 stn, checkNode (.node assignNode (.node arrayOperand .null .null .null .null)
          (.node intOperand .null .null .null .null) .null .null) State.initial = .ok (d2, stn) ∧
        stn.listing = State.initial.listing ++
          (if arrayOperand.type = intOperand.type then []
           else if assignNode.kind = .AssignExpr then [.invalidAssignment assignNode.lineno]
           else [.invalidOperation assignNode.lineno]) :=
  ⟨Or.inl rfl, operand_type_errors State.initial assignNode arrayOperand intOperand
    .null .null .null .null .null .null .null .null .null .null (Or.inl rfl)⟩

/-- C15. For an assignment or binary-operator node with both operands present, the
post-visit of pass 2 completes and gives the node the type of its left operand, whatever
that type is and whether or not the operand types differ (in which case the error is
written); in `int a[10]; a = 1;` the assignment gets type IntegerArray and is reported. -/
theorem operator_takes_left_type (st : State) (d ld rd : NodeData)
    (l0 l1 l2 ls r0 r1 r2 rs c2 sib : TreeNode)
    (hkind : d.kind = .AssignExpr ∨ d.kind = .BinOpExpr) :
    (∃ stn, checkNode (.node d (.node ld l0 l1 l2 ls) (.node rd r0 r1 r2 rs) c2 sib) st =
        .ok ({ d with type := ld.type }, stn)) ∧
      operandTypes (okTree (analyze progAssignArray)) =
        [(some .IntegerArray, some .Integer, .IntegerArray)] ∧
      listingOf (analyze progAssignArray) = .ok [.invalidAssignment 2] := by
  refine ⟨?_, by decide, by decide⟩
  rcases hkind with hk | hk
  · simp only [checkNode, hk, bind, Except.bind, ERROR_CHECK, derefNode, pure, Except.pure]
    exact ⟨_, rfl⟩
  · simp only [checkNode, hk, bind, Except.bind, ERROR_CHECK, derefNode, pure, Except.pure]
    exact ⟨_, rfl⟩

theorem operator_takes_left_type_witness :
    (binOpNode.kind = .AssignExpr ∨ binOpNode.kind = .BinOpExpr) ∧
      ((∃ stn, checkNode (.node binOpNode (.node arrayOperand .null .null .null .null)
          (.node intOperand .null .null .null .null) .null .null) State.initial =
          .ok ({ binOpNode with type := arrayOperand.type }, stn)) ∧
        operandTypes (okTree (analyze progAssignArray)) =
          [(some .IntegerArray, some .Integer, .IntegerArray)] ∧
        listingOf (analyze progAssignArray) = .ok [.invalidAssignment 2]) :=
  ⟨Or.inr rfl, operator_takes_left_type State.initial binOpNode arrayOperand intOperand
    .null .null .null .null .null .null .null .null .null .null (Or.inr rfl)⟩

theorem EntryStep_refl (e : SymbolRec) : EntryStep e e :=
  ⟨rfl, rfl, rfl, rfl, List.prefix_refl _, fun h => ⟨h, rfl⟩, fun _ => Or.inl rfl, fun h _ => h⟩

theorem EntryStep_trans {a b c : SymbolRec} (h1 : EntryStep a b) (h2 : EntryStep b c) :
    EntryStep a c := by
  obtain ⟨n1, k1, d1, m1, l1, s1, t1, u1⟩ := h1
  obtain ⟨n2, k2, d2, m2, l2, s2, t2, u2⟩ := h2
  refine ⟨n2.trans n1, k2.trans k1, d2.trans d1, m2.trans m1, l1.trans l2, ?_, ?_,
    fun ha hn => u2 (u1 ha hn) (by rw [d1]; exact hn)⟩
  · intro ha
    obtain ⟨hb, tb⟩ := s1 ha
    obtain ⟨hc, tc⟩ := s2 hb
    exact ⟨hc, tc.trans tb⟩
  · intro hc
    have hb : b.state = .STATE_UNDECLARED := by
      by_contra hb
      exact (s2 hb).1 hc
    rcases t2 hc with h | h
    · rcases t1 hb with h' | h'
      · exact Or.inl (h.trans h')
      · exact Or.inr (h.trans h')
    · exact Or.inr h

theorem EntryStep_entryOk {a b : SymbolRec} (h : EntryStep a b) (ha : EntryOk a) :
    EntryOk b := by
  obtain ⟨_, _, hd, _, _, hs, ht, hu⟩ := h
  refine ⟨?_, ?_⟩
  · intro hb
    have hau : a.state = .STATE_UNDECLARED := by
      by_contra hau
      exact (hs hau).1 hb
    obtain ⟨hty, hnode⟩ := ha.1 hau
    refine ⟨?_, by rw [hd, hnode]⟩
    rcases ht hb with h | h
    · rw [h, hty]
    · exact h
  · intro hb
    by_cases hau : a.state = .STATE_UNDECLARED
    · exact absurd (hu hau (ha.1 hau).2) hb
    · obtain ⟨nd, c0, c1, c2, sib, hn, hty⟩ := ha.2 hau
      exact ⟨nd, c0, c1, c2, sib, by rw [hd, hn], by rw [(hs hau).2, hty]⟩

theorem ChainStep_refl (l : List SymbolRec) : ChainStep l l := by
  refine ⟨fun i e h => ⟨e, h, EntryStep_refl e⟩, ?_⟩
  intro i e1 h hle
  have := (List.getElem?_eq_some.mp h).1
  omega

theorem ChainStep_length {l l1 : List SymbolRec} (h : ChainStep l l1) : l.length ≤ l1.length := by
  by_contra hlt
  have hpos : l1.length < l.length := by omega
  obtain ⟨e1, he1, _⟩ := h.1 l1.length _ (List.getElem?_eq_getElem hpos)
  have := (List.getElem?_eq_some.mp he1).1
  omega

theorem ChainStep_trans {a b c : List SymbolRec} (h1 : ChainStep a b) (h2 : ChainStep b c) :
    ChainStep a c := by
  refine ⟨?_, ?_⟩
  · intro i e h
    obtain ⟨e1, he1, s1⟩ := h1.1 i e h
    obtain ⟨e2, he2, s2⟩ := h2.1 i e1 he1
    exact ⟨e2, he2, EntryStep_trans s1 s2⟩
  · intro i e2 h hle
    by_cases hb : i < b.length
    · obtain ⟨e2', he2', s2⟩ := h2.1 i _ (List.getElem?_eq_getElem hb)
      rw [h] at he2'
      simp only [Option.some.injEq] at he2'
      subst he2'
      exact EntryStep_entryOk s2 (h1.2 i _ (List.getElem?_eq_getElem hb) hle)
    · exact h2.2 i e2 h (by omega)

theorem ChainStep_of_eq {l l1 : List SymbolRec} (h : l1 = l) : ChainStep l l1 := by
  subst h
  exact ChainStep_refl _

theorem ChainStep_updateAt (f : SymbolRec → SymbolRec) (l : List SymbolRec) (i : Nat)
    (hf : ∀ e, l[i]? = some e → EntryStep e (f e)) : ChainStep l (updateAt f l i) := by
  refine ⟨?_, ?_⟩
  · intro j e h
    rw [getElem?_updateAt]
    by_cases hj : j = i
    · subst hj
      simp only [if_true, h, Option.map_some']
      exact ⟨f e, rfl, hf e h⟩
    · simp only [hj, if_false]
      exact ⟨e, h, EntryStep_refl e⟩
  · intro j e1 h hle
    have := (List.getElem?_eq_some.mp h).1
    rw [length_updateAt] at this
    omega

theorem ChainStep_map (f : SymbolRec → SymbolRec) (l : List SymbolRec)
    (hf : ∀ e ∈ l, EntryStep e (f e)) : ChainStep l (l.map f) := by
  refine ⟨?_, ?_⟩
  · intro j e h
    rw [List.getElem?_map, h]
    exact ⟨f e, rfl, hf e (List.getElem?_mem h)⟩
  · intro j e1 h hle
    have := (List.getElem?_eq_some.mp h).1
    rw [List.length_map] at this
    omega

theorem ChainStep_append (l : List SymbolRec) (x : SymbolRec) (hx : EntryOk x) :
    ChainStep l (l ++ [x]) := by
  refine ⟨?_, ?_⟩
  · intro j e h
    have hj := (List.getElem?_eq_some.mp h).1
    rw [List.getElem?_append_left hj]
    exact ⟨e, h, EntryStep_refl e⟩
  · intro j e1 h hle
    rw [List.getElem?_append_right hle] at h
    have hmem := List.getElem?_mem h
    simp only [List.mem_singleton] at hmem
    subst hmem
    exact hx

theorem ChainStep_nil (l : List SymbolRec) (h : ∀ e ∈ l, EntryOk e) : ChainStep [] l := by
  refine ⟨?_, ?_⟩
  · intro i e h
    simp at h
  · intro i e1 h1 _
    exact h e1 (List.getElem?_mem h1)

/-- A chain that changed by `ChainStep` keeps its placeholders in order. -/
theorem ChainStep_entryOk {l l1 : List SymbolRec} (h : ChainStep l l1)
    (hl : ∀ e ∈ l, EntryOk e) : ∀ e ∈ l1, EntryOk e := by
  intro e1 he1
  obtain ⟨i, hi⟩ := List.mem_iff_getElem?.mp he1
  by_cases hlt : i < l.length
  · obtain ⟨e2, he2, s⟩ := h.1 i _ (List.getElem?_eq_getElem hlt)
    rw [hi] at he2
    simp only [Option.some.injEq] at he2
    subst he2
    exact EntryStep_entryOk s (hl _ (List.getElem_mem hlt))
  · exact h.2 i e1 hi (by omega)

theorem nameOf_of_scopeList_eq {st stn : State} (h : stn.scopeList = st.scopeList) (j : Nat) :
    stn.nameOf j = st.nameOf j := by
  simp [State.nameOf, h]

theorem funcOf_of_scopeList_eq {st stn : State} (h : stn.scopeList = st.scopeList) (j : Nat) :
    stn.funcOf j = st.funcOf j := by
  simp [State.funcOf, h]

theorem nameOf_modifyScope (st : State) (j : Nat) (f : ScopeRec → ScopeRec)
    (hf : ∀ s, (f s).name = s.name) (k : Nat) :
    (modifyScope st j f).nameOf k = st.nameOf k := by
  simp only [State.nameOf, modifyScope, getElem?_updateAt]
  split
  · cases st.scopeList[k]? <;> simp [hf]
  · rfl

theorem funcOf_modifyScope (st : State) (j : Nat) (f : ScopeRec → ScopeRec)
    (hf : ∀ s, (f s).func = s.func) (k : Nat) :
    (modifyScope st j f).funcOf k = st.funcOf k := by
  simp only [State.funcOf, modifyScope, getElem?_updateAt]
  split
  · cases st.scopeList[k]? <;> simp [hf]
  · rfl

theorem nameOf_modifySymbol (st : State) (p : SymPtr) (f : SymbolRec → SymbolRec) (k : Nat) :
    (modifySymbol st p f).nameOf k = st.nameOf k := by
  simp only [modifySymbol]
  apply nameOf_modifyScope
  intro s
  rfl

theorem funcOf_modifySymbol (st : State) (p : SymPtr) (f : SymbolRec → SymbolRec) (k : Nat) :
    (modifySymbol st p f).funcOf k = st.funcOf k := by
  simp only [modifySymbol]
  apply funcOf_modifyScope
  intro s
  rfl

theorem Evolves_refl (st : State) : Evolves st st :=
  ⟨Nat.le_refl _, rfl, fun _ _ => ⟨rfl, rfl, rfl⟩, fun _ _ => ChainStep_refl _⟩

theorem Evolves_trans {a b c : State} (h1 : Evolves a b) (h2 : Evolves b c) : Evolves a c := by
  obtain ⟨l1, g1, s1, c1⟩ := h1
  obtain ⟨l2, g2, s2, c2⟩ := h2
  refine ⟨Nat.le_trans l1 l2, g2.trans g1, ?_, fun k b => ChainStep_trans (c1 k b) (c2 k b)⟩
  intro j hj
  obtain ⟨x1, x2, x3⟩ := s1 j hj
  obtain ⟨y1, y2, y3⟩ := s2 j (Nat.lt_of_lt_of_le hj l1)
  exact ⟨y1.trans x1, y2.trans x2, y3.trans x3⟩

/-- A step that leaves the scope directory alone. -/
theorem Evolves_of_scopeList_eq {st stn : State} (hs : stn.scopeList = st.scopeList)
    (hg : stn.globalScope = st.globalScope) : Evolves st stn :=
  ⟨by rw [hs], hg,
    fun j _ => ⟨nameOf_of_scopeList_eq hs j, parentOf_of_scopeList_eq hs j, funcOf_of_scopeList_eq hs j⟩,
    fun k b => ChainStep_of_eq (chain_of_scopeList_eq hs k b)⟩

/-- A write to one symbol that is an `EntryStep`. -/
theorem Evolves_modifySymbol (st : State) (p : SymPtr) (f : SymbolRec → SymbolRec)
    (hf : ∀ e, derefSymbol st p = some e → EntryStep e (f e)) : Evolves st (modifySymbol st p f) := by
  refine ⟨by rw [length_modifySymbol], rfl,
    fun j _ => ⟨nameOf_modifySymbol _ _ _ _, parentOf_modifySymbol _ _ _ _, funcOf_modifySymbol _ _ _ _⟩, ?_⟩
  intro k b
  rw [chain_modifySymbol]
  split
  · next hkb =>
    obtain ⟨rfl, rfl⟩ := hkb
    apply ChainStep_updateAt
    intro e he
    apply hf
    rw [derefSymbol_eq]
    exact he
  · exact ChainStep_refl _

/-- A write to one scope that leaves its name, parent, owner and table alone. -/
theorem Evolves_modifyScope (st : State) (j : Nat) (f : ScopeRec → ScopeRec)
    (hn : ∀ s, (f s).name = s.name) (hp : ∀ s, (f s).parent = s.parent)
    (hfn : ∀ s, (f s).func = s.func) (hs : ∀ s, (f s).symbolList = s.symbolList) :
    Evolves st (modifyScope st j f) :=
  ⟨by rw [length_modifyScope], rfl,
    fun k _ => ⟨nameOf_modifyScope _ _ _ hn _, parentOf_modifyScope _ _ _ hp _,
      funcOf_modifyScope _ _ _ hfn _⟩,
    fun k b => ChainStep_of_eq (chain_modifyScope_keep _ _ _ hs k b)⟩

theorem nameOf_of_scopeAttrs {st stn : State} {j : Nat} (h : stn.scopeAttrs j = st.scopeAttrs j) :
    stn.nameOf j = st.nameOf j := by
  simp only [State.scopeAttrs, State.nameOf] at *
  cases h1 : stn.scopeList[j]? <;> cases h2 : st.scopeList[j]? <;> simp [h1, h2] at h ⊢
  simp only [ScopeRec.attrs, Prod.mk.injEq] at h
  exact h.1

theorem funcOf_of_scopeAttrs {st stn : State} {j : Nat} (h : stn.scopeAttrs j = st.scopeAttrs j) :
    stn.funcOf j = st.funcOf j := by
  simp only [State.scopeAttrs, State.funcOf] at *
  cases h1 : stn.scopeList[j]? <;> cases h2 : st.scopeList[j]? <;> simp [h1, h2] at h ⊢
  simp only [ScopeRec.attrs, Prod.mk.injEq] at h
  exact h.2.2.1

/-- The loop of `RedefinitionError` leaves name, parent, owner and counters of every scope. -/
theorem RedefinitionError_loop_attrs (name : String) (k hashIdx : Nat) (rest : List SymbolRec) :
    ∀ (i : Nat) (st : State) (cited : List Int) (stn : State) (citedn : List Int),
      RedefinitionError.loop name k hashIdx rest i st cited = .ok (stn, citedn) →
      ∀ j, stn.scopeAttrs j = st.scopeAttrs j := by
  induction rest with
  | nil =>
    intro i st cited stn citedn h
    simp only [RedefinitionError.loop, Except.ok.injEq, Prod.mk.injEq] at h
    obtain ⟨rfl, _⟩ := h
    exact fun _ => rfl
  | cons e rest ih =>
    intro i st cited stn citedn h j
    simp only [RedefinitionError.loop] at h
    split at h
    · split at h
      · simp at h
      · split at h
        · split at h
          · split at h
            · simp at h
            · rw [ih _ _ _ _ _ h j, scopeAttrs_setState, scopeAttrs_modifySymbol]
          · simp at h
        · split at h
          · simp at h
          · rw [ih _ _ _ _ _ h j, scopeAttrs_modifySymbol]
    · exact ih _ _ _ _ _ h j

theorem redefined_attrs {scope : Option Nat} {d : NodeData} {st st2 : State}
    (h : insertNode.redefined scope d st = .ok st2) : ∀ j, st2.scopeAttrs j = st.scopeAttrs j := by
  simp only [insertNode.redefined, bind_ok_iff] at h
  obtain ⟨symbol, _, h⟩ := h
  cases symbol with
  | none =>
    simp only [pure_ok_iff] at h
    subst h
    exact fun _ => rfl
  | some p =>
    simp only [RedefinitionError, bind_ok_iff, pure_ok_iff, Prod.exists] at h
    obtain ⟨s, _, stL, cited, hloop, rfl⟩ := h
    intro j
    exact RedefinitionError_loop_attrs _ _ _ _ _ _ _ _ _ hloop j

theorem hasDecl_node {n : Nat} {e : SymbolRec} (h : hasDecl n e = true) : e.node ≠ .null := by
  intro hn
  simp [hasDecl, hn] at h

theorem EntryStep_markRedefined (n : String) (e : SymbolRec) (hd : e.name = n → e.node ≠ .null) :
    EntryStep e (markRedefined n e) := by
  unfold markRedefined
  split
  · next hn =>
    exact ⟨rfl, rfl, rfl, rfl, List.prefix_refl _, fun _ => ⟨by simp, rfl⟩, fun h => by simp at h,
      fun _ hnull => absurd hnull (hd hn)⟩
  · exact EntryStep_refl e

/-- From what a step does to one chain, leaving the others alone. -/
theorem Evolves_of_chain {st stn : State} (k b : Nat)
    (hlen : st.scopeList.length ≤ stn.scopeList.length) (hg : stn.globalScope = st.globalScope)
    (hattr : ∀ j, j < st.scopeList.length →
      stn.nameOf j = st.nameOf j ∧ stn.parentOf j = st.parentOf j ∧ stn.funcOf j = st.funcOf j)
    (hoth : ∀ k1 b1, ¬(k1 = k ∧ b1 = b) → stn.chain k1 b1 = st.chain k1 b1)
    (hch : ChainStep (st.chain k b) (stn.chain k b)) : Evolves st stn := by
  refine ⟨hlen, hg, hattr, ?_⟩
  intro k1 b1
  by_cases h : k1 = k ∧ b1 = b
  · obtain ⟨rfl, rfl⟩ := h
    exact hch
  · exact ChainStep_of_eq (hoth k1 b1 h)

theorem redefined_evolves {scope : Option Nat} {d : NodeData} {st st2 : State}
    (h : insertNode.redefined scope d st = .ok st2) : Evolves st st2 := by
  have hattrs := redefined_attrs h
  obtain ⟨k, n, _, _, _, rlen, _, _, rglob, roth, rch, rall, _⟩ := redefined_inv h
  apply Evolves_of_chain k (hash n) (by rw [rlen]) rglob
  · intro j _
    exact ⟨nameOf_of_scopeAttrs (hattrs j), parentOf_of_scopeAttrs (hattrs j),
      funcOf_of_scopeAttrs (hattrs j)⟩
  · exact roth
  · rw [rch]
    exact ChainStep_map _ _ (fun e he => EntryStep_markRedefined n e
      (fun hn => hasDecl_node (rall e he hn)))

theorem insertSymbol_attrs {cs : Option Nat} {name : Option String} {type : NodeType}
    {kind : SymbolKind} {lineno : Int} {node : TreeNode} {st stn : State} {p : SymPtr}
    (h : insertSymbol cs name type kind lineno node st = .ok (p, stn)) (j : Nat) :
    stn.nameOf j = st.nameOf j ∧ stn.parentOf j = st.parentOf j ∧ stn.funcOf j = st.funcOf j := by
  obtain ⟨k, nm, s, _, _, _, h⟩ := insertSymbol_ok h
  rcases h with ⟨i, _, _, rfl⟩ | ⟨state, _, _, rfl⟩
  · exact ⟨nameOf_modifySymbol _ _ _ _, parentOf_modifySymbol _ _ _ _, funcOf_modifySymbol _ _ _ _⟩
  · refine ⟨?_, ?_, ?_⟩
    · apply nameOf_modifyScope
      intro s1
      rfl
    · apply parentOf_modifyScope
      intro s1
      rfl
    · apply funcOf_modifyScope
      intro s1
      rfl

/-- The insertion of a symbol: of a placeholder (no node, type Undetermined), or of a
declaration (its node, the type of that node) where the scan of the chain finds no
placeholder to promote. -/
theorem insertSymbol_evolves {cs : Option Nat} {name : Option String} {type : NodeType}
    {kind : SymbolKind} {lineno : Int} {node : TreeNode} {st stn : State} {p : SymPtr}
    (h : insertSymbol cs name type kind lineno node st = .ok (p, stn))
    (hnull : node = .null → type = .Undetermined)
    (hty : ∀ nd c0 c1 c2 sib, node = .node nd c0 c1 c2 sib → type = nd.type)
    (hscan : node ≠ .null → ∀ k nm i, cs = some k → name = some nm →
      insertSymbol.scan nm (st.chain k (hash nm)) .STATE_NORMAL ≠ .inl i) : Evolves st stn := by
  have hattrs := insertSymbol_attrs h
  obtain ⟨k, nm, hk, hnm, _, _, _, ilen, _, _, iglob, _, _, ioth, icase⟩ := insertSymbol_inv h
  apply Evolves_of_chain k (hash nm) (by rw [ilen]) iglob (fun j _ => hattrs j) ioth
  rcases icase with ⟨i, hi, _, hch⟩ | ⟨state, memloc, hscan2, _, hch⟩
  · rw [hch]
    have hn : node = .null := by
      by_contra hn
      exact hscan hn k nm i hk hnm hi
    apply ChainStep_updateAt
    intro e he
    obtain ⟨e2, he2, _, hst⟩ := insertSymbol_scan_inl hi
    rw [he] at he2
    simp only [Option.some.injEq] at he2
    subst he2
    refine ⟨rfl, rfl, rfl, rfl, List.prefix_refl _, fun hne => absurd hst hne,
      fun _ => Or.inr (hnull hn), fun _ _ => by simp [hn]⟩
  · rw [hch]
    apply ChainStep_append
    cases node with
    | null =>
      refine ⟨fun _ => ⟨hnull rfl, rfl⟩, fun hne => ?_⟩
      simp [freshSymbol] at hne
    | node nd c0 c1 c2 sib =>
      refine ⟨fun hu => ?_, fun _ => ⟨nd, c0, c1, c2, sib, rfl, hty nd c0 c1 c2 sib rfl⟩⟩
      simp only [freshSymbol, reduceCtorEq, if_false] at hu
      rcases insertSymbol_scan_inr_state hscan2 with h1 | h1 <;> rw [h1] at hu <;> simp at hu

theorem appendSymbol_evolves {cs : Option Nat} {name : Option String} {lineno : Int}
    {st stn : State} {p : SymPtr} (h : appendSymbol cs name lineno st = .ok (p, stn)) :
    Evolves st stn := by
  obtain ⟨nm, _, _, _, rfl⟩ := appendSymbol_ok h
  apply Evolves_modifySymbol
  intro e _
  exact ⟨rfl, rfl, rfl, rfl, List.prefix_append _ _, fun hne => ⟨hne, rfl⟩, fun _ => Or.inl rfl,
    fun hu _ => hu⟩

theorem insertScope_evolves {name : Option String} {parent : Option Nat} {func : TreeNode}
    {st stn : State} {k : Nat} (h : insertScope name parent func st = .ok (k, stn)) :
    Evolves st stn := by
  obtain ⟨st1, scope, rfl, _, h1, hsym, _⟩ := insertScope_ok h
  have e1 : Evolves st st1 := by
    rcases h1 with rfl | ⟨j, rfl⟩
    · exact Evolves_refl _
    · exact Evolves_modifyScope _ _ _ (fun _ => rfl) (fun _ => rfl) (fun _ => rfl) (fun _ => rfl)
  refine Evolves_trans e1 ⟨by simp, rfl, ?_, ?_⟩
  · intro j hj
    simp [State.nameOf, State.parentOf, State.funcOf, List.getElem?_append_left hj]
  · intro k1 b1
    apply ChainStep_of_eq
    simp only [State.chain]
    by_cases hk : k1 < st1.scopeList.length
    · rw [List.getElem?_append_left hk]
    · rw [List.getElem?_append_right (by omega)]
      have hnone : st1.scopeList[k1]? = none := List.getElem?_eq_none (by omega)
      rw [hnone]
      cases hx : [scope][k1 - st1.scopeList.length]? with
      | none => rfl
      | some s =>
        have := List.getElem?_mem hx
        simp only [List.mem_singleton] at this
        subst this
        simp [hsym]

/-- The write of the scope back-reference through `symbol->node`, at an entry added since
`st`. -/
theorem writeThrough_evolves {st st3 : State} (p : SymPtr) (g : SymbolRec → SymbolRec)
    (h : Evolves st st3) (hidx : (st.chain p.scope p.bucket).length ≤ p.idx)
    (hg : ∀ y, EntryOk y → EntryOk (g y)) : Evolves st (modifySymbol st3 p g) := by
  obtain ⟨hlen, hglob, hattr, hch⟩ := h
  refine ⟨by rw [length_modifySymbol]; exact hlen, hglob, ?_, ?_⟩
  · intro j hj
    obtain ⟨a1, a2, a3⟩ := hattr j hj
    exact ⟨(nameOf_modifySymbol _ _ _ _).trans a1, (parentOf_modifySymbol _ _ _ _).trans a2,
      (funcOf_modifySymbol _ _ _ _).trans a3⟩
  · intro k b
    rw [chain_modifySymbol]
    split
    · next hkb =>
      obtain ⟨rfl, rfl⟩ := hkb
      obtain ⟨c1, c2⟩ := hch p.scope p.bucket
      refine ⟨?_, ?_⟩
      · intro i e he
        have hi := (List.getElem?_eq_some.mp he).1
        obtain ⟨e1, he1, s⟩ := c1 i e he
        refine ⟨e1, ?_, s⟩
        rw [getElem?_updateAt, if_neg (by omega)]
        exact he1
      · intro i e1 he1 hle
        rw [getElem?_updateAt] at he1
        split at he1
        · cases hy : (st3.chain p.scope p.bucket)[i]? with
          | none => simp [hy] at he1
          | some y =>
            simp only [hy, Option.map_some', Option.some.injEq] at he1
            subst he1
            exact hg y (c2 i y hy hle)
        · exact c2 i e1 he1 hle
    · exact hch k b

theorem voidCheck_evolves (d : NodeData) (st : State) :
    Evolves st (if d.type = .Void ∨ d.type = .VoidArray then VoidTypeVariableError d.name d.lineno st
      else st) ∧
    ∃ new, (if d.type = .Void ∨ d.type = .VoidArray then VoidTypeVariableError d.name d.lineno st
      else st).listing = st.listing ++ new ∧ ∀ x ∈ new, x = .voidTypeVariable d.name d.lineno := by
  by_cases hv : d.type = .Void ∨ d.type = .VoidArray
  · rw [if_pos hv]
    exact ⟨Evolves_of_scopeList_eq rfl rfl, [_], rfl, by simp⟩
  · rw [if_neg hv]
    exact ⟨Evolves_refl _, [], by simp, by simp⟩

/-- The declaration cases of `insertNode` (variable and parameter). -/
theorem declareVariable_evolves {d : NodeData} {t : TreeNode} {st stn : State} {p : SymPtr}
    (st2 : State) (ht : t ≠ .null)
    (hty : ∀ nd c0 c1 c2 sib, t = .node nd c0 c1 c2 sib → d.type = nd.type)
    (h2 : insertNode.redefined
      (if d.type = .Void ∨ d.type = .VoidArray then VoidTypeVariableError d.name d.lineno st else st).currentScope d
      (if d.type = .Void ∨ d.type = .VoidArray then VoidTypeVariableError d.name d.lineno st else st) = .ok st2)
    (h3 : insertSymbol st2.currentScope d.name d.type .VariableSym d.lineno t st2 = .ok (p, stn)) :
    Evolves st stn ∧ ∃ new, stn.listing = st.listing ++ new ∧ ∀ x ∈ new, DiagOf d st x := by
  obtain ⟨e1, n1, l1, s1⟩ := voidCheck_evolves d st
  have e2 := redefined_evolves h2
  obtain ⟨k, n, hk, hn, _, _, _, rcur, _, _, rch, _, n2, ⟨l2, _⟩, s2⟩ := redefined_inv h2
  have e3 := insertSymbol_evolves h3 (fun hn => absurd hn ht) hty (by
    intro _ k2 nm i hk2 hnm hi
    rw [rcur, hk] at hk2
    rw [hn] at hnm
    simp only [Option.some.injEq] at hk2 hnm
    subst hk2 hnm
    rw [rch, insertSymbol_scan_marked] at hi
    simp at hi)
  have l3 := (insertSymbol_emits h3).1
  refine ⟨Evolves_trans e1 (Evolves_trans e2 e3), n1 ++ n2, ?_, ?_⟩
  · rw [l3, l2, l1]
    simp
  · intro x hx
    rcases List.mem_append.mp hx with hx | hx
    · exact Or.inr (Or.inl (s1 x hx))
    · obtain ⟨cited, hc⟩ := s2 x hx
      exact Or.inl ⟨n, cited, hc⟩

theorem EntryOk_setScope (node : TreeNode) (sc : Nat) (y : SymbolRec) (hy : EntryOk y) :
    EntryOk (if y.node = node then { y with node := y.node.setScope sc } else y) := by
  split
  · next hn =>
    refine ⟨?_, ?_⟩
    · intro hu
      obtain ⟨hty, hnull⟩ := hy.1 hu
      refine ⟨hty, ?_⟩
      show y.node.setScope sc = .null
      rw [hnull]
      rfl
    · intro hu
      obtain ⟨nd, c0, c1, c2, sib, hnode, hty⟩ := hy.2 hu
      refine ⟨{ nd with scope := some sc }, c0, c1, c2, sib, ?_, hty⟩
      show y.node.setScope sc = _
      rw [hnode]
      rfl
  · exact hy

/-- What the pre-visit of pass 1 does to the tables, and what it can write. -/
theorem insertNode_evolves {d d1 : NodeData} {c0 c1 c2 sib : TreeNode} {st stn : State}
    (h : insertNode (.node d c0 c1 c2 sib) st = .ok (d1, stn)) :
    Evolves st stn ∧ ∃ new, stn.listing = st.listing ++ new ∧ ∀ x ∈ new, DiagOf d st x := by
  simp only [insertNode] at h
  split at h
  · -- VariableDecl
    simp only [bind_ok_iff, pure_ok_iff, Prod.exists, Prod.mk.injEq] at h
    obtain ⟨st2, h2, p, st3, h3, _, rfl⟩ := h
    exact declareVariable_evolves st2 (by simp) (by
      intro nd a0 a1 a2 as hnode
      simp only [TreeNode.node.injEq] at hnode
      rw [hnode.1]) h2 h3
  · -- FunctionDecl
    simp only [bind_ok_iff, pure_ok_iff, Prod.exists, Prod.mk.injEq, ERROR_CHECK_ok_iff,
      decide_eq_true_eq] at h
    obtain ⟨_, hcur, st1, h1, p, st2, h2, sc, st3, h3, _, rfl⟩ := h
    have e1 := redefined_evolves h1
    obtain ⟨k0, n, hk0, hn0, _, _, _, rcur, _, _, rch, _, n1, ⟨l1, _⟩, s1⟩ := redefined_inv h1
    have e2 := insertSymbol_evolves h2 (fun hn => by simp at hn) (by
      intro nd a0 a1 a2 as hnode
      simp only [TreeNode.node.injEq] at hnode
      rw [hnode.1]) (by
      intro _ k2 nm i hk2 hnm hi
      rw [rcur, hcur, hk0] at hk2
      rw [hn0] at hnm
      simp only [Option.some.injEq] at hk2 hnm
      subst hk2 hnm
      rw [rch, insertSymbol_scan_marked] at hi
      simp at hi)
    have e3 := insertScope_evolves h3
    have e13 := Evolves_trans e1 (Evolves_trans e2 e3)
    have l2 := (insertSymbol_emits h2).1
    have l3 := (insertScope_emits h3).1
    have hbind : (insertNode.redefined st.globalScope d st >>= fun s =>
        insertSymbol s.currentScope d.name d.type .FunctionSym d.lineno (.node d c0 c1 c2 sib) s) =
        .ok (p, st2) := by
      rw [bind_ok_iff]
      exact ⟨st1, h1, h2⟩
    obtain ⟨k, n2, x, _, _, _, hp, _⟩ := decl_inv hcur.symm (by simp) hbind
    refine ⟨?_, n1, ?_, ?_⟩
    · have hw : Evolves st (modifySymbol st3 p fun e =>
          if e.node = .node d c0 c1 c2 sib then { e with node := e.node.setScope sc } else e) :=
        writeThrough_evolves p _ e13 (by rw [hp])
          (fun y hy => EntryOk_setScope (.node d c0 c1 c2 sib) sc y hy)
      obtain ⟨a1, a2, a3, a4⟩ := hw
      exact ⟨a1, a2, a3, a4⟩
    · show st3.listing = _
      rw [l3, l2, l1]
      simp
    · intro y hy
      obtain ⟨cited, hc⟩ := s1 y hy
      exact Or.inl ⟨n, cited, hc⟩
  · -- Params
    split at h
    · simp only [Except.ok.injEq, Prod.mk.injEq] at h
      obtain ⟨_, rfl⟩ := h
      exact ⟨Evolves_refl _, [], by simp, by simp⟩
    · simp only [bind_ok_iff, pure_ok_iff, Prod.exists, Prod.mk.injEq] at h
      obtain ⟨st2, h2, p, st3, h3, _, rfl⟩ := h
      exact declareVariable_evolves st2 (by simp) (by
      intro nd a0 a1 a2 as hnode
      simp only [TreeNode.node.injEq] at hnode
      rw [hnode.1]) h2 h3
  · -- CompoundStmt
    split at h
    · simp only [Except.ok.injEq, Prod.mk.injEq] at h
      obtain ⟨_, rfl⟩ := h
      exact ⟨Evolves_refl _, [], by simp, by simp⟩
    · simp only [bind_ok_iff, pure_ok_iff, Prod.exists, Prod.mk.injEq] at h
      obtain ⟨cur, _, sc, st1, h1, _, rfl⟩ := h
      have e1 := insertScope_evolves h1
      have l1 := (insertScope_emits h1).1
      refine ⟨?_, [], ?_, by simp⟩
      · obtain ⟨a1, a2, a3, a4⟩ := e1
        exact ⟨a1, a2, a3, a4⟩
      · show st1.listing = _
        rw [l1]
  · -- CallExpr
    next hk =>
    simp only [bind_ok_iff, Prod.exists] at h
    obtain ⟨func, hlook, h⟩ := h
    cases func with
    | none =>
      simp only [bind_ok_iff, pure_ok_iff, Prod.exists, Prod.mk.injEq, UndeclaredFunctionError] at h
      obtain ⟨p, st1, h1, _, rfl⟩ := h
      have e1 := insertSymbol_evolves h1 (fun _ => rfl) (by simp) (by simp)
      have l1 := (insertSymbol_emits h1).1
      refine ⟨Evolves_trans (Evolves_of_scopeList_eq rfl rfl) e1,
        [.undeclaredFunction d.name d.lineno], ?_, ?_⟩
      · rw [l1]
        simp [report]
      · intro x hx
        simp only [List.mem_singleton] at hx
        exact Or.inr (Or.inr (Or.inl ⟨hx, hk, hlook⟩))
    | some q =>
      simp only [bind_ok_iff, pure_ok_iff, Prod.exists, Prod.mk.injEq] at h
      obtain ⟨p, st1, h1, _, rfl⟩ := h
      exact ⟨appendSymbol_evolves h1, [], by rw [(appendSymbol_emits h1).1], by simp⟩
  · -- VarAccessExpr
    next hk =>
    simp only [bind_ok_iff, Prod.exists] at h
    obtain ⟨var, hlook, h⟩ := h
    cases var with
    | none =>
      simp only [bind_ok_iff, pure_ok_iff, Prod.exists, Prod.mk.injEq, UndeclaredVariableError] at h
      obtain ⟨p, st1, h1, _, rfl⟩ := h
      have e1 := insertSymbol_evolves h1 (fun _ => rfl) (by simp) (by simp)
      have l1 := (insertSymbol_emits h1).1
      refine ⟨Evolves_trans (Evolves_of_scopeList_eq rfl rfl) e1,
        [.undeclaredVariable d.name d.lineno], ?_, ?_⟩
      · rw [l1]
        simp [report]
      · intro x hx
        simp only [List.mem_singleton] at hx
        exact Or.inr (Or.inr (Or.inr ⟨hx, hk, hlook⟩))
    | some q =>
      simp only [bind_ok_iff, pure_ok_iff, Prod.exists, Prod.mk.injEq] at h
      obtain ⟨p, st1, h1, _, rfl⟩ := h
      exact ⟨appendSymbol_evolves h1, [], by rw [(appendSymbol_emits h1).1], by simp⟩
  all_goals first
    | (simp only [Except.ok.injEq, Prod.mk.injEq] at h
       obtain ⟨_, rfl⟩ := h
       exact ⟨Evolves_refl _, [], by simp, by simp⟩)
    | simp at h

theorem builtinState_eq : builtinState = .ok builtinState.get := by rfl

theorem builtinState_seeded {sb : State} (h : builtinState = .ok sb) : Seeded sb := by
  have h2 := builtinState_eq
  rw [h] at h2
  simp only [Except.ok.injEq] at h2
  subst h2
  exact ⟨by decide, by decide, by decide, by decide, by decide, by decide, by decide, by decide⟩

theorem headEntry_evolves {st stn : State} (h : Evolves st stn) (k : Nat) (nm : String)
    (x : String × SymbolKind × NodeType × TreeNode)
    (hh : headEntry st k nm = some (x.1, x.2.1, x.2.2.1, x.2.2.2, true)) :
    headEntry stn k nm = some (x.1, x.2.1, x.2.2.1, x.2.2.2, true) := by
  simp only [headEntry] at hh ⊢
  cases he : (st.chain k (hash nm))[0]? with
  | none => simp [he] at hh
  | some e =>
    simp only [he, Option.map_some', Option.some.injEq, Prod.mk.injEq, decide_eq_true_eq] at hh
    obtain ⟨h1, h2, h3, h4, h5⟩ := hh
    obtain ⟨e1, he1, s1, s2, s3, _, _, s6, _⟩ := (h.2.2.2 k (hash nm)).1 0 e he
    obtain ⟨s7, s8⟩ := s6 h5
    simp only [he1, Option.map_some', Option.some.injEq, Prod.mk.injEq, decide_eq_true_eq]
    exact ⟨s1.trans h1, s2.trans h2, s8.trans h3, s3.trans h4, s7⟩

theorem Seeded_evolves {st stn : State} (h : Evolves st stn) (hs : Seeded st) : Seeded stn := by
  obtain ⟨g, i, o, v, n0, p0, n1, p1⟩ := hs
  have hlt1 : 1 < st.scopeList.length := by
    simp only [State.nameOf] at n1
    cases h1 : st.scopeList[1]? with
    | none => simp [h1] at n1
    | some s => exact (List.getElem?_eq_some.mp h1).1
  obtain ⟨a0, b0, _⟩ := h.2.2.1 0 (by omega)
  obtain ⟨a1, b1, _⟩ := h.2.2.1 1 hlt1
  exact ⟨h.2.1.trans g, headEntry_evolves h 0 "input" (_, _, _, _) i,
    headEntry_evolves h 0 "output" (_, _, _, _) o, headEntry_evolves h 1 "value" (_, _, _, _) v,
    a0.trans n0, b0.trans p0, a1.trans n1, b1.trans p1⟩

theorem headEntry_some {st : State} {k : Nat} {nm : String}
    {x : String × SymbolKind × NodeType × TreeNode × Bool} (h : headEntry st k nm = some x) :
    ∃ e, derefSymbol st ⟨k, hash nm, 0⟩ = some e ∧ (st.chain k (hash nm))[0]? = some e ∧
      e.name = x.1 ∧ e.kind = x.2.1 ∧ e.type = x.2.2.1 ∧ e.node = x.2.2.2.1 ∧
      decide (e.state ≠ .STATE_UNDECLARED) = x.2.2.2.2 ∧ k < st.scopeList.length := by
  simp only [headEntry] at h
  cases he : (st.chain k (hash nm))[0]? with
  | none => simp [he] at h
  | some e =>
    simp only [he, Option.map_some', Option.some.injEq] at h
    subst h
    refine ⟨e, by rw [derefSymbol_eq]; exact he, rfl, rfl, rfl, rfl, rfl, rfl, ?_⟩
    by_contra hk
    have hnone : st.scopeList[k]? = none := List.getElem?_eq_none (by omega)
    simp [State.chain, hnone] at he

/-- A lookup by name and kind from scope `k` returns the head of the bucket when that
entry has the name and the kind. -/
theorem lookup_head {st : State} {k : Nat} {nm : String} {kind : SymbolKind}
    {x : TreeNode × Bool} {ty : NodeType}
    (h : headEntry st k nm = some (nm, kind, ty, x.1, x.2)) :
    lookupSymbolWithKind (some k) (some nm) kind st = .ok (some ⟨k, hash nm, 0⟩) := by
  obtain ⟨e, _, he, hn, hkd, _, _, _, hk⟩ := headEntry_some h
  obtain ⟨f, hf⟩ := succ_of_lt hk
  simp only [lookupSymbolWithKind, ERROR_CHECK, bind, Except.bind, Option.isSome_some,
    Bool.and_self, if_true, Option.getD_some]
  rw [hf]
  apply lookupWalk_here _ hk
  cases hc : st.chain k (hash nm) with
  | nil => simp [hc] at he
  | cons a rest =>
    simp only [hc, List.getElem?_cons_zero, Option.some.injEq] at he
    subst he
    simp only at hn hkd
    simp [chainFind, hn, hkd]

theorem DiagOf_seeded {d : NodeData} {st : State} {x : Diag} (hs : Seeded st) (h : DiagOf d st x) :
    notBuiltinUndeclared x := by
  obtain ⟨g, i, o, _⟩ := hs
  rcases h with ⟨n, cited, rfl⟩ | rfl | ⟨rfl, _, hlook⟩ | ⟨rfl, _, _⟩
  · exact ⟨rfl, rfl⟩
  · exact ⟨rfl, rfl⟩
  · rw [g] at hlook
    constructor
    · simp only [isUndeclaredFunction, decide_eq_false_iff_not]
      intro hn
      rw [hn, lookup_head (x := (_, _)) i] at hlook
      simp at hlook
    · simp only [isUndeclaredFunction, decide_eq_false_iff_not]
      intro hn
      rw [hn, lookup_head (x := (_, _)) o] at hlook
      simp at hlook
  · exact ⟨rfl, rfl⟩

/-- Pass 1 over a subtree: the tables evolve, and from a state that holds the built-ins no
undeclared-function error for `input` or `output` is written. -/
theorem pass1_evolves (t : TreeNode) (st : State) (tn : TreeNode) (stn : State)
    (h : traverse insertNode scopeOut t st = .ok (tn, stn)) :
    Evolves st stn ∧
      (Seeded st → ∃ new, stn.listing = st.listing ++ new ∧ ∀ x ∈ new, notBuiltinUndeclared x) := by
  revert t st tn stn
  apply traverse_induct
  · intro st
    exact ⟨Evolves_refl _, fun _ => ⟨[], by simp, by simp⟩⟩
  · intro d c0 c1 c2 sib st d1 st1 c0n st2 c1n st3 c2n st4 d2 st5 sibn st6 hpre r0 r1 r2 hpost rs
    obtain ⟨e1, n1, l1, s1⟩ := insertNode_evolves hpre
    obtain ⟨_, psl, pgl, _, pli, _⟩ := scopeOut_ok hpost
    have e5 : Evolves st4 st5 := Evolves_of_scopeList_eq psl pgl
    have e12 := Evolves_trans e1 r0.1
    have e13 := Evolves_trans e12 r1.1
    have e14 := Evolves_trans e13 r2.1
    have e15 := Evolves_trans e14 e5
    refine ⟨Evolves_trans e15 rs.1, ?_⟩
    intro hs
    obtain ⟨n2, l2, s2⟩ := r0.2 (Seeded_evolves e1 hs)
    obtain ⟨n3, l3, s3⟩ := r1.2 (Seeded_evolves e12 hs)
    obtain ⟨n4, l4, s4⟩ := r2.2 (Seeded_evolves e13 hs)
    obtain ⟨n6, l6, s6⟩ := rs.2 (Seeded_evolves e15 hs)
    refine ⟨n1 ++ (n2 ++ (n3 ++ (n4 ++ n6))), ?_, ?_⟩
    · rw [l6, pli, l4, l3, l2, l1]
      simp
    · intro x hx
      simp only [List.mem_append] at hx
      rcases hx with hx | hx | hx | hx | hx
      · exact DiagOf_seeded hs (s1 x hx)
      · exact s2 x hx
      · exact s3 x hx
      · exact s4 x hx
      · exact s6 x hx

theorem AllOk_evolves {st stn : State} (h : Evolves st stn) (ha : AllOk st) : AllOk stn :=
  fun k b => ChainStep_entryOk (h.2.2.2 k b) (ha k b)

theorem AllOk_of_scopeList_eq {st stn : State} (h : stn.scopeList = st.scopeList) (ha : AllOk st) :
    AllOk stn := by
  intro k b
  rw [chain_of_scopeList_eq h]
  exact ha k b

theorem scan_nil_ne_inl (nm : String) {l : List SymbolRec} (h : l = []) (i : Nat) :
    insertSymbol.scan nm l .STATE_NORMAL ≠ .inl i := by
  subst h
  simp [insertSymbol.scan]

theorem builtinState_allOk {sb : State} (h : builtinState = .ok sb) : AllOk sb := by
  simp only [builtinState, declareBuiltInFunction, bind_ok_iff, pure_ok_iff, Prod.exists] at h
  obtain ⟨g, sa, h1, p1, s1, h2, p2, s2, h3, k, s3, h4, p3, s4, h5, rfl⟩ := h
  obtain ⟨hg, _, _, achain, _⟩ := insertScope_inv h1
  have hg0 : g = 0 := hg
  subst hg0
  have a0 : AllOk State.initial := by
    intro k b e he
    simp [State.chain, State.initial] at he
  have a1 : AllOk sa := AllOk_evolves (insertScope_evolves h1) a0
  have a2 : AllOk { sa with globalScope := some 0, currentScope := some 0 } :=
    AllOk_of_scopeList_eq rfl a1
  have e2 := insertSymbol_evolves h2 (by simp [inputFuncNode])
    (by
      intro nd c0 c1 c2 sib hn
      simp only [inputFuncNode, TreeNode.node.injEq] at hn
      rw [← hn.1])
    (by
      intro _ k2 nm i hk hnm
      simp only [Option.some.injEq] at hk hnm
      subst hk hnm
      exact scan_nil_ne_inl _ (achain _) i)
  obtain ⟨k1, nm1, hk1, hnm1, _, _, _, _, _, _, bglob, _, _, both, _⟩ := insertSymbol_inv h2
  simp only [Option.some.injEq] at hk1 hnm1
  subst hk1 hnm1
  have hbg : s1.globalScope = some 0 := bglob
  rw [hbg] at h3
  have e3 := insertSymbol_evolves h3 (by simp [outputFuncNode])
    (by
      intro nd c0 c1 c2 sib hn
      simp only [outputFuncNode, TreeNode.node.injEq] at hn
      rw [← hn.1])
    (by
      intro _ k2 nm i hk hnm
      simp only [Option.some.injEq] at hk hnm
      subst hk hnm
      apply scan_nil_ne_inl
      rw [both 0 (hash "output") (by decide)]
      exact achain _)
  have e4 := insertScope_evolves h4
  obtain ⟨_, _, _, dchain, _⟩ := insertScope_inv h4
  have e5 := insertSymbol_evolves h5 (by simp [outputFuncParamNode])
    (by
      intro nd c0 c1 c2 sib hn
      simp only [outputFuncParamNode, TreeNode.node.injEq] at hn
      rw [← hn.1])
    (by
      intro _ k2 nm i hk hnm
      simp only [Option.some.injEq] at hk hnm
      subst hk hnm
      exact scan_nil_ne_inl _ (dchain _) i)
  exact AllOk_evolves e5 (AllOk_evolves e4 (AllOk_evolves e3 (AllOk_evolves e2 a2)))

/-- After pass 1, started from the state of a fresh process, the tables hold the built-ins,
every entry is a placeholder or a declaration, and no undeclared-function error for a
built-in has been written. -/
theorem buildSymtab_seeded {t t1 : TreeNode} {st1 : State}
    (h : buildSymtab t State.initial = .ok (t1, st1)) :
    Seeded st1 ∧ AllOk st1 ∧ ∀ x ∈ st1.listing, notBuiltinUndeclared x := by
  rw [buildSymtab_eq, bind_ok_iff] at h
  obtain ⟨sb, h0, hrun⟩ := h
  have hs := builtinState_seeded h0
  have ha := builtinState_allOk h0
  obtain ⟨ev, hq⟩ := pass1_evolves t sb t1 st1 hrun
  obtain ⟨new, hl, hn⟩ := hq hs
  have hl0 : sb.listing = [] := by
    have h2 := builtinState_eq
    rw [h0] at h2
    simp only [Except.ok.injEq] at h2
    subst h2
    decide
  refine ⟨Seeded_evolves ev hs, AllOk_evolves ev ha, ?_⟩
  rw [hl, hl0, List.nil_append]
  exact hn

theorem Seeded_of_eq {st stn : State} (hs : stn.scopeList = st.scopeList)
    (hg : stn.globalScope = st.globalScope) (h : Seeded st) : Seeded stn :=
  Seeded_evolves (Evolves_of_scopeList_eq hs hg) h

/-- A call of `input` without arguments, checked against tables that hold the built-ins. -/
theorem checkNode_input {st : State} (hs : Seeded st) (d : NodeData) (c1 c2 sib : TreeNode)
    (hkind : d.kind = .CallExpr) (hname : d.name = some "input") :
    checkNode (.node d .null c1 c2 sib) st = .ok ({ d with type := .Integer }, st) := by
  obtain ⟨g, i, _, _⟩ := hs
  obtain ⟨e, hderef, _, _, _, hty, hnode, hst, _⟩ := headEntry_some i
  have hlook := lookup_head (x := (_, _)) i
  have hb : (some (⟨0, hash "input", 0⟩ : SymPtr)).bind (derefSymbol st) = some e := hderef
  simp only [decide_eq_true_eq] at hst
  simp only at hty hnode
  simp only [checkNode, hkind, hname, g, hlook, bind, Except.bind, ERROR_CHECK, Option.isSome_some,
    if_true, pure, Except.pure]
  rw [hb]
  simp only [hst, if_false, hnode, inputFuncNode, checkNode.args, newTreeNode, hty]
  simp

/-- A call of `output` with one argument of type Integer, checked against tables that hold
the built-ins. -/
theorem checkNode_output {st : State} (hs : Seeded st) (d ad : NodeData)
    (a0 a1 a2 c1 c2 sib : TreeNode) (hkind : d.kind = .CallExpr) (hname : d.name = some "output")
    (harg : ad.type = .Integer) :
    checkNode (.node d (.node ad a0 a1 a2 .null) c1 c2 sib) st = .ok ({ d with type := .Void }, st) := by
  obtain ⟨g, _, o, _⟩ := hs
  obtain ⟨e, hderef, _, _, _, hty, hnode, hst, _⟩ := headEntry_some o
  have hlook := lookup_head (x := (_, _)) o
  have hb : (some (⟨0, hash "output", 0⟩ : SymPtr)).bind (derefSymbol st) = some e := hderef
  simp only [decide_eq_true_eq] at hst
  simp only at hty hnode
  simp only [checkNode, hkind, hname, g, hlook, bind, Except.bind, ERROR_CHECK, Option.isSome_some,
    if_true, pure, Except.pure]
  rw [hb]
  simp only [hst, if_false, hnode, outputFuncNode, outputFuncParamNode, checkNode.args, newTreeNode,
    hty, harg]
  simp [checkNode.args]

/-- C12. After `buildSymtab` has completed on any tree (it does on the empty tree), the
global scope is scope 0 and holds, at the head of their buckets, where the lookup by name
and kind finds them, a Function symbol `input` of type Integer whose declaration node is
the one with the empty parameter list, and a Function symbol `output` of type Void whose
declaration node has the one parameter `value` of type Integer; scope 1 is named `output`,
has the global scope as parent and holds `value` as a Variable symbol of type Integer.
Consequently pass 1 has written no undeclared-function error for `input` or `output`,
and with these tables the post-visit of pass 2 gives a call `input()` type Integer and a
call `output(e)` with `e` of type Integer type Void, without writing anything; the program
`int main(void) { output(1); input(); }` is analysed without a diagnostic. -/
theorem builtins_preseeded (t t1 : TreeNode) (st1 : State)
    (hrun : buildSymtab t State.initial = .ok (t1, st1)) :
    (∃ st0, buildSymtab .null State.initial = .ok (.null, st0)) ∧
      st1.globalScope = some 0 ∧
      headEntry st1 0 "input" = some ("input", .FunctionSym, .Integer, inputFuncNode, true) ∧
      headEntry st1 0 "output" = some ("output", .FunctionSym, .Void, outputFuncNode, true) ∧
      lookupSymbolWithKind st1.globalScope (some "input") .FunctionSym st1 =
        .ok (some ⟨0, hash "input", 0⟩) ∧
      lookupSymbolWithKind st1.globalScope (some "output") .FunctionSym st1 =
        .ok (some ⟨0, hash "output", 0⟩) ∧
      st1.nameOf 1 = some "output" ∧ st1.parentOf 1 = some st1.globalScope ∧
      headEntry st1 1 "value" = some ("value", .VariableSym, .Integer, outputFuncParamNode, true) ∧
      (∀ x ∈ st1.listing, notBuiltinUndeclared x) ∧
      (∀ (st : State) (d : NodeData) (c1 c2 sib : TreeNode), st.scopeList = st1.scopeList →
        st.globalScope = st1.globalScope → d.kind = .CallExpr → d.name = some "input" →
        checkNode (.node d .null c1 c2 sib) st = .ok ({ d with type := .Integer }, st)) ∧
      (∀ (st : State) (d ad : NodeData) (a0 a1 a2 c1 c2 sib : TreeNode),
        st.scopeList = st1.scopeList → st.globalScope = st1.globalScope → d.kind = .CallExpr →
        d.name = some "output" → ad.type = .Integer →
        checkNode (.node d (.node ad a0 a1 a2 .null) c1 c2 sib) st =
          .ok ({ d with type := .Void }, st)) ∧
      listingOf (analyze progBuiltinCalls) = .ok [] ∧
      callTypes (okTree (analyze progBuiltinCalls)) =
        [(some "output", .Void), (some "input", .Integer)] := by
  obtain ⟨hs, _, hl⟩ := buildSymtab_seeded hrun
  have hs2 := hs
  obtain ⟨g, i, o, v, _, _, n1, p1⟩ := hs2
  refine ⟨⟨_, by rfl⟩, g, i, o, ?_, ?_, n1, by rw [p1, g], v, hl, ?_, ?_, by decide, by decide⟩
  · rw [g]
    exact lookup_head (x := (_, _)) i
  · rw [g]
    exact lookup_head (x := (_, _)) o
  · intro st d c1 c2 sib hsl hgl hkind hname
    exact checkNode_input (Seeded_of_eq hsl hgl hs) d c1 c2 sib hkind hname
  · intro st d ad a0 a1 a2 c1 c2 sib hsl hgl hkind hname harg
    exact checkNode_output (Seeded_of_eq hsl hgl hs) d ad a0 a1 a2 c1 c2 sib hkind hname harg

theorem builtins_preseeded_witness :
    listingOf (buildSymtab progBuiltinCalls State.initial) = .ok [] ∧
      (okState (buildSymtab progBuiltinCalls State.initial)).globalScope = some 0 ∧
      headEntry (okState (buildSymtab progBuiltinCalls State.initial)) 0 "input" =
        some ("input", .FunctionSym, .Integer, inputFuncNode, true) ∧
      (okState (buildSymtab progBuiltinCalls State.initial)).nameOf 1 = some "output" :=
  have h := builtins_preseeded progBuiltinCalls (okTree (buildSymtab progBuiltinCalls State.initial))
    (okState (buildSymtab progBuiltinCalls State.initial)) (by rfl)
  ⟨by decide, h.2.1, h.2.2.1, h.2.2.2.2.2.2.1⟩

/-- C18. With the tables of a completed pass 1: for a call node whose name the lookup of
pass 2 (a Function symbol, from the global scope) resolves to `symbol`, the post-visit
completes and gives the node the type of that symbol, whatever it writes; a symbol that is
not Undeclared has its declaration node and the type of that node (the declared return
type), and an Undeclared one is a placeholder of type Undetermined.  In
`int f(int a) { }  int main(void) { f(); g(); }` the call of `f`, reported as invalid,
gets Integer, and the call of the undeclared `g` gets Undetermined. -/
theorem call_takes_symbol_type (t t1 : TreeNode) (st1 : State)
    (hrun : buildSymtab t State.initial = .ok (t1, st1)) (st : State)
    (hsl : st.scopeList = st1.scopeList) (d : NodeData) (c0 c1 c2 sib : TreeNode) (p : SymPtr)
    (symbol : SymbolRec) (hkind : d.kind = .CallExpr)
    (hlook : lookupSymbolWithKind st.globalScope d.name .FunctionSym st = .ok (some p))
    (hsym : derefSymbol st p = some symbol) :
    (∃ stn, checkNode (.node d c0 c1 c2 sib) st = .ok ({ d with type := symbol.type }, stn)) ∧
      (symbol.state = .STATE_UNDECLARED → symbol.type = .Undetermined ∧ symbol.node = .null) ∧
      (symbol.state ≠ .STATE_UNDECLARED →
        ∃ fd f0 f1 f2 fsib, symbol.node = .node fd f0 f1 f2 fsib ∧ symbol.type = fd.type) ∧
      callTypes (okTree (analyze progCalls)) = [(some "f", .Integer), (some "g", .Undetermined)] ∧
      listingOf (analyze progCalls) =
        .ok [.undeclaredFunction (some "g") 4, .invalidFunctionCall (some "f") 3] := by
  obtain ⟨_, hall, _⟩ := buildSymtab_seeded hrun
  have hall2 : AllOk st := AllOk_of_scopeList_eq hsl hall
  have hmem : symbol ∈ st.chain p.scope p.bucket := by
    have := derefSymbol_eq st p.scope p.bucket p.idx
    rw [hsym] at this
    exact List.getElem?_mem this.symm
  obtain ⟨ok1, ok2⟩ := hall2 _ _ symbol hmem
  refine ⟨?_, ok1, ok2, by decide, by decide⟩
  have hb : (some p).bind (derefSymbol st) = some symbol := hsym
  simp only [checkNode, hkind, hlook, bind, Except.bind, ERROR_CHECK, Option.isSome_some, if_true,
    pure, Except.pure]
  rw [hb]
  by_cases hst : symbol.state = .STATE_UNDECLARED
  · simp only [hst, if_true]
    exact ⟨_, rfl⟩
  · obtain ⟨fd, f0, f1, f2, fsib, hnode, _⟩ := ok2 hst
    simp only [hst, if_false, hnode]
    generalize checkNode.args d.name d.lineno c0 f0 st = r
    obtain ⟨a, pp, s⟩ := r
    cases a <;> cases pp <;> exact ⟨_, rfl⟩

theorem call_takes_symbol_type_witness :
    lookupSymbolWithKind (okState (buildSymtab progBuiltinCalls State.initial)).globalScope
        inputCall.name .FunctionSym (okState (buildSymtab progBuiltinCalls State.initial)) =
        .ok (some ⟨0, hash "input", 0⟩) ∧
      ∃ stn, checkNode (.node inputCall .null .null .null .null)
        (okState (buildSymtab progBuiltinCalls State.initial)) =
          .ok ({ inputCall with type := .Integer }, stn) :=
  have hlook : lookupSymbolWithKind (okState (buildSymtab progBuiltinCalls State.initial)).globalScope
      inputCall.name .FunctionSym (okState (buildSymtab progBuiltinCalls State.initial)) =
      .ok (some ⟨0, hash "input", 0⟩) := by decide
  ⟨hlook, (call_takes_symbol_type progBuiltinCalls
    (okTree (buildSymtab progBuiltinCalls State.initial))
    (okState (buildSymtab progBuiltinCalls State.initial)) (by rfl)
    (okState (buildSymtab progBuiltinCalls State.initial)) rfl inputCall .null .null .null .null
    ⟨0, hash "input", 0⟩
    (((okState (buildSymtab progBuiltinCalls State.initial)).chain 0 (hash "input")).headD
      (freshSymbol "" .None .VariableSym 0 .null .STATE_NORMAL 0))
    rfl hlook (by decide)).1⟩

/-- The loop of `checkNode` over arguments and parameters, in terms of their types. -/
theorem checkNode_args_spec (name : Option String) (lineno : Int) (a : TreeNode) :
    ∀ (p : TreeNode) (st : State),
      (checkNode.args name lineno a p st).2.2 =
        (if loopMismatch (sibTypes a) (sibTypes p) then InvalidFunctionCallError name lineno st
         else st) ∧
      (loopMismatch (sibTypes a) (sibTypes p) = true → (checkNode.args name lineno a p st).1 ≠ .null) ∧
      (loopMismatch (sibTypes a) (sibTypes p) = false →
        (checkNode.args name lineno a p st).1 = .null ∧
        sibTypes (checkNode.args name lineno a p st).2.1 = (sibTypes p).drop (sibTypes a).length) := by
  induction a with
  | null =>
    intro p st
    simp [checkNode.args, sibTypes, loopMismatch]
  | node ad a0 a1 a2 asib _ _ _ ih =>
    intro p st
    cases p with
    | null => simp [checkNode.args, sibTypes, loopMismatch]
    | node pd p0 p1 p2 psib =>
      simp only [checkNode.args, sibTypes, loopMismatch]
      by_cases h1 : ad.type = pd.type
      · by_cases h2 : ad.type = .Void
        · have h3 : pd.type = .Void := by rw [← h1]; exact h2
          simp [h1, h3]
        · have h3 : ¬ pd.type = .Void := by rw [← h1]; exact h2
          obtain ⟨i1, i2, i3⟩ := ih psib st
          simp only [h1, h3, ne_eq, not_true_eq_false, decide_False, Bool.false_or, if_false,
            List.length_cons, List.drop_succ_cons]
          exact ⟨i1, i2, i3⟩
      · simp [h1]

/-- The call case of `checkNode` for a declared function, in terms of the types of the
arguments and of the parameters. -/
theorem checkNode_call_spec (st : State) (d : NodeData) (c0 c1 c2 sib : TreeNode) (p : SymPtr)
    (symbol : SymbolRec) (fd : NodeData) (params f1 f2 fsib : TreeNode)
    (hkind : d.kind = .CallExpr)
    (hlook : lookupSymbolWithKind st.globalScope d.name .FunctionSym st = .ok (some p))
    (hsym : derefSymbol st p = some symbol) (hstate : symbol.state ≠ .STATE_UNDECLARED)
    (hnode : symbol.node = .node fd params f1 f2 fsib) :
    ∃ stn, checkNode (.node d c0 c1 c2 sib) st = .ok ({ d with type := symbol.type }, stn) ∧
      stn.listing = st.listing ++ callDiags d.name d.lineno (sibTypes c0) (sibTypes params) := by
  have hb : (some p).bind (derefSymbol st) = some symbol := hsym
  simp only [checkNode, hkind, hlook, bind, Except.bind, ERROR_CHECK, Option.isSome_some, if_true,
    pure, Except.pure]
  rw [hb]
  simp only [hstate, if_false, hnode]
  obtain ⟨s1, s2, s3⟩ := checkNode_args_spec d.name d.lineno c0 params st
  generalize checkNode.args d.name d.lineno c0 params st = r at s1 s2 s3
  obtain ⟨a, pp, s⟩ := r
  simp only at s1 s2 s3
  simp only [callDiags, callMismatch]
  by_cases hl : loopMismatch (sibTypes c0) (sibTypes params) = true
  · rw [hl] at s1
    simp only [if_true] at s1
    have ha := s2 hl
    subst s1
    cases a with
    | null => exact absurd rfl ha
    | node x x0 x1 x2 xs =>
      refine ⟨_, rfl, ?_⟩
      simp [hl, InvalidFunctionCallError, report]
  · simp only [Bool.not_eq_true] at hl
    rw [hl] at s1
    simp only [Bool.false_eq_true, if_false] at s1
    obtain ⟨ha, hp⟩ := s3 hl
    subst s1 ha
    cases pp with
    | null =>
      refine ⟨_, rfl, ?_⟩
      simp only [sibTypes] at hp
      simp [hl, leftoverMismatch, ← hp]
    | node pd q0 q1 q2 qs =>
      refine ⟨_, rfl, ?_⟩
      simp only [sibTypes] at hp
      by_cases hv : pd.type = .Void
      · simp [hl, leftoverMismatch, ← hp, hv]
      · simp [hl, leftoverMismatch, ← hp, hv, InvalidFunctionCallError, report]

theorem loopMismatch_matching (as rest : List NodeType) (h : NodeType.Void ∉ as) :
    loopMismatch as (as ++ rest) = false := by
  induction as with
  | nil => rfl
  | cons a as ih =>
    simp only [List.mem_cons, not_or] at h
    have h1 : ¬ a = .Void := fun e => h.1 e.symm
    simp [loopMismatch, h1, ih h.2]

theorem loopMismatch_false {as ps : List NodeType} (h : loopMismatch as ps = false) :
    as = ps.take as.length ∧ NodeType.Void ∉ as := by
  induction as generalizing ps with
  | nil => simp
  | cons a as ih =>
    cases ps with
    | nil => simp [loopMismatch] at h
    | cons p ps =>
      simp only [loopMismatch, Bool.or_eq_false_iff, decide_eq_false_iff_not, ne_eq,
        not_not] at h
      obtain ⟨⟨h1, h2⟩, h3⟩ := h
      obtain ⟨i1, i2⟩ := ih h3
      refine ⟨?_, ?_⟩
      · simp only [List.length_cons, List.take_succ_cons, List.cons.injEq]
        exact ⟨h1, i1⟩
      · simp only [List.mem_cons, not_or]
        exact ⟨fun e => h2 e.symm, i2⟩

/-- With parameters none of which is Void, the check fails exactly when the types of the
arguments are not the types of the parameters. -/
theorem callMismatch_iff_ne {as ps : List NodeType} (hp : ∀ ty ∈ ps, ty ≠ .Void) :
    callMismatch as ps = true ↔ as ≠ ps := by
  constructor
  · intro h heq
    subst heq
    have hv : NodeType.Void ∉ as := fun hm => hp _ hm rfl
    have h1 := loopMismatch_matching as [] hv
    simp only [List.append_nil] at h1
    simp [callMismatch, h1, leftoverMismatch] at h
  · intro hne
    by_contra hc
    simp only [callMismatch, Bool.or_eq_true, not_or, Bool.not_eq_true] at hc
    obtain ⟨h1, h2⟩ := hc
    obtain ⟨i1, _⟩ := loopMismatch_false h1
    apply hne
    have hd : ps.drop as.length = [] := by
      cases hdrop : ps.drop as.length with
      | nil => rfl
      | cons q rest =>
        have hq : q ∈ ps := List.mem_of_mem_drop (by rw [hdrop]; simp)
        simp [leftoverMismatch, hdrop, hp q hq] at h2
    have := List.take_append_drop as.length ps
    rw [hd, List.append_nil] at this
    rw [← this]
    exact i1

/-- With the empty-parameter marker as the only parameter, the check fails exactly when
there is an argument. -/
theorem callMismatch_marker (as : List NodeType) : callMismatch as [.Void] = true ↔ as ≠ [] := by
  cases as with
  | nil => simp [callMismatch, loopMismatch, leftoverMismatch]
  | cons a as =>
    by_cases h : a = .Void
    · simp [callMismatch, loopMismatch, h]
    · simp [callMismatch, loopMismatch, h]

/-- With fewer arguments than parameters, the check passes exactly when the first
parameter beyond the arguments is Void and each argument has the type of its parameter,
not Void. -/
theorem callMismatch_fewer {as ps : List NodeType} (hlt : as.length < ps.length) :
    callMismatch as ps = false ↔
      ps[as.length]? = some .Void ∧ as = ps.take as.length ∧ NodeType.Void ∉ as := by
  have hdrop : ps.drop as.length = ps[as.length] :: ps.drop (as.length + 1) :=
    List.drop_eq_getElem_cons hlt
  have hget : ps[as.length]? = some ps[as.length] := List.getElem?_eq_getElem hlt
  constructor
  · intro h
    simp only [callMismatch, Bool.or_eq_false_iff] at h
    obtain ⟨h1, h2⟩ := h
    obtain ⟨i1, i2⟩ := loopMismatch_false h1
    refine ⟨?_, i1, i2⟩
    simp only [leftoverMismatch, hdrop, decide_eq_false_iff_not, ne_eq, not_not] at h2
    rw [hget, h2]
  · rintro ⟨h1, h2, h3⟩
    rw [hget] at h1
    simp only [Option.some.injEq] at h1
    simp only [callMismatch, Bool.or_eq_false_iff]
    refine ⟨?_, ?_⟩
    · have := loopMismatch_matching as (ps.drop as.length) h3
      have hps : as ++ ps.drop as.length = ps := by
        conv_lhs => rw [h2]
        rw [List.length_take, Nat.min_eq_left (Nat.le_of_lt hlt)]
        exact List.take_append_drop _ _
      rw [hps] at this
      exact this
    · simp [leftoverMismatch, hdrop, h1]

/-- C16. For a call whose name the lookup of pass 2 resolves to a symbol that is not an
Undeclared placeholder (and so has its declaration node), the post-visit completes and
writes at most one diagnostic, an invalid-call error for that node.  When none of the
declared parameters is Void, it writes the error exactly when the types of the arguments,
in order, are not the types of the parameters, in order; when the only parameter node is
the Void-typed marker of the empty parameter list, exactly when there is an argument.
For `int f(int a)` the call `f(1)` is accepted and `f()` and `f(1, 2)` are reported. -/
theorem call_argument_errors (st : State) (d : NodeData) (c0 c1 c2 sib : TreeNode) (p : SymPtr)
    (symbol : SymbolRec) (fd : NodeData) (params f1 f2 fsib : TreeNode)
    (hkind : d.kind = .CallExpr)
    (hlook : lookupSymbolWithKind st.globalScope d.name .FunctionSym st = .ok (some p))
    (hsym : derefSymbol st p = some symbol) (hstate : symbol.state ≠ .STATE_UNDECLARED)
    (hnode : symbol.node = .node fd params f1 f2 fsib) :
    (∃ stn new, checkNode (.node d c0 c1 c2 sib) st = .ok ({ d with type := symbol.type }, stn) ∧
      stn.listing = st.listing ++ new ∧
      (new = [] ∨ new = [.invalidFunctionCall d.name d.lineno]) ∧
      ((∀ ty ∈ sibTypes params, ty ≠ .Void) →
        (new = [.invalidFunctionCall d.name d.lineno] ↔ sibTypes c0 ≠ sibTypes params)) ∧
      (sibTypes params = [.Void] →
        (new = [.invalidFunctionCall d.name d.lineno] ↔ sibTypes c0 ≠ []))) ∧
    listingOf (analyze progArity) =
      .ok [.invalidFunctionCall (some "f") 4, .invalidFunctionCall (some "f") 5] := by
  refine ⟨?_, by decide⟩
  obtain ⟨stn, hrun, hl⟩ :=
    checkNode_call_spec st d c0 c1 c2 sib p symbol fd params f1 f2 fsib hkind hlook hsym hstate hnode
  refine ⟨stn, _, hrun, hl, ?_, ?_, ?_⟩
  · unfold callDiags
    split
    · exact Or.inr rfl
    · exact Or.inl rfl
  · intro hp
    rw [← callMismatch_iff_ne hp]
    unfold callDiags
    split
    · next h => simp [h]
    · next h => simp [h]
  · intro hp
    rw [← callMismatch_marker, ← hp]
    unfold callDiags
    split
    · next h => simp [h]
    · next h => simp [h]

theorem call_argument_errors_witness :
    lookupSymbolWithKind oneParamState.globalScope callOfF.name .FunctionSym oneParamState =
        .ok (some ⟨0, hash "f", 0⟩) ∧
      ((derefSymbol oneParamState ⟨0, hash "f", 0⟩).map fun e => (e.state, e.node)) =
        some (.STATE_NORMAL, .node declOfF (param 1 .Integer "a" .null)
          (block 1 true .null .null .null) .null .null) ∧
      ((∃ stn new, checkNode (.node callOfF .null .null .null .null) oneParamState =
          .ok ({ callOfF with type := .Integer }, stn) ∧
        stn.listing = oneParamState.listing ++ new ∧
        (new = [] ∨ new = [.invalidFunctionCall callOfF.name callOfF.lineno]) ∧
        ((∀ ty ∈ sibTypes (param 1 .Integer "a" .null), ty ≠ .Void) →
          (new = [.invalidFunctionCall callOfF.name callOfF.lineno] ↔
            sibTypes .null ≠ sibTypes (param 1 .Integer "a" .null))) ∧
        (sibTypes (param 1 .Integer "a" .null) = [.Void] →
          (new = [.invalidFunctionCall callOfF.name callOfF.lineno] ↔ sibTypes .null ≠ []))) ∧
      listingOf (analyze progArity) =
        .ok [.invalidFunctionCall (some "f") 4, .invalidFunctionCall (some "f") 5]) :=
  ⟨by decide, by decide,
    call_argument_errors oneParamState callOfF .null .null .null .null ⟨0, hash "f", 0⟩
      ((oneParamState.chain 0 (hash "f")).headD
        (freshSymbol "" .None .VariableSym 0 .null .STATE_NORMAL 0))
      declOfF (param 1 .Integer "a" .null) (block 1 true .null .null .null) .null .null
      rfl (by decide) (by decide) (by decide) (by decide)⟩

/-- C17, counterexample. In `int f(int a, void b) { }  int main(void) { f(1); }` the
function is declared with two parameters, not with the empty parameter list, and is called
with one argument: pass 1 reports the void-typed parameter, and pass 2 writes no
invalid-call error, because the first parameter beyond the argument is Void-typed. -/
theorem fewer_arguments_not_reported :
    sibTypes (param 1 .Integer "a" (param 1 .Void "b" .null)) = [.Integer, .Void] ∧
      callArgTypes (okTree (analyze progVoidParam)) = [(some "f", [.Integer])] ∧
      callTypes (okTree (analyze progVoidParam)) = [(some "f", .Integer)] ∧
      listingOf (analyze progVoidParam) = .ok [.voidTypeVariable (some "b") 1] := by
  decide

/-- C17, amended. For a call to a declared function (a symbol that is not an Undeclared
placeholder) that supplies fewer arguments than the declaration has parameter nodes, the
post-visit of pass 2 completes and writes exactly one invalid-call error, unless the
first parameter beyond the supplied arguments is Void-typed (as the marker of the empty
parameter list is) and every supplied argument has the type of its parameter and not
Void, in which case it writes nothing. -/
theorem fewer_arguments_errors (st : State) (d : NodeData) (c0 c1 c2 sib : TreeNode) (p : SymPtr)
    (symbol : SymbolRec) (fd : NodeData) (params f1 f2 fsib : TreeNode)
    (hkind : d.kind = .CallExpr)
    (hlook : lookupSymbolWithKind st.globalScope d.name .FunctionSym st = .ok (some p))
    (hsym : derefSymbol st p = some symbol) (hstate : symbol.state ≠ .STATE_UNDECLARED)
    (hnode : symbol.node = .node fd params f1 f2 fsib)
    (hfewer : (sibTypes c0).length < (sibTypes params).length) :
    ∃ stn new, checkNode (.node d c0 c1 c2 sib) st = .ok ({ d with type := symbol.type }, stn) ∧
      stn.listing = st.listing ++ new ∧
      (new = [] ∨ new = [.invalidFunctionCall d.name d.lineno]) ∧
      (new = [] ↔ (sibTypes params)[(sibTypes c0).length]? = some .Void ∧
        sibTypes c0 = (sibTypes params).take (sibTypes c0).length ∧
        NodeType.Void ∉ sibTypes c0) := by
  obtain ⟨stn, hrun, hl⟩ :=
    checkNode_call_spec st d c0 c1 c2 sib p symbol fd params f1 f2 fsib hkind hlook hsym hstate hnode
  refine ⟨stn, _, hrun, hl, ?_, ?_⟩
  · unfold callDiags
    split
    · exact Or.inr rfl
    · exact Or.inl rfl
  · rw [← callMismatch_fewer hfewer]
    unfold callDiags
    split
    · next h => simp [h]
    · next h => simp [h]

theorem fewer_arguments_errors_witness :
    lookupSymbolWithKind oneParamState.globalScope callOfF.name .FunctionSym oneParamState =
        .ok (some ⟨0, hash "f", 0⟩) ∧
      (sibTypes TreeNode.null).length < (sibTypes (param 1 .Integer "a" .null)).length ∧
      ∃ stn new, checkNode (.node callOfF .null .null .null .null) oneParamState =
          .ok ({ callOfF with type := .Integer }, stn) ∧
        stn.listing = oneParamState.listing ++ new ∧
        (new = [] ∨ new = [.invalidFunctionCall callOfF.name callOfF.lineno]) ∧
        (new = [] ↔ (sibTypes (param 1 .Integer "a" .null))[(sibTypes TreeNode.null).length]? =
            some .Void ∧
          sibTypes .null = (sibTypes (param 1 .Integer "a" .null)).take (sibTypes TreeNode.null).length ∧
          NodeType.Void ∉ sibTypes .null) :=
  ⟨by decide, by decide,
    fewer_arguments_errors oneParamState callOfF .null .null .null .null ⟨0, hash "f", 0⟩
      ((oneParamState.chain 0 (hash "f")).headD
        (freshSymbol "" .None .VariableSym 0 .null .STATE_NORMAL 0))
      declOfF (param 1 .Integer "a" .null) (block 1 true .null .null .null) .null .null
      rfl (by decide) (by decide) (by decide) (by decide) (by decide)⟩

theorem toDigitsCore_append (b : Nat) (f : Nat) : ∀ (n : Nat) (ds : List Char),
    Nat.toDigitsCore b f n ds = Nat.toDigitsCore b f n [] ++ ds := by
  induction f with
  | zero => intro n ds; simp [Nat.toDigitsCore]
  | succ f ih =>
    intro n ds
    simp only [Nat.toDigitsCore]
    split
    · simp
    · rw [ih (n / b) (_ :: ds), ih (n / b) [_]]
      simp

theorem toDigitsCore_fuel (b : Nat) (hb : 2 ≤ b) (f : Nat) : ∀ (n : Nat) (g : Nat), n < f → n < g →
    Nat.toDigitsCore b f n [] = Nat.toDigitsCore b g n [] := by
  induction f with
  | zero => intro n g h; omega
  | succ f ih =>
    intro n g hf hg
    cases g with
    | zero => omega
    | succ g =>
      simp only [Nat.toDigitsCore]
      split
      · rfl
      · next hne =>
        have hlt : n / b < n := Nat.div_lt_self (by
          rcases Nat.eq_zero_or_pos n with h | h
          · subst h; simp at hne
          · exact h) (by omega)
        rw [toDigitsCore_append b f, toDigitsCore_append b g, ih (n / b) g (by omega) (by omega)]

theorem toDigits_small (n : Nat) (h : n < 10) : Nat.toDigits 10 n = [Nat.digitChar n] := by
  have hd : n / 10 = 0 := Nat.div_eq_of_lt h
  have hm : n % 10 = n := Nat.mod_eq_of_lt h
  simp [Nat.toDigits, Nat.toDigitsCore, hd, hm]

theorem toDigits_step (n : Nat) (h : 10 ≤ n) :
    Nat.toDigits 10 n = Nat.toDigits 10 (n / 10) ++ [Nat.digitChar (n % 10)] := by
  have hd : n / 10 ≠ 0 := by omega
  have hlt : n / 10 < n := Nat.div_lt_self (by omega) (by decide)
  have e1 : Nat.toDigits 10 n = Nat.toDigitsCore 10 n (n / 10) [Nat.digitChar (n % 10)] := by
    show Nat.toDigitsCore 10 (n + 1) n [] = _
    rw [Nat.toDigitsCore]
    simp only [hd, if_false]
  have e2 : Nat.toDigits 10 (n / 10) = Nat.toDigitsCore 10 (n / 10 + 1) (n / 10) [] := rfl
  rw [e1, e2, toDigitsCore_append 10 n,
    toDigitsCore_fuel 10 (by decide) n (n / 10) (n / 10 + 1) hlt (by omega)]

theorem digitChar_value (d : Nat) (h : d < 10) : (Nat.digitChar d).toNat - 48 = d := by
  interval_cases d <;> rfl

theorem digitsValue_toDigits (n : Nat) : digitsValue (Nat.toDigits 10 n) = n := by
  induction n using Nat.strong_induction_on with
  | _ n ih =>
    by_cases h : n < 10
    · rw [toDigits_small n h]
      simp [digitsValue, digitChar_value n h]
    · have h10 : 10 ≤ n := by omega
      rw [toDigits_step n h10]
      have hlt : n / 10 < n := Nat.div_lt_self (by omega) (by decide)
      have := ih (n / 10) hlt
      simp only [digitsValue] at this ⊢
      rw [List.foldl_append, this]
      simp only [List.foldl_cons, List.foldl_nil]
      rw [digitChar_value (n % 10) (Nat.mod_lt _ (by decide))]
      omega

theorem toDigits_injective {n m : Nat} (h : Nat.toDigits 10 n = Nat.toDigits 10 m) : n = m := by
  have := congrArg digitsValue h
  rwa [digitsValue_toDigits, digitsValue_toDigits] at this

theorem toDigits_length_le (n : Nat) (h : n < 10000) : (Nat.toDigits 10 n).length ≤ 4 := by
  have h4 : n < 10 ^ 4 := by
    have : (10 : Nat) ^ 4 = 10000 := by norm_num
    omega
  exact Nat.repr_length n 4 (by decide) h4

theorem insertScope_scan_ok (nm : String) (l : List ScopeRec) (red : Bool)
    (h : ∀ s ∈ l, s.name = nm → s.state = .STATE_REDEFINED) :
    insertScope.scan nm l red = .ok (red || l.any fun s => decide (s.name = nm)) := by
  induction l generalizing red with
  | nil => simp [insertScope.scan]
  | cons a rest ih =>
    have hrest : ∀ s ∈ rest, s.name = nm → s.state = .STATE_REDEFINED :=
      fun s hs => h s (List.mem_cons_of_mem _ hs)
    simp only [insertScope.scan, List.any_cons]
    by_cases ha : a.name = nm
    · have hst := h a (List.mem_cons_self _ _) ha
      simp only [ha, hst, if_true, decide_True, Bool.true_or, Bool.or_true]
      rw [ih true hrest]
      simp
    · simp only [ha, if_false, decide_False, Bool.false_or]
      exact ih red hrest

theorem insertScope_scan_error (nm : String) (l : List ScopeRec) (red : Bool) (s : ScopeRec)
    (hs : s ∈ l) (hn : s.name = nm) (hst : s.state ≠ .STATE_REDEFINED) :
    insertScope.scan nm l red = .error .errorCheck := by
  induction l generalizing red with
  | nil => simp at hs
  | cons a rest ih =>
    simp only [insertScope.scan]
    by_cases ha : a.name = nm
    · simp only [ha, if_true]
      by_cases hast : a.state = .STATE_REDEFINED
      · simp only [hast, if_true]
        rcases List.mem_cons.mp hs with h | h
        · subst h
          exact absurd hast hst
        · exact ih true h
      · simp [hast]
    · simp only [ha, if_false]
      rcases List.mem_cons.mp hs with h | h
      · subst h
        exact absurd hn ha
      · exact ih red h

theorem derivedName_eq (p : ScopeRec) (h : p.numScopes < 10000) :
    derivedName p = p.name ++ "." ++ toString p.numScopes := by
  have hlen := toDigits_length_le p.numScopes h
  apply String.ext
  simp only [derivedName, String.data_append]
  rw [List.take_of_length_le (by simp only [List.length_append, List.length_cons]; omega)]
  show _ = p.name.data ++ ['.'] ++ Nat.toDigits 10 p.numScopes
  simp

theorem derived_names_distinct (nm : String) (n m : Nat) (h : n ≠ m) :
    nm ++ "." ++ toString n ≠ nm ++ "." ++ toString m := by
  intro heq
  have hd := congrArg String.data heq
  simp only [String.data_append, List.append_assoc, List.append_cancel_left_eq] at hd
  have hd2 : Nat.toDigits 10 n = Nat.toDigits 10 m := hd
  exact h (toDigits_injective hd2)

theorem nameTaken_modifyScope (st : State) (k : Nat) (f : ScopeRec → ScopeRec)
    (hf : ∀ s, (f s).name = s.name) (nm : String) :
    nameTaken (modifyScope st k f) nm = nameTaken st nm := by
  simp only [nameTaken, modifyScope]
  generalize st.scopeList = l
  induction l generalizing k with
  | nil => rfl
  | cons a rest ih =>
    cases k with
    | zero => simp [updateAt, hf]
    | succ k => simp [updateAt, ih]

/-- The creation of a scope with a given name. -/
theorem insertScope_named (st : State) (n : String) (parent : Option Nat) (func : TreeNode)
    (hvalid : ∀ k, parent = some k → k < st.scopeList.length)
    (hdup : ∀ s ∈ st.scopeList, s.name = n → s.state = .STATE_REDEFINED) :
    insertScope (some n) parent func st = .ok (st.scopeList.length,
      { st with scopeList := st.scopeList ++
        [newScope n parent func (parentRedefined st parent || nameTaken st n)] }) := by
  simp only [insertScope, ERROR_CHECK, Option.isSome_some, Bool.true_or, if_true, bind, Except.bind,
    pure, Except.pure]
  cases parent with
  | none =>
    simp only [insertScope_scan_ok n st.scopeList false hdup]
    rfl
  | some k =>
    obtain ⟨p, hp⟩ := getElem?_of_lt_scopes (hvalid k rfl)
    simp only [derefScope, hp, insertScope_scan_ok n st.scopeList _ hdup]
    simp [parentRedefined, hp, nameTaken, newScope]

/-- The creation of an anonymous scope under scope `k`. -/
theorem insertScope_derived (st : State) (k : Nat) (p : ScopeRec) (func : TreeNode)
    (hp : st.scopeList[k]? = some p)
    (hdup : ∀ s ∈ st.scopeList, s.name = derivedName p → s.state = .STATE_REDEFINED) :
    insertScope none (some k) func st = .ok (st.scopeList.length,
      { st with scopeList :=
          (modifyScope st k fun s => { s with numScopes := s.numScopes + 1 }).scopeList ++
            [newScope (derivedName p) (some k) func
              (parentRedefined st (some k) || nameTaken st (derivedName p))] }) := by
  have hdup1 : ∀ s ∈ (modifyScope st k fun s => { s with numScopes := s.numScopes + 1 }).scopeList,
      s.name = derivedName p → s.state = .STATE_REDEFINED := by
    intro s hs hn
    rcases mem_updateAt _ _ _ _ hs with h | ⟨y, hy, rfl⟩
    · exact hdup s h hn
    · exact hdup y hy hn
  have hp1 : (modifyScope st k fun s => { s with numScopes := s.numScopes + 1 }).scopeList[k]? =
      some { p with numScopes := p.numScopes + 1 } := by
    simp [modifyScope, getElem?_updateAt, hp]
  have hlen : (modifyScope st k fun s => { s with numScopes := s.numScopes + 1 }).scopeList.length =
      st.scopeList.length := length_modifyScope _ _ _
  simp only [insertScope, ERROR_CHECK, Option.isSome_some, Option.isSome_none, Bool.false_or, if_true,
    bind, Except.bind, pure, Except.pure, derefScope, hp, Option.getD_some]
  simp only [hp1]
  have hname : (⟨(p.name.data ++ '.' :: Nat.toDigits 10 p.numScopes).take (p.name.data.length + 5)⟩ :
      String) = derivedName p := rfl
  simp only [hname, insertScope_scan_ok (derivedName p) _ _ hdup1, hlen]
  have ht := nameTaken_modifyScope st k (fun s => { s with numScopes := s.numScopes + 1 })
    (fun _ => rfl) (derivedName p)
  have ht1 : (∃ x ∈ updateAt (fun s => { s with numScopes := s.numScopes + 1 }) st.scopeList k,
      x.name = derivedName p) ↔ ∃ x ∈ st.scopeList, x.name = derivedName p := by
    have h1 := congrArg (fun b => b = true) ht
    simpa [nameTaken, modifyScope] using h1
  simp [parentRedefined, hp, nameTaken, newScope, modifyScope, ht1]

theorem updateAt_keeps {α : Type} (f : α → α) (l : List α) (k : Nat) (x : α) (h : x ∈ l) :
    x ∈ updateAt f l k ∨ f x ∈ updateAt f l k := by
  induction l generalizing k with
  | nil => simp at h
  | cons a rest ih =>
    cases k with
    | zero =>
      rcases List.mem_cons.mp h with h1 | h1
      · subst h1
        right
        simp [updateAt]
      · left
        simp [updateAt, h1]
    | succ k =>
      rcases List.mem_cons.mp h with h1 | h1
      · subst h1
        left
        simp [updateAt]
      · rcases ih k h1 with h2 | h2
        · left
          simp [updateAt, h2]
        · right
          simp [updateAt, h2]

/-- A scope of the resulting name that is not flagged makes `insertScope` fail. -/
theorem insertScope_duplicate (st : State) (name : Option String) (parent : Option Nat)
    (func : TreeNode) (scopeName : String) (hres : resultingName st name parent = some scopeName)
    (hvalid : ∀ k, parent = some k → k < st.scopeList.length)
    (s : ScopeRec) (hs : s ∈ st.scopeList) (hn : s.name = scopeName)
    (hst : s.state ≠ .STATE_REDEFINED) :
    insertScope name parent func st = .error .errorCheck := by
  cases name with
  | some n =>
    simp only [resultingName, Option.some.injEq] at hres
    subst hres
    simp only [insertScope, ERROR_CHECK, Option.isSome_some, Bool.true_or, if_true, bind, Except.bind,
      pure, Except.pure]
    cases parent with
    | none => simp only [insertScope_scan_error n st.scopeList false s hs hn hst]
    | some k =>
      obtain ⟨p, hp⟩ := getElem?_of_lt_scopes (hvalid k rfl)
      simp only [derefScope, hp, insertScope_scan_error n st.scopeList _ s hs hn hst]
  | none =>
    cases parent with
    | none => simp [resultingName] at hres
    | some k =>
      obtain ⟨p, hp⟩ := getElem?_of_lt_scopes (hvalid k rfl)
      simp only [resultingName, hp, Option.map_some', Option.some.injEq] at hres
      have hp1 : (modifyScope st k fun s => { s with numScopes := s.numScopes + 1 }).scopeList[k]? =
          some { p with numScopes := p.numScopes + 1 } := by
        simp [modifyScope, getElem?_updateAt, hp]
      have hmem : ∃ s1 ∈ (modifyScope st k fun s => { s with numScopes := s.numScopes + 1 }).scopeList,
          s1.name = scopeName ∧ s1.state ≠ .STATE_REDEFINED := by
        rcases updateAt_keeps (fun s => { s with numScopes := s.numScopes + 1 }) st.scopeList k s hs
          with h | h
        · exact ⟨s, h, hn, hst⟩
        · exact ⟨_, h, hn, hst⟩
      obtain ⟨s1, hs1, hn1, hst1⟩ := hmem
      simp only [insertScope, ERROR_CHECK, Option.isSome_some, Option.isSome_none, Bool.false_or,
        if_true, bind, Except.bind, pure, Except.pure, derefScope, hp, Option.getD_some]
      simp only [hp1]
      have hname : (⟨(p.name.data ++ '.' :: Nat.toDigits 10 p.numScopes).take
          (p.name.data.length + 5)⟩ : String) = scopeName := hres
      simp only [hname, insertScope_scan_error scopeName _ _ s1 hs1 hn1 hst1]

theorem length_advanced (st : State) (name : Option String) (parent : Option Nat) :
    (advanced st name parent).length = st.scopeList.length := by
  unfold advanced
  split
  · exact length_updateAt _ _ _
  · rfl

theorem getElem?_advanced (st : State) (name : Option String) (parent : Option Nat) (j : Nat) :
    (advanced st name parent)[j]? =
      (st.scopeList[j]?).map fun s =>
        if name = none ∧ parent = some j then { s with numScopes := s.numScopes + 1 } else s := by
  unfold advanced
  split
  · rename_i k
    rw [getElem?_updateAt]
    by_cases hj : j = k
    · subst hj
      simp
    · have hk : ¬ k = j := fun h => hj h.symm
      simp [hj, hk]
  · rename_i h
    have hno : ¬ (name = none ∧ parent = some j) := by
      rintro ⟨h1, h2⟩
      exact h j h1 h2
    simp [hno]

/-- The result of `insertScope` when every scope of the resulting name is flagged. -/
theorem insertScope_result (st : State) (name : Option String) (parent : Option Nat)
    (func : TreeNode) (scopeName : String) (hres : resultingName st name parent = some scopeName)
    (hvalid : ∀ k, parent = some k → k < st.scopeList.length)
    (hdup : ∀ s ∈ st.scopeList, s.name = scopeName → s.state = .STATE_REDEFINED) :
    insertScope name parent func st = .ok (st.scopeList.length,
      { st with scopeList := advanced st name parent ++
          [newScope scopeName parent func (parentRedefined st parent || nameTaken st scopeName)] }) := by
  cases name with
  | some n =>
    simp only [resultingName, Option.some.injEq] at hres
    subst hres
    rw [insertScope_named st n parent func hvalid hdup]
    rfl
  | none =>
    cases parent with
    | none => simp [resultingName] at hres
    | some k =>
      obtain ⟨p, hp⟩ := getElem?_of_lt_scopes (hvalid k rfl)
      simp only [resultingName, hp, Option.map_some', Option.some.injEq] at hres
      subst hres
      rw [insertScope_derived st k p func hp hdup]
      rfl

/-- C20, amended. For every call of `insertScope` whose parent, when given, is a scope of
the directory: with name and parent both absent the call fails; otherwise, when some
existing scope bears the resulting name without being flagged Redefined, the call fails
as well; and when every existing scope of the resulting name is flagged Redefined,
creation succeeds: the new scope has the resulting name, the given parent and owner, an
empty symbol table and zero counters, it is appended at the end of the directory and its
position is returned, all existing scopes stay in place (only the counter of the parent
advances when the name is derived), and the new scope is Redefined exactly when a scope
of the resulting name exists or the parent is Redefined, and Normal otherwise. -/
theorem insertScope_creates (st : State) (name : Option String) (parent : Option Nat)
    (func : TreeNode) (hvalid : ∀ k, parent = some k → k < st.scopeList.length) :
    insertScope none none func st = .error .errorCheck ∧
    ((name.isSome || parent.isSome) = true → ∃ scopeName, resultingName st name parent = some scopeName) ∧
    ∀ scopeName, resultingName st name parent = some scopeName →
      ((∃ s ∈ st.scopeList, s.name = scopeName ∧ s.state ≠ .STATE_REDEFINED) →
        insertScope name parent func st = .error .errorCheck) ∧
      ((∀ s ∈ st.scopeList, s.name = scopeName → s.state = .STATE_REDEFINED) →
        ∃ stn new, insertScope name parent func st = .ok (st.scopeList.length, stn) ∧
          stn.scopeList.length = st.scopeList.length + 1 ∧
          stn.scopeList[st.scopeList.length]? = some new ∧
          new.name = scopeName ∧ new.parent = parent ∧ new.func = func ∧
          (∀ b, new.symbolList b = []) ∧ new.numSymbols = 0 ∧ new.numScopes = 0 ∧
          (new.state = .STATE_REDEFINED ↔
            (∃ s ∈ st.scopeList, s.name = scopeName) ∨
              ∃ k p, parent = some k ∧ st.scopeList[k]? = some p ∧ p.state = .STATE_REDEFINED) ∧
          (new.state ≠ .STATE_REDEFINED → new.state = .STATE_NORMAL) ∧
          (∀ j s, st.scopeList[j]? = some s →
            stn.scopeList[j]? = some (if name = none ∧ parent = some j then
              { s with numScopes := s.numScopes + 1 } else s)) ∧
          stn.globalScope = st.globalScope ∧ stn.currentScope = st.currentScope ∧
          stn.Error = st.Error ∧ stn.listing = st.listing) := by
  refine ⟨by simp [insertScope, ERROR_CHECK, bind, Except.bind], ?_, ?_⟩
  · intro hpres
    cases name with
    | some n => exact ⟨n, rfl⟩
    | none =>
      cases parent with
      | none => simp at hpres
      | some k =>
        obtain ⟨p, hp⟩ := getElem?_of_lt_scopes (hvalid k rfl)
        exact ⟨derivedName p, by simp [resultingName, hp]⟩
  intro scopeName hres
  constructor
  · rintro ⟨s, hs, hn, hst⟩
    exact insertScope_duplicate st name parent func scopeName hres hvalid s hs hn hst
  intro hdup
  have hlen := length_advanced st name parent
  refine ⟨{ st with scopeList := advanced st name parent ++
      [newScope scopeName parent func (parentRedefined st parent || nameTaken st scopeName)] },
    newScope scopeName parent func (parentRedefined st parent || nameTaken st scopeName),
    insertScope_result st name parent func scopeName hres hvalid hdup, ?_, ?_, rfl, rfl, rfl,
    fun _ => rfl, rfl, rfl, ?_, ?_, ?_, rfl, rfl, rfl, rfl⟩
  · simp [hlen]
  · show (advanced st name parent ++ _)[st.scopeList.length]? = _
    rw [← hlen]
    simp
  · have hpar : parentRedefined st parent = true ↔
        ∃ k p, parent = some k ∧ st.scopeList[k]? = some p ∧ p.state = .STATE_REDEFINED := by
      cases parent with
      | none => simp [parentRedefined]
      | some k =>
        obtain ⟨p, hp⟩ := getElem?_of_lt_scopes (hvalid k rfl)
        simp [parentRedefined, hp]
    have htaken : nameTaken st scopeName = true ↔ ∃ s ∈ st.scopeList, s.name = scopeName := by
      simp [nameTaken]
    rw [← hpar, ← htaken]
    cases h1 : parentRedefined st parent <;> cases h2 : nameTaken st scopeName <;>
      simp [newScope, h1, h2]
  · cases h : (parentRedefined st parent || nameTaken st scopeName) <;> simp [newScope, h]
  · intro j s hj
    show (advanced st name parent ++ _)[j]? = _
    have hjl : j < (advanced st name parent).length := by
      rw [hlen]
      by_contra hcon
      rw [List.getElem?_eq_none (by omega)] at hj
      cases hj
    rw [List.getElem?_append_left hjl, getElem?_advanced, hj]
    rfl

theorem insertScope_creates_witness :
    (∀ k, some 0 = some k → k < builtinState.get.scopeList.length) ∧
      insertScope none none .null builtinState.get = .error .errorCheck ∧
      (∃ s ∈ builtinState.get.scopeList, s.name = "output" ∧ s.state ≠ .STATE_REDEFINED) ∧
      insertScope (some "output") (some 0) .null builtinState.get = .error .errorCheck ∧
      (∀ s ∈ builtinState.get.scopeList, s.name = "main" → s.state = .STATE_REDEFINED) ∧
      ∃ stn new, insertScope (some "main") (some 0) .null builtinState.get =
          .ok (builtinState.get.scopeList.length, stn) ∧
        stn.scopeList.length = builtinState.get.scopeList.length + 1 ∧
        stn.scopeList[builtinState.get.scopeList.length]? = some new ∧
        new.name = "main" ∧ new.parent = some 0 ∧ new.func = .null ∧
        (∀ b, new.symbolList b = []) ∧ new.numSymbols = 0 ∧ new.numScopes = 0 ∧
        (new.state = .STATE_REDEFINED ↔
          (∃ s ∈ builtinState.get.scopeList, s.name = "main") ∨
            ∃ k p, some 0 = some k ∧ builtinState.get.scopeList[k]? = some p ∧
              p.state = .STATE_REDEFINED) ∧
        (new.state ≠ .STATE_REDEFINED → new.state = .STATE_NORMAL) ∧
        (∀ j s, builtinState.get.scopeList[j]? = some s →
          stn.scopeList[j]? = some (if (some "main" : Option String) = none ∧ some 0 = some j then
            { s with numScopes := s.numScopes + 1 } else s)) ∧
        stn.globalScope = builtinState.get.globalScope ∧
        stn.currentScope = builtinState.get.currentScope ∧
        stn.Error = builtinState.get.Error ∧ stn.listing = builtinState.get.listing :=
  have hout : ∃ s ∈ builtinState.get.scopeList, s.name = "output" ∧ s.state ≠ .STATE_REDEFINED := by
    decide
  have hmain : ∀ s ∈ builtinState.get.scopeList, s.name = "main" → s.state = .STATE_REDEFINED := by
    decide
  ⟨by decide,
    (insertScope_creates builtinState.get (some "main") (some 0) .null (by decide)).1,
    hout,
    ((insertScope_creates builtinState.get (some "output") (some 0) .null (by decide)).2.2
      "output" rfl).1 hout,
    hmain,
    ((insertScope_creates builtinState.get (some "main") (some 0) .null (by decide)).2.2
      "main" rfl).2 hmain⟩

/-- C20, counterexample. After the built-in functions are declared the directory holds
the scope `output`, which is not flagged Redefined: `insertScope` called with the name
`output` and the global scope as parent fails although name and parent are both present,
and so does pass 1 on the program `int output(void) { }`. -/
theorem insertScope_fails_on_unflagged_name :
    builtinState.get.scopeList.map (fun s => (s.name, s.state)) =
        [("global", .STATE_NORMAL), ("output", .STATE_NORMAL)] ∧
      (insertScope (some "output") (some 0) .null builtinState.get).map (fun r => r.1) =
        .error .errorCheck ∧
      listingOf (buildSymtab progOutputDecl State.initial) = .error .errorCheck := by
  decide

/-- C19, amended. For every parent scope P of the directory whose anonymous-scope counter
is n < 10000 (the counter is 0 when P is created and only these creations advance it):
a call of `insertScope` with an absent name under P that returns has appended a scope
named P's name, followed by ".", followed by the decimal digits of n, with P as parent and
its own counter at 0, and P's counter has become n + 1; the call does return when every
existing scope of that name is flagged Redefined; counters below 10000 that differ give
different names; and the two anonymous blocks directly inside `main` are named `main.0`
and `main.1`. -/
theorem anonymous_scope_name (st : State) (k : Nat) (p : ScopeRec) (func : TreeNode)
    (hp : st.scopeList[k]? = some p) (hn : p.numScopes < 10000) :
    (∀ r stn, insertScope none (some k) func st = .ok (r, stn) →
      r = st.scopeList.length ∧
      stn.nameOf r = some (p.name ++ "." ++ toString p.numScopes) ∧
      stn.parentOf r = some (some k) ∧
      (stn.scopeList[r]?).map (fun s => s.numScopes) = some 0 ∧
      (stn.scopeList[k]?).map (fun s => s.numScopes) = some (p.numScopes + 1)) ∧
    ((∀ s ∈ st.scopeList, s.name = p.name ++ "." ++ toString p.numScopes →
        s.state = .STATE_REDEFINED) →
      ∃ r stn, insertScope none (some k) func st = .ok (r, stn)) ∧
    (∀ m, m < 10000 → m ≠ p.numScopes →
      derivedName { p with numScopes := m } ≠ derivedName p) ∧
    (okState (buildSymtab progTwoBlocks State.initial)).counters =
      [("global", 0), ("output", 0), ("main", 2), ("main.0", 0), ("main.1", 0)] := by
  have hk : k < st.scopeList.length := by
    by_contra hcon
    rw [List.getElem?_eq_none (by omega)] at hp
    cases hp
  have hvalid : ∀ j, some k = some j → j < st.scopeList.length := by
    intro j hj
    cases hj
    exact hk
  have hres : resultingName st none (some k) = some (p.name ++ "." ++ toString p.numScopes) := by
    simp [resultingName, hp, derivedName_eq p hn]
  refine ⟨?_, ?_, ?_, by decide⟩
  · intro r stn hrun
    by_cases hdup : ∀ s ∈ st.scopeList, s.name = p.name ++ "." ++ toString p.numScopes →
        s.state = .STATE_REDEFINED
    · rw [insertScope_result st none (some k) func _ hres hvalid hdup] at hrun
      simp only [Except.ok.injEq, Prod.mk.injEq] at hrun
      obtain ⟨hr, hst⟩ := hrun
      subst hr
      subst hst
      have hlen := length_advanced st none (some k)
      have hlast : (advanced st none (some k) ++
          [newScope (p.name ++ "." ++ toString p.numScopes) (some k) func
            (parentRedefined st (some k) ||
              nameTaken st (p.name ++ "." ++ toString p.numScopes))])[st.scopeList.length]? =
          some (newScope (p.name ++ "." ++ toString p.numScopes) (some k) func
            (parentRedefined st (some k) ||
              nameTaken st (p.name ++ "." ++ toString p.numScopes))) := by
        rw [← hlen]
        simp
      refine ⟨rfl, ?_, ?_, ?_, ?_⟩
      · simp only [State.nameOf, hlast]
        rfl
      · simp only [State.parentOf, hlast]
        rfl
      · simp only [hlast]
        rfl
      · have hkl : k < (advanced st none (some k)).length := by
          rw [hlen]
          exact hk
        simp only [List.getElem?_append_left hkl, getElem?_advanced, hp]
        simp
    · exfalso
      push_neg at hdup
      obtain ⟨s, hs, hname, hstate⟩ := hdup
      rw [insertScope_duplicate st none (some k) func _ hres hvalid s hs hname hstate] at hrun
      cases hrun
  · intro hdup
    exact ⟨_, _, insertScope_result st none (some k) func _ hres hvalid hdup⟩
  · intro m hm hne
    rw [derivedName_eq p hn, derivedName_eq { p with numScopes := m } hm]
    exact derived_names_distinct p.name m p.numScopes hne

theorem anonymous_scope_name_witness :
    (counterState 7).scopeList[0]? = some (mainScope 7) ∧ (mainScope 7).numScopes < 10000 ∧
      (∀ r stn, insertScope none (some 0) .null (counterState 7) = .ok (r, stn) →
        r = (counterState 7).scopeList.length ∧
        stn.nameOf r = some ((mainScope 7).name ++ "." ++ toString (mainScope 7).numScopes) ∧
        stn.parentOf r = some (some 0) ∧
        (stn.scopeList[r]?).map (fun s => s.numScopes) = some 0 ∧
        (stn.scopeList[0]?).map (fun s => s.numScopes) = some ((mainScope 7).numScopes + 1)) ∧
      (counterState 7).scopeList.length = 1 ∧
      (mainScope 7).name ++ "." ++ toString (mainScope 7).numScopes = "main.7" ∧
      (insertScope none (some 0) .null (counterState 7)).map (fun r => (r.1, r.2.counters)) =
        .ok (1, [("main", 8), ("main.7", 0)]) :=
  ⟨rfl, by decide,
    (anonymous_scope_name (counterState 7) 0 (mainScope 7) .null rfl (by decide)).1,
    rfl, by decide, by decide⟩

/-- C19, counterexample. Under a scope `main` whose counter is 10000 the anonymous scope
is named `main.1000`, not `main.10000`: the buffer holds five characters after the name of
the parent, the dot and four digits; it is the name created at counter 1000, so distinct
counters do not always give distinct names. -/
theorem fifth_digit_is_dropped :
    (insertScope none (some 0) .null (counterState 10000)).map (fun r => (r.1, r.2.counters)) =
        .ok (1, [("main", 10001), ("main.1000", 0)]) ∧
      (insertScope none (some 0) .null (counterState 1000)).map (fun r => (r.1, r.2.counters)) =
        .ok (1, [("main", 1001), ("main.1000", 0)]) ∧
      derivedName (mainScope 10000) = derivedName (mainScope 1000) := by
  decide

theorem lookupWalk_spec (st : State) (b : Nat) (p : SymbolRec → Bool) (hpar : ParentsBelow st) :
    ∀ fuel k, k < fuel → k < st.scopeList.length →
      ∃ r, lookupWalk st b p fuel (some k) = .ok r ∧
        WalkResult st b p (ancestors st fuel (some k)) r := by
  intro fuel
  induction fuel with
  | zero => intro k hk; omega
  | succ fuel ih =>
    intro k hk hlen
    obtain ⟨s, hs⟩ := getElem?_of_lt_scopes hlen
    have hchain := chain_of_getElem? hs b
    simp only [lookupWalk, ancestors, hs]
    cases hfind : chainFind p (s.symbolList b) with
    | some i =>
      refine ⟨some ⟨k, b, i⟩, rfl, rfl, [], _, rfl, by simp, ?_⟩
      rw [hchain]
      exact hfind
    | none =>
      cases hp : s.parent with
      | none =>
        refine ⟨none, by simp [lookupWalk], ?_⟩
        intro k1 hk1
        simp only [ancestors, List.mem_singleton] at hk1
        subst hk1
        rw [hchain]
        exact hfind
      | some par =>
        have hlt : par < k := hpar k par (by simp [State.parentOf, hs, hp])
        obtain ⟨r, hr, hw⟩ := ih par (by omega) (by omega)
        refine ⟨r, hr, ?_⟩
        cases r with
        | none =>
          intro k1 hk1
          simp only [List.mem_cons] at hk1
          rcases hk1 with rfl | hk1
          · rw [hchain]
            exact hfind
          · exact hw k1 hk1
        | some q =>
          obtain ⟨hb, nearer, farther, heq, hnear, hq⟩ := hw
          refine ⟨hb, k :: nearer, farther, by rw [heq]; rfl, ?_, hq⟩
          intro k1 hk1
          simp only [List.mem_cons] at hk1
          rcases hk1 with rfl | hk1
          · rw [hchain]
            exact hfind
          · exact hnear k1 hk1

/-- The scopes of the walk are scopes of the directory, in strictly decreasing order. -/
theorem ancestors_sorted (st : State) (hpar : ParentsBelow st) :
    ∀ fuel k, k < st.scopeList.length →
      (ancestors st fuel (some k)).Chain' (fun a c => c < a) ∧
        ∀ j ∈ ancestors st fuel (some k), j ≤ k := by
  intro fuel
  induction fuel with
  | zero => intro k _; simp [ancestors]
  | succ fuel ih =>
    intro k hlen
    obtain ⟨s, hs⟩ := getElem?_of_lt_scopes hlen
    simp only [ancestors, hs]
    cases hp : s.parent with
    | none => simp [ancestors]
    | some par =>
      have hlt : par < k := hpar k par (by simp [State.parentOf, hs, hp])
      obtain ⟨h1, h2⟩ := ih par (by omega)
      refine ⟨?_, ?_⟩
      · rw [List.chain'_cons']
        refine ⟨?_, h1⟩
        intro y hy
        have := h2 y (List.mem_of_mem_head? hy)
        omega
      · intro j hj
        simp only [List.mem_cons] at hj
        rcases hj with rfl | hj
        · exact le_refl _
        · have := h2 j hj
          omega

theorem SameKeys_refl (st : State) : SameKeys st st :=
  ⟨fun _ => rfl, fun _ => rfl, fun _ _ => rfl⟩

theorem SameKeys_trans {a b c : State} (h1 : SameKeys a b) (h2 : SameKeys b c) : SameKeys a c :=
  ⟨fun k => (h2.1 k).trans (h1.1 k), fun k => (h2.2.1 k).trans (h1.2.1 k),
    fun k b => (h2.2.2 k b).trans (h1.2.2 k b)⟩

theorem SameKeys_of_scopeList_eq {st stn : State} (h : stn.scopeList = st.scopeList) :
    SameKeys st stn :=
  ⟨fun k => by simp [State.parentOf, h], fun k => by simp [State.countOf, h],
    fun k b => by simp [State.keys, State.chain, h]⟩

theorem Bucketed_iff_keys (st : State) :
    Bucketed st ↔ ∀ k b x, x ∈ st.keys k b → b = hash x.1 := by
  constructor
  · intro h k b x hx
    simp only [State.keys, List.mem_map] at hx
    obtain ⟨e, he, rfl⟩ := hx
    exact h k b e he
  · intro h k b e he
    exact h k b (e.name, e.memloc) (by
      simp only [State.keys, List.mem_map]
      exact ⟨e, he, rfl⟩)

theorem TablesOk_of_sameKeys {st stn : State} (h : SameKeys st stn) (hok : TablesOk st) :
    TablesOk stn := by
  obtain ⟨hp, hc, hk⟩ := h
  obtain ⟨h1, h2, h3⟩ := hok
  refine ⟨?_, ?_, ?_⟩
  · intro k p hkp
    rw [hp] at hkp
    exact h1 k p hkp
  · rw [Bucketed_iff_keys] at h2 ⊢
    intro k b x hx
    rw [hk] at hx
    exact h2 k b x hx
  · intro k
    obtain ⟨a1, a2, a3⟩ := h3 k
    refine ⟨?_, ?_, ?_⟩
    · intro b i x hx
      rw [hk] at hx
      rw [hc]
      exact a1 b i x hx
    · intro b i x c j y hx hy
      rw [hk] at hx hy
      exact a2 b i x c j y hx hy
    · intro m hm
      rw [hc] at hm
      obtain ⟨b, i, x, hx, hm⟩ := a3 m hm
      exact ⟨b, i, x, by rw [hk]; exact hx, hm⟩

theorem countOf_modifyScope (st : State) (j : Nat) (f : ScopeRec → ScopeRec)
    (hf : ∀ s, (f s).numSymbols = s.numSymbols) (k : Nat) :
    (modifyScope st j f).countOf k = st.countOf k := by
  simp only [State.countOf, modifyScope, getElem?_updateAt]
  by_cases hk : k = j
  · simp only [hk, if_true]
    cases st.scopeList[j]? <;> simp [hf]
  · simp only [hk, if_false]

theorem map_updateAt_of_eq {α β : Type} (g : α → β) (f : α → α) (hf : ∀ a, g (f a) = g a)
    (l : List α) (i : Nat) : (updateAt f l i).map g = l.map g := by
  induction l generalizing i with
  | nil => simp [updateAt]
  | cons a rest ih => cases i <;> simp [updateAt, hf, ih]

/-- A write to a symbol that keeps its name and its slot index. -/
theorem SameKeys_modifySymbol (st : State) (p : SymPtr) (f : SymbolRec → SymbolRec)
    (hf : ∀ e, (f e).name = e.name ∧ (f e).memloc = e.memloc) :
    SameKeys st (modifySymbol st p f) := by
  refine ⟨parentOf_modifySymbol _ _ _, ?_, ?_⟩
  · intro k
    simp only [modifySymbol]
    apply countOf_modifyScope
    intro s
    rfl
  · intro k b
    simp only [State.keys, chain_modifySymbol]
    split
    · apply map_updateAt_of_eq
      intro e
      rw [(hf e).1, (hf e).2]
    · rfl

/-- A write to a scope that keeps its parent, its table and its symbol count. -/
theorem SameKeys_modifyScope (st : State) (j : Nat) (f : ScopeRec → ScopeRec)
    (hf : ∀ s, (f s).parent = s.parent ∧ (f s).numSymbols = s.numSymbols ∧
      (f s).symbolList = s.symbolList) :
    SameKeys st (modifyScope st j f) := by
  refine ⟨parentOf_modifyScope _ _ _ (fun s => (hf s).1), countOf_modifyScope _ _ _ (fun s => (hf s).2.1),
    ?_⟩
  intro k b
  simp only [State.keys]
  rw [chain_modifyScope_keep _ _ _ (fun s => (hf s).2.2)]

theorem countOf_of_scopeAttrs {st stn : State} {j : Nat} (h : stn.scopeAttrs j = st.scopeAttrs j) :
    stn.countOf j = st.countOf j := by
  simp only [State.scopeAttrs, State.countOf] at *
  cases h1 : stn.scopeList[j]? <;> cases h2 : st.scopeList[j]? <;> simp [h1, h2] at h ⊢
  simp only [ScopeRec.attrs, Prod.mk.injEq] at h
  exact h.2.2.2.1

theorem markRedefined_key (n : String) (e : SymbolRec) :
    ((markRedefined n e).name, (markRedefined n e).memloc) = (e.name, e.memloc) := by
  unfold markRedefined
  split <;> rfl

theorem redefined_sameKeys {scope : Option Nat} {d : NodeData} {st st2 : State}
    (h : insertNode.redefined scope d st = .ok st2) : SameKeys st st2 := by
  have hattrs := redefined_attrs h
  obtain ⟨k, n, _, _, _, _, _, _, _, roth, rch, _⟩ := redefined_inv h
  refine ⟨fun j => parentOf_of_scopeAttrs (hattrs j), fun j => countOf_of_scopeAttrs (hattrs j), ?_⟩
  intro k1 b1
  simp only [State.keys]
  by_cases hkb : k1 = k ∧ b1 = hash n
  · obtain ⟨rfl, rfl⟩ := hkb
    rw [rch, List.map_map]
    apply List.map_congr_left
    intro e _
    exact markRedefined_key n e
  · rw [roth k1 b1 hkb]

theorem appendSymbol_sameKeys {cs : Option Nat} {name : Option String} {lineno : Int}
    {st stn : State} {p : SymPtr} (h : appendSymbol cs name lineno st = .ok (p, stn)) :
    SameKeys st stn := by
  obtain ⟨nm, _, _, _, rfl⟩ := appendSymbol_ok h
  exact SameKeys_modifySymbol _ _ _ (fun _ => ⟨rfl, rfl⟩)

/-! ### A scope appended to the directory -/

theorem parentOf_append (st : State) (scope : ScopeRec) (k : Nat) :
    ({ st with scopeList := st.scopeList ++ [scope] } : State).parentOf k =
      if k < st.scopeList.length then st.parentOf k
      else if k = st.scopeList.length then some scope.parent else none := by
  simp only [State.parentOf]
  by_cases h1 : k < st.scopeList.length
  · simp [h1, List.getElem?_append_left h1]
  · by_cases h2 : k = st.scopeList.length
    · subst h2
      simp
    · have h3 : st.scopeList.length + 1 ≤ k := by omega
      simp [h1, h2, List.getElem?_eq_none, h3]

theorem chain_append (st : State) (scope : ScopeRec) (k b : Nat) :
    ({ st with scopeList := st.scopeList ++ [scope] } : State).chain k b =
      if k < st.scopeList.length then st.chain k b
      else if k = st.scopeList.length then scope.symbolList b else [] := by
  simp only [State.chain]
  by_cases h1 : k < st.scopeList.length
  · simp [h1, List.getElem?_append_left h1]
  · by_cases h2 : k = st.scopeList.length
    · subst h2
      simp
    · have h3 : st.scopeList.length + 1 ≤ k := by omega
      simp [h1, h2, List.getElem?_eq_none, h3]

theorem countOf_append (st : State) (scope : ScopeRec) (k : Nat) :
    ({ st with scopeList := st.scopeList ++ [scope] } : State).countOf k =
      if k < st.scopeList.length then st.countOf k
      else if k = st.scopeList.length then scope.numSymbols else 0 := by
  simp only [State.countOf]
  by_cases h1 : k < st.scopeList.length
  · simp [h1, List.getElem?_append_left h1]
  · by_cases h2 : k = st.scopeList.length
    · subst h2
      simp
    · have h3 : st.scopeList.length + 1 ≤ k := by omega
      simp [h1, h2, List.getElem?_eq_none, h3]

theorem TablesOk_append (st : State) (scope : ScopeRec) (hok : TablesOk st)
    (hpar : ∀ p, scope.parent = some p → p < st.scopeList.length)
    (hsym : scope.symbolList = fun _ => []) (hnum : scope.numSymbols = 0) :
    TablesOk { st with scopeList := st.scopeList ++ [scope] } := by
  obtain ⟨h1, h2, h3⟩ := hok
  have hkeys : ∀ k b, ({ st with scopeList := st.scopeList ++ [scope] } : State).keys k b =
      if k < st.scopeList.length then st.keys k b else [] := by
    intro k b
    simp only [State.keys, chain_append, hsym]
    split
    · rfl
    · split <;> rfl
  refine ⟨?_, ?_, ?_⟩
  · intro k p hkp
    rw [parentOf_append] at hkp
    split at hkp
    · exact h1 k p hkp
    · split at hkp
      · next _ hk =>
        simp only [Option.some.injEq] at hkp
        have := hpar p hkp
        omega
      · simp at hkp
  · rw [Bucketed_iff_keys] at h2 ⊢
    intro k b x hx
    rw [hkeys] at hx
    split at hx
    · exact h2 k b x hx
    · simp at hx
  · intro k
    obtain ⟨a1, a2, a3⟩ := h3 k
    by_cases hk : k < st.scopeList.length
    · simp only [hkeys, countOf_append, hk, if_true]
      exact ⟨a1, a2, a3⟩
    · simp only [hkeys, countOf_append, hk, if_false]
      refine ⟨by simp, by simp, ?_⟩
      intro m hm
      split at hm
      · omega
      · omega

/-- A parent handed to `insertScope` is a scope of the directory when the call returns. -/
theorem insertScope_parent_lt {name : Option String} {parent : Option Nat} {func : TreeNode}
    {st stn : State} {k : Nat} (h : insertScope name parent func st = .ok (k, stn)) :
    ∀ p, parent = some p → p < st.scopeList.length := by
  intro p hp
  subst hp
  simp only [insertScope, bind_ok_iff, pure_ok_iff, Prod.exists] at h
  obtain ⟨_, _, scopeName, st1, h1, red0, h2, _⟩ := h
  have hlen : st1.scopeList.length = st.scopeList.length := by
    cases name with
    | none =>
      simp only [bind_ok_iff, pure_ok_iff, Prod.mk.injEq] at h1
      obtain ⟨_, _, _, rfl⟩ := h1
      exact length_modifyScope _ _ _
    | some n =>
      simp only [pure_ok_iff, Prod.mk.injEq] at h1
      rw [← h1.2]
  simp only [bind_ok_iff, pure_ok_iff, derefScope_ok_iff] at h2
  obtain ⟨s, ⟨k2, hk2, hs⟩, _⟩ := h2
  simp only [Option.some.injEq] at hk2
  subst hk2
  rw [← hlen]
  exact (List.getElem?_eq_some.mp hs).1

theorem insertScope_tablesOk {name : Option String} {parent : Option Nat} {func : TreeNode}
    {st stn : State} {k : Nat} (h : insertScope name parent func st = .ok (k, stn))
    (hok : TablesOk st) : TablesOk stn := by
  have hpl := insertScope_parent_lt h
  obtain ⟨st1, scope, rfl, _, h1, hsym, hpar, _, hnum, _⟩ := insertScope_ok h
  have hs1 : SameKeys st st1 := by
    rcases h1 with rfl | ⟨j, rfl⟩
    · exact SameKeys_refl _
    · exact SameKeys_modifyScope _ _ _ (fun _ => ⟨rfl, rfl, rfl⟩)
  have hlen : st1.scopeList.length = st.scopeList.length := by
    rcases h1 with rfl | ⟨j, rfl⟩
    · rfl
    · exact length_modifyScope _ _ _
  apply TablesOk_append st1 scope (TablesOk_of_sameKeys hs1 hok) _ hsym hnum
  intro p hp
  rw [hlen]
  exact hpl p (by rw [← hpar, hp])

theorem getElem?_concat_eq_some {α : Type} (l : List α) (a x : α) (i : Nat) :
    (l ++ [a])[i]? = some x ↔ l[i]? = some x ∨ (i = l.length ∧ x = a) := by
  by_cases h1 : i < l.length
  · rw [List.getElem?_append_left h1]
    constructor
    · exact Or.inl
    · rintro (h | ⟨h, _⟩)
      · exact h
      · omega
  · by_cases h2 : i = l.length
    · subst h2
      simp [eq_comm]
    · have h3 : l.length + 1 ≤ i := by omega
      have h4 : l.length ≤ i := by omega
      simp [List.getElem?_eq_none, h3, h4, h2]

/-- A state that differs from `st` by one symbol named `nm` added at the end of its bucket
in scope `k`, with the symbol count of the scope as slot index. -/
theorem TablesOk_insert {st stn : State} (k : Nat) (nm : String)
    (hp : ∀ j, stn.parentOf j = st.parentOf j)
    (hc : ∀ j, stn.countOf j = if j = k then st.countOf k + 1 else st.countOf j)
    (hk : ∀ j b, stn.keys j b =
      if j = k ∧ b = hash nm then st.keys k (hash nm) ++ [(nm, st.countOf k)] else st.keys j b)
    (hok : TablesOk st) : TablesOk stn := by
  obtain ⟨h1, h2, h3⟩ := hok
  refine ⟨?_, ?_, ?_⟩
  · intro j p hjp
    rw [hp] at hjp
    exact h1 j p hjp
  · rw [Bucketed_iff_keys] at h2 ⊢
    intro j b x hx
    rw [hk] at hx
    split at hx
    · next hjb =>
      obtain ⟨rfl, rfl⟩ := hjb
      simp only [List.mem_append, List.mem_singleton] at hx
      rcases hx with hx | rfl
      · exact h2 _ _ x hx
      · rfl
    · exact h2 j b x hx
  · intro j
    obtain ⟨a1, a2, a3⟩ := h3 j
    by_cases hj : j = k
    · subst hj
      have hkeys : ∀ b i x, (stn.keys j b)[i]? = some x ↔
          (st.keys j b)[i]? = some x ∨
            (b = hash nm ∧ i = (st.keys j (hash nm)).length ∧ x = (nm, st.countOf j)) := by
        intro b i x
        rw [hk]
        by_cases hb : b = hash nm
        · subst hb
          simp only [true_and, if_true, getElem?_concat_eq_some]
        · simp [hb]
      simp only [hc, if_true]
      refine ⟨?_, ?_, ?_⟩
      · intro b i x hx
        rcases (hkeys b i x).mp hx with hx | ⟨_, _, rfl⟩
        · have := a1 b i x hx
          omega
        · simp
      · intro b i x c i2 y hx hy hxy
        rcases (hkeys b i x).mp hx with hx | ⟨rfl, rfl, rfl⟩
        · rcases (hkeys c i2 y).mp hy with hy | ⟨rfl, rfl, rfl⟩
          · exact a2 b i x c i2 y hx hy hxy
          · have := a1 b i x hx
            simp only at hxy
            omega
        · rcases (hkeys c i2 y).mp hy with hy | ⟨rfl, rfl, rfl⟩
          · have := a1 c i2 y hy
            simp only at hxy
            omega
          · exact ⟨rfl, rfl⟩
      · intro m hm
        by_cases hm2 : m < st.countOf j
        · obtain ⟨b, i, x, hx, hxm⟩ := a3 m hm2
          exact ⟨b, i, x, (hkeys b i x).mpr (Or.inl hx), hxm⟩
        · have hmeq : m = st.countOf j := by omega
          exact ⟨hash nm, _, (nm, st.countOf j), (hkeys _ _ _).mpr (Or.inr ⟨rfl, rfl, rfl⟩),
            hmeq.symm⟩
    · have hkeys : ∀ b, stn.keys j b = st.keys j b := by
        intro b
        rw [hk]
        simp [hj]
      simp only [hc, hj, if_false, hkeys]
      exact ⟨a1, a2, a3⟩

theorem insertSymbol_tablesOk {cs : Option Nat} {name : Option String} {type : NodeType}
    {kind : SymbolKind} {lineno : Int} {node : TreeNode} {st stn : State} {p : SymPtr}
    (h : insertSymbol cs name type kind lineno node st = .ok (p, stn)) (hok : TablesOk st) :
    TablesOk stn := by
  obtain ⟨k, nm, s, _, _, hs, h⟩ := insertSymbol_ok h
  rcases h with ⟨i, _, _, rfl⟩ | ⟨state, _, _, rfl⟩
  · exact TablesOk_of_sameKeys (SameKeys_modifySymbol _ _ _ (fun _ => ⟨rfl, rfl⟩)) hok
  · have hcount : st.countOf k = s.numSymbols := by simp [State.countOf, hs]
    have hchain := chain_of_getElem? hs (hash nm)
    apply TablesOk_insert k nm _ _ _ hok
    · intro j
      apply parentOf_modifyScope
      intro s1
      rfl
    · intro j
      simp only [State.countOf, modifyScope, getElem?_updateAt]
      by_cases hj : j = k
      · subst hj
        simp [hs]
      · simp [hj]
    · intro j b
      simp only [State.keys]
      rw [chain_modifyScope]
      by_cases hj : j = k
      · subst hj
        by_cases hb : b = hash nm
        · subst hb
          simp [hs, hchain, hcount, freshSymbol]
        · simp [hs, hb, Function.update_noteq hb, State.chain]
      · simp [hj]

/-- The pre-visit of pass 1 keeps the tables well formed. -/
theorem insertNode_tablesOk {d d1 : NodeData} {c0 c1 c2 sib : TreeNode} {st stn : State}
    (h : insertNode (.node d c0 c1 c2 sib) st = .ok (d1, stn)) (hok : TablesOk st) :
    TablesOk stn := by
  have hvoid : ∀ s : State, TablesOk s →
      TablesOk (if d.type = .Void ∨ d.type = .VoidArray then VoidTypeVariableError d.name d.lineno s
        else s) := by
    intro s hs
    split
    · exact TablesOk_of_sameKeys (SameKeys_of_scopeList_eq rfl) hs
    · exact hs
  simp only [insertNode] at h
  split at h
  · -- VariableDecl
    simp only [bind_ok_iff, pure_ok_iff, Prod.exists, Prod.mk.injEq] at h
    obtain ⟨st2, h2, p, st3, h3, _, rfl⟩ := h
    exact insertSymbol_tablesOk h3 (TablesOk_of_sameKeys (redefined_sameKeys h2) (hvoid st hok))
  · -- FunctionDecl
    simp only [bind_ok_iff, pure_ok_iff, Prod.exists, Prod.mk.injEq, ERROR_CHECK_ok_iff,
      decide_eq_true_eq] at h
    obtain ⟨_, _, st1, h1, p, st2, h2, sc, st3, h3, _, rfl⟩ := h
    have o3 := insertScope_tablesOk h3
      (insertSymbol_tablesOk h2 (TablesOk_of_sameKeys (redefined_sameKeys h1) hok))
    have o4 : TablesOk (modifySymbol st3 p fun e =>
        if e.node = .node d c0 c1 c2 sib then { e with node := e.node.setScope sc } else e) := by
      apply TablesOk_of_sameKeys (SameKeys_modifySymbol _ _ _ _) o3
      intro e
      split <;> exact ⟨rfl, rfl⟩
    exact TablesOk_of_sameKeys (SameKeys_of_scopeList_eq rfl) o4
  · -- Params
    split at h
    · simp only [Except.ok.injEq, Prod.mk.injEq] at h
      obtain ⟨_, rfl⟩ := h
      exact hok
    · simp only [bind_ok_iff, pure_ok_iff, Prod.exists, Prod.mk.injEq] at h
      obtain ⟨st2, h2, p, st3, h3, _, rfl⟩ := h
      exact insertSymbol_tablesOk h3 (TablesOk_of_sameKeys (redefined_sameKeys h2) (hvoid st hok))
  · -- CompoundStmt
    split at h
    · simp only [Except.ok.injEq, Prod.mk.injEq] at h
      obtain ⟨_, rfl⟩ := h
      exact hok
    · simp only [bind_ok_iff, pure_ok_iff, Prod.exists, Prod.mk.injEq] at h
      obtain ⟨cur, _, sc, st1, h1, _, rfl⟩ := h
      have o1 := insertScope_tablesOk h1 hok
      exact TablesOk_of_sameKeys (SameKeys_of_scopeList_eq rfl) o1
  · -- CallExpr
    simp only [bind_ok_iff, Prod.exists] at h
    obtain ⟨func, _, h⟩ := h
    cases func with
    | none =>
      simp only [bind_ok_iff, pure_ok_iff, Prod.exists, Prod.mk.injEq, UndeclaredFunctionError] at h
      obtain ⟨p, st1, h1, _, rfl⟩ := h
      exact insertSymbol_tablesOk h1 (TablesOk_of_sameKeys (SameKeys_of_scopeList_eq rfl) hok)
    | some q =>
      simp only [bind_ok_iff, pure_ok_iff, Prod.exists, Prod.mk.injEq] at h
      obtain ⟨p, st1, h1, _, rfl⟩ := h
      exact TablesOk_of_sameKeys (appendSymbol_sameKeys h1) hok
  · -- VarAccessExpr
    simp only [bind_ok_iff, Prod.exists] at h
    obtain ⟨var, _, h⟩ := h
    cases var with
    | none =>
      simp only [bind_ok_iff, pure_ok_iff, Prod.exists, Prod.mk.injEq, UndeclaredVariableError] at h
      obtain ⟨p, st1, h1, _, rfl⟩ := h
      exact insertSymbol_tablesOk h1 (TablesOk_of_sameKeys (SameKeys_of_scopeList_eq rfl) hok)
    | some q =>
      simp only [bind_ok_iff, pure_ok_iff, Prod.exists, Prod.mk.injEq] at h
      obtain ⟨p, st1, h1, _, rfl⟩ := h
      exact TablesOk_of_sameKeys (appendSymbol_sameKeys h1) hok
  all_goals
    simp only [Except.ok.injEq, Prod.mk.injEq, reduceCtorEq] at h
    try (obtain ⟨_, rfl⟩ := h; exact hok)

theorem pass1_tablesOk (t : TreeNode) (st : State) (tn : TreeNode) (stn : State)
    (h : traverse insertNode scopeOut t st = .ok (tn, stn)) : TablesOk st → TablesOk stn := by
  revert t st tn stn
  apply traverse_induct
  · intro st hok
    exact hok
  · intro d c0 c1 c2 sib st d1 st1 c0n st2 c1n st3 c2n st4 d2 st5 sibn st6 hpre r0 r1 r2 hpost rs hok
    obtain ⟨_, psl, _⟩ := scopeOut_ok hpost
    exact rs (TablesOk_of_sameKeys (SameKeys_of_scopeList_eq psl)
      (r2 (r1 (r0 (insertNode_tablesOk hpre hok)))))

theorem initial_tablesOk : TablesOk State.initial := by
  refine ⟨?_, ?_, ?_⟩
  · intro k p h
    simp [State.parentOf, State.initial] at h
  · intro k b e h
    simp [State.chain, State.initial] at h
  · intro k
    simp [State.keys, State.chain, State.countOf, State.initial]

theorem builtinState_tablesOk {sb : State} (h : builtinState = .ok sb) : TablesOk sb := by
  simp only [builtinState, declareBuiltInFunction, bind_ok_iff, pure_ok_iff, Prod.exists] at h
  obtain ⟨g, sa, h1, p1, s1, h2, p2, s2, h3, k, s3, h4, p3, s4, h5, rfl⟩ := h
  have o0 := insertScope_tablesOk h1 initial_tablesOk
  have o1 : TablesOk { sa with globalScope := some g, currentScope := some g } :=
    TablesOk_of_sameKeys (SameKeys_of_scopeList_eq rfl) o0
  exact insertSymbol_tablesOk h5 (insertScope_tablesOk h4
    (insertSymbol_tablesOk h3 (insertSymbol_tablesOk h2 o1)))

/-- The tables pass 1 leaves are well formed. -/
theorem buildSymtab_tablesOk {t t1 : TreeNode} {st1 : State}
    (h : buildSymtab t State.initial = .ok (t1, st1)) : TablesOk st1 := by
  rw [buildSymtab_eq, bind_ok_iff] at h
  obtain ⟨sb, hb, hrun⟩ := h
  exact pass1_tablesOk _ _ _ _ hrun (builtinState_tablesOk hb)

theorem chainFind_none_bucketed {st : State} (hb : Bucketed st) (k : Nat) (nm : String)
    (q : SymbolRec → Prop) [DecidablePred q] :
    chainFind (fun e => decide (e.name = nm) && decide (q e)) (st.chain k (hash nm)) = none ↔
      ∀ b, ∀ e ∈ st.chain k b, ¬ (e.name = nm ∧ q e) := by
  rw [chainFind_eq_none]
  constructor
  · intro h b e he hne
    have hbe := hb k b e he
    rw [hne.1] at hbe
    subst hbe
    have := h e he
    simp [hne.1, hne.2] at this
  · intro h e he
    have := h _ e he
    simp only [Bool.and_eq_false_imp, decide_eq_true_eq, decide_eq_false_iff_not]
    intro hn hq
    exact this ⟨hn, hq⟩

/-- C22. In a directory whose parent links point to earlier scopes and whose symbols lie
in the bucket of their name (as in every state pass 1 reaches), `lookupSymbolWithKind`
from a scope of the directory returns; it returns nothing exactly when no scope from that
scope up through the parents holds a symbol of that name and kind; and a symbol it returns
has that name and kind, no entry before it in its chain has, and no scope nearer than its
scope on the way up holds a symbol of that name and kind, in any bucket. In
`int f(void) { }  int main(void) { int f; f(); }` the lookup of the function `f` from the
scope of `main` returns the global function although `main` declares a variable `f`. -/
theorem lookup_with_kind_first (st : State) (k : Nat) (nm : String) (kind : SymbolKind)
    (hk : k < st.scopeList.length) (hpar : ParentsBelow st) (hb : Bucketed st) :
    (∃ r, lookupSymbolWithKind (some k) (some nm) kind st = .ok r ∧
      (r = none ↔ ∀ j ∈ ancestors st st.scopeList.length (some k), ∀ b, ∀ e ∈ st.chain j b,
        ¬ e.isOf nm kind) ∧
      ∀ q, r = some q → ∃ e nearer farther,
        derefSymbol st q = some e ∧ e.isOf nm kind ∧
        (∀ i x, i < q.idx → (st.chain q.scope q.bucket)[i]? = some x → ¬ x.isOf nm kind) ∧
        ancestors st st.scopeList.length (some k) = nearer ++ q.scope :: farther ∧
        ∀ j ∈ nearer, ∀ b, ∀ x ∈ st.chain j b, ¬ x.isOf nm kind) ∧
    (okState (buildSymtab progLocalF State.initial)).scopeList.map (fun s => (s.name, s.parent)) =
      [("global", none), ("output", some 0), ("f", some 0), ("main", some 0)] ∧
    lookupSymbol (some 3) (some "f") (okState (buildSymtab progLocalF State.initial)) =
      .ok (some ⟨3, hash "f", 0⟩) ∧
    lookupSymbolWithKind (some 3) (some "f") .FunctionSym
        (okState (buildSymtab progLocalF State.initial)) = .ok (some ⟨0, hash "f", 0⟩) ∧
    lookupSymbolWithKind (some 0) (some "g") .FunctionSym
        (okState (buildSymtab progVarThenCall State.initial)) = .ok (some ⟨0, hash "g", 1⟩) := by
  refine ⟨?_, by decide, by decide, by decide, by decide⟩
  obtain ⟨r, hr, hw⟩ := lookupWalk_spec st (hash nm)
    (fun e => decide (e.name = nm) && decide (e.kind = kind)) hpar st.scopeList.length k hk hk
  have hnone := fun j => chainFind_none_bucketed hb j nm (fun e => e.kind = kind)
  refine ⟨r, ?_, ?_, ?_⟩
  · simp only [lookupSymbolWithKind, ERROR_CHECK, Option.isSome_some, Bool.and_self, if_true, bind,
      Except.bind, Option.getD_some]
    exact hr
  · cases r with
    | none =>
      simp only [true_iff]
      intro j hj
      exact (hnone j).mp (hw j hj)
    | some q =>
      simp only [reduceCtorEq, false_iff]
      obtain ⟨hbk, nearer, farther, heq, _, hq⟩ := hw
      obtain ⟨e, he, hpe, _⟩ := chainFind_eq_some hq
      intro hall
      simp only [Bool.and_eq_true, decide_eq_true_eq] at hpe
      exact hall q.scope (by rw [heq]; simp) (hash nm) e (List.getElem?_mem he) hpe
  · intro q hrq
    subst hrq
    obtain ⟨hbk, nearer, farther, heq, hnear, hq⟩ := hw
    obtain ⟨e, he, hpe, hbefore⟩ := chainFind_eq_some hq
    simp only [Bool.and_eq_true, decide_eq_true_eq] at hpe
    refine ⟨e, nearer, farther, ?_, hpe, ?_, heq, ?_⟩
    · have := derefSymbol_eq st q.scope q.bucket q.idx
      rw [← hbk] at he
      rw [← he, ← this]
    · intro i x hi hx hxo
      rw [hbk] at hx
      have hmem : x ∈ (st.chain q.scope (hash nm)).take q.idx := by
        rw [List.mem_iff_getElem?]
        exact ⟨i, by rw [List.getElem?_take_of_lt hi]; exact hx⟩
      have := hbefore x hmem
      simp [hxo.1, hxo.2] at this
    · intro j hj
      exact (hnone j).mp (hnear j hj)

theorem lookup_with_kind_first_witness :
    3 < (okState (buildSymtab progLocalF State.initial)).scopeList.length ∧
      ParentsBelow (okState (buildSymtab progLocalF State.initial)) ∧
      Bucketed (okState (buildSymtab progLocalF State.initial)) ∧
      ancestors (okState (buildSymtab progLocalF State.initial))
        (okState (buildSymtab progLocalF State.initial)).scopeList.length (some 3) = [3, 0] ∧
      ∃ r, lookupSymbolWithKind (some 3) (some "f") .FunctionSym
          (okState (buildSymtab progLocalF State.initial)) = .ok r ∧
        (r = none ↔ ∀ j ∈ ancestors (okState (buildSymtab progLocalF State.initial))
            (okState (buildSymtab progLocalF State.initial)).scopeList.length (some 3),
          ∀ b, ∀ e ∈ (okState (buildSymtab progLocalF State.initial)).chain j b,
            ¬ e.isOf "f" .FunctionSym) ∧
        ∀ q, r = some q → ∃ e nearer farther,
          derefSymbol (okState (buildSymtab progLocalF State.initial)) q = some e ∧
          e.isOf "f" .FunctionSym ∧
          (∀ i x, i < q.idx →
            ((okState (buildSymtab progLocalF State.initial)).chain q.scope q.bucket)[i]? = some x →
            ¬ x.isOf "f" .FunctionSym) ∧
          ancestors (okState (buildSymtab progLocalF State.initial))
            (okState (buildSymtab progLocalF State.initial)).scopeList.length (some 3) =
              nearer ++ q.scope :: farther ∧
          ∀ j ∈ nearer, ∀ b, ∀ x ∈ (okState (buildSymtab progLocalF State.initial)).chain j b,
            ¬ x.isOf "f" .FunctionSym :=
  have hrun : buildSymtab progLocalF State.initial =
      .ok (okTree (buildSymtab progLocalF State.initial),
        okState (buildSymtab progLocalF State.initial)) := by rfl
  have hok := buildSymtab_tablesOk hrun
  ⟨by decide, hok.1, hok.2.1, by decide,
    (lookup_with_kind_first (okState (buildSymtab progLocalF State.initial)) 3 "f" .FunctionSym
      (by decide) hok.1 hok.2.1).1⟩

theorem derefSymbol_modifySymbol (st : State) (p q : SymPtr) (f : SymbolRec → SymbolRec) :
    derefSymbol (modifySymbol st p f) q =
      if q = p then (derefSymbol st q).map f else derefSymbol st q := by
  obtain ⟨qs, qb, qi⟩ := q
  obtain ⟨ps, pb, pi⟩ := p
  simp only [derefSymbol_eq, chain_modifySymbol, SymPtr.mk.injEq]
  by_cases h : qs = ps ∧ qb = pb
  · obtain ⟨rfl, rfl⟩ := h
    simp only [true_and, and_self, if_true, getElem?_updateAt]
  · rw [if_neg h]
    have h2 : ¬ (qs = ps ∧ qb = pb ∧ qi = pi) := fun hh => h ⟨hh.1, hh.2.1⟩
    rw [if_neg h2]

theorem headerOf_modifySymbol (st : State) (p : SymPtr) (f : SymbolRec → SymbolRec) (j : Nat) :
    (modifySymbol st p f).headerOf j = st.headerOf j := by
  simp only [State.headerOf, modifySymbol, modifyScope, getElem?_updateAt]
  split
  · cases st.scopeList[j]? <;> simp [ScopeRec.header]
  · rfl

theorem chainFind_name_bucketed {st : State} (hb : Bucketed st) (k : Nat) (nm : String) :
    chainFind (fun e => decide (e.name = nm)) (st.chain k (hash nm)) = none ↔
      ∀ b, ∀ e ∈ st.chain k b, e.name ≠ nm := by
  rw [chainFind_eq_none]
  constructor
  · intro h b e he hne
    have hbe := hb k b e he
    rw [hne] at hbe
    subst hbe
    have := h e he
    simp [hne] at this
  · intro h e he
    simpa using h _ e he

/-- C26. In a directory whose parent links point to earlier scopes and whose symbols lie
in the bucket of their name (as in every state pass 1 reaches), `appendSymbol` from a scope
of the directory fails, as an internal-invariant failure, exactly when no scope from that
scope up through the parents holds a symbol of that name; otherwise it returns the first
symbol of that name of the nearest such scope, with the line appended at the end of its
line list, every other field of it, every other symbol, the header of every scope
(name, state, owner, counters, parent), the number of scopes, the scope pointers, the
error flag and the listing being as before. -/
theorem appendSymbol_appends (st : State) (k : Nat) (nm : String) (lineno : Int)
    (hk : k < st.scopeList.length) (hpar : ParentsBelow st) (hb : Bucketed st) :
    (appendSymbol (some k) (some nm) lineno st = .error .errorCheck ↔
      ∀ j ∈ ancestors st st.scopeList.length (some k), ∀ b, ∀ e ∈ st.chain j b, e.name ≠ nm) ∧
    ((∃ j ∈ ancestors st st.scopeList.length (some k), ∃ b, ∃ e ∈ st.chain j b, e.name = nm) →
      ∃ q stn e nearer farther,
        appendSymbol (some k) (some nm) lineno st = .ok (q, stn) ∧
        derefSymbol st q = some e ∧ e.name = nm ∧
        (∀ i x, i < q.idx → (st.chain q.scope q.bucket)[i]? = some x → x.name ≠ nm) ∧
        ancestors st st.scopeList.length (some k) = nearer ++ q.scope :: farther ∧
        (∀ j ∈ nearer, ∀ b, ∀ x ∈ st.chain j b, x.name ≠ nm) ∧
        derefSymbol stn q = some { e with lineList := e.lineList ++ [lineno] } ∧
        (∀ q1, q1 ≠ q → derefSymbol stn q1 = derefSymbol st q1) ∧
        (∀ j, stn.headerOf j = st.headerOf j) ∧
        stn.scopeList.length = st.scopeList.length ∧
        stn.globalScope = st.globalScope ∧ stn.currentScope = st.currentScope ∧
        stn.Error = st.Error ∧ stn.listing = st.listing) := by
  obtain ⟨r, hr, hw⟩ := lookupWalk_spec st (hash nm) (fun e => decide (e.name = nm)) hpar
    st.scopeList.length k hk hk
  have hnone := fun j => chainFind_name_bucketed hb j nm
  have hrun : appendSymbol (some k) (some nm) lineno st =
      match r with
      | none => .error .errorCheck
      | some p => .ok (p, modifySymbol st p fun e => { e with lineList := e.lineList ++ [lineno] }) := by
    simp only [appendSymbol, ERROR_CHECK, Option.isSome_some, Bool.and_self, if_true, bind,
      Except.bind, Option.getD_some, hr]
    cases r <;> rfl
  cases r with
  | none =>
    have hall : ∀ j ∈ ancestors st st.scopeList.length (some k), ∀ b, ∀ e ∈ st.chain j b,
        e.name ≠ nm := fun j hj => (hnone j).mp (hw j hj)
    refine ⟨⟨fun _ => hall, fun _ => hrun⟩, ?_⟩
    rintro ⟨j, hj, b, e, he, hne⟩
    exact absurd hne (hall j hj b e he)
  | some q =>
    obtain ⟨hbk, nearer, farther, heq, hnear, hq⟩ := hw
    obtain ⟨e, he, hpe, hbefore⟩ := chainFind_eq_some hq
    simp only [decide_eq_true_eq] at hpe
    have hderef : derefSymbol st q = some e := by
      have := derefSymbol_eq st q.scope q.bucket q.idx
      rw [← hbk] at he
      rw [← he, ← this]
    refine ⟨⟨?_, ?_⟩, ?_⟩
    · intro herr
      rw [hrun] at herr
      cases herr
    · intro hall
      exact absurd hpe (hall q.scope (by rw [heq]; simp) (hash nm) e (List.getElem?_mem he))
    · intro _
      refine ⟨q, _, e, nearer, farther, hrun, hderef, hpe, ?_, heq, ?_, ?_, ?_, ?_,
        length_modifySymbol _ _ _, rfl, rfl, rfl, rfl⟩
      · intro i x hi hx hxn
        rw [hbk] at hx
        have hmem : x ∈ (st.chain q.scope (hash nm)).take q.idx := by
          rw [List.mem_iff_getElem?]
          exact ⟨i, by rw [List.getElem?_take_of_lt hi]; exact hx⟩
        have := hbefore x hmem
        simp [hxn] at this
      · intro j hj
        exact (hnone j).mp (hnear j hj)
      · rw [derefSymbol_modifySymbol, if_pos rfl, hderef]
        rfl
      · intro q1 hq1
        rw [derefSymbol_modifySymbol, if_neg hq1]
      · intro j
        exact headerOf_modifySymbol _ _ _ _

theorem localFState_tablesOk : TablesOk localFState :=
  have hrun : buildSymtab progLocalF State.initial =
      .ok (okTree (buildSymtab progLocalF State.initial), localFState) := by rfl
  buildSymtab_tablesOk hrun

theorem appendSymbol_appends_witness :
    3 < localFState.scopeList.length ∧ ParentsBelow localFState ∧ Bucketed localFState ∧
      ancestors localFState localFState.scopeList.length (some 3) = [3, 0] ∧
      (appendSymbol (some 3) (some "f") 9 localFState = .error .errorCheck ↔
        ∀ j ∈ ancestors localFState localFState.scopeList.length (some 3), ∀ b,
          ∀ e ∈ localFState.chain j b, e.name ≠ "f") ∧
      (appendSymbol (some 3) (some "f") 9 localFState).map
          (fun r => (r.1, (derefSymbol r.2 r.1).map fun e => (e.kind, e.lineList))) =
        .ok (⟨3, hash "f", 0⟩, some (.VariableSym, [3, 9])) ∧
      (appendSymbol (some 3) (some "h") 9 localFState).map (fun r => r.1) = .error .errorCheck :=
  ⟨by decide, localFState_tablesOk.1, localFState_tablesOk.2.1, by decide,
    (appendSymbol_appends localFState 3 "f" 9 (by decide) localFState_tablesOk.1
      localFState_tablesOk.2.1).1,
    by decide, by decide⟩

theorem bump_match (x : Option Nat) (s : SemanticErrorState) :
    insertSymbol.bump (match x with
      | some i => .inl i
      | none => .inr s) =
    match x.map (· + 1) with
      | some i => .inl i
      | none => .inr s := by
  cases x <;> rfl

/-- The loop of `insertSymbol`: it returns the first placeholder of the name; without one,
the state for the new entry is Redefined when an entry of the name before the end is, and
the initial state otherwise. -/
theorem insertSymbol_scan_eq (nm : String) (l : List SymbolRec) (state : SemanticErrorState) :
    insertSymbol.scan nm l state =
      match chainFind (isPlaceholder nm) l with
      | some i => .inl i
      | none => .inr (if l.any (isRedefined nm) then .STATE_REDEFINED else state) := by
  induction l generalizing state with
  | nil => rfl
  | cons a rest ih =>
    simp only [insertSymbol.scan, chainFind, List.any_cons]
    by_cases hn : a.name = nm
    · by_cases hr : a.state = .STATE_REDEFINED
      · have h1 : isPlaceholder nm a = false := by simp [isPlaceholder, hr]
        have h2 : isRedefined nm a = true := by simp [isRedefined, hn, hr]
        simp only [hn, hr, if_true, h1, h2, Bool.false_eq_true, if_false, Bool.true_or, ih]
        rw [bump_match]
        cases chainFind (isPlaceholder nm) rest <;> simp
      · by_cases hu : a.state = .STATE_UNDECLARED
        · have h1 : isPlaceholder nm a = true := by simp [isPlaceholder, hn, hu]
          simp [hn, hu, h1]
        · have h1 : isPlaceholder nm a = false := by simp [isPlaceholder, hu]
          have h2 : isRedefined nm a = false := by simp [isRedefined, hr]
          simp only [hn, hr, hu, if_true, if_false, h1, h2, Bool.false_eq_true, Bool.false_or, ih]
          rw [bump_match]
    · have h1 : isPlaceholder nm a = false := by simp [isPlaceholder, hn]
      have h2 : isRedefined nm a = false := by simp [isRedefined, hn]
      simp only [hn, if_false, h1, h2, Bool.false_eq_true, Bool.false_or, ih]
      rw [bump_match]

/-- The result of `insertSymbol` when the bucket holds no placeholder of the name. -/
theorem insertSymbol_new (st : State) (k : Nat) (s : ScopeRec) (nm : String) (type : NodeType)
    (kind : SymbolKind) (lineno : Int) (node : TreeNode) (hs : st.scopeList[k]? = some s)
    (hfind : chainFind (isPlaceholder nm) (s.symbolList (hash nm)) = none) :
    insertSymbol (some k) (some nm) type kind lineno node st =
      .ok (⟨k, hash nm, (s.symbolList (hash nm)).length⟩, modifyScope st k fun s1 =>
        { s1 with numSymbols := s1.numSymbols + 1
                  symbolList := Function.update s1.symbolList (hash nm)
                    (s.symbolList (hash nm) ++
                      [freshSymbol nm type kind lineno node
                        (if (s.symbolList (hash nm)).any (isRedefined nm) then .STATE_REDEFINED
                          else .STATE_NORMAL) s.numSymbols]) }) := by
  simp only [insertSymbol, ERROR_CHECK, Option.isSome_some, Bool.and_self, if_true, bind, Except.bind,
    derefScope, hs, Option.getD_some, insertSymbol_scan_eq, hfind]
  rfl

/-- The result of `insertSymbol` when the bucket holds a placeholder of the name. -/
theorem insertSymbol_promote (st : State) (k : Nat) (s : ScopeRec) (nm : String) (type : NodeType)
    (kind : SymbolKind) (lineno : Int) (node : TreeNode) (i : Nat) (hs : st.scopeList[k]? = some s)
    (hfind : chainFind (isPlaceholder nm) (s.symbolList (hash nm)) = some i) :
    insertSymbol (some k) (some nm) type kind lineno node st =
      .ok (⟨k, hash nm, i⟩, modifySymbol st ⟨k, hash nm, i⟩ fun e =>
        { e with type := type
                 state := if node = .null then .STATE_UNDECLARED else .STATE_NORMAL }) := by
  simp only [insertSymbol, ERROR_CHECK, Option.isSome_some, Bool.and_self, if_true, bind, Except.bind,
    derefScope, hs, Option.getD_some, insertSymbol_scan_eq, hfind]
  rfl

/-- What a new entry changes: the bucket, the symbol count, and nothing else. -/
theorem insertSymbol_new_view (st : State) (k : Nat) (s : ScopeRec) (b : Nat)
    (x : SymbolRec) (hs : st.scopeList[k]? = some s) :
    (modifyScope st k fun s1 =>
        { s1 with numSymbols := s1.numSymbols + 1
                  symbolList := Function.update s1.symbolList b (s.symbolList b ++ [x]) }).chain k b =
        st.chain k b ++ [x] ∧
      (∀ k1 b1, ¬ (k1 = k ∧ b1 = b) →
        (modifyScope st k fun s1 =>
          { s1 with numSymbols := s1.numSymbols + 1
                    symbolList := Function.update s1.symbolList b (s.symbolList b ++ [x]) }).chain k1 b1 =
          st.chain k1 b1) ∧
      (∀ j, (modifyScope st k fun s1 =>
          { s1 with numSymbols := s1.numSymbols + 1
                    symbolList := Function.update s1.symbolList b (s.symbolList b ++ [x]) }).countOf j =
          if j = k then st.countOf k + 1 else st.countOf j) ∧
      (∀ j, (modifyScope st k fun s1 =>
          { s1 with numSymbols := s1.numSymbols + 1
                    symbolList := Function.update s1.symbolList b (s.symbolList b ++ [x]) }).headerOf j =
          (st.headerOf j).map fun h =>
            if j = k then (h.1, h.2.1, h.2.2.1, h.2.2.2.1 + 1, h.2.2.2.2) else h) := by
  have hchain := chain_of_getElem? hs b
  refine ⟨?_, ?_, ?_, ?_⟩
  · rw [chain_modifyScope]
    simp [hs, hchain]
  · intro k1 b1 hne
    rw [chain_modifyScope]
    by_cases hk1 : k1 = k
    · subst hk1
      have hb : b1 ≠ b := fun h => hne ⟨rfl, h⟩
      simp [hs, Function.update_noteq hb, State.chain]
    · simp [hk1]
  · intro j
    simp only [State.countOf, modifyScope, getElem?_updateAt]
    by_cases hj : j = k
    · subst hj
      simp [hs]
    · simp [hj]
  · intro j
    simp only [State.headerOf, modifyScope, getElem?_updateAt]
    by_cases hj : j = k
    · subst hj
      simp [hs, ScopeRec.header]
    · simp only [hj, if_false]
      cases st.scopeList[j]? <;> rfl

/-- C23. When the table of a scope of the directory holds no entry of the name,
`insertSymbol` returns a new entry with the given name, type, kind and declaration node, a
line list that is exactly the given line, state Undeclared when the declaration node is
absent and Normal otherwise, and the symbol count of the scope as slot index; the entry is
placed at the end of its bucket, the symbol count grows by one, and nothing else in the
tables changes. Well-formed tables (slot indices of a scope pairwise distinct and exactly
the numbers below its symbol count) stay well formed, as the tables of every completed
pass 1 are: in creation order the slot indices of a scope are 0, 1, 2, ... -/
theorem insertSymbol_creates (st : State) (k : Nat) (nm : String) (type : NodeType)
    (kind : SymbolKind) (lineno : Int) (node : TreeNode) (hk : k < st.scopeList.length)
    (hnone : ∀ b, ∀ e ∈ st.chain k b, e.name ≠ nm) :
    (∃ stn, insertSymbol (some k) (some nm) type kind lineno node st =
        .ok (⟨k, hash nm, (st.chain k (hash nm)).length⟩, stn) ∧
      stn.chain k (hash nm) = st.chain k (hash nm) ++
        [{ name := nm, state := if node = .null then .STATE_UNDECLARED else .STATE_NORMAL,
           type := type, kind := kind, lineList := [lineno], memloc := st.countOf k,
           node := node }] ∧
      (∀ k1 b1, ¬ (k1 = k ∧ b1 = hash nm) → stn.chain k1 b1 = st.chain k1 b1) ∧
      stn.countOf k = st.countOf k + 1 ∧
      (∀ j, stn.headerOf j = (st.headerOf j).map fun h =>
        if j = k then (h.1, h.2.1, h.2.2.1, h.2.2.2.1 + 1, h.2.2.2.2) else h) ∧
      stn.scopeList.length = st.scopeList.length ∧
      stn.globalScope = st.globalScope ∧ stn.currentScope = st.currentScope ∧
      stn.Error = st.Error ∧ stn.listing = st.listing ∧
      (TablesOk st → TablesOk stn)) ∧
    (∀ t t1 st1, buildSymtab t State.initial = .ok (t1, st1) → SlotsOk st1) ∧
    (["input", "output", "f", "main"].map fun n => localFState.keys 0 (hash n)) =
      [[("input", 0)], [("output", 1)], [("f", 2)], [("main", 3)]] ∧
    localFState.countOf 0 = 4 := by
  refine ⟨?_, fun t t1 st1 h => (buildSymtab_tablesOk h).2.2, by decide, by decide⟩
  obtain ⟨s, hs⟩ := getElem?_of_lt_scopes hk
  have hchain := chain_of_getElem? hs (hash nm)
  have hfind : chainFind (isPlaceholder nm) (s.symbolList (hash nm)) = none := by
    rw [chainFind_eq_none]
    intro e he
    have := hnone (hash nm) e (by rw [hchain]; exact he)
    simp [isPlaceholder, this]
  have hany : (s.symbolList (hash nm)).any (isRedefined nm) = false := by
    rw [List.any_eq_false]
    intro e he
    have := hnone (hash nm) e (by rw [hchain]; exact he)
    simp [isRedefined, this]
  have hrun := insertSymbol_new st k s nm type kind lineno node hs hfind
  rw [hany] at hrun
  obtain ⟨v1, v2, v3, v4⟩ := insertSymbol_new_view st k s (hash nm)
    (freshSymbol nm type kind lineno node .STATE_NORMAL s.numSymbols) hs
  have hcount : st.countOf k = s.numSymbols := by simp [State.countOf, hs]
  refine ⟨_, by rw [hchain]; exact hrun, ?_, v2, ?_, v4, length_modifyScope _ _ _, rfl, rfl, rfl,
    rfl, fun hok => insertSymbol_tablesOk hrun hok⟩
  · rw [hcount]
    exact v1
  · rw [v3 k, if_pos rfl]

theorem insertSymbol_creates_witness :
    0 < localFState.scopeList.length ∧
      (∀ b, ∀ e ∈ localFState.chain 0 b, e.name ≠ "h") ∧ TablesOk localFState ∧
      localFState.countOf 0 = 4 ∧
      (stateOf (insertSymbol (some 0) (some "h") .Integer .VariableSym 7 .null
        localFState)).entries 0 (hash "h") = [("h", .STATE_UNDECLARED, [7], 4)] ∧
      ∃ stn, insertSymbol (some 0) (some "h") .Integer .VariableSym 7 .null localFState =
          .ok (⟨0, hash "h", (localFState.chain 0 (hash "h")).length⟩, stn) ∧
        stn.chain 0 (hash "h") = localFState.chain 0 (hash "h") ++
          [{ name := "h",
             state := if TreeNode.null = .null then .STATE_UNDECLARED else .STATE_NORMAL,
             type := .Integer, kind := .VariableSym, lineList := [7],
             memloc := localFState.countOf 0, node := .null }] ∧
        (∀ k1 b1, ¬ (k1 = 0 ∧ b1 = hash "h") → stn.chain k1 b1 = localFState.chain k1 b1) ∧
        stn.countOf 0 = localFState.countOf 0 + 1 ∧
        (∀ j, stn.headerOf j = (localFState.headerOf j).map fun h =>
          if j = 0 then (h.1, h.2.1, h.2.2.1, h.2.2.2.1 + 1, h.2.2.2.2) else h) ∧
        stn.scopeList.length = localFState.scopeList.length ∧
        stn.globalScope = localFState.globalScope ∧
        stn.currentScope = localFState.currentScope ∧
        stn.Error = localFState.Error ∧ stn.listing = localFState.listing ∧
        (TablesOk localFState → TablesOk stn) :=
  have hnone : ∀ b, ∀ e ∈ localFState.chain 0 b, e.name ≠ "h" :=
    (chainFind_name_bucketed localFState_tablesOk.2.1 0 "h").mp (by decide)
  ⟨by decide, hnone, localFState_tablesOk, by decide, by decide,
    (insertSymbol_creates localFState 0 "h" .Integer .VariableSym 7 .null (by decide) hnone).1⟩

theorem chain_length_modifySymbol (st : State) (p : SymPtr) (f : SymbolRec → SymbolRec)
    (k b : Nat) : ((modifySymbol st p f).chain k b).length = (st.chain k b).length := by
  rw [chain_modifySymbol]
  split
  · exact length_updateAt _ _ _
  · rfl

/-- C24. When the table of a scope of the directory (every symbol lying in the bucket of
its name) holds an entry of the name whose state is Undeclared, `insertSymbol` allocates
nothing and returns the first such entry of the bucket, with its type set to the given
type and its state set to Normal when the declaration node is present and left Undeclared
when it is absent; its name, kind, slot index, line list and declaration node, every other
symbol, the length of every chain, the header of every scope (symbol count included), the
scope pointers, the error flag and the listing are unchanged. -/
theorem insertSymbol_promotes (st : State) (k : Nat) (nm : String) (type : NodeType)
    (kind : SymbolKind) (lineno : Int) (node : TreeNode) (hk : k < st.scopeList.length)
    (hb : Bucketed st)
    (hex : ∃ b, ∃ e ∈ st.chain k b, e.name = nm ∧ e.state = .STATE_UNDECLARED) :
    ∃ i e stn, insertSymbol (some k) (some nm) type kind lineno node st =
        .ok (⟨k, hash nm, i⟩, stn) ∧
      derefSymbol st ⟨k, hash nm, i⟩ = some e ∧ e.name = nm ∧ e.state = .STATE_UNDECLARED ∧
      (∀ j x, j < i → (st.chain k (hash nm))[j]? = some x →
        ¬ (x.name = nm ∧ x.state = .STATE_UNDECLARED)) ∧
      derefSymbol stn ⟨k, hash nm, i⟩ =
        some { e with type := type
                      state := if node = .null then .STATE_UNDECLARED else .STATE_NORMAL } ∧
      (∀ q, q ≠ ⟨k, hash nm, i⟩ → derefSymbol stn q = derefSymbol st q) ∧
      (∀ j b, (stn.chain j b).length = (st.chain j b).length) ∧
      (∀ j, stn.headerOf j = st.headerOf j) ∧
      stn.scopeList.length = st.scopeList.length ∧
      stn.globalScope = st.globalScope ∧ stn.currentScope = st.currentScope ∧
      stn.Error = st.Error ∧ stn.listing = st.listing := by
  obtain ⟨s, hs⟩ := getElem?_of_lt_scopes hk
  have hchain := chain_of_getElem? hs (hash nm)
  obtain ⟨b, e0, he0, hn0, hu0⟩ := hex
  have hb0 : b = hash nm := by
    rw [← hn0]
    exact hb k b e0 he0
  rw [hb0] at he0
  cases hfind : chainFind (isPlaceholder nm) (s.symbolList (hash nm)) with
  | none =>
    rw [chainFind_eq_none] at hfind
    have := hfind e0 (by rw [← hchain]; exact he0)
    simp [isPlaceholder, hn0, hu0] at this
  | some i =>
    obtain ⟨e, he, hpe, hbefore⟩ := chainFind_eq_some hfind
    simp only [isPlaceholder, Bool.and_eq_true, decide_eq_true_eq] at hpe
    have hderef : derefSymbol st ⟨k, hash nm, i⟩ = some e := by
      rw [derefSymbol_eq, hchain]
      exact he
    refine ⟨i, e, _, insertSymbol_promote st k s nm type kind lineno node i hs hfind, hderef,
      hpe.1, hpe.2, ?_, ?_, ?_, fun j b => chain_length_modifySymbol _ _ _ _ _,
      fun j => headerOf_modifySymbol _ _ _ _, length_modifySymbol _ _ _, rfl, rfl, rfl, rfl⟩
    · intro j x hj hx hxo
      rw [hchain] at hx
      have hmem : x ∈ (s.symbolList (hash nm)).take i := by
        rw [List.mem_iff_getElem?]
        exact ⟨j, by rw [List.getElem?_take_of_lt hj]; exact hx⟩
      have := hbefore x hmem
      simp [isPlaceholder, hxo.1, hxo.2] at this
    · rw [derefSymbol_modifySymbol, if_pos rfl, hderef]
      rfl
    · intro q hq
      rw [derefSymbol_modifySymbol, if_neg hq]

theorem callOnlyState_tablesOk : TablesOk callOnlyState :=
  have hrun : buildSymtab progCallOnly State.initial =
      .ok (okTree (buildSymtab progCallOnly State.initial), callOnlyState) := by rfl
  buildSymtab_tablesOk hrun

theorem insertSymbol_promotes_witness :
    0 < callOnlyState.scopeList.length ∧ Bucketed callOnlyState ∧
      callOnlyState.entries 0 (hash "g") = [("g", .STATE_UNDECLARED, [2], 3)] ∧
      (stateOf (insertSymbol (some 0) (some "g") .Integer .FunctionSym 5
        (funDecl 5 .Integer "g" .null .null .null) callOnlyState)).entries 0 (hash "g") =
        [("g", .STATE_NORMAL, [2], 3)] ∧
      ∃ i e stn, insertSymbol (some 0) (some "g") .Integer .FunctionSym 5
            (funDecl 5 .Integer "g" .null .null .null) callOnlyState =
          .ok (⟨0, hash "g", i⟩, stn) ∧
        derefSymbol callOnlyState ⟨0, hash "g", i⟩ = some e ∧ e.name = "g" ∧
        e.state = .STATE_UNDECLARED ∧
        (∀ j x, j < i → (callOnlyState.chain 0 (hash "g"))[j]? = some x →
          ¬ (x.name = "g" ∧ x.state = .STATE_UNDECLARED)) ∧
        derefSymbol stn ⟨0, hash "g", i⟩ =
          some { e with type := .Integer
                        state := if funDecl 5 .Integer "g" .null .null .null = .null
                          then .STATE_UNDECLARED else .STATE_NORMAL } ∧
        (∀ q, q ≠ ⟨0, hash "g", i⟩ → derefSymbol stn q = derefSymbol callOnlyState q) ∧
        (∀ j b, (stn.chain j b).length = (callOnlyState.chain j b).length) ∧
        (∀ j, stn.headerOf j = callOnlyState.headerOf j) ∧
        stn.scopeList.length = callOnlyState.scopeList.length ∧
        stn.globalScope = callOnlyState.globalScope ∧
        stn.currentScope = callOnlyState.currentScope ∧
        stn.Error = callOnlyState.Error ∧ stn.listing = callOnlyState.listing :=
  ⟨by decide, callOnlyState_tablesOk.2.1, by decide, by decide,
    insertSymbol_promotes callOnlyState 0 "g" .Integer .FunctionSym 5
      (funDecl 5 .Integer "g" .null .null .null) (by decide) callOnlyState_tablesOk.2.1
      ⟨hash "g", (callOnlyState.chain 0 (hash "g")).headD
        (freshSymbol "" .None .VariableSym 0 .null .STATE_NORMAL 0), by decide, by decide,
        by decide⟩⟩

/-- C25, counterexample. After `int x; int x;` the global table holds two entries `x`,
both flagged Redefined, none Undeclared: the second declaration was inserted although the
table held an entry of the name that was not Undeclared, and a further `insertSymbol` of
`x` does not fail either; it adds a third entry, flagged Redefined, with the next slot
index. -/
theorem insertSymbol_accepts_redefined_name :
    listingOf (buildSymtab progTwice State.initial) = .ok [.redefinition "x" 3 [2]] ∧
      twiceState.entries 0 (hash "x") =
        [("x", .STATE_REDEFINED, [2], 2), ("x", .STATE_REDEFINED, [3], 3)] ∧
      (insertSymbol (some 0) (some "x") .Integer .VariableSym 4
        (varDecl 4 .Integer "x" .null .null) twiceState).map (fun r => r.1) =
        .ok ⟨0, hash "x", 2⟩ ∧
      (stateOf (insertSymbol (some 0) (some "x") .Integer .VariableSym 4
        (varDecl 4 .Integer "x" .null .null) twiceState)).entries 0 (hash "x") =
        [("x", .STATE_REDEFINED, [2], 2), ("x", .STATE_REDEFINED, [3], 3),
          ("x", .STATE_REDEFINED, [4], 4)] := by
  decide

/-- C25, amended. When the table of a scope of the directory (every symbol lying in the
bucket of its name) holds entries of the name and every one of them is flagged Redefined,
`insertSymbol` does not fail: it returns a new entry placed at the end of the bucket, with
the given name, type, kind and declaration node, the given line as line list, the symbol
count of the scope as slot index, and state Redefined (Undeclared when the declaration
node is absent); the symbol count grows by one and nothing else in the tables changes. -/
theorem insertSymbol_flags_new_entry (st : State) (k : Nat) (nm : String) (type : NodeType)
    (kind : SymbolKind) (lineno : Int) (node : TreeNode) (hk : k < st.scopeList.length)
    (hb : Bucketed st) (hex : ∃ b, ∃ e ∈ st.chain k b, e.name = nm)
    (hall : ∀ b, ∀ e ∈ st.chain k b, e.name = nm → e.state = .STATE_REDEFINED) :
    ∃ stn, insertSymbol (some k) (some nm) type kind lineno node st =
        .ok (⟨k, hash nm, (st.chain k (hash nm)).length⟩, stn) ∧
      stn.chain k (hash nm) = st.chain k (hash nm) ++
        [{ name := nm, state := if node = .null then .STATE_UNDECLARED else .STATE_REDEFINED,
           type := type, kind := kind, lineList := [lineno], memloc := st.countOf k,
           node := node }] ∧
      (∀ k1 b1, ¬ (k1 = k ∧ b1 = hash nm) → stn.chain k1 b1 = st.chain k1 b1) ∧
      stn.countOf k = st.countOf k + 1 ∧
      (∀ j, stn.headerOf j = (st.headerOf j).map fun h =>
        if j = k then (h.1, h.2.1, h.2.2.1, h.2.2.2.1 + 1, h.2.2.2.2) else h) ∧
      stn.scopeList.length = st.scopeList.length ∧
      stn.globalScope = st.globalScope ∧ stn.currentScope = st.currentScope ∧
      stn.Error = st.Error ∧ stn.listing = st.listing := by
  obtain ⟨s, hs⟩ := getElem?_of_lt_scopes hk
  have hchain := chain_of_getElem? hs (hash nm)
  obtain ⟨b, e0, he0, hn0⟩ := hex
  have hb0 : b = hash nm := by
    rw [← hn0]
    exact hb k b e0 he0
  rw [hb0] at he0
  have hfind : chainFind (isPlaceholder nm) (s.symbolList (hash nm)) = none := by
    rw [chainFind_eq_none]
    intro e he
    simp only [isPlaceholder, Bool.and_eq_false_imp, decide_eq_true_eq, decide_eq_false_iff_not]
    intro hn
    rw [hall (hash nm) e (by rw [hchain]; exact he) hn]
    simp
  have hany : (s.symbolList (hash nm)).any (isRedefined nm) = true := by
    rw [List.any_eq_true]
    refine ⟨e0, by rw [← hchain]; exact he0, ?_⟩
    simp [isRedefined, hn0, hall (hash nm) e0 he0 hn0]
  have hrun := insertSymbol_new st k s nm type kind lineno node hs hfind
  rw [hany] at hrun
  obtain ⟨v1, v2, v3, v4⟩ := insertSymbol_new_view st k s (hash nm)
    (freshSymbol nm type kind lineno node .STATE_REDEFINED s.numSymbols) hs
  have hcount : st.countOf k = s.numSymbols := by simp [State.countOf, hs]
  refine ⟨_, by rw [hchain]; exact hrun, ?_, v2, ?_, v4, length_modifyScope _ _ _, rfl, rfl, rfl,
    rfl⟩
  · rw [hcount]
    exact v1
  · rw [v3 k, if_pos rfl]

theorem twiceState_tablesOk : TablesOk twiceState :=
  have hrun : buildSymtab progTwice State.initial =
      .ok (okTree (buildSymtab progTwice State.initial), twiceState) := by rfl
  buildSymtab_tablesOk hrun

theorem insertSymbol_flags_new_entry_witness :
    0 < twiceState.scopeList.length ∧ Bucketed twiceState ∧
      (∃ b, ∃ e ∈ twiceState.chain 0 b, e.name = "x") ∧
      (∀ b, ∀ e ∈ twiceState.chain 0 b, e.name = "x" → e.state = .STATE_REDEFINED) ∧
      ∃ stn, insertSymbol (some 0) (some "x") .Integer .VariableSym 4
            (varDecl 4 .Integer "x" .null .null) twiceState =
          .ok (⟨0, hash "x", (twiceState.chain 0 (hash "x")).length⟩, stn) ∧
        stn.chain 0 (hash "x") = twiceState.chain 0 (hash "x") ++
          [{ name := "x",
             state := if varDecl 4 .Integer "x" .null .null = .null then .STATE_UNDECLARED
               else .STATE_REDEFINED,
             type := .Integer, kind := .VariableSym, lineList := [4],
             memloc := twiceState.countOf 0, node := varDecl 4 .Integer "x" .null .null }] ∧
        (∀ k1 b1, ¬ (k1 = 0 ∧ b1 = hash "x") → stn.chain k1 b1 = twiceState.chain k1 b1) ∧
        stn.countOf 0 = twiceState.countOf 0 + 1 ∧
        (∀ j, stn.headerOf j = (twiceState.headerOf j).map fun h =>
          if j = 0 then (h.1, h.2.1, h.2.2.1, h.2.2.2.1 + 1, h.2.2.2.2) else h) ∧
        stn.scopeList.length = twiceState.scopeList.length ∧
        stn.globalScope = twiceState.globalScope ∧
        stn.currentScope = twiceState.currentScope ∧
        stn.Error = twiceState.Error ∧ stn.listing = twiceState.listing :=
  have hex : ∃ b, ∃ e ∈ twiceState.chain 0 b, e.name = "x" :=
    ⟨hash "x", (twiceState.chain 0 (hash "x")).headD
      (freshSymbol "" .None .VariableSym 0 .null .STATE_NORMAL 0), by decide, by decide⟩
  have hall : ∀ b, ∀ e ∈ twiceState.chain 0 b, e.name = "x" → e.state = .STATE_REDEFINED := by
    intro b e he hn
    have hb0 : b = hash "x" := by
      rw [← hn]
      exact twiceState_tablesOk.2.1 0 b e he
    subst hb0
    have hdec : ∀ y ∈ twiceState.chain 0 (hash "x"), y.state = .STATE_REDEFINED := by decide
    exact hdec e he
  ⟨by decide, twiceState_tablesOk.2.1, hex, hall,
    insertSymbol_flags_new_entry twiceState 0 "x" .Integer .VariableSym 4
      (varDecl 4 .Integer "x" .null .null) (by decide) twiceState_tablesOk.2.1 hex hall⟩

theorem traverse_total (preProc postProc : Proc)
    (hpre : ∀ d c0 c1 c2 sib st, ∃ r, preProc (.node d c0 c1 c2 sib) st = .ok r)
    (hpost : ∀ d c0 c1 c2 sib st, ∃ r, postProc (.node d c0 c1 c2 sib) st = .ok r) :
    ∀ t st, ∃ r, traverse preProc postProc t st = .ok r := by
  intro t
  induction t with
  | null => exact fun st => ⟨_, rfl⟩
  | node d c0 c1 c2 sib ih0 ih1 ih2 ihs =>
    intro st
    obtain ⟨⟨d1, st1⟩, h1⟩ := hpre d c0 c1 c2 sib st
    obtain ⟨⟨c0n, st2⟩, h2⟩ := ih0 st1
    obtain ⟨⟨c1n, st3⟩, h3⟩ := ih1 st2
    obtain ⟨⟨c2n, st4⟩, h4⟩ := ih2 st3
    obtain ⟨⟨d2, st5⟩, h5⟩ := hpost d1 c0n c1n c2n sib st4
    obtain ⟨⟨sibn, st6⟩, h6⟩ := ihs st5
    exact ⟨_, (traverse_node_ok _ _ _ _ _ _ _ _ _).mpr
      ⟨d1, st1, c0n, st2, c1n, st3, c2n, st4, d2, st5, sibn, st6, h1, h2, h3, h4, h5, h6, rfl⟩⟩

theorem traverse_log {ε : Type} (preProc postProc : Proc) (log : State → List ε)
    (evPre evPost : TreeNode → ε)
    (hpre : ∀ d c0 c1 c2 sib st, ∃ st1, preProc (.node d c0 c1 c2 sib) st = .ok (d, st1) ∧
      log st1 = log st ++ [evPre (.node d c0 c1 c2 sib)])
    (hpost : ∀ d c0 c1 c2 sib st, ∃ st1, postProc (.node d c0 c1 c2 sib) st = .ok (d, st1) ∧
      log st1 = log st ++ [evPost (.node d c0 c1 c2 sib)]) :
    ∀ t st, ∃ stn, traverse preProc postProc t st = .ok (t, stn) ∧
      log stn = log st ++ (visits t).map (Visit.event evPre evPost) := by
  intro t
  induction t with
  | null => exact fun st => ⟨st, rfl, by simp [visits]⟩
  | node d c0 c1 c2 sib ih0 ih1 ih2 ihs =>
    intro st
    obtain ⟨st1, h1, l1⟩ := hpre d c0 c1 c2 sib st
    obtain ⟨st2, h2, l2⟩ := ih0 st1
    obtain ⟨st3, h3, l3⟩ := ih1 st2
    obtain ⟨st4, h4, l4⟩ := ih2 st3
    obtain ⟨st5, h5, l5⟩ := hpost d c0 c1 c2 sib st4
    obtain ⟨st6, h6, l6⟩ := ihs st5
    refine ⟨st6, (traverse_node_ok _ _ _ _ _ _ _ _ _).mpr
      ⟨d, st1, c0, st2, c1, st3, c2, st4, d, st5, sib, st6, h1, h2, h3, h4, h5, h6, rfl⟩, ?_⟩
    rw [l6, l5, l4, l3, l2, l1]
    simp [visits, Visit.event]

theorem visits_pre (t : TreeNode) : (visits t).filterMap Visit.pre? = t.reachable := by
  induction t with
  | null => rfl
  | node d c0 c1 c2 sib ih0 ih1 ih2 ihs =>
    simp only [visits, TreeNode.reachable, List.filterMap_cons, Visit.pre?, List.filterMap_append,
      ih0, ih1, ih2, ihs]

theorem visits_post (t : TreeNode) : ((visits t).filterMap Visit.post?).Perm t.reachable := by
  induction t with
  | null => exact List.Perm.refl _
  | node d c0 c1 c2 sib ih0 ih1 ih2 ihs =>
    simp only [visits, TreeNode.reachable, List.filterMap_cons, Visit.post?, List.filterMap_append]
    have h3 : (List.filterMap Visit.post? (visits c2) ++
        TreeNode.node d c0 c1 c2 sib :: List.filterMap Visit.post? (visits sib)).Perm
        (TreeNode.node d c0 c1 c2 sib :: (c2.reachable ++ sib.reachable)) :=
      List.perm_middle.trans (List.Perm.cons _ (List.Perm.append ih2 ihs))
    have h2 := List.Perm.append ih1 h3
    have h1 := List.Perm.append ih0 h2
    refine h1.trans ?_
    refine (List.Perm.append_left _ List.perm_middle).trans ?_
    exact List.perm_middle

/-- C27. For callbacks that return on every node and record their invocation in a log,
leaving the fields of the node alone, `traverse` returns on every tree, hands the tree
back, and the log grows by exactly the sequence `visits`: the pre-visit of the node, the
complete traversals of child slots 0, 1 and 2 in that order, the post-visit of the node,
then the complete traversal of the sibling. For every pair of callbacks, an absent node
triggers no callback and leaves the state, and a traversal of a node completes exactly when
the pre-visit, the traversals of the three child slots, the post-visit (on the node as the
pre-visit and the child traversals left it) and the traversal of the sibling complete one
after the other, each from the state the one before left; with callbacks that return on every node,
`traverse` returns on every tree; and in `visits` every node reachable through child and
sibling links has exactly one pre-visit and exactly one post-visit. -/
theorem traverse_visits_in_order {ε : Type} (preProc postProc : Proc) (log : State → List ε)
    (evPre evPost : TreeNode → ε)
    (hpre : ∀ d c0 c1 c2 sib st, ∃ st1, preProc (.node d c0 c1 c2 sib) st = .ok (d, st1) ∧
      log st1 = log st ++ [evPre (.node d c0 c1 c2 sib)])
    (hpost : ∀ d c0 c1 c2 sib st, ∃ st1, postProc (.node d c0 c1 c2 sib) st = .ok (d, st1) ∧
      log st1 = log st ++ [evPost (.node d c0 c1 c2 sib)]) :
    (∀ t st, ∃ stn, traverse preProc postProc t st = .ok (t, stn) ∧
      log stn = log st ++ (visits t).map (Visit.event evPre evPost)) ∧
    (∀ (p q : Proc) (st : State), traverse p q .null st = .ok (.null, st)) ∧
    (∀ (p q : Proc) (d : NodeData) (c0 c1 c2 sib : TreeNode) (st : State) (r : TreeNode × State),
      traverse p q (.node d c0 c1 c2 sib) st = .ok r ↔
        ∃ d1 st1 c0n st2 c1n st3 c2n st4 d2 st5 sibn st6,
          p (.node d c0 c1 c2 sib) st = .ok (d1, st1) ∧
          traverse p q c0 st1 = .ok (c0n, st2) ∧
          traverse p q c1 st2 = .ok (c1n, st3) ∧
          traverse p q c2 st3 = .ok (c2n, st4) ∧
          q (.node d1 c0n c1n c2n sib) st4 = .ok (d2, st5) ∧
          traverse p q sib st5 = .ok (sibn, st6) ∧
          r = (.node d2 c0n c1n c2n sibn, st6)) ∧
    (∀ p q : Proc,
      (∀ d c0 c1 c2 sib st, ∃ r, p (.node d c0 c1 c2 sib) st = .ok r) →
      (∀ d c0 c1 c2 sib st, ∃ r, q (.node d c0 c1 c2 sib) st = .ok r) →
      ∀ t st, ∃ r, traverse p q t st = .ok r) ∧
    (∀ t, (visits t).filterMap Visit.pre? = t.reachable ∧
      ((visits t).filterMap Visit.post?).Perm t.reachable ∧
      (visits t).length = 2 * t.reachable.length) ∧
    listingOf (traverse (recordProc preLine) (recordProc postLine) fiveNodes State.initial) =
      .ok [.invalidCondition 1, .invalidCondition 2, .invalidReturn 2, .invalidCondition 3,
        .invalidReturn 3, .invalidCondition 4, .invalidReturn 4, .invalidReturn 1,
        .invalidCondition 5, .invalidReturn 5] := by
  refine ⟨traverse_log preProc postProc log evPre evPost hpre hpost, fun _ _ _ => rfl,
    traverse_node_ok, traverse_total, ?_, by decide⟩
  intro t
  refine ⟨visits_pre t, visits_post t, ?_⟩
  induction t with
  | null => rfl
  | node d c0 c1 c2 sib ih0 ih1 ih2 ihs =>
    simp only [visits, TreeNode.reachable, List.length_cons, List.length_append, ih0, ih1, ih2, ihs]
    omega

theorem traverse_visits_in_order_witness :
    (∀ d c0 c1 c2 sib st, ∃ st1, recordProc preLine (.node d c0 c1 c2 sib) st = .ok (d, st1) ∧
        st1.listing = st.listing ++ [preLine (.node d c0 c1 c2 sib)]) ∧
      (∀ d c0 c1 c2 sib st, ∃ st1, recordProc postLine (.node d c0 c1 c2 sib) st = .ok (d, st1) ∧
        st1.listing = st.listing ++ [postLine (.node d c0 c1 c2 sib)]) ∧
      ∀ t st, ∃ stn, traverse (recordProc preLine) (recordProc postLine) t st = .ok (t, stn) ∧
        stn.listing = st.listing ++ (visits t).map (Visit.event preLine postLine) :=
  ⟨fun _ _ _ _ _ _ => ⟨_, rfl, rfl⟩, fun _ _ _ _ _ _ => ⟨_, rfl, rfl⟩,
    (traverse_visits_in_order (recordProc preLine) (recordProc postLine) State.listing preLine
      postLine (fun _ _ _ _ _ _ => ⟨_, rfl, rfl⟩) (fun _ _ _ _ _ _ => ⟨_, rfl, rfl⟩)).1⟩

theorem TreeNode_Rel_mono {r s : NodeData → NodeData → Prop} (h : ∀ d e, r d e → s d e) :
    ∀ {t tn : TreeNode}, TreeNode.Rel r t tn → TreeNode.Rel s t tn := by
  intro t
  induction t with
  | null =>
    intro tn hr
    cases tn with
    | null => trivial
    | node _ _ _ _ _ => simp [TreeNode.Rel] at hr
  | node d c0 c1 c2 sib ih0 ih1 ih2 ihs =>
    intro tn hr
    cases tn with
    | null => simp [TreeNode.Rel] at hr
    | node e e0 e1 e2 es =>
      simp only [TreeNode.Rel] at hr ⊢
      exact ⟨h d e hr.1, ih0 hr.2.1, ih1 hr.2.2.1, ih2 hr.2.2.2.1, ihs hr.2.2.2.2⟩

theorem TreeNode_Rel_comp {r s u : NodeData → NodeData → Prop}
    (h : ∀ a b c, r a b → s b c → u a c) :
    ∀ {t t1 t2 : TreeNode}, TreeNode.Rel r t t1 → TreeNode.Rel s t1 t2 → TreeNode.Rel u t t2 := by
  intro t
  induction t with
  | null =>
    intro t1 t2 h1 h2
    cases t1 with
    | null =>
      cases t2 with
      | null => trivial
      | node _ _ _ _ _ => simp [TreeNode.Rel] at h2
    | node _ _ _ _ _ => simp [TreeNode.Rel] at h1
  | node d c0 c1 c2 sib ih0 ih1 ih2 ihs =>
    intro t1 t2 h1 h2
    cases t1 with
    | null => simp [TreeNode.Rel] at h1
    | node e e0 e1 e2 es =>
      cases t2 with
      | null => simp [TreeNode.Rel] at h2
      | node f f0 f1 f2 fs =>
        simp only [TreeNode.Rel] at h1 h2 ⊢
        exact ⟨h d e f h1.1 h2.1, ih0 h1.2.1 h2.2.1, ih1 h1.2.2.1 h2.2.2.1,
          ih2 h1.2.2.2.1 h2.2.2.2.1, ihs h1.2.2.2.2 h2.2.2.2.2⟩

theorem insertNode_scopeWrite {d d1 : NodeData} {c0 c1 c2 sib : TreeNode} {st stn : State}
    (h : insertNode (.node d c0 c1 c2 sib) st = .ok (d1, stn)) : scopeWrite d d1 := by
  have ho := insertNode_onlyScope h
  by_cases hk : d.kind = .FunctionDecl ∨ (d.kind = .CompoundStmt ∧ d.flag = false)
  · exact Or.inr ⟨hk, ho⟩
  · left
    simp only [not_or, not_and, Bool.not_eq_false] at hk
    obtain ⟨hk1, hk2⟩ := hk
    cases hkind : d.kind <;> simp only [insertNode, hkind] at h
    all_goals try (exact absurd hkind hk1)
    all_goals try (simp only [Except.ok.injEq, Prod.mk.injEq, reduceCtorEq] at h)
    all_goals try (exact h.1.symm)
    · simp only [bind_ok_iff, pure_ok_iff, Prod.exists, Prod.mk.injEq] at h
      obtain ⟨_, _, _, _, _, rfl, _⟩ := h
      rfl
    · split at h
      · simp only [Except.ok.injEq, Prod.mk.injEq] at h
        exact h.1.symm
      · simp only [bind_ok_iff, pure_ok_iff, Prod.exists, Prod.mk.injEq] at h
        obtain ⟨_, _, _, _, _, rfl, _⟩ := h
        rfl
    · rw [hk2 hkind] at h
      simp only [if_true, Except.ok.injEq, Prod.mk.injEq] at h
      exact h.1.symm
    · simp only [bind_ok_iff, Prod.exists] at h
      obtain ⟨func, _, h⟩ := h
      cases func <;>
      · simp only [bind_ok_iff, pure_ok_iff, Prod.exists, Prod.mk.injEq] at h
        obtain ⟨_, _, _, rfl, _⟩ := h
        rfl
    · simp only [bind_ok_iff, Prod.exists] at h
      obtain ⟨func, _, h⟩ := h
      cases func <;>
      · simp only [bind_ok_iff, pure_ok_iff, Prod.exists, Prod.mk.injEq] at h
        obtain ⟨_, _, _, rfl, _⟩ := h
        rfl

theorem checkNode_typeWrite {d d2 : NodeData} {c0 c1 c2 sib : TreeNode} {st stn : State}
    (h : checkNode (.node d c0 c1 c2 sib) st = .ok (d2, stn)) : typeWrite d d2 := by
  have ho := (checkNode_ok h).1
  by_cases hk : d.kind = .AssignExpr ∨ d.kind = .BinOpExpr ∨ d.kind = .CallExpr ∨
      d.kind = .VarAccessExpr ∨ d.kind = .ConstExpr
  · exact Or.inr ⟨hk, ho⟩
  · left
    simp only [not_or] at hk
    obtain ⟨k1, k2, k3, k4, k5⟩ := hk
    cases hkind : d.kind <;> simp only [checkNode, hkind] at h
    all_goals try (exact absurd hkind k1)
    all_goals try (exact absurd hkind k2)
    all_goals try (exact absurd hkind k3)
    all_goals try (exact absurd hkind k4)
    all_goals try (exact absurd hkind k5)
    all_goals try (simp only [Except.ok.injEq, Prod.mk.injEq, reduceCtorEq] at h)
    all_goals try (exact h.1.symm)
    · simp only [bind_ok_iff, pure_ok_iff, Prod.mk.injEq] at h
      obtain ⟨_, _, cd, _, rfl, _⟩ := h
      rfl
    · simp only [bind_ok_iff, pure_ok_iff, Prod.mk.injEq] at h
      obtain ⟨_, _, cd, _, rfl, _⟩ := h
      rfl
    · simp only [bind_ok_iff] at h
      obtain ⟨cur, _, _, _, fd, _, h⟩ := h
      split at h
      · simp only [pure_ok_iff, Prod.mk.injEq] at h
        exact h.1.symm
      · simp only [bind_ok_iff, pure_ok_iff, Prod.mk.injEq] at h
        obtain ⟨cd, _, rfl, _⟩ := h
        rfl

theorem pass1_scopeWrite (t : TreeNode) (st : State) (tn : TreeNode) (stn : State)
    (h : traverse insertNode scopeOut t st = .ok (tn, stn)) : TreeNode.Rel scopeWrite t tn := by
  revert t st tn stn
  apply traverse_induct
  · intro st
    trivial
  · intro d c0 c1 c2 sib st d1 st1 c0n st2 c1n st3 c2n st4 d2 st5 sibn st6 hpre r0 r1 r2 hpost rs
    obtain ⟨rfl, _⟩ := scopeOut_ok hpost
    exact ⟨insertNode_scopeWrite hpre, r0, r1, r2, rs⟩

theorem pass2_typeWrite (t : TreeNode) (st : State) (tn : TreeNode) (stn : State)
    (h : traverse scopeIn checkNode t st = .ok (tn, stn)) : TreeNode.Rel typeWrite t tn := by
  revert t st tn stn
  apply traverse_induct
  · intro st
    trivial
  · intro d c0 c1 c2 sib st d1 st1 c0n st2 c1n st3 c2n st4 d2 st5 sibn st6 hpre r0 r1 r2 hpost rs
    obtain ⟨rfl, _⟩ := scopeIn_ok hpre
    exact ⟨checkNode_typeWrite hpost, r0, r1, r2, rs⟩

theorem sameSyntax_of_writes (a b c : NodeData) (h1 : scopeWrite a b) (h2 : typeWrite b c) :
    sameSyntax a c := by
  have hab : sameSyntax a b := by
    rcases h1 with rfl | ⟨_, h⟩
    · exact ⟨rfl, rfl, rfl, rfl, rfl, rfl⟩
    · rw [h]
      exact ⟨rfl, rfl, rfl, rfl, rfl, rfl⟩
  have hbc : sameSyntax b c := by
    rcases h2 with rfl | ⟨_, h⟩
    · exact ⟨rfl, rfl, rfl, rfl, rfl, rfl⟩
    · rw [h]
      exact ⟨rfl, rfl, rfl, rfl, rfl, rfl⟩
  obtain ⟨a1, a2, a3, a4, a5, a6⟩ := hab
  obtain ⟨b1, b2, b3, b4, b5, b6⟩ := hbc
  exact ⟨b1.trans a1, b2.trans a2, b3.trans a3, b4.trans a4, b5.trans a5, b6.trans a6⟩

/-- C28. When pass 1 and then pass 2 complete, the tree each pass hands back has the
child slots and sibling links of the tree it received (`TreeNode.Rel`), and node by node:
pass 1 left the node as it was or wrote its `scope` field only, the latter only on a
function declaration or on a compound statement that is not a function body; pass 2 left
the node as it was or wrote its `type` field only, the latter only on an assignment,
binary-operator, call, variable-reference or constant node; so kind, line number, name
and flag (and operator and value) of every node are those of the input tree. -/
theorem passes_write_scope_and_type (t t1 t2 : TreeNode) (st st1 st2 : State)
    (h1 : buildSymtab t st = .ok (t1, st1)) (h2 : typeCheck t1 st1 = .ok (t2, st2)) :
    TreeNode.Rel scopeWrite t t1 ∧ TreeNode.Rel typeWrite t1 t2 ∧ TreeNode.Rel sameSyntax t t2 := by
  have r1 : TreeNode.Rel scopeWrite t t1 := by
    simp only [buildSymtab, bind_ok_iff, Prod.exists] at h1
    obtain ⟨g, sa, _, sb, _, h4⟩ := h1
    exact pass1_scopeWrite _ _ _ _ h4
  have r2 : TreeNode.Rel typeWrite t1 t2 := pass2_typeWrite _ _ _ _ h2
  exact ⟨r1, r2, TreeNode_Rel_comp sameSyntax_of_writes r1 r2⟩

theorem passes_write_scope_and_type_witness :
    buildSymtab progInnerBlock State.initial =
        .ok (okTree (buildSymtab progInnerBlock State.initial),
          okState (buildSymtab progInnerBlock State.initial)) ∧
      typeCheck (okTree (buildSymtab progInnerBlock State.initial))
          (okState (buildSymtab progInnerBlock State.initial)) =
        .ok (okTree (analyze progInnerBlock), okState (analyze progInnerBlock)) ∧
      progInnerBlock.annotations =
        [(.FunctionDecl, 1, none, .Integer), (.Params, 1, none, .Void),
          (.CompoundStmt, 1, none, .None), (.VariableDecl, 2, none, .Integer),
          (.CompoundStmt, 3, none, .None), (.VariableDecl, 3, none, .IntegerArray),
          (.ConstExpr, 3, none, .None), (.AssignExpr, 4, none, .None),
          (.VarAccessExpr, 4, none, .None), (.ConstExpr, 4, none, .None)] ∧
      (okTree (analyze progInnerBlock)).annotations =
        [(.FunctionDecl, 1, some 2, .Integer), (.Params, 1, none, .Void),
          (.CompoundStmt, 1, none, .None), (.VariableDecl, 2, none, .Integer),
          (.CompoundStmt, 3, some 3, .None), (.VariableDecl, 3, none, .IntegerArray),
          (.ConstExpr, 3, none, .Integer), (.AssignExpr, 4, none, .IntegerArray),
          (.VarAccessExpr, 4, none, .IntegerArray), (.ConstExpr, 4, none, .Integer)] ∧
      TreeNode.Rel scopeWrite progInnerBlock (okTree (buildSymtab progInnerBlock State.initial)) ∧
      TreeNode.Rel typeWrite (okTree (buildSymtab progInnerBlock State.initial))
        (okTree (analyze progInnerBlock)) ∧
      TreeNode.Rel sameSyntax progInnerBlock (okTree (analyze progInnerBlock)) :=
  ⟨by rfl, by rfl, by decide, by decide,
    passes_write_scope_and_type progInnerBlock _ _ State.initial _ _ (by rfl) (by rfl)⟩

/-- C29. When `typeCheck` completes, the scope directory is the one it started from, and
so is the global scope pointer: no scope and no symbol is added, the header of every scope
(name, state, owner, counters, parent) and every chain are unchanged, and every symbol is
found where it was with all its fields, its line list included (so the line list pass 1
left is a prefix of it). -/
theorem typeCheck_keeps_tables (t tn : TreeNode) (st stn : State)
    (h : typeCheck t st = .ok (tn, stn)) :
    stn.scopeList = st.scopeList ∧ stn.globalScope = st.globalScope ∧
      stn.scopeList.length = st.scopeList.length ∧
      (∀ j, stn.headerOf j = st.headerOf j) ∧
      (∀ k b, stn.chain k b = st.chain k b) ∧
      (∀ p, derefSymbol stn p = derefSymbol st p) ∧
      ∀ p e, derefSymbol st p = some e → ∃ e1, derefSymbol stn p = some e1 ∧
        e1.name = e.name ∧ e1.type = e.type ∧ e1.kind = e.kind ∧ e1.state = e.state ∧
        e1.memloc = e.memloc ∧ e1.node = e.node ∧ e.lineList <+: e1.lineList := by
  obtain ⟨_, hsl, hg, _, _⟩ := pass2_types t st tn stn h
  refine ⟨hsl, hg, by rw [hsl], fun j => by simp [State.headerOf, hsl],
    fun k b => by simp [State.chain, hsl], fun p => by simp [derefSymbol, hsl], ?_⟩
  intro p e he
  exact ⟨e, by simpa [derefSymbol, hsl] using he, rfl, rfl, rfl, rfl, rfl, rfl,
    List.prefix_refl _⟩

theorem typeCheck_keeps_tables_witness :
    typeCheck (okTree (buildSymtab progInnerBlock State.initial))
          (okState (buildSymtab progInnerBlock State.initial)) =
        .ok (okTree (analyze progInnerBlock), okState (analyze progInnerBlock)) ∧
      (okState (buildSymtab progInnerBlock State.initial)).scopeList.length = 4 ∧
      (okState (analyze progInnerBlock)).scopeList =
        (okState (buildSymtab progInnerBlock State.initial)).scopeList :=
  ⟨by rfl, by decide,
    (typeCheck_keeps_tables _ _ _ _ (by rfl :
      typeCheck (okTree (buildSymtab progInnerBlock State.initial))
          (okState (buildSymtab progInnerBlock State.initial)) =
        .ok (okTree (analyze progInnerBlock), okState (analyze progInnerBlock)))).1⟩

/-- C30. Each error handler sets the error flag and writes exactly one line (the two that
insert a placeholder and the redefinition report when they return), and when pass 1 and
then pass 2 complete, each pass has only added lines to the listing, and the flag after a
pass is true exactly when it was true before or the pass added a line: nothing clears it,
and from a false flag it is true after both passes if and only if a line was added. In
`int a[10]; int main(void) { a[1] = 2; }` no line is written and the flag stays false; in
`int x; int x;` one line is written and the flag is true. -/
theorem error_flag_iff_diagnostic (t t1 t2 : TreeNode) (st st1 st2 : State)
    (h1 : buildSymtab t st = .ok (t1, st1)) (h2 : typeCheck t1 st1 = .ok (t2, st2)) :
    (∃ new1 new2, st1.listing = st.listing ++ new1 ∧ st2.listing = st1.listing ++ new2 ∧
      st1.Error = (st.Error || !new1.isEmpty) ∧ st2.Error = (st1.Error || !new2.isEmpty) ∧
      (st.Error = true → st2.Error = true) ∧
      (st.Error = false → (st2.Error = true ↔ new1 ++ new2 ≠ []))) ∧
    (∀ n l s, Emits s (VoidTypeVariableError n l s) [.voidTypeVariable n l]) ∧
    (∀ n l s, Emits s (ArrayIndexingError n l s) [.arrayIndexing n l]) ∧
    (∀ n l s, Emits s (ArrayIndexingError2 n l s) [.arrayIndexing2 n l]) ∧
    (∀ n l s, Emits s (InvalidFunctionCallError n l s) [.invalidFunctionCall n l]) ∧
    (∀ l s, Emits s (InvalidReturnError l s) [.invalidReturn l]) ∧
    (∀ l s, Emits s (InvalidAssignmentError l s) [.invalidAssignment l]) ∧
    (∀ l s, Emits s (InvalidOperationError l s) [.invalidOperation l]) ∧
    (∀ l s, Emits s (InvalidConditionError l s) [.invalidCondition l]) ∧
    (∀ n l p s sn, RedefinitionError n l p s = .ok sn →
      ∃ cited, Emits s sn [.redefinition n l cited]) ∧
    (∀ c d s p sn, UndeclaredFunctionError c d s = .ok (p, sn) →
      Emits s sn [.undeclaredFunction d.name d.lineno]) ∧
    (∀ c d s p sn, UndeclaredVariableError c d s = .ok (p, sn) →
      Emits s sn [.undeclaredVariable d.name d.lineno]) ∧
    (okState (analyze progIndexOk)).listing = [] ∧
    (okState (analyze progIndexOk)).Error = false ∧
    (okState (analyze progTwice)).listing = [.redefinition "x" 3 [2]] ∧
    (okState (analyze progTwice)).Error = true := by
  refine ⟨?_, fun _ _ _ => Emits_report _ _, fun _ _ _ => Emits_report _ _,
    fun _ _ _ => Emits_report _ _, fun _ _ _ => Emits_report _ _, fun _ _ => Emits_report _ _,
    fun _ _ => Emits_report _ _, fun _ _ => Emits_report _ _, fun _ _ => Emits_report _ _,
    fun _ _ _ _ _ h => RedefinitionError_emits h, ?_, ?_, by decide, by decide, by decide,
    by decide⟩
  · obtain ⟨_, new1, e1, _⟩ := buildSymtab_types h1
    obtain ⟨_, _, _, ⟨new2, e2⟩, _⟩ := pass2_types t1 st1 t2 st2 h2
    obtain ⟨l1, f1⟩ := e1
    obtain ⟨l2, f2⟩ := e2
    refine ⟨new1, new2, l1, l2, f1, f2, ?_, ?_⟩
    · intro hs
      rw [f2, f1, hs]
      rfl
    · intro hs
      rw [f2, f1, hs]
      cases new1 <;> cases new2 <;> simp
  · intro c d s p sn h
    have := Emits_trans (Emits_report (.undeclaredFunction d.name d.lineno) s)
      (insertSymbol_emits h)
    simpa using this
  · intro c d s p sn h
    have := Emits_trans (Emits_report (.undeclaredVariable d.name d.lineno) s)
      (insertSymbol_emits h)
    simpa using this

theorem error_flag_iff_diagnostic_witness :
    buildSymtab progTwice State.initial =
        .ok (okTree (buildSymtab progTwice State.initial),
          okState (buildSymtab progTwice State.initial)) ∧
      typeCheck (okTree (buildSymtab progTwice State.initial))
          (okState (buildSymtab progTwice State.initial)) =
        .ok (okTree (analyze progTwice), okState (analyze progTwice)) ∧
      State.initial.Error = false ∧
      ∃ new1 new2,
        (okState (buildSymtab progTwice State.initial)).listing = State.initial.listing ++ new1 ∧
        (okState (analyze progTwice)).listing =
          (okState (buildSymtab progTwice State.initial)).listing ++ new2 ∧
        (okState (buildSymtab progTwice State.initial)).Error =
          (State.initial.Error || !new1.isEmpty) ∧
        (okState (analyze progTwice)).Error =
          ((okState (buildSymtab progTwice State.initial)).Error || !new2.isEmpty) ∧
        (State.initial.Error = true → (okState (analyze progTwice)).Error = true) ∧
        (State.initial.Error = false →
          ((okState (analyze progTwice)).Error = true ↔ new1 ++ new2 ≠ [])) :=
  ⟨by rfl, by rfl, rfl,
    (error_flag_iff_diagnostic progTwice _ _ State.initial _ _ (by rfl) (by rfl)).1⟩

/-- The body block of a function opens no scope: the pre-visit of pass 1 leaves the node
and the state as they are. -/
theorem insertNode_body_block (d : NodeData) (c0 c1 c2 sib : TreeNode) (st : State)
    (hk : d.kind = .CompoundStmt) (hf : d.flag = true) :
    insertNode (.node d c0 c1 c2 sib) st = .ok (d, st) := by
  simp [insertNode, hk, hf]

/-- A block that is not a function body opens one anonymous scope under the current
scope, owned by the function that owns the current scope, and makes it current, when no
scope of the derived name is in the directory without being flagged Redefined. -/
theorem insertNode_nested_block (d : NodeData) (c0 c1 c2 sib : TreeNode) (st : State) (k : Nat)
    (cur : ScopeRec) (hk : d.kind = .CompoundStmt) (hf : d.flag = false)
    (hcur : st.currentScope = some k) (hs : st.scopeList[k]? = some cur)
    (hdup : ∀ s ∈ st.scopeList, s.name = derivedName cur → s.state = .STATE_REDEFINED) :
    insertNode (.node d c0 c1 c2 sib) st =
      .ok ({ d with scope := some st.scopeList.length },
        { st with
          scopeList := advanced st none (some k) ++
            [newScope (derivedName cur) (some k) cur.func
              (parentRedefined st (some k) || nameTaken st (derivedName cur))]
          currentScope := some st.scopeList.length }) := by
  have hlt : k < st.scopeList.length := (List.getElem?_eq_some.mp hs).1
  have hres : resultingName st none (some k) = some (derivedName cur) := by
    simp [resultingName, hs]
  have hrun := insertScope_result st none (some k) cur.func (derivedName cur) hres
    (fun j hj => by cases hj; exact hlt) hdup
  simp only [insertNode, hk, hf, Bool.false_eq_true, if_false, hcur, derefScope, hs, bind,
    Except.bind, hrun]
  rfl

/-- C21, the failing input. In `int f(void) { { } }  int f(void) { { } }` the block nested
in the body of the second `f` is a compound statement not flagged as a function body, and
pass 1 aborts on it instead of opening a scope: the redefinition report flagged the scope
of the first `f` but not the scope `f.0` of its nested block, so the duplicate-name check
of `insertScope` fails on the derived name `f.0`. The block nested in the first `f` opens
the scope `f.0`, and in `int f(int a) { int a; }` parameter and local share the one scope
`f`, the local being reported as a redefinition that cites line 1. -/
theorem nested_block_of_redeclared_function_aborts :
    listingOf (buildSymtab progTwiceNested State.initial) = .error .errorCheck ∧
      listingOf (buildSymtab progTwiceEmpty State.initial) = .ok [.redefinition "f" 2 [1]] ∧
      secondBodyState.scopes =
        [("global", none, .STATE_NORMAL), ("output", some 0, .STATE_NORMAL),
          ("f", some 0, .STATE_REDEFINED), ("f.0", some 2, .STATE_NORMAL),
          ("f", some 0, .STATE_REDEFINED)] ∧
      (insertNode (block 2 false .null .null .null) secondBodyState).map (fun r => r.1) =
        .error .errorCheck ∧
      listingOf (buildSymtab progParamLocal State.initial) = .ok [.redefinition "a" 2 [1]] ∧
      (okState (buildSymtab progParamLocal State.initial)).scopes =
        [("global", none, .STATE_NORMAL), ("output", some 0, .STATE_NORMAL),
          ("f", some 0, .STATE_NORMAL)] ∧
      (okState (buildSymtab progParamLocal State.initial)).entries 2 (hash "a") =
        [("a", .STATE_REDEFINED, [1], 0), ("a", .STATE_REDEFINED, [2], 1)] := by
  decide

/-- C31. For an if or while statement whose condition is present, the post-visit of pass 2
completes, leaves the node as it is (its type included), and writes exactly one
invalid-condition error when the type of the condition node is not Integer and nothing
when it is; the tables, the scope pointers and the earlier lines of the listing are
unchanged. In `int a[10]; int main(void) { if (a) { } while (a[1]) { } if (2) { }
while (b) { } }` the conditions `a` (an array) and `b` (undeclared) are reported, `a[1]`
and `2` are not, and the four statement nodes keep the type they had. -/
theorem condition_errors (st : State) (d cd : NodeData) (a0 a1 a2 as c1 c2 sib : TreeNode)
    (hkind : d.kind = .IfStmt ∨ d.kind = .WhileStmt) :
    (∃ stn, checkNode (.node d (.node cd a0 a1 a2 as) c1 c2 sib) st = .ok (d, stn) ∧
      stn.listing = st.listing ++
        (if cd.type = .Integer then [] else [.invalidCondition d.lineno]) ∧
      stn.Error = (st.Error || decide (cd.type ≠ .Integer)) ∧
      stn.scopeList = st.scopeList ∧ stn.currentScope = st.currentScope ∧
      stn.globalScope = st.globalScope) ∧
    listingOf (analyze progConditions) =
      .ok [.undeclaredVariable (some "b") 6, .invalidCondition 3, .invalidCondition 6] ∧
    statementTypes progConditions =
      [(.IfStmt, 3, .None), (.WhileStmt, 4, .None), (.IfStmt, 5, .None), (.WhileStmt, 6, .None)] ∧
    statementTypes (okTree (analyze progConditions)) = statementTypes progConditions := by
  refine ⟨?_, by decide, by decide, by decide⟩
  have hrun : checkNode (.node d (.node cd a0 a1 a2 as) c1 c2 sib) st =
      .ok (d, if cd.type ≠ .Integer then InvalidConditionError d.lineno st else st) := by
    rcases hkind with hk | hk <;>
      simp [checkNode, hk, bind, Except.bind, ERROR_CHECK, derefNode, pure, Except.pure]
  refine ⟨_, hrun, ?_⟩
  by_cases h : cd.type = .Integer
  · simp [h]
  · simp [h, InvalidConditionError, report]

theorem condition_errors_witness :
    (ifNode.kind = .IfStmt ∨ ifNode.kind = .WhileStmt) ∧
      ∃ stn, checkNode (.node ifNode (.node arrayOperand .null .null .null .null)
          .null .null .null) State.initial = .ok (ifNode, stn) ∧
        stn.listing = State.initial.listing ++
          (if arrayOperand.type = .Integer then [] else [.invalidCondition ifNode.lineno]) ∧
        stn.Error = (State.initial.Error || decide (arrayOperand.type ≠ .Integer)) ∧
        stn.scopeList = State.initial.scopeList ∧
        stn.currentScope = State.initial.currentScope ∧
        stn.globalScope = State.initial.globalScope :=
  ⟨Or.inl rfl, (condition_errors State.initial ifNode arrayOperand .null .null .null .null
    .null .null .null (Or.inl rfl)).1⟩

/-- C33, the failing inputs. In `int g; int main(void) { g(); g(); }` the second call is
resolved to the Function placeholder the first call left in the global scope (entry 1 of
the bucket), but its line 4 is appended to the line list of the variable `g` (entry 0),
the first entry of that name: `appendSymbol` walks again by name only. In
`int f(void) { } int f; int main(void) { f = 1; }` the reference of line 4 is resolved to
the variable `f` (entry 1) and its line is appended to the function `f` (entry 0). -/
theorem use_recorded_on_other_symbol :
    lookupSymbolWithKind (some 0) (some "g") .FunctionSym
        (okState (buildSymtab progCallTwice State.initial)) = .ok (some ⟨0, hash "g", 1⟩) ∧
      (okState (buildSymtab progCallTwice State.initial)).uses 0 (hash "g") =
        [(.VariableSym, [1, 4]), (.FunctionSym, [3])] ∧
      lookupSymbolWithKind (some 3) (some "f") .VariableSym
        (okState (buildSymtab progFunVar State.initial)) = .ok (some ⟨0, hash "f", 1⟩) ∧
      (okState (buildSymtab progFunVar State.initial)).uses 0 (hash "f") =
        [(.FunctionSym, [1, 4]), (.VariableSym, [2])] := by
  decide

/-- C35, the failing input. In `int main(void) { int a; { int a[10]; } a = 1; }` pass 1
resolves the reference of line 4 in the scope of `main` (scope 2) to the outer `int a` and
records line 4 on it; pass 2 looks the same node up with the scope of the closed block
(scope 3) still current and finds the inner `int a[10]`: the reference is typed
IntegerArray and `a = 1` is reported. -/
theorem pass2_looks_up_in_closed_block :
    (okState (buildSymtab progInnerBlock State.initial)).uses 2 (hash "a") =
        [(.VariableSym, [2, 4])] ∧
      (okState (buildSymtab progInnerBlock State.initial)).uses 3 (hash "a") =
        [(.VariableSym, [3])] ∧
      lookupSymbolWithKind (some 2) (some "a") .VariableSym
        (okState (buildSymtab progInnerBlock State.initial)) = .ok (some ⟨2, hash "a", 0⟩) ∧
      (okState (analyze progInnerBlock)).currentScope = some 3 ∧
      lookupSymbolWithKind (okState (analyze progInnerBlock)).currentScope (some "a") .VariableSym
        (okState (buildSymtab progInnerBlock State.initial)) = .ok (some ⟨3, hash "a", 0⟩) ∧
      refTypes "a" (okTree (analyze progInnerBlock)) = [.IntegerArray] ∧
      listingOf (analyze progInnerBlock) = .ok [.invalidAssignment 4] := by
  decide

/-- C37, the failing input. In `int main(void) { g(); }  int g(void) { }` the call
leaves a placeholder `g` in the global scope, Undeclared and without declaration node;
the pre-visit of the declaration of `g` finds it by name and reports a redefinition, and
the report dereferences the absent declaration node: pass 1 aborts before the declaration
is inserted. -/
theorem declaration_after_call_aborts :
    callOnlyState.declared 0 (hash "g") = [("g", .STATE_UNDECLARED, false)] ∧
      callOnlyState.currentScope = callOnlyState.globalScope ∧
      (insertNode (funDecl 2 .Integer "g" (voidParams 2) (block 2 true .null .null .null) .null)
        callOnlyState).map (fun r => r.1) = .error .nullDeref ∧
      listingOf (buildSymtab progCallThenDecl State.initial) = .error .nullDeref := by
  decide

/-- The rule that declared symbols have their node is one of the calls the analyzer
issues, not of `insertSymbol` taken alone. Called with a declaration node on a placeholder
of the name (here `insertSymbol(global, "g", Integer, Function, 5, decl)` after
`insertSymbol(global, "g", Undetermined, Function, 2, NULL)`), it sets type and state and
leaves the node field absent, and the post-visit of pass 2 on a call `g()` would stop on
it. No caller issues such a call: every call with a node follows the redefinition check,
which does not return on a placeholder of the name. -/
theorem insertSymbol_promotion_keeps_node :
    placeholderState.declared 0 (hash "g") = [("g", .STATE_UNDECLARED, false)] ∧
      (insertSymbol (some 0) (some "g") .Integer .FunctionSym 5 gDecl placeholderState).map
        (fun r => r.1) = .ok ⟨0, hash "g", 0⟩ ∧
      promotedState.declared 0 (hash "g") = [("g", .STATE_NORMAL, false)] ∧
      (checkNode (call 6 "g" .null .null) promotedState).map (fun r => r.1) =
        .error .nullDeref := by
  decide

theorem hashLoop_append (pre rest : List Char) (temp : Nat) :
    hashLoop (pre ++ rest) temp = hashLoop rest (hashLoop pre temp) := by
  induction pre generalizing temp with
  | nil => rfl
  | cons c pre ih =>
    show hashLoop (pre ++ rest) _ = hashLoop rest (hashLoop pre _)
    exact ih _

theorem hashLoop_lt (cs : List Char) (temp : Nat) (h : temp < SIZE) : hashLoop cs temp < SIZE := by
  induction cs generalizing temp with
  | nil => exact h
  | cons c rest ih =>
    simp only [hashLoop]
    exact ih _ (Nat.mod_lt _ (by decide))

theorem hashLoop_mod (cs : List Char) (t : Nat) :
    hashLoop cs (t % SIZE) = cs.foldl (fun acc c => 16 * acc + c.toNat) t % SIZE := by
  induction cs generalizing t with
  | nil => rfl
  | cons c rest ih =>
    simp only [hashLoop, List.foldl_cons]
    rw [← ih]
    congr 1
    simp only [SHIFT, SIZE, Nat.shiftLeft_eq]
    omega

theorem hash_lt (key : String) : hash key < SIZE :=
  hashLoop_lt _ _ (by decide)

theorem lookupWalk_bucket (st : State) (b : Nat) (p : SymbolRec → Bool) :
    ∀ fuel cs q, lookupWalk st b p fuel cs = .ok (some q) → q.bucket = b := by
  intro fuel
  induction fuel with
  | zero =>
    intro cs q h
    cases cs <;> simp [lookupWalk] at h
  | succ fuel ih =>
    intro cs q h
    cases cs with
    | none => simp [lookupWalk] at h
    | some k =>
      simp only [lookupWalk] at h
      split at h
      · simp at h
      · split at h
        · simp only [Except.ok.injEq, Option.some.injEq] at h
          rw [← h]
        · exact ih _ _ h

/-- C40. For every name whose characters are bytes 1 to 127, `hash` is the base-16
positional value of the byte sequence reduced modulo 211; it lies below 211 (for every
name); and at every step of the loop the shifted value plus the byte, before the
reduction, is at most 3487, far below 2^31, so the `int` arithmetic of the code does not
overflow and agrees with the arithmetic on natural numbers. The symbol pointers that
`insertSymbol`, `appendSymbol` and the three lookups return have the bucket `hash name`,
which is below `SIZE = 211`. -/
theorem hash_positional (key : String)
    (hbytes : ∀ c ∈ key.data, 1 ≤ c.toNat ∧ c.toNat ≤ 127) :
    hash key = positional key.data % 211 ∧ hash key < 211 ∧
    (∀ pre c rest, key.data = pre ++ c :: rest →
      hashLoop pre 0 < 211 ∧ hashLoop pre 0 <<< SHIFT ≤ 3360 ∧
      (hashLoop pre 0 <<< SHIFT) + c.toNat ≤ 3487 ∧
      (hashLoop pre 0 <<< SHIFT) + c.toNat < 2 ^ 31 ∧
      hashLoop (pre ++ [c]) 0 = ((hashLoop pre 0 <<< SHIFT) + c.toNat) % SIZE) ∧
    (∀ (nm : String), hash nm < SIZE) ∧
    (∀ cs nm type kind lineno node st p stn,
      insertSymbol cs (some nm) type kind lineno node st = .ok (p, stn) →
      p.bucket = hash nm ∧ p.bucket < SIZE) ∧
    (∀ cs nm lineno st p stn, appendSymbol cs (some nm) lineno st = .ok (p, stn) →
      p.bucket = hash nm ∧ p.bucket < SIZE) ∧
    (∀ cs nm st p, lookupSymbol cs (some nm) st = .ok (some p) →
      p.bucket = hash nm ∧ p.bucket < SIZE) ∧
    (∀ cs nm st p, lookupSymbolInCurrentScope cs (some nm) st = .ok (some p) →
      p.bucket = hash nm ∧ p.bucket < SIZE) ∧
    (∀ cs nm kind st p, lookupSymbolWithKind cs (some nm) kind st = .ok (some p) →
      p.bucket = hash nm ∧ p.bucket < SIZE) := by
  have hlt : ∀ nm : String, hash nm < SIZE := hash_lt
  have hbucket : ∀ (nm : String) (p : SymPtr), p.bucket = hash nm →
      p.bucket = hash nm ∧ p.bucket < SIZE := fun nm p h => ⟨h, by rw [h]; exact hlt nm⟩
  refine ⟨?_, hlt key, ?_, hlt, ?_, ?_, ?_, ?_, ?_⟩
  · have := hashLoop_mod key.data 0
    simpa [hash, positional, SIZE] using this
  · intro pre c rest hkey
    have h1 : hashLoop pre 0 < 211 := hashLoop_lt pre 0 (by decide)
    have hc : c.toNat ≤ 127 := (hbytes c (by rw [hkey]; simp)).2
    have hs : hashLoop pre 0 <<< SHIFT = hashLoop pre 0 * 16 := by
      simp [SHIFT, Nat.shiftLeft_eq]
    refine ⟨h1, by omega, by omega, by omega, ?_⟩
    rw [hashLoop_append]
    rfl
  · intro cs nm type kind lineno node st p stn h
    obtain ⟨k, n, _, hn, _, _, hb, _⟩ := insertSymbol_inv h
    simp only [Option.some.injEq] at hn
    subst hn
    exact hbucket _ p hb
  · intro cs nm lineno st p stn h
    obtain ⟨n, hn, _, hw, _⟩ := appendSymbol_ok h
    simp only [Option.some.injEq] at hn
    subst hn
    exact hbucket _ p (lookupWalk_bucket _ _ _ _ _ _ hw)
  · intro cs nm st p h
    simp only [lookupSymbol, bind_ok_iff, Option.getD_some] at h
    obtain ⟨_, _, hw⟩ := h
    exact hbucket _ p (lookupWalk_bucket _ _ _ _ _ _ hw)
  · intro cs nm st p h
    simp only [lookupSymbolInCurrentScope, bind_ok_iff, pure_ok_iff, Option.getD_some,
      Option.map_eq_some'] at h
    obtain ⟨_, _, s, _, i, _, hp⟩ := h
    exact hbucket _ p (by rw [← hp])
  · intro cs nm kind st p h
    simp only [lookupSymbolWithKind, bind_ok_iff, Option.getD_some] at h
    obtain ⟨_, _, hw⟩ := h
    exact hbucket _ p (lookupWalk_bucket _ _ _ _ _ _ hw)

theorem hash_positional_witness :
    (∀ c ∈ "main".data, 1 ≤ c.toNat ∧ c.toNat ≤ 127) ∧
      positional "main".data = 109 * 4096 + 97 * 256 + 105 * 16 + 110 ∧
      hash "main" = 24 ∧
      hash "main" = positional "main".data % 211 ∧ hash "main" < 211 :=
  have hb : ∀ c ∈ "main".data, 1 ≤ c.toNat ∧ c.toNat ≤ 127 := by decide
  ⟨hb, by decide, by decide, (hash_positional "main" hb).1, (hash_positional "main" hb).2.1⟩

theorem Sticky_refl (st : State) : Sticky st st :=
  ⟨fun _ _ _ e he hs => ⟨e, he, hs⟩, fun _ s hs hst => ⟨s, hs, hst⟩⟩

theorem Sticky_trans {a b c : State} (h1 : Sticky a b) (h2 : Sticky b c) : Sticky a c := by
  refine ⟨?_, ?_⟩
  · intro k bk i e he hs
    obtain ⟨e1, he1, hs1⟩ := h1.1 k bk i e he hs
    exact h2.1 k bk i e1 he1 hs1
  · intro j s hs hst
    obtain ⟨s1, hs1, hst1⟩ := h1.2 j s hs hst
    exact h2.2 j s1 hs1 hst1

theorem Sticky_of_scopeList_eq {st stn : State} (h : stn.scopeList = st.scopeList) :
    Sticky st stn := by
  refine ⟨?_, ?_⟩
  · intro k b i e he hs
    exact ⟨e, by simpa [State.chain, h] using he, hs⟩
  · intro j s hs hst
    exact ⟨s, by rw [h]; exact hs, hst⟩

/-- A write to one scope that keeps a Redefined flag of the scope and of its symbols. -/
theorem Sticky_modifyScope (st : State) (k : Nat) (f : ScopeRec → ScopeRec)
    (hstate : ∀ s, st.scopeList[k]? = some s → s.state = .STATE_REDEFINED →
      (f s).state = .STATE_REDEFINED)
    (hchain : ∀ s, st.scopeList[k]? = some s → ∀ (b i : Nat) (e : SymbolRec),
      (s.symbolList b)[i]? = some e → e.state = .STATE_REDEFINED →
      ∃ e1, ((f s).symbolList b)[i]? = some e1 ∧ e1.state = .STATE_REDEFINED) :
    Sticky st (modifyScope st k f) := by
  refine ⟨?_, ?_⟩
  · intro k1 b i e he hs
    rw [chain_modifyScope]
    by_cases hk : k1 = k
    · subst hk
      simp only [if_true]
      cases hsc : st.scopeList[k1]? with
      | none => simp [State.chain, hsc] at he
      | some s =>
        simp only [State.chain, hsc] at he
        exact hchain s hsc b i e he hs
    · rw [if_neg hk]
      exact ⟨e, he, hs⟩
  · intro j s hsj hst
    simp only [modifyScope, getElem?_updateAt]
    by_cases hj : j = k
    · subst hj
      simp only [if_true, hsj, Option.map_some']
      exact ⟨f s, rfl, hstate s hsj hst⟩
    · rw [if_neg hj]
      exact ⟨s, hsj, hst⟩

theorem getElem?_updateAt_sticky (f : SymbolRec → SymbolRec)
    (hf : ∀ e, e.state = .STATE_REDEFINED → (f e).state = .STATE_REDEFINED)
    (l : List SymbolRec) (j i : Nat) (e : SymbolRec) (he : l[i]? = some e)
    (hs : e.state = .STATE_REDEFINED) :
    ∃ e1, (updateAt f l j)[i]? = some e1 ∧ e1.state = .STATE_REDEFINED := by
  rw [getElem?_updateAt]
  by_cases hij : i = j
  · simp only [hij, if_true]
    rw [hij] at he
    exact ⟨f e, by simp [he], hf e hs⟩
  · rw [if_neg hij]
    exact ⟨e, he, hs⟩

/-- A write to one symbol that keeps a Redefined flag. -/
theorem Sticky_modifySymbol (st : State) (p : SymPtr) (f : SymbolRec → SymbolRec)
    (hf : ∀ e, e.state = .STATE_REDEFINED → (f e).state = .STATE_REDEFINED) :
    Sticky st (modifySymbol st p f) := by
  apply Sticky_modifyScope
  · intro s _ hst
    exact hst
  · intro s _ b i e he hs
    simp only [Function.update_apply]
    split
    · next hb =>
      subst hb
      exact getElem?_updateAt_sticky f hf _ _ _ e he hs
    · exact ⟨e, he, hs⟩

theorem Sticky_append (st : State) (scope : ScopeRec) :
    Sticky st { st with scopeList := st.scopeList ++ [scope] } := by
  refine ⟨?_, ?_⟩
  · intro k b i e he hs
    have hk : k < st.scopeList.length := by
      by_contra hcon
      simp [State.chain, List.getElem?_eq_none (Nat.le_of_not_lt hcon)] at he
    refine ⟨e, ?_, hs⟩
    simp only [State.chain, List.getElem?_append_left hk]
    exact he
  · intro j s hsj hst
    have hj : j < st.scopeList.length := (List.getElem?_eq_some.mp hsj).1
    exact ⟨s, by rw [List.getElem?_append_left hj]; exact hsj, hst⟩

theorem insertScope_sticky {name : Option String} {parent : Option Nat} {func : TreeNode}
    {st stn : State} {k : Nat} (h : insertScope name parent func st = .ok (k, stn)) :
    Sticky st stn := by
  obtain ⟨st1, scope, rfl, _, h1, _⟩ := insertScope_ok h
  have hs1 : Sticky st st1 := by
    rcases h1 with rfl | ⟨j, rfl⟩
    · exact Sticky_refl _
    · exact Sticky_modifyScope _ _ _ (fun _ _ hst => hst) (fun _ _ _ _ e he hs => ⟨e, he, hs⟩)
  exact Sticky_trans hs1 (Sticky_append st1 scope)

theorem insertSymbol_sticky {cs : Option Nat} {name : Option String} {type : NodeType}
    {kind : SymbolKind} {lineno : Int} {node : TreeNode} {st stn : State} {p : SymPtr}
    (h : insertSymbol cs name type kind lineno node st = .ok (p, stn)) : Sticky st stn := by
  obtain ⟨k, nm, s, _, _, hs, h⟩ := insertSymbol_ok h
  rcases h with ⟨i, hscan, _, rfl⟩ | ⟨state, _, _, rfl⟩
  · obtain ⟨e0, he0, _, hu0⟩ := insertSymbol_scan_inl hscan
    refine ⟨?_, ?_⟩
    · intro k1 b j e he hst
      rw [chain_modifySymbol]
      by_cases hkb : k1 = k ∧ b = hash nm
      · obtain ⟨rfl, rfl⟩ := hkb
        simp only [and_self, if_true, getElem?_updateAt]
        by_cases hji : j = i
        · subst hji
          rw [chain_of_getElem? hs, he0] at he
          simp only [Option.some.injEq] at he
          rw [← he, hu0] at hst
          cases hst
        · rw [if_neg hji]
          exact ⟨e, he, hst⟩
      · rw [if_neg hkb]
        exact ⟨e, he, hst⟩
    · intro j s1 hsj hst
      have hh := headerOf_modifySymbol st ⟨k, hash nm, i⟩ (fun e =>
        { e with type := type
                 state := if node = .null then .STATE_UNDECLARED else .STATE_NORMAL }) j
      simp only [State.headerOf, hsj, Option.map_some'] at hh
      cases hn : (modifySymbol st ⟨k, hash nm, i⟩ (fun e =>
        { e with type := type
                 state := if node = .null then .STATE_UNDECLARED else .STATE_NORMAL })).scopeList[j]? with
      | none => simp [hn] at hh
      | some s2 =>
        simp only [hn, Option.map_some', Option.some.injEq, ScopeRec.header, Prod.mk.injEq] at hh
        exact ⟨s2, rfl, by rw [hh.2.1]; exact hst⟩
  · apply Sticky_modifyScope
    · intro s1 _ hst
      exact hst
    · intro s1 hs1 b i e he hst
      rw [hs] at hs1
      simp only [Option.some.injEq] at hs1
      subst hs1
      simp only [Function.update_apply]
      split
      · next hb =>
        subst hb
        have hi : i < (s.symbolList (hash nm)).length := (List.getElem?_eq_some.mp he).1
        exact ⟨e, by rw [List.getElem?_append_left hi]; exact he, hst⟩
      · exact ⟨e, he, hst⟩

theorem RedefinitionError_loop_sticky (name : String) (k hashIdx : Nat) (rest : List SymbolRec) :
    ∀ (i : Nat) (st : State) (cited : List Int) (stn : State) (citedn : List Int),
      RedefinitionError.loop name k hashIdx rest i st cited = .ok (stn, citedn) →
      Sticky st stn := by
  induction rest with
  | nil =>
    intro i st cited stn citedn h
    simp only [RedefinitionError.loop, Except.ok.injEq, Prod.mk.injEq] at h
    obtain ⟨rfl, _⟩ := h
    exact Sticky_refl _
  | cons e rest ih =>
    intro i st cited stn citedn h
    have hmark : Sticky st (modifySymbol st ⟨k, hashIdx, i⟩ fun s =>
        { s with state := .STATE_REDEFINED }) := Sticky_modifySymbol _ _ _ (fun _ _ => rfl)
    simp only [RedefinitionError.loop] at h
    split at h
    · split at h
      · simp at h
      · split at h
        · split at h
          · split at h
            · simp at h
            · refine Sticky_trans (Sticky_trans hmark ?_) (ih _ _ _ _ _ h)
              exact Sticky_modifyScope _ _ _ (fun _ _ _ => rfl)
                (fun _ _ _ _ x hx hs => ⟨x, hx, hs⟩)
          · simp at h
        · split at h
          · simp at h
          · exact Sticky_trans hmark (ih _ _ _ _ _ h)
    · exact ih _ _ _ _ _ h

theorem RedefinitionError_sticky {name : String} {lineno : Int} {symbol : SymPtr} {st stn : State}
    (h : RedefinitionError name lineno symbol st = .ok stn) : Sticky st stn := by
  simp only [RedefinitionError, bind_ok_iff, pure_ok_iff, Prod.exists] at h
  obtain ⟨s, _, st1, cited, hloop, rfl⟩ := h
  exact Sticky_trans (RedefinitionError_loop_sticky _ _ _ _ _ _ _ _ _ hloop)
    (Sticky_of_scopeList_eq rfl)

theorem redefined_sticky {scope : Option Nat} {d : NodeData} {st st2 : State}
    (h : insertNode.redefined scope d st = .ok st2) : Sticky st st2 := by
  simp only [insertNode.redefined, bind_ok_iff] at h
  obtain ⟨symbol, _, h⟩ := h
  cases symbol with
  | none =>
    simp only [pure_ok_iff] at h
    subst h
    exact Sticky_refl _
  | some p => exact RedefinitionError_sticky h

theorem appendSymbol_sticky {cs : Option Nat} {name : Option String} {lineno : Int}
    {st stn : State} {p : SymPtr} (h : appendSymbol cs name lineno st = .ok (p, stn)) :
    Sticky st stn := by
  obtain ⟨nm, _, _, _, rfl⟩ := appendSymbol_ok h
  exact Sticky_modifySymbol _ _ _ (fun _ hs => hs)

theorem insertNode_sticky {d d1 : NodeData} {c0 c1 c2 sib : TreeNode} {st stn : State}
    (h : insertNode (.node d c0 c1 c2 sib) st = .ok (d1, stn)) : Sticky st stn := by
  have hvoid : ∀ s : State,
      Sticky s (if d.type = .Void ∨ d.type = .VoidArray then VoidTypeVariableError d.name d.lineno s
        else s) := by
    intro s
    split
    · exact Sticky_of_scopeList_eq rfl
    · exact Sticky_refl _
  simp only [insertNode] at h
  split at h
  · -- VariableDecl
    simp only [bind_ok_iff, pure_ok_iff, Prod.exists, Prod.mk.injEq] at h
    obtain ⟨st2, h2, p, st3, h3, _, rfl⟩ := h
    exact Sticky_trans (hvoid st) (Sticky_trans (redefined_sticky h2) (insertSymbol_sticky h3))
  · -- FunctionDecl
    simp only [bind_ok_iff, pure_ok_iff, Prod.exists, Prod.mk.injEq, ERROR_CHECK_ok_iff,
      decide_eq_true_eq] at h
    obtain ⟨_, _, st1, h1, p, st2, h2, sc, st3, h3, _, rfl⟩ := h
    have o3 := Sticky_trans (redefined_sticky h1)
      (Sticky_trans (insertSymbol_sticky h2) (insertScope_sticky h3))
    have o4 : Sticky st3 (modifySymbol st3 p fun e =>
        if e.node = .node d c0 c1 c2 sib then { e with node := e.node.setScope sc } else e) := by
      apply Sticky_modifySymbol
      intro e hs
      split
      · exact hs
      · exact hs
    exact Sticky_trans o3 (Sticky_trans o4 (Sticky_of_scopeList_eq rfl))
  · -- Params
    split at h
    · simp only [Except.ok.injEq, Prod.mk.injEq] at h
      obtain ⟨_, rfl⟩ := h
      exact Sticky_refl _
    · simp only [bind_ok_iff, pure_ok_iff, Prod.exists, Prod.mk.injEq] at h
      obtain ⟨st2, h2, p, st3, h3, _, rfl⟩ := h
      exact Sticky_trans (hvoid st) (Sticky_trans (redefined_sticky h2) (insertSymbol_sticky h3))
  · -- CompoundStmt
    split at h
    · simp only [Except.ok.injEq, Prod.mk.injEq] at h
      obtain ⟨_, rfl⟩ := h
      exact Sticky_refl _
    · simp only [bind_ok_iff, pure_ok_iff, Prod.exists, Prod.mk.injEq] at h
      obtain ⟨cur, _, sc, st1, h1, _, rfl⟩ := h
      exact Sticky_trans (insertScope_sticky h1) (Sticky_of_scopeList_eq rfl)
  · -- CallExpr
    simp only [bind_ok_iff, Prod.exists] at h
    obtain ⟨func, _, h⟩ := h
    cases func with
    | none =>
      simp only [bind_ok_iff, pure_ok_iff, Prod.exists, Prod.mk.injEq, UndeclaredFunctionError] at h
      obtain ⟨p, st1, h1, _, rfl⟩ := h
      have o1 := insertSymbol_sticky h1
      exact Sticky_trans (Sticky_of_scopeList_eq rfl) o1
    | some q =>
      simp only [bind_ok_iff, pure_ok_iff, Prod.exists, Prod.mk.injEq] at h
      obtain ⟨p, st1, h1, _, rfl⟩ := h
      exact appendSymbol_sticky h1
  · -- VarAccessExpr
    simp only [bind_ok_iff, Prod.exists] at h
    obtain ⟨var, _, h⟩ := h
    cases var with
    | none =>
      simp only [bind_ok_iff, pure_ok_iff, Prod.exists, Prod.mk.injEq, UndeclaredVariableError] at h
      obtain ⟨p, st1, h1, _, rfl⟩ := h
      have o1 := insertSymbol_sticky h1
      exact Sticky_trans (Sticky_of_scopeList_eq rfl) o1
    | some q =>
      simp only [bind_ok_iff, pure_ok_iff, Prod.exists, Prod.mk.injEq] at h
      obtain ⟨p, st1, h1, _, rfl⟩ := h
      exact appendSymbol_sticky h1
  all_goals
    simp only [Except.ok.injEq, Prod.mk.injEq, reduceCtorEq] at h
    try (obtain ⟨_, rfl⟩ := h; exact Sticky_refl _)

theorem pass1_sticky (t : TreeNode) (st : State) (tn : TreeNode) (stn : State)
    (h : traverse insertNode scopeOut t st = .ok (tn, stn)) : Sticky st stn := by
  revert t st tn stn
  apply traverse_induct
  · intro st
    exact Sticky_refl _
  · intro d c0 c1 c2 sib st d1 st1 c0n st2 c1n st3 c2n st4 d2 st5 sibn st6 hpre r0 r1 r2 hpost rs
    obtain ⟨_, psl, _⟩ := scopeOut_ok hpost
    exact Sticky_trans (insertNode_sticky hpre) (Sticky_trans r0 (Sticky_trans r1
      (Sticky_trans r2 (Sticky_trans (Sticky_of_scopeList_eq psl) rs))))

/-- C32. Redefined is sticky. When the pre-visits and post-visits of pass 1 over a tree
complete from a state `st`, and then pass 2 completes, every symbol and every scope that
was flagged Redefined in `st` is at the same place and flagged Redefined after pass 1 and
after pass 2. The same holds across each single operation that returns: `insertSymbol`
(the promotion of a placeholder included), `insertScope`, `appendSymbol`, the redefinition
report, the pre-visit and the post-visit of pass 1, and those of pass 2. -/
theorem redefined_is_sticky (t t1 t2 : TreeNode) (st st1 st2 : State)
    (h1 : traverse insertNode scopeOut t st = .ok (t1, st1))
    (h2 : typeCheck t1 st1 = .ok (t2, st2)) :
    Sticky st st1 ∧ Sticky st1 st2 ∧ Sticky st st2 ∧
    (∀ cs name type kind lineno node s p sn,
      insertSymbol cs name type kind lineno node s = .ok (p, sn) → Sticky s sn) ∧
    (∀ name parent func s k sn, insertScope name parent func s = .ok (k, sn) → Sticky s sn) ∧
    (∀ cs name lineno s p sn, appendSymbol cs name lineno s = .ok (p, sn) → Sticky s sn) ∧
    (∀ name lineno p s sn, RedefinitionError name lineno p s = .ok sn → Sticky s sn) ∧
    (∀ d c0 c1 c2 sib s d1 sn, insertNode (.node d c0 c1 c2 sib) s = .ok (d1, sn) → Sticky s sn) ∧
    (∀ d c0 c1 c2 sib s d1 sn, scopeOut (.node d c0 c1 c2 sib) s = .ok (d1, sn) → Sticky s sn) ∧
    (∀ d c0 c1 c2 sib s d1 sn, scopeIn (.node d c0 c1 c2 sib) s = .ok (d1, sn) → Sticky s sn) ∧
    (∀ d c0 c1 c2 sib s d1 sn, checkNode (.node d c0 c1 c2 sib) s = .ok (d1, sn) →
      Sticky s sn) := by
  have s1 := pass1_sticky t st t1 st1 h1
  have s2 : Sticky st1 st2 := Sticky_of_scopeList_eq (pass2_types t1 st1 t2 st2 h2).2.1
  refine ⟨s1, s2, Sticky_trans s1 s2, fun _ _ _ _ _ _ _ _ _ h => insertSymbol_sticky h,
    fun _ _ _ _ _ _ h => insertScope_sticky h, fun _ _ _ _ _ _ h => appendSymbol_sticky h,
    fun _ _ _ _ _ h => RedefinitionError_sticky h,
    fun _ _ _ _ _ _ _ _ h => insertNode_sticky h, ?_, ?_, ?_⟩
  · intro d c0 c1 c2 sib s d1 sn h
    exact Sticky_of_scopeList_eq (scopeOut_ok h).2.1
  · intro d c0 c1 c2 sib s d1 sn h
    exact Sticky_of_scopeList_eq (scopeIn_ok h).2.1
  · intro d c0 c1 c2 sib s d1 sn h
    exact Sticky_of_scopeList_eq (checkNode_ok h).2.1.1

theorem redefined_is_sticky_witness :
    traverse insertNode scopeOut hDecl twiceState =
        .ok (okTree (traverse insertNode scopeOut hDecl twiceState),
          okState (traverse insertNode scopeOut hDecl twiceState)) ∧
      typeCheck (okTree (traverse insertNode scopeOut hDecl twiceState))
          (okState (traverse insertNode scopeOut hDecl twiceState)) =
        .ok (okTree (typeCheck (okTree (traverse insertNode scopeOut hDecl twiceState))
            (okState (traverse insertNode scopeOut hDecl twiceState))),
          okState (typeCheck (okTree (traverse insertNode scopeOut hDecl twiceState))
            (okState (traverse insertNode scopeOut hDecl twiceState)))) ∧
      twiceState.entries 0 (hash "x") =
        [("x", .STATE_REDEFINED, [2], 2), ("x", .STATE_REDEFINED, [3], 3)] ∧
      (okState (traverse insertNode scopeOut hDecl twiceState)).entries 0 (hash "x") =
        [("x", .STATE_REDEFINED, [2, 4], 2), ("x", .STATE_REDEFINED, [3], 3)] ∧
      (okState (traverse insertNode scopeOut hDecl twiceState)).scopes =
        [("global", none, .STATE_NORMAL), ("output", some 0, .STATE_NORMAL),
          ("h", some 0, .STATE_NORMAL), ("h.0", some 2, .STATE_NORMAL)] ∧
      Sticky twiceState (okState (typeCheck (okTree (traverse insertNode scopeOut hDecl twiceState))
        (okState (traverse insertNode scopeOut hDecl twiceState)))) :=
  ⟨by rfl, by rfl, by decide, by decide, by decide,
    (redefined_is_sticky hDecl _ _ twiceState _ _ (by rfl) (by rfl)).2.2.1⟩

/-! ## Shadowing -/

theorem chainFind_first {p : SymbolRec → Bool} {l : List SymbolRec} {i : Nat} {e : SymbolRec}
    (he : l[i]? = some e) (hp : p e = true)
    (hbefore : ∀ (j : Nat) (x : SymbolRec), j < i → l[j]? = some x → p x = false) :
    chainFind p l = some i := by
  induction l generalizing i with
  | nil => simp at he
  | cons a rest ih =>
    cases i with
    | zero =>
      simp only [List.getElem?_cons_zero, Option.some.injEq] at he
      subst he
      simp [chainFind, hp]
    | succ i =>
      have ha : p a = false := hbefore 0 a (by omega) (by simp)
      simp only [List.getElem?_cons_succ] at he
      have := ih he (fun j x hj hx => hbefore (j + 1) x (by omega) (by simpa using hx))
      simp [chainFind, ha, this]

theorem first_split_unique {α : Type} (P : α → Prop) :
    ∀ (a : List α) (x : α) (b a1 : List α) (x1 : α) (b1 : List α),
      a ++ x :: b = a1 ++ x1 :: b1 → (∀ y ∈ a, ¬ P y) → P x → (∀ y ∈ a1, ¬ P y) → P x1 →
      a = a1 ∧ x = x1 := by
  intro a
  induction a with
  | nil =>
    intro x b a1 x1 b1 heq _ hx ha1 _
    cases a1 with
    | nil =>
      simp only [List.nil_append, List.cons.injEq] at heq
      exact ⟨rfl, heq.1⟩
    | cons y a1 =>
      simp only [List.nil_append, List.cons_append, List.cons.injEq] at heq
      exact absurd (heq.1 ▸ hx) (ha1 y (by simp))
  | cons z a ih =>
    intro x b a1 x1 b1 heq ha hx ha1 hx1
    cases a1 with
    | nil =>
      simp only [List.nil_append, List.cons_append, List.cons.injEq] at heq
      exact absurd (heq.1 ▸ hx1) (ha z (by simp))
    | cons y a1 =>
      simp only [List.cons_append, List.cons.injEq] at heq
      obtain ⟨h1, h2⟩ := ih x b a1 x1 b1 heq.2 (fun w hw => ha w (by simp [hw])) hx
        (fun w hw => ha1 w (by simp [hw])) hx1
      exact ⟨by rw [heq.1, h1], h2⟩

/-- The walk returns the first match of scope `k` when no nearer scope has a match. -/
theorem WalkResult_unique {st : State} {b : Nat} {p : SymbolRec → Bool} {scopes : List Nat}
    {r : Option SymPtr} (hw : WalkResult st b p scopes r) (nearer farther : List Nat) (k i : Nat)
    (hsplit : scopes = nearer ++ k :: farther)
    (hnear : ∀ j ∈ nearer, chainFind p (st.chain j b) = none)
    (hk : chainFind p (st.chain k b) = some i) : r = some ⟨k, b, i⟩ := by
  cases r with
  | none =>
    have := hw k (by rw [hsplit]; simp)
    rw [hk] at this
    cases this
  | some q =>
    obtain ⟨hb, n1, f1, heq, hn1, hq⟩ := hw
    obtain ⟨_, hx⟩ := first_split_unique (fun j => chainFind p (st.chain j b) ≠ none)
      nearer k farther n1 q.scope f1 (by rw [← hsplit, heq])
      (fun y hy hne => hne (hnear y hy)) (by show chainFind p (st.chain k b) ≠ none; rw [hk]; simp)
      (fun y hy hne => hne (hn1 y hy))
      (by show chainFind p (st.chain q.scope b) ≠ none; rw [hq]; simp)
    obtain ⟨qs, qb, qi⟩ := q
    simp only at hb hx hq
    subst hb
    subst hx
    rw [hk] at hq
    simp only [Option.some.injEq] at hq
    subst hq
    rfl

/-- The pre-visit of a variable declaration whose name the current scope does not hold:
no redefinition is reported and a new Normal entry is placed at the end of the bucket. -/
theorem insertNode_fresh_declaration (st : State) (k : Nat) (s : ScopeRec) (nm : String)
    (d : NodeData) (c0 c1 c2 sib : TreeNode) (hs : st.scopeList[k]? = some s)
    (hcur : st.currentScope = some k) (hkind : d.kind = .VariableDecl) (hname : d.name = some nm)
    (hfresh : ∀ e ∈ s.symbolList (hash nm), e.name ≠ nm) :
    insertNode (.node d c0 c1 c2 sib) st =
      .ok (d, modifyScope
        (if d.type = .Void ∨ d.type = .VoidArray then VoidTypeVariableError d.name d.lineno st
          else st) k fun s1 =>
        { s1 with numSymbols := s1.numSymbols + 1
                  symbolList := Function.update s1.symbolList (hash nm)
                    (s.symbolList (hash nm) ++
                      [freshSymbol nm d.type .VariableSym d.lineno (.node d c0 c1 c2 sib)
                        .STATE_NORMAL s.numSymbols]) }) := by
  have hfind : chainFind (fun e => decide (e.name = nm)) (s.symbolList (hash nm)) = none := by
    rw [chainFind_eq_none]
    intro e he
    simpa using hfresh e he
  have hph : chainFind (isPlaceholder nm) (s.symbolList (hash nm)) = none := by
    rw [chainFind_eq_none]
    intro e he
    simp [isPlaceholder, hfresh e he]
  have hany : (s.symbolList (hash nm)).any (isRedefined nm) = false := by
    rw [List.any_eq_false]
    intro e he
    simp [isRedefined, hfresh e he]
  have key : ∀ st1 : State, st1.scopeList[k]? = some s → st1.currentScope = some k →
      (do
        let st2 ← insertNode.redefined st1.currentScope d st1
        let (_, st3) ← insertSymbol st2.currentScope d.name d.type .VariableSym d.lineno
          (.node d c0 c1 c2 sib) st2
        (pure (d, st3) : Except Fault (NodeData × State))) =
      .ok (d, modifyScope st1 k fun s1 =>
        { s1 with numSymbols := s1.numSymbols + 1
                  symbolList := Function.update s1.symbolList (hash nm)
                    (s.symbolList (hash nm) ++
                      [freshSymbol nm d.type .VariableSym d.lineno (.node d c0 c1 c2 sib)
                        .STATE_NORMAL s.numSymbols]) }) := by
    intro st1 hs1 hc1
    have hrun := insertSymbol_new st1 k s nm d.type .VariableSym d.lineno (.node d c0 c1 c2 sib)
      hs1 hph
    rw [hany] at hrun
    simp only [Bool.false_eq_true, if_false] at hrun
    simp only [hc1, insertNode.redefined, lookupSymbolInCurrentScope,
      ERROR_CHECK, hname, Option.isSome_some, Bool.and_self, if_true, bind, Except.bind, derefScope,
      hs1, Option.getD_some, pure, Except.pure, hfind, Option.map_none', hrun]
  have hunf : insertNode (.node d c0 c1 c2 sib) st = (do
        let st2 ← insertNode.redefined
          (if d.type = .Void ∨ d.type = .VoidArray then VoidTypeVariableError d.name d.lineno st
            else st).currentScope d
          (if d.type = .Void ∨ d.type = .VoidArray then VoidTypeVariableError d.name d.lineno st
            else st)
        let (_, st3) ← insertSymbol st2.currentScope d.name d.type .VariableSym d.lineno
          (.node d c0 c1 c2 sib) st2
        (pure (d, st3) : Except Fault (NodeData × State))) := by
    simp only [insertNode, hkind]
  rw [hunf]
  apply key
  · split <;> exact hs
  · split <;> exact hcur

/-! ## A reference resolved to the inner declaration -/

/-- In a chain that grew by `ChainStep` from `old ++ [x]`, where no entry of `old` has the
name of `x`, the first entry of that name (also with the kind of `x`) is at the place of `x`. -/
theorem chainFind_shadow {old l2 : List SymbolRec} {x : SymbolRec} {nm : String}
    (hstep : ChainStep (old ++ [x]) l2) (hold : ∀ e ∈ old, e.name ≠ nm) (hx : x.name = nm) :
    ∃ e, l2[old.length]? = some e ∧ EntryStep x e ∧
      chainFind (fun e => decide (e.name = nm)) l2 = some old.length ∧
      chainFind (fun e => decide (e.name = nm) && decide (e.kind = x.kind)) l2 =
        some old.length := by
  obtain ⟨e, he, hstepx⟩ := hstep.1 old.length x (by simp)
  have hbefore : ∀ (j : Nat) (y : SymbolRec), j < old.length → l2[j]? = some y → y.name ≠ nm := by
    intro j y hj hy
    obtain ⟨y1, hy1, hs1⟩ := hstep.1 j old[j] (by rw [List.getElem?_append_left hj]; simp)
    rw [hy] at hy1
    cases hy1
    rw [hs1.1]
    exact hold _ (List.getElem_mem hj)
  refine ⟨e, he, hstepx, ?_, ?_⟩
  · refine chainFind_first he (by simp [hstepx.1, hx]) ?_
    intro j y hj hy
    simpa using hbefore j y hj hy
  · refine chainFind_first he (by simp [hstepx.1, hstepx.2.1, hx]) ?_
    intro j y hj hy
    simp [hbefore j y hj hy]

/-- C38. A variable declaration visited in a scope `k` that holds no entry of its name
completes and writes no redefinition diagnostic, whatever the enclosing scopes and the
global scope hold (the only diagnostic it can write is that of a void variable): it adds
one Normal variable entry at the end of the bucket of the name in scope `k` and leaves every
other chain as it was. In every later state of pass 1 (`Evolves`), a reference to the name
visited in scope `k` or in a scope below it with no entry of that name in between is
resolved by `lookupSymbolWithKind` to that entry; the pre-visit completes, writes no
diagnostic, appends the line of the reference to the line list of that entry, and leaves
every other symbol, in particular the outer one, as it was. For
`int a; int main(void) { int a; { int a; a = 1; } a = 2; }` pass 1 writes no diagnostic
and leaves the line lists `[1]` (global), `[3, 7]` (`main`) and `[5, 6]` (block). -/
theorem inner_declaration_shadows (st : State) (k : Nat) (nm : String) (d : NodeData)
    (c0 c1 c2 sib : TreeNode) (hk : k < st.scopeList.length) (hcur : st.currentScope = some k)
    (hkind : d.kind = .VariableDecl) (hname : d.name = some nm)
    (hfresh : ∀ e ∈ st.chain k (hash nm), e.name ≠ nm) :
    (∃ st1, insertNode (.node d c0 c1 c2 sib) st = .ok (d, st1) ∧
      st1.listing = st.listing ++
        (if d.type = .Void ∨ d.type = .VoidArray then [Diag.voidTypeVariable d.name d.lineno]
          else []) ∧
      st1.chain k (hash nm) = st.chain k (hash nm) ++
        [{ name := nm, state := .STATE_NORMAL, type := d.type, kind := .VariableSym,
           lineList := [d.lineno], memloc := st.countOf k, node := .node d c0 c1 c2 sib }] ∧
      (∀ k1 b1, ¬ (k1 = k ∧ b1 = hash nm) → st1.chain k1 b1 = st.chain k1 b1) ∧
      st1.currentScope = some k ∧
      ∀ (st2 : State) (c : Nat) (nearer farther : List Nat) (dr : NodeData)
        (r0 r1 r2 rsib : TreeNode),
        Evolves st1 st2 → ParentsBelow st2 → c < st2.scopeList.length →
        st2.currentScope = some c →
        ancestors st2 st2.scopeList.length (some c) = nearer ++ k :: farther →
        (∀ j ∈ nearer, ∀ e ∈ st2.chain j (hash nm), e.name ≠ nm) →
        dr.kind = .VarAccessExpr → dr.name = some nm →
        lookupSymbolWithKind (some c) (some nm) .VariableSym st2 =
          .ok (some ⟨k, hash nm, (st.chain k (hash nm)).length⟩) ∧
        ∃ e stn, derefSymbol st2 ⟨k, hash nm, (st.chain k (hash nm)).length⟩ = some e ∧
          e.name = nm ∧ e.kind = .VariableSym ∧ e.node = .node d c0 c1 c2 sib ∧
          insertNode (.node dr r0 r1 r2 rsib) st2 = .ok (dr, stn) ∧
          derefSymbol stn ⟨k, hash nm, (st.chain k (hash nm)).length⟩ =
            some { e with lineList := e.lineList ++ [dr.lineno] } ∧
          (∀ q, q ≠ ⟨k, hash nm, (st.chain k (hash nm)).length⟩ →
            derefSymbol stn q = derefSymbol st2 q) ∧
          stn.listing = st2.listing ∧ stn.Error = st2.Error ∧
          stn.currentScope = st2.currentScope) ∧
    listingOf (buildSymtab progShadow State.initial) = .ok [] ∧
    (okState (buildSymtab progShadow State.initial)).scopes =
      [("global", none, .STATE_NORMAL), ("output", some 0, .STATE_NORMAL),
        ("main", some 0, .STATE_NORMAL), ("main.0", some 2, .STATE_NORMAL)] ∧
    (okState (buildSymtab progShadow State.initial)).lines 0 (hash "a") =
      [("a", .STATE_NORMAL, [1])] ∧
    (okState (buildSymtab progShadow State.initial)).lines 2 (hash "a") =
      [("a", .STATE_NORMAL, [3, 7])] ∧
    (okState (buildSymtab progShadow State.initial)).lines 3 (hash "a") =
      [("a", .STATE_NORMAL, [5, 6])] := by
  refine ⟨?_, by decide, by decide, by decide, by decide, by decide⟩
  obtain ⟨s, hs⟩ := getElem?_of_lt_scopes hk
  have hchain := chain_of_getElem? hs (hash nm)
  have hrun := insertNode_fresh_declaration st k s nm d c0 c1 c2 sib hs hcur hkind hname
    (by rw [← hchain]; exact hfresh)
  have hcount : st.countOf k = s.numSymbols := by simp [State.countOf, hs]
  have hfreshSym : freshSymbol nm d.type .VariableSym d.lineno (.node d c0 c1 c2 sib)
      .STATE_NORMAL s.numSymbols =
      { name := nm, state := .STATE_NORMAL, type := d.type, kind := .VariableSym,
        lineList := [d.lineno], memloc := st.countOf k, node := .node d c0 c1 c2 sib } := by
    simp [freshSymbol, hcount]
  have hview : ∀ sv : State, sv.scopeList = st.scopeList →
      (modifyScope sv k fun s1 =>
        { s1 with numSymbols := s1.numSymbols + 1
                  symbolList := Function.update s1.symbolList (hash nm)
                    (s.symbolList (hash nm) ++
                      [freshSymbol nm d.type .VariableSym d.lineno (.node d c0 c1 c2 sib)
                        .STATE_NORMAL s.numSymbols]) }).chain k (hash nm) =
        st.chain k (hash nm) ++
          [{ name := nm, state := .STATE_NORMAL, type := d.type, kind := .VariableSym,
             lineList := [d.lineno], memloc := st.countOf k, node := .node d c0 c1 c2 sib }] ∧
      ∀ k1 b1, ¬ (k1 = k ∧ b1 = hash nm) →
        (modifyScope sv k fun s1 =>
          { s1 with numSymbols := s1.numSymbols + 1
                    symbolList := Function.update s1.symbolList (hash nm)
                      (s.symbolList (hash nm) ++
                        [freshSymbol nm d.type .VariableSym d.lineno (.node d c0 c1 c2 sib)
                          .STATE_NORMAL s.numSymbols]) }).chain k1 b1 = st.chain k1 b1 := by
    intro sv hsv
    have hs1 : sv.scopeList[k]? = some s := by rw [hsv]; exact hs
    have hv := insertSymbol_new_view sv k s (hash nm)
      (freshSymbol nm d.type .VariableSym d.lineno (.node d c0 c1 c2 sib) .STATE_NORMAL
        s.numSymbols) hs1
    have hsame : ∀ k1 b1, sv.chain k1 b1 = st.chain k1 b1 := by
      intro k1 b1
      simp only [State.chain, hsv]
    refine ⟨?_, ?_⟩
    · rw [hv.1, hsame, hfreshSym]
    · intro k1 b1 hne
      rw [hv.2.1 k1 b1 hne, hsame]
  refine ⟨_, hrun, ?_, ?_, ?_, ?_, ?_⟩
  · by_cases hv : d.type = .Void ∨ d.type = .VoidArray
    · simp only [if_pos hv]
      rfl
    · simp only [if_neg hv, List.append_nil]
      rfl
  · apply (hview _ _).1
    split <;> rfl
  · apply (hview _ _).2
    split <;> rfl
  · show (if d.type = .Void ∨ d.type = .VoidArray then VoidTypeVariableError d.name d.lineno st
        else st).currentScope = some k
    split <;> exact hcur
  · intro st2 c nearer farther dr r0 r1 r2 rsib hev hpar hc hcur2 hanc hnear hrk hrn
    have hch1 := (hview (if d.type = .Void ∨ d.type = .VoidArray then
      VoidTypeVariableError d.name d.lineno st else st) (by split <;> rfl)).1
    have hstep := hev.2.2.2 k (hash nm)
    rw [hch1] at hstep
    obtain ⟨e, he, hes, hf1, hf2⟩ := chainFind_shadow hstep hfresh rfl
    have hnone : ∀ (p : SymbolRec → Bool), (∀ x, p x = true → x.name = nm) →
        ∀ j ∈ nearer, chainFind p (st2.chain j (hash nm)) = none := by
      intro p hp j hj
      rw [chainFind_eq_none]
      intro x hx
      by_contra hpx
      exact hnear j hj x hx (hp x (by simpa using hpx))
    obtain ⟨ra, hra, hwa⟩ := lookupWalk_spec st2 (hash nm) (fun e => decide (e.name = nm)) hpar
      st2.scopeList.length c hc hc
    obtain ⟨rk, hrk1, hwk⟩ := lookupWalk_spec st2 (hash nm)
      (fun e => decide (e.name = nm) && decide (e.kind = .VariableSym)) hpar
      st2.scopeList.length c hc hc
    have hra1 := WalkResult_unique hwa nearer farther k _ hanc
      (hnone _ (fun x hx => by simpa using hx)) hf1
    have hrk2 := WalkResult_unique hwk nearer farther k _ hanc
      (hnone _ (fun x hx => by
        simp only [Bool.and_eq_true, decide_eq_true_eq] at hx
        exact hx.1)) hf2
    subst hra1
    subst hrk2
    have hlook : lookupSymbolWithKind (some c) (some nm) .VariableSym st2 =
        .ok (some ⟨k, hash nm, (st.chain k (hash nm)).length⟩) := by
      simp only [lookupSymbolWithKind, ERROR_CHECK, Option.isSome_some, Bool.and_self, if_true,
        bind, Except.bind, Option.getD_some]
      exact hrk1
    have hderef : derefSymbol st2 ⟨k, hash nm, (st.chain k (hash nm)).length⟩ = some e := by
      rw [derefSymbol_eq]
      exact he
    refine ⟨hlook, e, modifySymbol st2 ⟨k, hash nm, (st.chain k (hash nm)).length⟩
      (fun e => { e with lineList := e.lineList ++ [dr.lineno] }),
      hderef, hes.1, hes.2.1, hes.2.2.1, ?_, ?_, ?_, rfl, rfl, rfl⟩
    · simp only [insertNode, hrk, hcur2, hrn, hlook, bind, Except.bind, appendSymbol, ERROR_CHECK,
        Option.isSome_some, Bool.and_self, if_true, Option.getD_some, hra, pure, Except.pure]
    · rw [derefSymbol_modifySymbol, if_pos rfl, hderef]
      rfl
    · intro q hq
      rw [derefSymbol_modifySymbol, if_neg hq]

theorem shadowDeeper_tablesOk : TablesOk shadowDeeper :=
  have h0 : builtinState = .ok builtinState.get := by rfl
  have h1 : insertNode (varDecl 1 .Integer "a" .null .null) builtinState.get =
      .ok (_, visitState (insertNode (varDecl 1 .Integer "a" .null .null) builtinState.get)) := by
    rfl
  have h2 : insertNode (funDecl 2 .Integer "main" (voidParams 2) .null .null)
      (visitState (insertNode (varDecl 1 .Integer "a" .null .null) builtinState.get)) =
      .ok ({ newTreeNode .FunctionDecl with lineno := 2, type := .Integer, name := some "main",
                                             scope := some 2 },
        visitState (insertNode (funDecl 2 .Integer "main" (voidParams 2) .null .null)
          (visitState (insertNode (varDecl 1 .Integer "a" .null .null) builtinState.get)))) := by
    rfl
  have h3 : insertNode (varDecl 3 .Integer "a" .null .null)
      (visitState (insertNode (funDecl 2 .Integer "main" (voidParams 2) .null .null)
        (visitState (insertNode (varDecl 1 .Integer "a" .null .null) builtinState.get)))) =
      .ok (_, visitState (insertNode (varDecl 3 .Integer "a" .null .null)
        (visitState (insertNode (funDecl 2 .Integer "main" (voidParams 2) .null .null)
          (visitState (insertNode (varDecl 1 .Integer "a" .null .null) builtinState.get)))))) := by
    rfl
  have h4 : insertNode (block 4 false .null .null .null)
      (visitState (insertNode (varDecl 3 .Integer "a" .null .null)
        (visitState (insertNode (funDecl 2 .Integer "main" (voidParams 2) .null .null)
          (visitState (insertNode (varDecl 1 .Integer "a" .null .null) builtinState.get)))))) =
      .ok ({ newTreeNode .CompoundStmt with lineno := 4, scope := some 3 }, shadowStart) := by
    rfl
  have h5 : insertNode (varDecl 5 .Integer "a" .null .null) shadowStart =
      .ok (_, shadowDeclared) := by rfl
  have h6 : insertNode (block 5 false .null .null .null) shadowDeclared =
      .ok ({ newTreeNode .CompoundStmt with lineno := 5, scope := some 4 }, shadowDeeper) := by
    rfl
  insertNode_tablesOk h6 (insertNode_tablesOk h5 (insertNode_tablesOk h4 (insertNode_tablesOk h3
    (insertNode_tablesOk h2 (insertNode_tablesOk h1 (builtinState_tablesOk h0))))))

theorem inner_declaration_shadows_witness :
    3 < shadowStart.scopeList.length ∧ shadowStart.currentScope = some 3 ∧
      shadowStart.lines 0 (hash "a") = [("a", .STATE_NORMAL, [1])] ∧
      shadowStart.lines 2 (hash "a") = [("a", .STATE_NORMAL, [3])] ∧
      shadowStart.lines 3 (hash "a") = [] ∧
      insertNode (varDecl 5 .Integer "a" .null .null) shadowStart =
        .ok ({ newTreeNode .VariableDecl with lineno := 5, type := .Integer, name := some "a" },
          shadowDeclared) ∧
      shadowDeclared.listing = shadowStart.listing ∧
      Evolves shadowDeclared shadowDeeper ∧ ParentsBelow shadowDeeper ∧
      shadowDeeper.currentScope = some 4 ∧
      ancestors shadowDeeper shadowDeeper.scopeList.length (some 4) = [4] ++ 3 :: [2, 0] ∧
      lookupSymbolWithKind (some 4) (some "a") .VariableSym shadowDeeper =
        .ok (some ⟨3, hash "a", 0⟩) ∧
      ∃ stn, insertNode (varRef 6 "a" .null .null) shadowDeeper =
          .ok ({ newTreeNode .VarAccessExpr with lineno := 6, name := some "a" }, stn) ∧
        stn.lines 3 (hash "a") = [("a", .STATE_NORMAL, [5, 6])] ∧
        derefSymbol stn ⟨2, hash "a", 0⟩ = derefSymbol shadowDeeper ⟨2, hash "a", 0⟩ ∧
        derefSymbol stn ⟨0, hash "a", 0⟩ = derefSymbol shadowDeeper ⟨0, hash "a", 0⟩ ∧
        stn.listing = shadowDeeper.listing := by
  have hdecl : insertNode (varDecl 5 .Integer "a" .null .null) shadowStart =
      .ok ({ newTreeNode .VariableDecl with lineno := 5, type := .Integer, name := some "a" },
        shadowDeclared) := by rfl
  have hblock : insertNode (block 5 false .null .null .null) shadowDeclared =
      .ok ({ newTreeNode .CompoundStmt with lineno := 5, scope := some 4 }, shadowDeeper) := by
    rfl
  have hev : Evolves shadowDeclared shadowDeeper := (insertNode_evolves hblock).1
  have hanc : ancestors shadowDeeper shadowDeeper.scopeList.length (some 4) =
      [4] ++ 3 :: [2, 0] := by decide
  have hempty : shadowDeeper.chain 4 (hash "a") = [] := by rfl
  obtain ⟨st1, h1, hl, _, _, _, hB⟩ :=
    (inner_declaration_shadows shadowStart 3 "a"
      { newTreeNode .VariableDecl with lineno := 5, type := .Integer, name := some "a" }
      .null .null .null .null (by decide) (by rfl) rfl rfl
      (by
        intro e he
        have hnil : shadowStart.chain 3 (hash "a") = [] := by rfl
        rw [hnil] at he
        cases he)).1
  have hst1 : st1 = shadowDeclared := by
    have h2 := h1.symm.trans hdecl
    simp only [Except.ok.injEq, Prod.mk.injEq, true_and] at h2
    exact h2
  subst hst1
  obtain ⟨hlook, e, stn, hde, _, _, _, hins, hdn, hothers, hlist, _, _⟩ :=
    hB shadowDeeper 4 [4] [2, 0]
      { newTreeNode .VarAccessExpr with lineno := 6, name := some "a" } .null .null .null .null
      hev shadowDeeper_tablesOk.1 (by decide) (by rfl) hanc
      (by
        intro j hj x hx
        simp only [List.mem_singleton] at hj
        subst hj
        rw [hempty] at hx
        cases hx) rfl rfl
  have hlen : (shadowStart.chain 3 (hash "a")).length = 0 := by decide
  rw [hlen] at hlook hde hdn hothers
  refine ⟨by decide, by rfl, by decide, by decide, by decide, hdecl, hl, hev,
    shadowDeeper_tablesOk.1, by rfl, hanc, hlook, stn, hins, ?_, hothers _ (by decide),
    hothers _ (by decide), hlist⟩
  have hrun : insertNode (varRef 6 "a" .null .null) shadowDeeper =
      .ok ({ newTreeNode .VarAccessExpr with lineno := 6, name := some "a" },
        visitState (insertNode (varRef 6 "a" .null .null) shadowDeeper)) := by rfl
  have hstn : stn = visitState (insertNode (varRef 6 "a" .null .null) shadowDeeper) := by
    have h2 := hins.symm.trans hrun
    simp only [Except.ok.injEq, Prod.mk.injEq, true_and] at h2
    exact h2
  rw [hstn]
  decide

/-- What the pre-visit of pass 1 does to the current scope: a node that opens no scope
is left as it is and so is the current scope; a node that opens one gets the new scope,
the last of the directory, written to its `scope` field, that scope becomes current, and
its parent is the scope that was current. -/
theorem insertNode_current {d d1 : NodeData} {c0 c1 c2 sib : TreeNode} {st st1 : State}
    (h : insertNode (.node d c0 c1 c2 sib) st = .ok (d1, st1)) :
    (opensScope d = false ∧ d1 = d ∧ st1.currentScope = st.currentScope ∧
        st1.scopeList.length = st.scopeList.length) ∨
      (opensScope d = true ∧ d1 = { d with scope := some st.scopeList.length } ∧
        st1.currentScope = some st.scopeList.length ∧
        st1.scopeList.length = st.scopeList.length + 1 ∧
        st1.parentOf st.scopeList.length = some st.currentScope) := by
  have hdecl : ∀ (kind : SymbolKind) (st2 st3 : State) (p : SymPtr),
      insertNode.redefined
          (if d.type = .Void ∨ d.type = .VoidArray then VoidTypeVariableError d.name d.lineno st
            else st).currentScope d
          (if d.type = .Void ∨ d.type = .VoidArray then VoidTypeVariableError d.name d.lineno st
            else st) = .ok st2 →
      insertSymbol st2.currentScope d.name d.type kind d.lineno (.node d c0 c1 c2 sib) st2 =
        .ok (p, st3) →
      st3.currentScope = st.currentScope ∧ st3.scopeList.length = st.scopeList.length := by
    intro kind st2 st3 p h2 h3
    obtain ⟨_, _, _, _, _, hl2, _, hc2, _⟩ := redefined_inv h2
    obtain ⟨_, _, _, _, _, _, _, hl3, _, hc3, _⟩ := insertSymbol_inv h3
    obtain ⟨vs, vc, _⟩ := voidCheck_inv d st
    exact ⟨by rw [hc3, hc2, vc], by rw [hl3, hl2, vs]⟩
  have hscope : ∀ (name : Option String) (func : TreeNode) (sa sb : State) (sc : Nat),
      insertScope name sa.currentScope func sa = .ok (sc, sb) →
      sa.currentScope = st.currentScope → sa.scopeList.length = st.scopeList.length →
      sc = st.scopeList.length ∧ sb.scopeList.length = st.scopeList.length + 1 ∧
        sb.parentOf st.scopeList.length = some st.currentScope := by
    intro name func sa sb sc hs hc hl
    obtain ⟨h1, h2, h3, _⟩ := insertScope_inv hs
    rw [hl] at h1 h2
    subst h1
    exact ⟨rfl, h2, by rw [h3, hc]⟩
  simp only [insertNode] at h
  split at h
  · -- VariableDecl
    next hkind =>
    simp only [bind_ok_iff, pure_ok_iff, Prod.exists, Prod.mk.injEq] at h
    obtain ⟨st2, h2, p, st3, h3, rfl, rfl⟩ := h
    exact Or.inl ⟨by simp [opensScope, hkind], rfl, hdecl _ _ _ _ h2 h3⟩
  · -- FunctionDecl
    next hkind =>
    simp only [bind_ok_iff, pure_ok_iff, Prod.exists, Prod.mk.injEq, ERROR_CHECK_ok_iff,
      decide_eq_true_eq] at h
    obtain ⟨_, hcg, sa, h1, p, sb, h2, sc, st3, h3, rfl, rfl⟩ := h
    obtain ⟨_, _, _, _, _, hl1, _, hc1, _⟩ := redefined_inv h1
    obtain ⟨_, _, _, _, _, _, _, hl2, _, hc2, _⟩ := insertSymbol_inv h2
    obtain ⟨e1, e2, e3⟩ := hscope _ _ _ _ _ h3 (by rw [hc2, hc1]) (by rw [hl2, hl1])
    subst e1
    refine Or.inr ⟨by simp [opensScope, hkind], rfl, rfl, ?_, ?_⟩
    · show (modifySymbol st3 p _).scopeList.length = _
      rw [length_modifySymbol, e2]
    · show (modifySymbol st3 p _).parentOf _ = _
      rw [parentOf_modifySymbol, e3]
  · -- Params
    next hkind =>
    split at h
    · simp only [Except.ok.injEq, Prod.mk.injEq] at h
      obtain ⟨rfl, rfl⟩ := h
      exact Or.inl ⟨by simp [opensScope, hkind], rfl, rfl, rfl⟩
    · simp only [bind_ok_iff, pure_ok_iff, Prod.exists, Prod.mk.injEq] at h
      obtain ⟨st2, h2, p, st3, h3, rfl, rfl⟩ := h
      exact Or.inl ⟨by simp [opensScope, hkind], rfl, hdecl _ _ _ _ h2 h3⟩
  · -- CompoundStmt
    next hkind =>
    split at h
    · next hflag =>
      simp only [Except.ok.injEq, Prod.mk.injEq] at h
      obtain ⟨rfl, rfl⟩ := h
      exact Or.inl ⟨by simp [opensScope, hkind, hflag], rfl, rfl, rfl⟩
    · next hflag =>
      simp only [bind_ok_iff, pure_ok_iff, Prod.exists, Prod.mk.injEq] at h
      obtain ⟨cur, _, sc, sb, h1, rfl, rfl⟩ := h
      obtain ⟨e1, e2, e3⟩ := hscope _ _ _ _ _ h1 rfl rfl
      subst e1
      exact Or.inr ⟨by simp [opensScope, hkind, hflag], rfl, rfl, e2, e3⟩
  · -- CallExpr
    next hkind =>
    simp only [bind_ok_iff, Prod.exists] at h
    obtain ⟨func, _, h⟩ := h
    cases func with
    | none =>
      simp only [bind_ok_iff, pure_ok_iff, Prod.exists, Prod.mk.injEq, UndeclaredFunctionError] at h
      obtain ⟨p, sb, h1, rfl, rfl⟩ := h
      obtain ⟨_, _, _, _, _, _, _, hl, _, hc, _⟩ := insertSymbol_inv h1
      exact Or.inl ⟨by simp [opensScope, hkind], rfl, hc, hl⟩
    | some q =>
      simp only [bind_ok_iff, pure_ok_iff, Prod.exists, Prod.mk.injEq] at h
      obtain ⟨p, sb, h1, rfl, rfl⟩ := h
      obtain ⟨_, hl, _, hc, _⟩ := appendSymbol_inv "" h1
      exact Or.inl ⟨by simp [opensScope, hkind], rfl, hc, hl⟩
  · -- VarAccessExpr
    next hkind =>
    simp only [bind_ok_iff, Prod.exists] at h
    obtain ⟨var, _, h⟩ := h
    cases var with
    | none =>
      simp only [bind_ok_iff, pure_ok_iff, Prod.exists, Prod.mk.injEq, UndeclaredVariableError] at h
      obtain ⟨p, sb, h1, rfl, rfl⟩ := h
      obtain ⟨_, _, _, _, _, _, _, hl, _, hc, _⟩ := insertSymbol_inv h1
      exact Or.inl ⟨by simp [opensScope, hkind], rfl, hc, hl⟩
    | some q =>
      simp only [bind_ok_iff, pure_ok_iff, Prod.exists, Prod.mk.injEq] at h
      obtain ⟨p, sb, h1, rfl, rfl⟩ := h
      obtain ⟨_, hl, _, hc, _⟩ := appendSymbol_inv "" h1
      exact Or.inl ⟨by simp [opensScope, hkind], rfl, hc, hl⟩
  all_goals
    next hkind =>
    simp only [Except.ok.injEq, Prod.mk.injEq, reduceCtorEq] at h
    try (obtain ⟨rfl, rfl⟩ := h; exact Or.inl ⟨by simp [opensScope, hkind], rfl, rfl, rfl⟩)

/-- One node of pass 1 with its children: after the post-visit the current scope is the
one before the pre-visit, when the traversals of the children restore it. -/
theorem node_restores {d d1 d2 : NodeData} {c0 c1 c2 sib c0n c1n c2n : TreeNode}
    {st st1 st4 st5 : State} (hd : d.scope = none)
    (hpre : insertNode (.node d c0 c1 c2 sib) st = .ok (d1, st1))
    (hev : Evolves st1 st4) (hcur : st4.currentScope = st1.currentScope)
    (hpost : scopeOut (.node d1 c0n c1n c2n sib) st4 = .ok (d2, st5)) :
    st5.currentScope = st.currentScope := by
  obtain ⟨_, _, _, _, _, pcase⟩ := scopeOut_ok hpost
  rcases insertNode_current hpre with ⟨_, hd1, hc1, _⟩ | ⟨_, hd1, hc1, hl1, hp1⟩
  · rcases pcase with ⟨_, h5⟩ | ⟨sc, s, hsc, _, _⟩
    · rw [h5, hcur, hc1]
    · rw [hd1, hd] at hsc
      cases hsc
  · rcases pcase with ⟨hnone, _⟩ | ⟨sc, s, hsc, hs, h5⟩
    · rw [hd1] at hnone
      cases hnone
    · rw [hd1] at hsc
      simp only [Option.some.injEq] at hsc
      subst hsc
      have hp4 : st4.parentOf st.scopeList.length = some st.currentScope := by
        rw [(hev.2.2.1 _ (by omega)).2.1, hp1]
      simp only [State.parentOf, hs, Option.map_some', Option.some.injEq] at hp4
      rw [h5]
      exact hp4

theorem pass1_restores_aux (t : TreeNode) (st : State) (tn : TreeNode) (stn : State)
    (h : traverse insertNode scopeOut t st = .ok (tn, stn)) :
    Evolves st stn ∧ (NoScopes t → stn.currentScope = st.currentScope) := by
  revert t st tn stn
  apply traverse_induct
  · intro st
    exact ⟨Evolves_refl _, fun _ => rfl⟩
  · intro d c0 c1 c2 sib st d1 st1 c0n st2 c1n st3 c2n st4 d2 st5 sibn st6 hpre r0 r1 r2 hpost rs
    obtain ⟨_, psl, pgl, _⟩ := scopeOut_ok hpost
    have e14 := Evolves_trans (Evolves_trans r0.1 r1.1) r2.1
    refine ⟨Evolves_trans (insertNode_evolves hpre).1
      (Evolves_trans e14 (Evolves_trans (Evolves_of_scopeList_eq psl pgl) rs.1)), ?_⟩
    intro hscopes
    obtain ⟨hs, s0, s1, s2, ss⟩ := hscopes
    have hcur5 := node_restores hs hpre e14 (by rw [r2.2 s2, r1.2 s1, r0.2 s0]) hpost
    rw [rs.2 ss, hcur5]

/-- Pass 1 over a tree restores the current scope. -/
theorem pass1_restores {t tn : TreeNode} {st stn : State}
    (h : traverse insertNode scopeOut t st = .ok (tn, stn)) (hno : NoScopes t) :
    stn.currentScope = st.currentScope :=
  (pass1_restores_aux t st tn stn h).2 hno

/-- The pre-visits of pass 1 run in the scope of the innermost scope-opening node. -/
theorem scopeTrace_lexical (t : TreeNode) :
    ∀ (st : State) (g : Option Nat), NoScopes t → st.currentScope = g →
      ∀ r ∈ scopeTrace insertNode scopeOut t st g, r.2.1 = r.2.2 := by
  have hinner : ∀ {d d1 : NodeData} {c0 c1 c2 sib : TreeNode} {st st1 : State} {g : Option Nat},
      d.scope = none → insertNode (.node d c0 c1 c2 sib) st = .ok (d1, st1) →
      st.currentScope = g → st1.currentScope = innerScope d1 g := by
    intro d d1 c0 c1 c2 sib st st1 g hd hpre hg
    rcases insertNode_current hpre with ⟨_, hd1, hc1, _⟩ | ⟨_, hd1, hc1, _⟩
    · rw [hd1, innerScope, hd, hc1, hg]
    · rw [hd1, innerScope, hc1]
  induction t with
  | null =>
    intro st g _ _ r hr
    simp [scopeTrace] at hr
  | node d c0 c1 c2 sib ih0 ih1 ih2 ihs =>
    intro st g hno hg r hr
    obtain ⟨hs, s0, s1, s2, ss⟩ := hno
    simp only [scopeTrace, List.mem_cons] at hr
    rcases hr with rfl | hr
    · exact hg
    cases hpre : insertNode (.node d c0 c1 c2 sib) st with
    | error f => simp [hpre] at hr
    | ok r1 =>
      obtain ⟨d1, st1⟩ := r1
      simp only [hpre, List.mem_append] at hr
      have hc1 := hinner hs hpre hg
      rcases hr with hr | hr
      · exact ih0 st1 _ s0 hc1 r hr
      cases h0 : traverse insertNode scopeOut c0 st1 with
      | error f => simp [h0] at hr
      | ok r2 =>
        obtain ⟨c0n, st2⟩ := r2
        simp only [h0, List.mem_append] at hr
        have hc2 : st2.currentScope = innerScope d1 g := by rw [pass1_restores h0 s0, hc1]
        rcases hr with hr | hr
        · exact ih1 st2 _ s1 hc2 r hr
        cases h1 : traverse insertNode scopeOut c1 st2 with
        | error f => simp [h1] at hr
        | ok r3 =>
          obtain ⟨c1n, st3⟩ := r3
          simp only [h1, List.mem_append] at hr
          have hc3 : st3.currentScope = innerScope d1 g := by rw [pass1_restores h1 s1, hc2]
          rcases hr with hr | hr
          · exact ih2 st3 _ s2 hc3 r hr
          cases h2 : traverse insertNode scopeOut c2 st3 with
          | error f => simp [h2] at hr
          | ok r4 =>
            obtain ⟨c2n, st4⟩ := r4
            simp only [h2] at hr
            cases hpost : scopeOut (.node d1 c0n c1n c2n sib) st4 with
            | error f => simp [hpost] at hr
            | ok r5 =>
              obtain ⟨d2, st5⟩ := r5
              simp only [hpost] at hr
              have e14 := Evolves_trans (Evolves_trans (pass1_restores_aux _ _ _ _ h0).1
                (pass1_restores_aux _ _ _ _ h1).1) (pass1_restores_aux _ _ _ _ h2).1
              have hc5 := node_restores hs hpre e14 (by
                rw [pass1_restores h2 s2, pass1_restores h1 s1, pass1_restores h0 s0]) hpost
              exact ihs st5 g ss (by rw [hc5, hg]) r hr

/-- The trace of a completed traversal has one entry for each node of the tree. -/
theorem scopeTrace_nodes (preProc postProc : Proc) (t : TreeNode) :
    ∀ (st : State) (g : Option Nat) (tn : TreeNode) (stn : State),
      traverse preProc postProc t st = .ok (tn, stn) →
      (scopeTrace preProc postProc t st g).map (fun r => r.1) = t.nodes := by
  induction t with
  | null =>
    intro st g tn stn _
    rfl
  | node d c0 c1 c2 sib ih0 ih1 ih2 ihs =>
    intro st g tn stn h
    rw [traverse_node_ok] at h
    obtain ⟨d1, st1, c0n, st2, c1n, st3, c2n, st4, d2, st5, sibn, st6, h1, h2, h3, h4, h5, h6, _⟩ := h
    simp only [scopeTrace, h1, h2, h3, h4, h5, List.map_cons, List.map_append, TreeNode.nodes,
      ih0 st1 _ c0n st2 h2, ih1 st2 _ c1n st3 h3, ih2 st3 _ c2n st4 h4, ihs st5 _ sibn st6 h6]

/-- C34. For a tree as the parser hands it over (no node carries a scope): at every
pre-visit of pass 1, also of a run that aborts later, the current scope is the scope
opened by the innermost enclosing scope-opening node, or the scope current at the start
(for `buildSymtab` the global scope) when there is none; a node opens a scope exactly when
it is a function declaration or a compound statement not flagged as function body, and the
scope it opens is the new last scope of the directory, whose parent is the scope current
before; a completed traversal of the tree (any subtree with its siblings, from any state)
visits every node and leaves the current scope as it was; and after a completed
`buildSymtab` the current scope is the global scope, scope 0. The trace of
`int a; int main(void) { { a = 1; } a = 2; } int f(void) { }` is given. -/
theorem pass1_current_scope (t : TreeNode) (hno : NoScopes t) :
    (∀ st, ∀ r ∈ scopeTrace insertNode scopeOut t st st.currentScope, r.2.1 = r.2.2) ∧
    (∀ d c0 c1 c2 sib st d1 st1 g, d.scope = none →
      insertNode (.node d c0 c1 c2 sib) st = .ok (d1, st1) →
      innerScope d1 g = (if opensScope d then some st.scopeList.length else g) ∧
      (opensScope d = true → st1.scopeList.length = st.scopeList.length + 1 ∧
        st1.parentOf st.scopeList.length = some st.currentScope ∧
        st1.currentScope = some st.scopeList.length)) ∧
    (∀ st tn stn, traverse insertNode scopeOut t st = .ok (tn, stn) →
      stn.currentScope = st.currentScope ∧
      (scopeTrace insertNode scopeOut t st st.currentScope).map (fun r => r.1) = t.nodes) ∧
    (∀ tn stn, buildSymtab t State.initial = .ok (tn, stn) →
      stn.currentScope = stn.globalScope ∧ stn.globalScope = some 0 ∧
      traverse insertNode scopeOut t builtinState.get = .ok (tn, stn) ∧
      builtinState.get.currentScope = some 0) ∧
    (scopeTrace insertNode scopeOut progScopes builtinState.get (some 0)).map
        (fun r => (r.1.lineno, r.1.kind, r.2.1, r.2.2)) =
      [(1, .VariableDecl, some 0, some 0), (2, .FunctionDecl, some 0, some 0),
        (2, .Params, some 2, some 2), (2, .CompoundStmt, some 2, some 2),
        (3, .CompoundStmt, some 2, some 2), (4, .AssignExpr, some 3, some 3),
        (4, .VarAccessExpr, some 3, some 3), (4, .ConstExpr, some 3, some 3),
        (5, .AssignExpr, some 2, some 2), (5, .VarAccessExpr, some 2, some 2),
        (5, .ConstExpr, some 2, some 2), (6, .FunctionDecl, some 0, some 0),
        (6, .Params, some 4, some 4), (6, .CompoundStmt, some 4, some 4)] := by
  refine ⟨fun st => scopeTrace_lexical t st _ hno rfl, ?_, ?_, ?_, by decide⟩
  · intro d c0 c1 c2 sib st d1 st1 g hd hpre
    rcases insertNode_current hpre with ⟨ho, hd1, _, _⟩ | ⟨ho, hd1, hc1, hl1, hp1⟩
    · refine ⟨?_, fun h => ?_⟩
      · rw [hd1, innerScope, hd, ho]
        rfl
      · rw [ho] at h
        cases h
    · refine ⟨?_, fun _ => ⟨hl1, hp1, hc1⟩⟩
      rw [hd1, innerScope, ho]
      rfl
  · intro st tn stn h
    exact ⟨pass1_restores h hno, scopeTrace_nodes _ _ t st _ tn stn h⟩
  · intro tn stn h
    rw [buildSymtab_eq, builtinState_eq] at h
    have h1 : traverse insertNode scopeOut t builtinState.get = .ok (tn, stn) := h
    have hc := pass1_restores h1 hno
    have hg := (pass1_restores_aux _ _ _ _ h1).1.2.1
    have hc0 : builtinState.get.currentScope = some 0 := by rfl
    have hg0 : builtinState.get.globalScope = some 0 := by rfl
    exact ⟨by rw [hc, hg, hc0, hg0], by rw [hg, hg0], h1, hc0⟩

theorem pass1_current_scope_witness :
    NoScopes progScopes ∧
      traverse insertNode scopeOut progScopes builtinState.get =
        .ok (okTree (buildSymtab progScopes State.initial),
          okState (buildSymtab progScopes State.initial)) ∧
      (okState (buildSymtab progScopes State.initial)).currentScope = some 0 ∧
      (scopeTrace insertNode scopeOut progScopes builtinState.get
        builtinState.get.currentScope).map (fun r => r.1) = progScopes.nodes ∧
      ∀ r ∈ scopeTrace insertNode scopeOut progScopes builtinState.get
        builtinState.get.currentScope, r.2.1 = r.2.2 :=
  have hno : NoScopes progScopes := by
    simp [NoScopes, TreeNode.Forall, progScopes, funDecl, varDecl, voidParams, block, assign,
      varRef, const, newTreeNode]
  have hrun : traverse insertNode scopeOut progScopes builtinState.get =
      .ok (okTree (buildSymtab progScopes State.initial),
        okState (buildSymtab progScopes State.initial)) := by rfl
  ⟨hno, hrun,
    ((pass1_current_scope progScopes hno).2.2.1 _ _ _ hrun).1.trans (by rfl),
    ((pass1_current_scope progScopes hno).2.2.1 _ _ _ hrun).2,
    (pass1_current_scope progScopes hno).1 builtinState.get⟩

theorem FunctionsOwn_mono {fo fo1 : Nat → Option TreeNode}
    (h : ∀ sc o, fo sc = some o → fo1 sc = some o) :
    ∀ t, FunctionsOwn fo t → FunctionsOwn fo1 t := by
  intro t
  induction t with
  | null => exact fun _ => trivial
  | node d c0 c1 c2 sib ih0 ih1 ih2 ihs =>
    intro ht
    obtain ⟨hd, h0, h1, h2, hs⟩ := ht
    refine ⟨fun hk => ⟨(hd hk).1, fun sc hsc => ?_⟩, ih0 h0, ih1 h1, ih2 h2, ihs hs⟩
    obtain ⟨o, ho, hown⟩ := (hd hk).2 sc hsc
    exact ⟨o, h sc o ho, hown⟩

theorem funcOf_evolves {st stn : State} (h : Evolves st stn) {sc : Nat} {o : TreeNode}
    (ho : st.funcOf sc = some o) : stn.funcOf sc = some o := by
  have hlt : sc < st.scopeList.length := by
    by_contra hge
    simp only [State.funcOf, List.getElem?_eq_none (Nat.le_of_not_lt hge), Option.map_none',
      reduceCtorEq] at ho
  rw [(h.2.2.1 sc hlt).2.2, ho]

theorem owner_evolves {st stn : State} (h : Evolves st stn)
    (hc : stn.currentScope = st.currentScope) {o : TreeNode} (ho : st.owner = some o) :
    stn.owner = some o := by
  simp only [State.owner, hc] at ho ⊢
  cases hcur : st.currentScope with
  | none => simp [hcur] at ho
  | some c =>
    simp only [hcur, Option.bind_some] at ho ⊢
    exact funcOf_evolves h ho

theorem GlobalNull_evolves {st stn : State} (h : Evolves st stn) (hg : GlobalNull st) :
    GlobalNull stn := by
  simp only [GlobalNull, h.2.1] at hg ⊢
  cases hgl : st.globalScope with
  | none => simp [hgl] at hg
  | some c =>
    simp only [hgl, Option.bind_some] at hg ⊢
    exact funcOf_evolves h hg

theorem insertScope_func {name : Option String} {parent : Option Nat} {func : TreeNode}
    {st stn : State} {k : Nat} (h : insertScope name parent func st = .ok (k, stn)) :
    stn.funcOf k = some func := by
  obtain ⟨st1, scope, rfl, rfl, _, _, _, hf, _⟩ := insertScope_ok h
  simp [State.funcOf, hf]

/-- The owner of the scope a node opens in pass 1: the declaration node itself for a
function declaration, which is visited in the global scope; the owner of the scope
current before for a block. -/
theorem insertNode_owner {d d1 : NodeData} {c0 c1 c2 sib : TreeNode} {st st1 : State}
    (h : insertNode (.node d c0 c1 c2 sib) st = .ok (d1, st1)) :
    (d.kind = .FunctionDecl → st.currentScope = st.globalScope ∧
      st1.funcOf st.scopeList.length = some (.node d c0 c1 c2 sib)) ∧
    (d.kind = .CompoundStmt → d.flag = false →
      st1.funcOf st.scopeList.length = st.owner ∧ st.owner ≠ none) := by
  refine ⟨fun hkind => ?_, fun hkind hflag => ?_⟩
  · simp only [insertNode, hkind, bind_ok_iff, pure_ok_iff, Prod.exists, Prod.mk.injEq,
      ERROR_CHECK_ok_iff, decide_eq_true_eq] at h
    obtain ⟨_, hcg, sa, h1, p, sb, h2, sc, st3, h3, rfl, rfl⟩ := h
    obtain ⟨_, _, _, _, _, hl1, _, hc1, _⟩ := redefined_inv h1
    obtain ⟨_, _, _, _, _, _, _, hl2, _, hc2, _⟩ := insertSymbol_inv h2
    have hsc := (insertScope_inv h3).1
    have hf := insertScope_func h3
    rw [hsc, hl2, hl1] at hf
    refine ⟨hcg, ?_⟩
    show (modifySymbol st3 p _).funcOf _ = _
    rw [funcOf_modifySymbol, hf]
  · simp only [insertNode, hkind, hflag, Bool.false_eq_true, if_false, bind_ok_iff, pure_ok_iff,
      Prod.exists, Prod.mk.injEq, derefScope_ok_iff] at h
    obtain ⟨cur, ⟨c, hc, hcs⟩, sc, sb, h1, rfl, rfl⟩ := h
    have hsc := (insertScope_inv h1).1
    have hf := insertScope_func h1
    rw [hsc] at hf
    have ho : st.owner = some cur.func := by simp [State.owner, hc, State.funcOf, hcs]
    refine ⟨?_, by rw [ho]; simp⟩
    rw [ho]
    exact hf

/-- Pass 1 over a tree visited inside the function `C` (outside every function when `C`
is `none`): every scope written to the tree is owned by `C`, and every function
declaration of the tree owns the scopes written to it and below it. -/
theorem pass1_owner (t : TreeNode) :
    ∀ (st : State) (tn : TreeNode) (stn : State) (C : Option TreeNode),
      traverse insertNode scopeOut t st = .ok (tn, stn) → NoScopes t → GlobalNull st →
      (∀ o, C = some o → o ≠ .null ∧ st.owner = some o) →
      (∀ o, C = some o → ∀ sc ∈ tn.scopes, stn.funcOf sc = some o) ∧
        FunctionsOwn stn.funcOf tn := by
  induction t with
  | null =>
    intro st tn stn C h _ _ _
    simp only [traverse, Except.ok.injEq, Prod.mk.injEq] at h
    obtain ⟨rfl, rfl⟩ := h
    exact ⟨fun o _ sc hsc => by simp [TreeNode.scopes] at hsc, trivial⟩
  | node d c0 c1 c2 sib ih0 ih1 ih2 ihs =>
    intro st tn stn C h hno hg hC
    rw [traverse_node_ok] at h
    obtain ⟨d1, st1, c0n, st2, c1n, st3, c2n, st4, d2, st5, sibn, st6, hpre, h0, h1, h2, hpost,
      hsib, hr⟩ := h
    simp only [Prod.mk.injEq] at hr
    obtain ⟨rfl, rfl⟩ := hr
    obtain ⟨hs, s0, s1, s2, ss⟩ := hno
    obtain ⟨hd2, psl, pgl, _, _, _⟩ := scopeOut_ok hpost
    subst d2
    have e01 := (insertNode_evolves hpre).1
    have e12 := (pass1_restores_aux _ _ _ _ h0).1
    have e23 := (pass1_restores_aux _ _ _ _ h1).1
    have e34 := (pass1_restores_aux _ _ _ _ h2).1
    have e45 : Evolves st4 st5 := Evolves_of_scopeList_eq psl pgl
    have e56 := (pass1_restores_aux _ _ _ _ hsib).1
    have e14 := Evolves_trans (Evolves_trans e12 e23) e34
    have c12 := pass1_restores h0 s0
    have c23 := pass1_restores h1 s1
    have c34 := pass1_restores h2 s2
    have c05 := node_restores hs hpre e14 (by rw [c34, c23, c12]) hpost
    have e26 := Evolves_trans e23 (Evolves_trans e34 (Evolves_trans e45 e56))
    have e36 := Evolves_trans e34 (Evolves_trans e45 e56)
    have e46 := Evolves_trans e45 e56
    have e16 := Evolves_trans e12 e26
    have e05 := Evolves_trans e01 (Evolves_trans e14 e45)
    obtain ⟨hfun, hblock⟩ := insertNode_owner hpre
    -- a function declaration is visited outside every function
    have hCnone : d.kind = .FunctionDecl → C = none := by
      intro hk
      cases hCo : C with
      | none => rfl
      | some o =>
        obtain ⟨hon, hown⟩ := hC o hCo
        have hgl : st.owner = some .null := by
          simp only [State.owner, (hfun hk).1]
          exact hg
        rw [hown] at hgl
        exact absurd (Option.some.inj hgl) hon
    -- the function around the children
    have hC1 : ∀ o, (if d.kind = .FunctionDecl then some (.node d c0 c1 c2 sib) else C) = some o →
        o ≠ .null ∧ st1.owner = some o ∧ ∀ sc, d1.scope = some sc → st1.funcOf sc = some o := by
      intro o ho
      rcases insertNode_current hpre with ⟨hop, hd1, hc1, _⟩ | ⟨hop, hd1, hc1, _, _⟩
      · have hk : d.kind ≠ .FunctionDecl := by
          intro hk
          simp [opensScope, hk] at hop
        rw [if_neg hk] at ho
        obtain ⟨hon, hown⟩ := hC o ho
        refine ⟨hon, owner_evolves e01 hc1 hown, ?_⟩
        intro sc hsc
        rw [hd1, hs] at hsc
        cases hsc
      · by_cases hk : d.kind = .FunctionDecl
        · rw [if_pos hk] at ho
          have ho1 := Option.some.inj ho
          subst ho1
          have hf := (hfun hk).2
          refine ⟨by simp, by simp [State.owner, hc1, hf], ?_⟩
          intro sc hsc
          rw [hd1] at hsc
          simp only [Option.some.injEq] at hsc
          rw [← hsc, hf]
        · rw [if_neg hk] at ho
          obtain ⟨hon, hown⟩ := hC o ho
          have hcomp : d.kind = .CompoundStmt ∧ d.flag = false := by
            simp only [opensScope, Bool.or_eq_true, decide_eq_true_eq, hk, false_or,
              Bool.and_eq_true, Bool.not_eq_true'] at hop
            exact hop
          have hf := (hblock hcomp.1 hcomp.2).1
          rw [hown] at hf
          refine ⟨hon, by simp [State.owner, hc1, hf], ?_⟩
          intro sc hsc
          rw [hd1] at hsc
          simp only [Option.some.injEq] at hsc
          rw [← hsc, hf]
    have g1 := GlobalNull_evolves e01 hg
    have g2 := GlobalNull_evolves e12 g1
    have g3 := GlobalNull_evolves e23 g2
    have g5 := GlobalNull_evolves e05 hg
    obtain ⟨a0, f0⟩ := ih0 st1 c0n st2 _ h0 s0 g1 (fun o ho => ⟨(hC1 o ho).1, (hC1 o ho).2.1⟩)
    obtain ⟨a1, f1⟩ := ih1 st2 c1n st3 _ h1 s1 g2
      (fun o ho => ⟨(hC1 o ho).1, owner_evolves e12 c12 (hC1 o ho).2.1⟩)
    obtain ⟨a2, f2⟩ := ih2 st3 c2n st4 _ h2 s2 g3
      (fun o ho => ⟨(hC1 o ho).1,
        owner_evolves (Evolves_trans e12 e23) (by rw [c23, c12]) (hC1 o ho).2.1⟩)
    obtain ⟨as, fs⟩ := ihs st5 sibn stn C hsib ss g5
      (fun o ho => ⟨(hC o ho).1, owner_evolves e05 c05 (hC o ho).2⟩)
    -- the scopes of the node and of its children
    have hown : ∀ o, (if d.kind = .FunctionDecl then some (.node d c0 c1 c2 sib) else C) = some o →
        ∀ sc ∈ (TreeNode.node d1 c0n c1n c2n sibn).ownScopes, stn.funcOf sc = some o := by
      intro o ho sc hsc
      simp only [TreeNode.ownScopes, List.mem_append, Option.mem_toList, Option.mem_def] at hsc
      rcases hsc with hsc | hsc | hsc | hsc
      · exact funcOf_evolves e16 ((hC1 o ho).2.2 sc hsc)
      · exact funcOf_evolves e26 (a0 o ho sc hsc)
      · exact funcOf_evolves e36 (a1 o ho sc hsc)
      · exact funcOf_evolves e46 (a2 o ho sc hsc)
    refine ⟨?_, ?_, FunctionsOwn_mono (fun _ _ => funcOf_evolves e26) _ f0,
      FunctionsOwn_mono (fun _ _ => funcOf_evolves e36) _ f1,
      FunctionsOwn_mono (fun _ _ => funcOf_evolves e46) _ f2, fs⟩
    · intro o ho sc hsc
      have hk : d.kind ≠ .FunctionDecl := by
        intro hk
        rw [hCnone hk] at ho
        cases ho
      have ho1 : (if d.kind = .FunctionDecl then some (.node d c0 c1 c2 sib) else C) = some o := by
        rw [if_neg hk]
        exact ho
      simp only [TreeNode.scopes, List.mem_append] at hsc
      rcases hsc with hsc | hsc | hsc | hsc | hsc
      · exact hown o ho1 sc (by simp only [TreeNode.ownScopes, List.mem_append]; exact Or.inl hsc)
      · exact hown o ho1 sc (by
          simp only [TreeNode.ownScopes, List.mem_append]; exact Or.inr (Or.inl hsc))
      · exact hown o ho1 sc (by
          simp only [TreeNode.ownScopes, List.mem_append]; exact Or.inr (Or.inr (Or.inl hsc)))
      · exact hown o ho1 sc (by
          simp only [TreeNode.ownScopes, List.mem_append]; exact Or.inr (Or.inr (Or.inr hsc)))
      · exact as o ho sc hsc
    · intro hk1
      have hk : d.kind = .FunctionDecl := by
        rcases insertNode_current hpre with ⟨_, hd1, _, _⟩ | ⟨_, hd1, _, _, _⟩
        · rw [hd1] at hk1
          exact hk1
        · rw [hd1] at hk1
          exact hk1
      have hd1 : d1 = { d with scope := some st.scopeList.length } := by
        rcases insertNode_current hpre with ⟨hop, _, _, _⟩ | ⟨_, hd1, _, _, _⟩
        · simp [opensScope, hk] at hop
        · exact hd1
      refine ⟨by rw [hd1]; rfl, ?_⟩
      intro sc hsc
      refine ⟨.node d c0 c1 c2 sib, hown _ (by rw [if_pos hk]) sc hsc, ?_⟩
      rw [hd1]
      simp only [IsOwner, hs]
      cases d
      simp only at hs
      rw [hs]

/-- Pass 2 over a tree: the scope directory stays, and the current scope stays or becomes
one of the scopes written to the tree. -/
theorem pass2_current (t : TreeNode) (st : State) (tn : TreeNode) (stn : State)
    (h : traverse scopeIn checkNode t st = .ok (tn, stn)) :
    stn.scopeList = st.scopeList ∧
      ∀ P : Option Nat → Prop, P st.currentScope → (∀ c ∈ t.scopes, P (some c)) →
        P stn.currentScope := by
  revert t st tn stn
  apply traverse_induct
  · intro st
    exact ⟨rfl, fun P hP _ => hP⟩
  · intro d c0 c1 c2 sib st d1 st1 c0n st2 c1n st3 c2n st4 d2 st5 sibn st6 hpre r0 r1 r2 hpost rs
    obtain ⟨_, sl1, _, _, _, hc1⟩ := scopeIn_ok hpre
    obtain ⟨_, ⟨sl5, _, hc5, _⟩, _⟩ := checkNode_ok hpost
    refine ⟨by rw [rs.1, sl5, r2.1, r1.1, r0.1, sl1], ?_⟩
    intro P hP hall
    have hmem : ∀ {l : List Nat}, (∀ c ∈ l, c ∈ (TreeNode.node d c0 c1 c2 sib).scopes) →
        ∀ c ∈ l, P (some c) := fun hl c hc => hall c (hl c hc)
    have p1 : P st1.currentScope := by
      rw [hc1]
      cases hsc : d.scope with
      | none => exact hP
      | some sc => exact hall sc (by simp [TreeNode.scopes, hsc])
    have p2 := r0.2 P p1 (hmem (fun c hc => by simp [TreeNode.scopes, hc]))
    have p3 := r1.2 P p2 (hmem (fun c hc => by simp [TreeNode.scopes, hc]))
    have p4 := r2.2 P p3 (hmem (fun c hc => by simp [TreeNode.scopes, hc]))
    have p5 : P st5.currentScope := by rw [hc5]; exact p4
    exact rs.2 P p5 (hmem (fun c hc => by simp [TreeNode.scopes, hc]))

theorem funcOf_eq_of_scopeList {st stn : State} (h : stn.scopeList = st.scopeList) :
    stn.funcOf = st.funcOf :=
  funext fun j => funcOf_of_scopeList_eq h j

theorem ownScopes_subset (d : NodeData) (c0 c1 c2 sib : TreeNode) :
    ∀ sc ∈ (TreeNode.node d c0 c1 c2 sib).ownScopes, sc ∈ (TreeNode.node d c0 c1 c2 sib).scopes := by
  intro sc hsc
  simp only [TreeNode.ownScopes, TreeNode.scopes, List.mem_append] at hsc ⊢
  rcases hsc with h | h | h | h
  · exact Or.inl h
  · exact Or.inr (Or.inl h)
  · exact Or.inr (Or.inr (Or.inl h))
  · exact Or.inr (Or.inr (Or.inr (Or.inl h)))

/-- The post-visits of pass 2 below a function declaration run in a scope written to that
declaration or below it, which that declaration owns. -/
theorem postTrace_owner (fo : Nat → Option TreeNode) (t : TreeNode) :
    ∀ (st : State) (F : Option TreeNode), FunctionsOwn fo t → st.funcOf = fo →
      (∀ f, F = some f → InsideOf f st.currentScope ∧ (∀ sc ∈ t.scopes, sc ∈ f.ownScopes) ∧
        Owns fo f) →
      ∀ r ∈ postTrace scopeIn checkNode t st F, ∀ f, r.2.2.2 = some f →
        InsideOf f r.2.1 ∧ Owns fo f ∧ r.2.2.1 = r.2.1.bind fo := by
  induction t with
  | null =>
    intro st F _ _ _ r hr
    simp [postTrace] at hr
  | node d c0 c1 c2 sib ih0 ih1 ih2 ihs =>
    intro st F hown hfo hF r hr
    obtain ⟨hfd, F0, F1, F2, Fs⟩ := hown
    simp only [postTrace] at hr
    cases hpre : scopeIn (.node d c0 c1 c2 sib) st with
    | error e => simp [hpre] at hr
    | ok r1 =>
      obtain ⟨d1, st1⟩ := r1
      simp only [hpre, List.mem_append] at hr
      obtain ⟨_, sl1, _, _, _, hc1⟩ := scopeIn_ok hpre
      have fo1 : st1.funcOf = fo := by rw [funcOf_eq_of_scopeList sl1, hfo]
      -- the scope current after the pre-visit
      have hin1 : ∀ P : Option Nat → Prop, P st.currentScope →
          (∀ c ∈ (TreeNode.node d c0 c1 c2 sib).scopes, P (some c)) → P st1.currentScope := by
        intro P hP hall
        rw [hc1]
        cases hsc : d.scope with
        | none => exact hP
        | some sc => exact hall sc (by simp [TreeNode.scopes, hsc])
      -- the function around the children
      have hF1 : ∀ f, enclosing (.node d c0 c1 c2 sib) F = some f →
          InsideOf f st1.currentScope ∧
            (∀ sc ∈ c0.scopes ++ (c1.scopes ++ c2.scopes), sc ∈ f.ownScopes) ∧ Owns fo f := by
        intro f hf
        simp only [enclosing] at hf
        by_cases hk : d.kind = .FunctionDecl
        · rw [if_pos hk] at hf
          have hf1 := Option.some.inj hf
          subst hf1
          obtain ⟨hsome, hall⟩ := hfd hk
          obtain ⟨sc, hsc⟩ := Option.isSome_iff_exists.mp hsome
          refine ⟨⟨sc, by rw [hc1, hsc], by simp [TreeNode.ownScopes, hsc]⟩, ?_, hall⟩
          intro c hc
          simp only [TreeNode.ownScopes, List.mem_append] at hc ⊢
          exact Or.inr hc
        · rw [if_neg hk] at hf
          obtain ⟨hin, hsub, ho⟩ := hF f hf
          refine ⟨hin1 (InsideOf f) hin (fun c hc => ⟨c, rfl, hsub c hc⟩), ?_, ho⟩
          intro c hc
          apply hsub
          simp only [TreeNode.scopes, List.mem_append] at hc ⊢
          rcases hc with h | h | h
          · exact Or.inr (Or.inl h)
          · exact Or.inr (Or.inr (Or.inl h))
          · exact Or.inr (Or.inr (Or.inr (Or.inl h)))
      rcases hr with hr | hr
      · refine ih0 st1 _ F0 fo1 (fun f hf => ⟨(hF1 f hf).1, fun sc hsc => (hF1 f hf).2.1 sc ?_,
          (hF1 f hf).2.2⟩) r hr
        simp [hsc]
      cases h0 : traverse scopeIn checkNode c0 st1 with
      | error e => simp [h0] at hr
      | ok r2 =>
        obtain ⟨c0n, st2⟩ := r2
        simp only [h0, List.mem_append] at hr
        obtain ⟨sl2, cl2⟩ := pass2_current _ _ _ _ h0
        have fo2 : st2.funcOf = fo := by rw [funcOf_eq_of_scopeList sl2, fo1]
        have hin2 : ∀ f, enclosing (.node d c0 c1 c2 sib) F = some f →
            InsideOf f st2.currentScope := fun f hf =>
          cl2 (InsideOf f) (hF1 f hf).1 (fun c hc => ⟨c, rfl, (hF1 f hf).2.1 c (by simp [hc])⟩)
        rcases hr with hr | hr
        · refine ih1 st2 _ F1 fo2 (fun f hf => ⟨hin2 f hf, fun sc hsc => (hF1 f hf).2.1 sc ?_,
            (hF1 f hf).2.2⟩) r hr
          simp [hsc]
        cases h1 : traverse scopeIn checkNode c1 st2 with
        | error e => simp [h1] at hr
        | ok r3 =>
          obtain ⟨c1n, st3⟩ := r3
          simp only [h1, List.mem_append] at hr
          obtain ⟨sl3, cl3⟩ := pass2_current _ _ _ _ h1
          have fo3 : st3.funcOf = fo := by rw [funcOf_eq_of_scopeList sl3, fo2]
          have hin3 : ∀ f, enclosing (.node d c0 c1 c2 sib) F = some f →
              InsideOf f st3.currentScope := fun f hf =>
            cl3 (InsideOf f) (hin2 f hf) (fun c hc => ⟨c, rfl, (hF1 f hf).2.1 c (by simp [hc])⟩)
          rcases hr with hr | hr
          · refine ih2 st3 _ F2 fo3 (fun f hf => ⟨hin3 f hf, fun sc hsc => (hF1 f hf).2.1 sc ?_,
              (hF1 f hf).2.2⟩) r hr
            simp [hsc]
          cases h2 : traverse scopeIn checkNode c2 st3 with
          | error e => simp [h2] at hr
          | ok r4 =>
            obtain ⟨c2n, st4⟩ := r4
            simp only [h2, List.mem_cons] at hr
            obtain ⟨sl4, cl4⟩ := pass2_current _ _ _ _ h2
            have fo4 : st4.funcOf = fo := by rw [funcOf_eq_of_scopeList sl4, fo3]
            have hin4 : ∀ f, enclosing (.node d c0 c1 c2 sib) F = some f →
                InsideOf f st4.currentScope := fun f hf =>
              cl4 (InsideOf f) (hin3 f hf)
                (fun c hc => ⟨c, rfl, (hF1 f hf).2.1 c (by simp [hc])⟩)
            rcases hr with rfl | hr
            · intro f hf
              exact ⟨hin4 f hf, (hF1 f hf).2.2, by simp only [State.owner, fo4]⟩
            cases hpost : checkNode (.node d1 c0n c1n c2n sib) st4 with
            | error e => simp [hpost] at hr
            | ok r5 =>
              obtain ⟨d2, st5⟩ := r5
              simp only [hpost] at hr
              obtain ⟨_, ⟨sl5, _, hc5, _⟩, _⟩ := checkNode_ok hpost
              have fo5 : st5.funcOf = fo := by rw [funcOf_eq_of_scopeList sl5, fo4]
              refine ihs st5 F Fs fo5 (fun f hf => ?_) r hr
              obtain ⟨hin, hsub, ho⟩ := hF f hf
              refine ⟨?_, fun sc hsc => hsub sc (by simp [TreeNode.scopes, hsc]), ho⟩
              rw [hc5]
              have q1 := hin1 (InsideOf f) hin (fun c hc => ⟨c, rfl, hsub c hc⟩)
              have q2 := cl2 (InsideOf f) q1
                (fun c hc => ⟨c, rfl, hsub c (by simp [TreeNode.scopes, hc])⟩)
              have q3 := cl3 (InsideOf f) q2
                (fun c hc => ⟨c, rfl, hsub c (by simp [TreeNode.scopes, hc])⟩)
              exact cl4 (InsideOf f) q3
                (fun c hc => ⟨c, rfl, hsub c (by simp [TreeNode.scopes, hc])⟩)

theorem builtinState_globalNull : GlobalNull builtinState.get := by
  rfl

/-- The post-visit of pass 2 on a return statement, in a scope with an owner. -/
theorem checkNode_return (st : State) (d : NodeData) (c0 c1 c2 sib : TreeNode) (k : Nat)
    (fd : NodeData) (f0 f1 f2 fsib : TreeNode) (hkind : d.kind = .ReturnStmt)
    (hcur : st.currentScope = some k) (hfunc : st.funcOf k = some (.node fd f0 f1 f2 fsib))
    (hvalue : d.flag = false → c0 ≠ .null) :
    ∃ stn, checkNode (.node d c0 c1 c2 sib) st = .ok (d, stn) ∧
      stn.listing = st.listing ++
        (if (d.flag = true ∧ fd.type ≠ .Void) ∨ (d.flag = false ∧ c0.type? ≠ some fd.type)
         then [.invalidReturn d.lineno] else []) := by
  obtain ⟨cur, hscope, hf⟩ : ∃ cur, st.scopeList[k]? = some cur ∧
      cur.func = .node fd f0 f1 f2 fsib := by
    simp only [State.funcOf, Option.map_eq_some'] at hfunc
    exact hfunc
  have hd : derefScope st (some k) = .ok cur := by simp [derefScope, hscope]
  simp only [checkNode, hkind, hcur, hd, hf, bind, Except.bind, ERROR_CHECK, derefNode, pure,
    Except.pure]
  simp only [ne_eq, not_false_eq_true, decide_True, if_true, reduceCtorEq]
  cases hflag : d.flag with
  | true =>
    simp only [if_true]
    refine ⟨_, rfl, ?_⟩
    by_cases h : fd.type = .Void <;> simp [h, InvalidReturnError, report]
  | false =>
    cases c0 with
    | null => exact absurd rfl (hvalue hflag)
    | node cd a0 a1 a2 as =>
      simp only [derefNode, TreeNode.type?]
      refine ⟨_, rfl, ?_⟩
      by_cases h : fd.type = cd.type
      · simp [h, InvalidReturnError, report]
      · have h2 : ¬ cd.type = fd.type := fun e => h e.symm
        simp [h, h2, InvalidReturnError, report]

/-- C36. For a tree as the parser hands it over on which pass 1 completes: every function
declaration of the annotated tree carries a scope, and every scope written to it or to a
node below it, at any depth, records as owner that declaration as it was before its
`scope` field was written (`FunctionsOwn`); at every post-visit of pass 2 on a node with a
function declaration F around it, so on every return statement inside F, the current
scope is F's scope or a scope written below F, the owner recorded in it is present and is F,
with the type F declares; and a return statement checked in a scope with an owner is
compared against the type of that owner, the check completing without abort. In
`int f(void) { { { return 1; } } return 2; }  void g(void) { { } return; }` the returns of
lines 3 and 4 are checked in scope 4, owned by `f`, that of line 7 in scope 6, owned by
`g`. -/
theorem return_checked_against_owner (t t1 : TreeNode) (st1 : State) (hno : NoScopes t)
    (h1 : buildSymtab t State.initial = .ok (t1, st1)) :
    FunctionsOwn st1.funcOf t1 ∧
    (∀ r ∈ postTrace scopeIn checkNode t1 st1 none, ∀ f, r.2.2.2 = some f →
      ∃ fd a b c s cur od oa ob oc os, f = .node fd a b c s ∧ r.2.1 = some cur ∧
        cur ∈ f.ownScopes ∧ r.2.2.1 = some (.node od oa ob oc os) ∧
        st1.funcOf cur = some (.node od oa ob oc os) ∧ od = { fd with scope := od.scope } ∧
        od.type = fd.type) ∧
    (∀ st d c0 c1 c2 sib k fd f0 f1 f2 fsib, d.kind = .ReturnStmt → st.currentScope = some k →
      st.funcOf k = some (.node fd f0 f1 f2 fsib) → (d.flag = false → c0 ≠ .null) →
      ∃ stn, checkNode (.node d c0 c1 c2 sib) st = .ok (d, stn) ∧
        stn.listing = st.listing ++
          (if (d.flag = true ∧ fd.type ≠ .Void) ∨ (d.flag = false ∧ c0.type? ≠ some fd.type)
           then [.invalidReturn d.lineno] else [])) ∧
    returnChecks (postTrace scopeIn checkNode (okTree (buildSymtab progReturns State.initial))
        (okState (buildSymtab progReturns State.initial)) none) =
      [(3, some 4, some "f", some .Integer, some "f"),
        (4, some 4, some "f", some .Integer, some "f"),
        (7, some 6, some "g", some .Void, some "g")] ∧
    listingOf (analyze progReturns) = .ok [] := by
  have hrun : traverse insertNode scopeOut t builtinState.get = .ok (t1, st1) := by
    rw [buildSymtab_eq, builtinState_eq] at h1
    exact h1
  have hown := (pass1_owner t builtinState.get t1 st1 none hrun hno builtinState_globalNull
    (fun o ho => by cases ho)).2
  refine ⟨hown, ?_, ?_, by decide, by decide⟩
  · intro r hr f hf
    obtain ⟨⟨cur, hcur, hin⟩, ho, hrec⟩ := postTrace_owner st1.funcOf t1 st1 none hown rfl
      (fun f hf => by cases hf) r hr f hf
    cases f with
    | null => exact absurd ho (by simp [Owns])
    | node fd a b c s =>
      obtain ⟨o, hfo, hio⟩ := ho cur hin
      cases o with
      | null => exact absurd hio (by simp [IsOwner])
      | node od oa ob oc os =>
        refine ⟨fd, a, b, c, s, cur, od, oa, ob, oc, os, rfl, hcur, hin, ?_, hfo, hio, ?_⟩
        · rw [hrec, hcur]
          exact hfo
        · rw [hio]
  · intro st d c0 c1 c2 sib k fd f0 f1 f2 fsib hk hc hf hv
    exact checkNode_return st d c0 c1 c2 sib k fd f0 f1 f2 fsib hk hc hf hv

theorem return_checked_against_owner_witness :
    NoScopes progReturns ∧
      buildSymtab progReturns State.initial =
        .ok (okTree (buildSymtab progReturns State.initial),
          okState (buildSymtab progReturns State.initial)) ∧
      FunctionsOwn (okState (buildSymtab progReturns State.initial)).funcOf
        (okTree (buildSymtab progReturns State.initial)) :=
  have hno : NoScopes progReturns := by
    simp [NoScopes, TreeNode.Forall, progReturns, funDecl, voidParams, block, ret, const,
      newTreeNode]
  have hrun : buildSymtab progReturns State.initial =
      .ok (okTree (buildSymtab progReturns State.initial),
        okState (buildSymtab progReturns State.initial)) := by rfl
  ⟨hno, hrun, (return_checked_against_owner progReturns _ _ hno hrun).1⟩

end CMinus
